import Mathlib

/-!
# TinyLang compiler pipeline: a shallow embedding

The C++ sources under `compiler/src` (lexer, parser, semantic analyser,
optimizer, code emitter, driver) are transcribed as Lean functions.

* `std::string` is `String`; a source buffer is walked as its `List Char`,
  one list element per C++ `char` (the classification functions follow the
  "C" locale on the ASCII range and reject everything else).
* C++ exceptions are `Except` values; mutable visitor state is passed
  explicitly.
* Loops and the recursive descent run on a fuel counter; running out of
  fuel is a separate outcome, never confused with a result of the program.
-/

namespace TinyLang

/-! ## lexer.hpp -/

/-- The enumeration `TokenType` of lexer.hpp. -/
inductive TokenType where
  | Func | Let | Print | Println | For | If | Else | Return
  | Identifier | Number | Float | StringLiteral
  | Plus | Minus | Star | Slash | Mod | Equals | NotEquals
  | Less | LessEq | Greater | GreaterEq | Assign | Not
  | LParen | RParen | LBrace | RBrace | LBracket | RBracket
  | Comma | Semicolon | Arrow
  | EndOfFile | Error
  deriving DecidableEq, Repr

/-- The struct `Token` of lexer.hpp. -/
structure Token where
  type : TokenType
  text : String
  line : Nat
  col : Nat
  deriving DecidableEq, Repr

/-- The private state of `class Lexer`: `rest` is `source` from index `pos`
on, so `pos < source.length()` reads `rest ≠ []`. -/
structure Lexer where
  rest : List Char
  line : Nat
  col : Nat
  deriving DecidableEq, Repr

/-! ## lexer.cpp -/

/-- The `<cctype>` test `isspace` in the "C" locale. -/
def isspace (c : Char) : Bool :=
  c == ' ' || c == '\t' || c == '\n' || c == '\x0b' || c == '\x0c' || c == '\r'

/-- The `<cctype>` test `isdigit`. -/
def isdigit (c : Char) : Bool := '0' ≤ c && c ≤ '9'

/-- The `<cctype>` test `isalpha` in the "C" locale. -/
def isalpha (c : Char) : Bool := ('a' ≤ c && c ≤ 'z') || ('A' ≤ c && c ≤ 'Z')

/-- The `<cctype>` test `isalnum` in the "C" locale. -/
def isalnum (c : Char) : Bool := isalpha c || isdigit c

/-- `Lexer::Lexer(std::string source)`: position 0, line 1, column 1. -/
def Lexer.new (source : String) : Lexer := ⟨source.data, 1, 1⟩

/-- `Lexer::peek()` (only ever called with offset 0): NUL at end of input. -/
def Lexer.peek (L : Lexer) : Char := L.rest.headD '\x00'

/-- `Lexer::advance`: consume one character, tracking line and column.
Every call site has checked that a character is left; at the end of input
`source[pos]` is the terminating NUL. -/
def Lexer.advance (L : Lexer) : Char × Lexer :=
  match L.rest with
  | [] => ('\x00', ⟨[], L.line, L.col + 1⟩)
  | c :: cs => if c = '\n' then (c, ⟨cs, L.line + 1, 1⟩) else (c, ⟨cs, L.line, L.col + 1⟩)

/-- `Lexer::match`. -/
def Lexer.match_ (L : Lexer) (expected : Char) : Bool × Lexer :=
  if L.peek = expected then (true, L.advance.2) else (false, L)

/-- The loops `while (p(peek())) acc += advance();` of lexer.cpp, by
recursion on the unread input. Every `p` used rejects NUL, which is what
`peek` answers at the end of input, so the loop stops there. -/
def Lexer.scanWhileAux (p : Char → Bool) : List Char → Nat → Nat → List Char × Lexer
  | [], line, col => ([], ⟨[], line, col⟩)
  | c :: cs, line, col =>
    if p c then
      let L1 := (Lexer.advance ⟨c :: cs, line, col⟩).2
      let r := Lexer.scanWhileAux p cs L1.line L1.col
      (c :: r.1, r.2)
    else ([], ⟨c :: cs, line, col⟩)

/-- See `scanWhileAux`: the consumed characters and the lexer after them. -/
def Lexer.scanWhile (p : Char → Bool) (L : Lexer) : List Char × Lexer :=
  Lexer.scanWhileAux p L.rest L.line L.col

/-- `Lexer::skipWhitespace`. -/
def Lexer.skipWhitespace (L : Lexer) : Lexer := (L.scanWhile isspace).2

/-- The static table `keywords` of `Lexer::tokenize`. -/
def keywords (idStr : String) : Option TokenType :=
  if idStr = "func" then some .Func
  else if idStr = "let" then some .Let
  else if idStr = "print" then some .Print
  else if idStr = "println" then some .Println
  else if idStr = "for" then some .For
  else if idStr = "if" then some .If
  else if idStr = "else" then some .Else
  else if idStr = "return" then some .Return
  else none

/-- One turn of the `while (pos < source.length())` loop of
`Lexer::tokenize`, entered after `skipWhitespace` with input left: the
tokens pushed (none for a comment) and the lexer afterwards. -/
def Lexer.scanToken (L0 : Lexer) : List Token × Lexer :=
  let startLine := L0.line
  let startCol := L0.col
  let (c, L) := L0.advance
  let push := fun (type : TokenType) (text : String) => [Token.mk type text startLine startCol]
  if isdigit c then
    let (ds, L1) := L.scanWhile isdigit
    if L1.peek = '.' then
      let L2 := L1.advance.2
      let (fs, L3) := L2.scanWhile isdigit
      (push .Float (String.mk (c :: ds ++ '.' :: fs)), L3)
    else
      (push .Number (String.mk (c :: ds)), L1)
  else if c = '"' then
    let (val, L1) := L.scanWhile (fun d => d != '"' && d != '\x00')
    let L2 := if L1.peek = '"' then L1.advance.2 else L1
    (push .StringLiteral (String.mk val), L2)
  else if isalpha c || c = '_' then
    let (cs, L1) := L.scanWhile (fun d => isalnum d || d == '_')
    let idStr := String.mk (c :: cs)
    match keywords idStr with
    | some kw => (push kw idStr, L1)
    | none => (push .Identifier idStr, L1)
  else if c = '(' then (push .LParen "(", L)
  else if c = ')' then (push .RParen ")", L)
  else if c = '{' then (push .LBrace "\x7b", L)
  else if c = '}' then (push .RBrace "\x7d", L)
  else if c = '[' then (push .LBracket "[", L)
  else if c = ']' then (push .RBracket "]", L)
  else if c = ';' then (push .Semicolon ";", L)
  else if c = ',' then (push .Comma ",", L)
  else if c = '+' then (push .Plus "+", L)
  else if c = '-' then
    let (m, L1) := L.match_ '>'
    if m then (push .Arrow "->", L1) else (push .Minus "-", L1)
  else if c = '*' then (push .Star "*", L)
  else if c = '/' then
    let (m, L1) := L.match_ '/'
    if m then ([], (L1.scanWhile (fun d => d != '\n' && d != '\x00')).2)
    else (push .Slash "/", L1)
  else if c = '%' then (push .Mod "%", L)
  else if c = '=' then
    let (m, L1) := L.match_ '='
    if m then (push .Equals "==", L1) else (push .Assign "=", L1)
  else if c = '!' then
    let (m, L1) := L.match_ '='
    if m then (push .NotEquals "!=", L1) else (push .Not "!", L1)
  else if c = '<' then
    let (m, L1) := L.match_ '='
    if m then (push .LessEq "<=", L1) else (push .Less "<", L1)
  else if c = '>' then
    let (m, L1) := L.match_ '='
    if m then (push .GreaterEq ">=", L1) else (push .Greater ">", L1)
  else (push .Error (String.mk [c]), L)

/-- The main loop of `Lexer::tokenize`; `none` when the fuel runs out. -/
def Lexer.tokenizeLoop : Nat → Lexer → List Token → Option (Lexer × List Token)
  | 0, _, _ => none
  | fuel + 1, L, tokens =>
    if L.rest = [] then some (L, tokens)
    else
      let L1 := L.skipWhitespace
      if L1.rest = [] then some (L1, tokens)
      else
        let (pushed, L2) := L1.scanToken
        Lexer.tokenizeLoop fuel L2 (tokens ++ pushed)

/-- `Lexer::tokenize`: the loop, then the final `EndOfFile` token at the
position reached. Each turn of the loop consumes a character, so one unit
of fuel per character (and one to leave the loop) is provided. -/
def Lexer.tokenize (L : Lexer) : Option (List Token) :=
  match Lexer.tokenizeLoop (L.rest.length + 1) L [] with
  | none => none
  | some (L1, tokens) => some (tokens ++ [Token.mk .EndOfFile "" L1.line L1.col])

/-- `Lexer(source).tokenize()`. -/
def tokenize (source : String) : Option (List Token) := (Lexer.new source).tokenize

/-! ## The type `double`

The values of the C++ type `double` where it is IEEE 754 binary64 (as on
x86-64 with the GNU C library, whose `strtod` and `printf` the library
functions `std::stod` and `std::to_string` call), and the rounding of a
rational number to one. -/

/-- A finite `double`, by the three fields of its IEEE 754 binary64
encoding: the sign bit, the biased exponent (11 bits; 2047, which encodes
infinities and NaNs, does not occur) and the fraction (52 bits). -/
structure Double where
  sign : Bool
  exponent : Nat
  fraction : Nat
  deriving DecidableEq, Repr

/-- The magnitude of a `double` counted in units of `2 ^ (-1074)`, the
smallest positive `double`: the 53-bit significand (with its implicit
leading 1 unless the exponent field is 0) times the power of two of the
exponent. A power of two `2 ^ n` is written as the shift `1 <<< n`. -/
def Double.units (d : Double) : Nat :=
  if d.exponent = 0 then d.fraction else (2 ^ 52 + d.fraction) * (1 <<< (d.exponent - 1))

/-- The integer nearest to `num / den`, the even one of the two in a tie
(the rounding direction `FE_TONEAREST`). -/
def roundHalfEven (num den : Nat) : Nat :=
  let q := num / den
  let r := num % den
  if den < 2 * r ∨ (2 * r = den ∧ q % 2 = 1) then q + 1 else q

/-- The number of binary digits of `n`, counted with fuel `fuel`. -/
def bitLengthAux : Nat → Nat → Nat
  | 0, _ => 0
  | fuel + 1, n => if n = 0 then 0 else bitLengthAux fuel (n / 2) + 1

/-- The number of binary digits of `n`: the least `b` with `n < 2 ^ b`. -/
def bitLength (n : Nat) : Nat := bitLengthAux n n

/-- The exponent field and the fraction field of the `double` with the
significand `m`, of at most 53 bits, counted in units of `2 ^ (k - 1074)`:
a subnormal one without the leading bit (then `k` is 0), the power of two
of the next exponent when rounding carried `m` to `2 ^ 53`. -/
def Double.encode (k m : Nat) : Nat × Nat :=
  if m < 2 ^ 52 then (0, m)
  else if m = 2 ^ 53 then (k + 2, 0)
  else (k + 1, m - 2 ^ 52)

/-- The value `num / den`, which is not negative, rounded to binary64, to
nearest with ties to even: the exponent field and the fraction field. The
exponent field comes out as 2047 or more when the rounded value is beyond
the largest finite `double`. -/
def Double.round (num den : Nat) : Nat × Nat :=
  -- the value in units of 2^(-1074), rounded down
  let w := num * (1 <<< 1074) / den
  -- a significand of 53 bits is left after dropping `k` bits
  let k := bitLength w - 53
  Double.encode k (roundHalfEven (num * (1 <<< 1074)) (den * (1 <<< k)))

/-! ## ast.hpp -/

/-- The data members of `struct Node`: `int line = 0; int col = 0;`. -/
structure Node where
  line : Nat := 0
  col : Nat := 0
  deriving DecidableEq, Repr

/-- The expression nodes of ast.hpp; `node` holds the inherited `line` and
`col`. -/
inductive Expr where
  | IntLiteral (node : Node) (value : Int)
  | FloatLiteral (node : Node) (value : Double)
  | StringLiteral (node : Node) (value : String)
  | Variable (node : Node) (name : String)
  | BinaryExpr (node : Node) (op : String) (left right : Expr)
  | UnaryExpr (node : Node) (op : String) (operand : Expr)
  | CallExpr (node : Node) (callee : String) (args : List Expr)
  | ArrayAccess (node : Node) (name : String) (index : Expr)
  deriving Repr

/-- The statement nodes of ast.hpp. A `std::unique_ptr` that may be null is
an `Option`. The body of a `ForStmt` is a `std::unique_ptr<Block>`: its
`Node` and its statements are the fields `bodyNode` and `body`. -/
inductive Stmt where
  | VarDecl (node : Node) (name : String) (initializer : Option Expr)
  | TypedVarDecl (node : Node) (name : String) (type : String) (isArray : Bool)
      (arraySize : Option Expr) (initializer : Option Expr)
  | AssignStmt (node : Node) (name : String) (index : Option Expr) (value : Expr)
  | PrintStmt (node : Node) (expr : Expr) (newLine : Bool)
  | ExprStmt (node : Node) (expr : Expr)
  | Block (node : Node) (statements : List Stmt)
  | IfStmt (node : Node) (condition : Expr) (thenBranch : Stmt) (elseBranch : Option Stmt)
  | ForStmt (node : Node) (init : Option Stmt) (condition : Option Expr)
      (update : Option Stmt) (bodyNode : Node) (body : List Stmt)
  | ReturnStmt (node : Node) (value : Option Expr)
  deriving Repr

/-- The struct `FuncDecl`; `params` holds the pairs `{type, name}`, and the
`std::unique_ptr<Block> body` is `bodyNode` with `body`. -/
structure FuncDecl where
  node : Node
  name : String
  params : List (String × String)
  returnType : String
  bodyNode : Node
  body : List Stmt
  deriving Repr

/-- An element of `Program::declarations`: "Funcs or Stmts". -/
inductive Decl where
  | Func (f : FuncDecl)
  | Stmt (s : Stmt)
  deriving Repr

/-- The struct `Program`. -/
structure Program where
  node : Node := {}
  declarations : List Decl
  deriving Repr

/-! ## parser.hpp, parser.cpp -/

/-- What leaves `Parser::parse` other than a `Program`: the `ParseError` of
parser.hpp, the two exceptions `std::stoi` and `std::stod` throw, and the
exhaustion of the fuel of this embedding. -/
inductive ParseFailure where
  | ParseError (what : String) (line col : Nat)
  | invalid_argument (what : String)
  | out_of_range (what : String)
  | outOfFuel
  deriving DecidableEq, Repr

/-- A parsing step: a value and the tokens from `current` on, or a failure. -/
abbrev PResult (α : Type) := Except ParseFailure (α × List Token)

/-- The value of a run of decimal digits, most significant first. -/
def digitsValue (ds : List Char) : Nat :=
  ds.foldl (fun acc d => 10 * acc + (d.toNat - '0'.toNat)) 0

/-- The library function `std::stoi` in base 10: leading white space, an
optional sign, then at least one digit (else `std::invalid_argument`); the
value must fit an `int` (else `std::out_of_range`). -/
def stoi (text : String) : Except ParseFailure Int :=
  let cs := text.data.dropWhile isspace
  let (neg, cs1) :=
    match cs with
    | '-' :: r => (true, r)
    | '+' :: r => (false, r)
    | _ => (false, cs)
  let ds := cs1.takeWhile isdigit
  if ds = [] then .error (.invalid_argument "stoi")
  else
    let v : Int := if neg then -(digitsValue ds : Int) else (digitsValue ds : Int)
    if v < -2147483648 ∨ 2147483647 < v then .error (.out_of_range "stoi") else .ok v

/-- The conversion of `std::strtod` as `std::stod` uses it, on the decimal
value `num / den`: the nearest `double`, and `std::out_of_range` when
`strtod` reports `ERANGE`. That is on overflow, when the value rounds to
`2 ^ 1024` or more, and on underflow, which the GNU C library reports on
x86-64 when the result is inexact and the value, rounded as if the exponent
range had no lower end, stays below the smallest normal `double`
`2 ^ (-1022)`. -/
def strtod (neg : Bool) (num den : Nat) : Except ParseFailure Double :=
  let r := Double.round num den
  let inexact := num * (1 <<< 1074) % den ≠ 0
  let tiny := 4 * (num * (1 <<< 1074)) < (2 ^ 54 - 1) * den
  if 2047 ≤ r.1 ∨ (tiny ∧ inexact) then .error (.out_of_range "stod")
  else .ok ⟨neg, r.1, r.2⟩

/-- The library function `std::stod` on plain decimal text: leading white
space, an optional sign, digits with an optional `.` and more digits (at
least one digit in all, else `std::invalid_argument`), converted to the
nearest `double`; a value out of the range of `double` is
`std::out_of_range`. Exponents, hexadecimal text, `inf` and `nan`, which no
`Float` token of the lexer contains, are not modelled. -/
def stod (text : String) : Except ParseFailure Double :=
  let cs := text.data.dropWhile isspace
  let (neg, cs1) :=
    match cs with
    | '-' :: r => (true, r)
    | '+' :: r => (false, r)
    | _ => (false, cs)
  let ip := cs1.takeWhile isdigit
  let after := cs1.dropWhile isdigit
  let fp :=
    match after with
    | '.' :: r => r.takeWhile isdigit
    | _ => []
  if ip = [] ∧ fp = [] then .error (.invalid_argument "stod")
  else strtod neg (digitsValue (ip ++ fp)) (10 ^ fp.length)

/-- `Parser::peek`: `tokens[current]`, the head of the tokens not yet
consumed. `advance` never steps over an `EndOfFile` token, so on a vector
that holds one the read is in range; past the end of a vector without one
(undefined in the source) the embedding answers an `EndOfFile` token. -/
def Parser.peek (ts : List Token) : Token := ts.headD ⟨.EndOfFile, "", 0, 0⟩

/-- `Parser::advance`: the tokens from `current` on after the call (what it
returns, `previous()`, is the head of the argument when it moved). -/
def Parser.advance (ts : List Token) : List Token :=
  if (Parser.peek ts).type ≠ .EndOfFile then ts.tail else ts

/-- `Parser::check`. -/
def Parser.check (ts : List Token) (type : TokenType) : Bool :=
  if (Parser.peek ts).type = .EndOfFile then false else (Parser.peek ts).type = type

/-- `Parser::match`: on success the token consumed (`previous()`) and the
tokens after it. -/
def Parser.match_ (ts : List Token) (type : TokenType) : Option (Token × List Token) :=
  if Parser.check ts type then some (Parser.peek ts, Parser.advance ts) else none

/-- The conditions `match(A) || match(B) || ...`: the first type, in order,
that matches. -/
def Parser.matchAny (ts : List Token) : List TokenType → Option (Token × List Token)
  | [] => none
  | type :: types =>
    match Parser.match_ ts type with
    | some r => some r
    | none => Parser.matchAny ts types

/-- `Parser::consume`. -/
def Parser.consume (ts : List Token) (type : TokenType) (message : String) : PResult Token :=
  if Parser.check ts type then .ok (Parser.peek ts, Parser.advance ts)
  else .error (.ParseError message (Parser.peek ts).line (Parser.peek ts).col)

mutual

/-- `Parser::expression`. -/
def Parser.expression : Nat → List Token → PResult Expr
  | 0, _ => .error .outOfFuel
  | fuel + 1, ts => Parser.equality fuel ts

/-- `Parser::equality`: the first operand, then the `while` loop. -/
def Parser.equality : Nat → List Token → PResult Expr
  | 0, _ => .error .outOfFuel
  | fuel + 1, ts =>
    match Parser.comparison fuel ts with
    | .error e => .error e
    | .ok (expr, ts1) => Parser.equalityLoop fuel expr ts1

/-- The loop `while (match(Equals) || match(NotEquals))` of `equality`. -/
def Parser.equalityLoop : Nat → Expr → List Token → PResult Expr
  | 0, _, _ => .error .outOfFuel
  | fuel + 1, expr, ts =>
    match Parser.matchAny ts [.Equals, .NotEquals] with
    | none => .ok (expr, ts)
    | some (op, ts1) =>
      match Parser.comparison fuel ts1 with
      | .error e => .error e
      | .ok (right, ts2) => Parser.equalityLoop fuel (.BinaryExpr {} op.text expr right) ts2

/-- `Parser::comparison`. -/
def Parser.comparison : Nat → List Token → PResult Expr
  | 0, _ => .error .outOfFuel
  | fuel + 1, ts =>
    match Parser.term fuel ts with
    | .error e => .error e
    | .ok (expr, ts1) => Parser.comparisonLoop fuel expr ts1

/-- The loop `while (match(Less) || match(LessEq) || match(Greater) ||
match(GreaterEq))` of `comparison`. -/
def Parser.comparisonLoop : Nat → Expr → List Token → PResult Expr
  | 0, _, _ => .error .outOfFuel
  | fuel + 1, expr, ts =>
    match Parser.matchAny ts [.Less, .LessEq, .Greater, .GreaterEq] with
    | none => .ok (expr, ts)
    | some (op, ts1) =>
      match Parser.term fuel ts1 with
      | .error e => .error e
      | .ok (right, ts2) => Parser.comparisonLoop fuel (.BinaryExpr {} op.text expr right) ts2

/-- `Parser::term`. -/
def Parser.term : Nat → List Token → PResult Expr
  | 0, _ => .error .outOfFuel
  | fuel + 1, ts =>
    match Parser.factor fuel ts with
    | .error e => .error e
    | .ok (expr, ts1) => Parser.termLoop fuel expr ts1

/-- The loop `while (match(Plus) || match(Minus))` of `term`. -/
def Parser.termLoop : Nat → Expr → List Token → PResult Expr
  | 0, _, _ => .error .outOfFuel
  | fuel + 1, expr, ts =>
    match Parser.matchAny ts [.Plus, .Minus] with
    | none => .ok (expr, ts)
    | some (op, ts1) =>
      match Parser.factor fuel ts1 with
      | .error e => .error e
      | .ok (right, ts2) => Parser.termLoop fuel (.BinaryExpr {} op.text expr right) ts2

/-- `Parser::factor`. -/
def Parser.factor : Nat → List Token → PResult Expr
  | 0, _ => .error .outOfFuel
  | fuel + 1, ts =>
    match Parser.unary fuel ts with
    | .error e => .error e
    | .ok (expr, ts1) => Parser.factorLoop fuel expr ts1

/-- The loop `while (match(Star) || match(Slash) || match(Mod))` of
`factor`. -/
def Parser.factorLoop : Nat → Expr → List Token → PResult Expr
  | 0, _, _ => .error .outOfFuel
  | fuel + 1, expr, ts =>
    match Parser.matchAny ts [.Star, .Slash, .Mod] with
    | none => .ok (expr, ts)
    | some (op, ts1) =>
      match Parser.unary fuel ts1 with
      | .error e => .error e
      | .ok (right, ts2) => Parser.factorLoop fuel (.BinaryExpr {} op.text expr right) ts2

/-- `Parser::unary`. -/
def Parser.unary : Nat → List Token → PResult Expr
  | 0, _ => .error .outOfFuel
  | fuel + 1, ts =>
    match Parser.matchAny ts [.Not, .Minus] with
    | some (op, ts1) =>
      match Parser.unary fuel ts1 with
      | .error e => .error e
      | .ok (right, ts2) => .ok (.UnaryExpr {} op.text right, ts2)
    | none => Parser.primary fuel ts

/-- `Parser::primary`. Only `ArrayAccess`, `CallExpr` and `Variable` nodes
get the position of their identifier token. -/
def Parser.primary : Nat → List Token → PResult Expr
  | 0, _ => .error .outOfFuel
  | fuel + 1, ts =>
    match Parser.match_ ts .Number with
    | some (prev, ts1) =>
      match stoi prev.text with
      | .error e => .error e
      | .ok v => .ok (.IntLiteral {} v, ts1)
    | none =>
    match Parser.match_ ts .Float with
    | some (prev, ts1) =>
      match stod prev.text with
      | .error e => .error e
      | .ok v => .ok (.FloatLiteral {} v, ts1)
    | none =>
    match Parser.match_ ts .StringLiteral with
    | some (prev, ts1) => .ok (.StringLiteral {} prev.text, ts1)
    | none =>
    match Parser.match_ ts .Identifier with
    | some (idToken, ts1) =>
      let name := idToken.text
      match Parser.match_ ts1 .LBracket with
      | some (_, ts2) =>
        match Parser.expression fuel ts2 with
        | .error e => .error e
        | .ok (index, ts3) =>
          match Parser.consume ts3 .RBracket "Expect ']'" with
          | .error e => .error e
          | .ok (_, ts4) => .ok (.ArrayAccess ⟨idToken.line, idToken.col⟩ name index, ts4)
      | none =>
      match Parser.match_ ts1 .LParen with
      | some (_, ts2) =>
        match (if !Parser.check ts2 .RParen then Parser.arguments fuel ts2 else .ok ([], ts2)) with
        | .error e => .error e
        | .ok (args, ts3) =>
          match Parser.consume ts3 .RParen "Expect ')'" with
          | .error e => .error e
          | .ok (_, ts4) => .ok (.CallExpr ⟨idToken.line, idToken.col⟩ name args, ts4)
      | none => .ok (.Variable ⟨idToken.line, idToken.col⟩ name, ts1)
    | none =>
    match Parser.match_ ts .LParen with
    | some (_, ts1) =>
      match Parser.expression fuel ts1 with
      | .error e => .error e
      | .ok (expr, ts2) =>
        match Parser.consume ts2 .RParen "Expect ')'" with
        | .error e => .error e
        | .ok (_, ts3) => .ok (expr, ts3)
    | none => .error (.ParseError "Expect expression" (Parser.peek ts).line (Parser.peek ts).col)

/-- The loop `do { args.push_back(expression()); } while (match(Comma));`
of `primary`. -/
def Parser.arguments : Nat → List Token → PResult (List Expr)
  | 0, _ => .error .outOfFuel
  | fuel + 1, ts =>
    match Parser.expression fuel ts with
    | .error e => .error e
    | .ok (arg, ts1) =>
      match Parser.match_ ts1 .Comma with
      | some (_, ts2) =>
        match Parser.arguments fuel ts2 with
        | .error e => .error e
        | .ok (args, ts3) => .ok (arg :: args, ts3)
      | none => .ok ([arg], ts1)

end

/-- A parsed child stored in a `std::unique_ptr` that was null before. -/
def Parser.present {α : Type} (r : PResult α) : PResult (Option α) :=
  match r with
  | .error e => .error e
  | .ok (v, ts) => .ok (some v, ts)

/-- A child left as `nullptr`: nothing is consumed. -/
def Parser.absent {α : Type} (ts : List Token) : PResult (Option α) := .ok (none, ts)

/-- The struct `Parser::ParsedType`. -/
structure ParsedType where
  name : String
  isArray : Bool
  size : Option Expr

/-- `Parser::parseType`; it is entered on an `Identifier` token, which
`advance()` returns. -/
def Parser.parseType (fuel : Nat) (ts : List Token) : PResult ParsedType :=
  let base := (Parser.peek ts).text
  let ts1 := Parser.advance ts
  match Parser.match_ ts1 .LBracket with
  | some (_, ts2) =>
    match (if !Parser.check ts2 .RBracket then Parser.present (Parser.expression fuel ts2)
      else Parser.absent ts2) with
    | .error e => .error e
    | .ok (size, ts3) =>
      match Parser.consume ts3 .RBracket "Expected ']' after array size." with
      | .error e => .error e
      | .ok (_, ts4) => .ok (⟨base, true, size⟩, ts4)
  | none => .ok (⟨base, false, none⟩, ts1)

/-- `Parser::typedVarDecl`. -/
def Parser.typedVarDecl (fuel : Nat) (ts : List Token) : PResult Stmt :=
  match Parser.parseType fuel ts with
  | .error e => .error e
  | .ok (type, ts1) =>
    match Parser.consume ts1 .Identifier "Expected variable name." with
    | .error e => .error e
    | .ok (nameTok, ts2) =>
      match (match Parser.match_ ts2 .Assign with
        | some (_, ts3) => Parser.present (Parser.expression fuel ts3)
        | none => Parser.absent ts2) with
      | .error e => .error e
      | .ok (init, ts4) =>
        match Parser.consume ts4 .Semicolon "Expected ';' after declaration." with
        | .error e => .error e
        | .ok (_, ts5) =>
          .ok (.TypedVarDecl {} nameTok.text type.name type.isArray type.size init, ts5)

/-- `Parser::varDecl`. -/
def Parser.varDecl (fuel : Nat) (ts : List Token) : PResult Stmt :=
  match Parser.consume ts .Identifier "Expect variable name" with
  | .error e => .error e
  | .ok (name, ts1) =>
    match Parser.consume ts1 .Assign "Expect '='" with
    | .error e => .error e
    | .ok (_, ts2) =>
      match Parser.expression fuel ts2 with
      | .error e => .error e
      | .ok (init, ts3) =>
        match Parser.consume ts3 .Semicolon "Expect ';'" with
        | .error e => .error e
        | .ok (_, ts4) => .ok (.VarDecl {} name.text (some init), ts4)

/-- `Parser::returnStmt`. -/
def Parser.returnStmt (fuel : Nat) (ts : List Token) : PResult Stmt :=
  match (if !Parser.check ts .Semicolon then Parser.present (Parser.expression fuel ts)
    else Parser.absent ts) with
  | .error e => .error e
  | .ok (val, ts1) =>
    match Parser.consume ts1 .Semicolon "Expect ';'" with
    | .error e => .error e
    | .ok (_, ts2) => .ok (.ReturnStmt {} val, ts2)

/-- `Parser::printStmt`. -/
def Parser.printStmt (fuel : Nat) (newLine : Bool) (ts : List Token) : PResult Stmt :=
  match Parser.consume ts .LParen "Expect '('" with
  | .error e => .error e
  | .ok (_, ts1) =>
    match Parser.expression fuel ts1 with
    | .error e => .error e
    | .ok (expr, ts2) =>
      match Parser.consume ts2 .RParen "Expect ')'" with
      | .error e => .error e
      | .ok (_, ts3) =>
        match Parser.consume ts3 .Semicolon "Expect ';'" with
        | .error e => .error e
        | .ok (_, ts4) => .ok (.PrintStmt {} expr newLine, ts4)

/-- The tail of `Parser::expressionStmt` after `=` on the target `name`:
the value, `;`, and the `AssignStmt`. -/
def Parser.assignTail (fuel : Nat) (name : String) (index : Option Expr) (ts : List Token) :
    PResult Stmt :=
  match Parser.expression fuel ts with
  | .error e => .error e
  | .ok (val, ts1) =>
    match Parser.consume ts1 .Semicolon "Expect ';'" with
    | .error e => .error e
    | .ok (_, ts2) => .ok (.AssignStmt {} name index val, ts2)

/-- `Parser::expressionStmt`. -/
def Parser.expressionStmt (fuel : Nat) (ts : List Token) : PResult Stmt :=
  match Parser.expression fuel ts with
  | .error e => .error e
  | .ok (expr, ts1) =>
    match Parser.match_ ts1 .Assign with
    | some (_, ts2) =>
      match expr with
      | .Variable _ name => Parser.assignTail fuel name none ts2
      | .ArrayAccess _ name index => Parser.assignTail fuel name (some index) ts2
      | _ => .error (.ParseError "Invalid assignment target." (Parser.peek ts2).line
          (Parser.peek ts2).col)
    | none =>
      match Parser.consume ts1 .Semicolon "Expect ';'" with
      | .error e => .error e
      | .ok (_, ts2) => .ok (.ExprStmt {} expr, ts2)

/-- The assignment `NAME = EXPR` that `Parser::forStmt` reads in its init
and update parts; `what` is the message for a missing identifier. -/
def Parser.forAssign (fuel : Nat) (what : String) (ts : List Token) : PResult Stmt :=
  match Parser.consume ts .Identifier what with
  | .error e => .error e
  | .ok (id, ts1) =>
    match Parser.consume ts1 .Assign "Expect '='" with
    | .error e => .error e
    | .ok (_, ts2) =>
      match Parser.expression fuel ts2 with
      | .error e => .error e
      | .ok (val, ts3) => .ok (.AssignStmt {} id.text none val, ts3)

/-- The init part of `Parser::forStmt`, after `(`. -/
def Parser.forInit (fuel : Nat) (ts : List Token) : PResult (Option Stmt) :=
  match Parser.match_ ts .Semicolon with
  | some (_, ts1) => .ok (none, ts1)
  | none =>
    match Parser.match_ ts .Let with
    | some (_, ts1) => Parser.present (Parser.varDecl fuel ts1)
    | none =>
      if Parser.check ts .Identifier ∧ ((Parser.peek ts).text = "int" ∨
          (Parser.peek ts).text = "float" ∨ (Parser.peek ts).text = "string") then
        Parser.present (Parser.typedVarDecl fuel ts)
      else
        match Parser.forAssign fuel "Expect identifier in for-init" ts with
        | .error e => .error e
        | .ok (s, ts1) =>
          match Parser.consume ts1 .Semicolon "Expect ';'" with
          | .error e => .error e
          | .ok (_, ts2) => .ok (some s, ts2)

/-- The condition and update parts of `Parser::forStmt`, up to `)`. -/
def Parser.forCondUpdate (fuel : Nat) (ts : List Token) :
    PResult (Option Expr × Option Stmt) :=
  match (if !Parser.check ts .Semicolon then Parser.present (Parser.expression fuel ts)
    else Parser.absent ts) with
  | .error e => .error e
  | .ok (cond, ts1) =>
    match Parser.consume ts1 .Semicolon "Expect ';'" with
    | .error e => .error e
    | .ok (_, ts2) =>
      match (if !Parser.check ts2 .RParen then
          Parser.present (Parser.forAssign fuel "Expect identifier in for-update" ts2)
        else Parser.absent ts2) with
      | .error e => .error e
      | .ok (update, ts3) =>
        match Parser.consume ts3 .RParen "Expect ')'" with
        | .error e => .error e
        | .ok (_, ts4) => .ok ((cond, update), ts4)

mutual

/-- `Parser::statement`. After `match(LBrace)` it calls `block()`, which
consumes a `{` of its own. A statement that starts with the identifier
`int`, `float` or `string` goes to `typedVarDecl` without further lookahead. -/
def Parser.statement : Nat → List Token → PResult Stmt
  | 0, _ => .error .outOfFuel
  | fuel + 1, ts =>
    match Parser.match_ ts .Let with
    | some (_, ts1) => Parser.varDecl fuel ts1
    | none =>
    match Parser.match_ ts .For with
    | some (_, ts1) => Parser.forStmt fuel ts1
    | none =>
    match Parser.match_ ts .If with
    | some (_, ts1) => Parser.ifStmt fuel ts1
    | none =>
    match Parser.match_ ts .Print with
    | some (_, ts1) => Parser.printStmt fuel false ts1
    | none =>
    match Parser.match_ ts .Println with
    | some (_, ts1) => Parser.printStmt fuel true ts1
    | none =>
    match Parser.match_ ts .Return with
    | some (_, ts1) => Parser.returnStmt fuel ts1
    | none =>
    match Parser.match_ ts .LBrace with
    | some (_, ts1) =>
      match Parser.block fuel ts1 with
      | .error e => .error e
      | .ok (stmts, ts2) => .ok (.Block {} stmts, ts2)
    | none =>
      if Parser.check ts .Identifier ∧ ((Parser.peek ts).text = "int" ∨
          (Parser.peek ts).text = "float" ∨ (Parser.peek ts).text = "string") then
        Parser.typedVarDecl fuel ts
      else Parser.expressionStmt fuel ts

/-- `Parser::block`: the statements of the `Block` it returns (whose `Node`
keeps the default position). -/
def Parser.block : Nat → List Token → PResult (List Stmt)
  | 0, _ => .error .outOfFuel
  | fuel + 1, ts =>
    match Parser.consume ts .LBrace "Expect '\x7b'" with
    | .error e => .error e
    | .ok (_, ts1) =>
      match Parser.blockLoop fuel ts1 with
      | .error e => .error e
      | .ok (stmts, ts2) =>
        match Parser.consume ts2 .RBrace "Expect '\x7d'" with
        | .error e => .error e
        | .ok (_, ts3) => .ok (stmts, ts3)

/-- The loop `while (!check(RBrace) && !check(EndOfFile))` of `block`. -/
def Parser.blockLoop : Nat → List Token → PResult (List Stmt)
  | 0, _ => .error .outOfFuel
  | fuel + 1, ts =>
    if !Parser.check ts .RBrace && !Parser.check ts .EndOfFile then
      match Parser.statement fuel ts with
      | .error e => .error e
      | .ok (stmt, ts1) =>
        match Parser.blockLoop fuel ts1 with
        | .error e => .error e
        | .ok (stmts, ts2) => .ok (stmt :: stmts, ts2)
    else .ok ([], ts)

/-- `Parser::ifStmt`. -/
def Parser.ifStmt : Nat → List Token → PResult Stmt
  | 0, _ => .error .outOfFuel
  | fuel + 1, ts =>
    match Parser.consume ts .LParen "Expect '('" with
    | .error e => .error e
    | .ok (_, ts1) =>
      match Parser.expression fuel ts1 with
      | .error e => .error e
      | .ok (cond, ts2) =>
        match Parser.consume ts2 .RParen "Expect ')'" with
        | .error e => .error e
        | .ok (_, ts3) =>
          match Parser.block fuel ts3 with
          | .error e => .error e
          | .ok (thenBranch, ts4) =>
            match Parser.match_ ts4 .Else with
            | some (_, ts5) =>
              match Parser.block fuel ts5 with
              | .error e => .error e
              | .ok (elseBranch, ts6) =>
                .ok (.IfStmt {} cond (.Block {} thenBranch) (some (.Block {} elseBranch)), ts6)
            | none => .ok (.IfStmt {} cond (.Block {} thenBranch) none, ts4)

/-- `Parser::forStmt`. -/
def Parser.forStmt : Nat → List Token → PResult Stmt
  | 0, _ => .error .outOfFuel
  | fuel + 1, ts =>
    match Parser.consume ts .LParen "Expect '(' after 'for'" with
    | .error e => .error e
    | .ok (_, ts1) =>
      match Parser.forInit fuel ts1 with
      | .error e => .error e
      | .ok (init, ts2) =>
        match Parser.forCondUpdate fuel ts2 with
        | .error e => .error e
        | .ok ((cond, update), ts3) =>
          match Parser.block fuel ts3 with
          | .error e => .error e
          | .ok (body, ts4) => .ok (.ForStmt {} init cond update {} body, ts4)

end

/-- The loop `do { ... } while (match(Comma));` over the parameters in
`Parser::functionDecl`. -/
def Parser.params : Nat → List Token → PResult (List (String × String))
  | 0, _ => .error .outOfFuel
  | fuel + 1, ts =>
    let txt := (Parser.peek ts).text
    let typed : Bool := Parser.check ts .Identifier &&
      (txt = "int" || txt = "float" || txt = "string" || txt = "void")
    let type := if typed then txt else ""
    let ts1 := if typed then Parser.advance ts else ts
    match Parser.consume ts1 .Identifier "Expect parameter name" with
    | .error e => .error e
    | .ok (param, ts2) =>
      match Parser.match_ ts2 .Comma with
      | some (_, ts3) =>
        match Parser.params fuel ts3 with
        | .error e => .error e
        | .ok (ps, ts4) => .ok ((type, param.text) :: ps, ts4)
      | none => .ok ([(type, param.text)], ts2)

/-- `Parser::functionDecl`; the declaration takes the position of its name. -/
def Parser.functionDecl (fuel : Nat) (ts : List Token) : PResult FuncDecl :=
  match Parser.consume ts .Func "Expect 'func'" with
  | .error e => .error e
  | .ok (_, ts1) =>
    match Parser.consume ts1 .Identifier "Expect function name" with
    | .error e => .error e
    | .ok (name, ts2) =>
      match Parser.consume ts2 .LParen "Expect '(' after function name" with
      | .error e => .error e
      | .ok (_, ts3) =>
        match (if !Parser.check ts3 .RParen then Parser.params fuel ts3
          else .ok ([], ts3)) with
        | .error e => .error e
        | .ok (params, ts4) =>
          match Parser.consume ts4 .RParen "Expect ')' after paremeters" with
          | .error e => .error e
          | .ok (_, ts5) =>
            let (returnType, ts6) :=
              match Parser.match_ ts5 .Arrow with
              | some (_, ts6) =>
                if Parser.check ts6 .Identifier then ((Parser.peek ts6).text, Parser.advance ts6)
                else ("", ts6)
              | none => ("", ts5)
            match Parser.block fuel ts6 with
            | .error e => .error e
            | .ok (body, ts7) =>
              .ok (⟨⟨name.line, name.col⟩, name.text, params, returnType, {}, body⟩, ts7)

/-- The loop of `Parser::parse`. -/
def Parser.parseLoop : Nat → List Token → Except ParseFailure (List Decl)
  | 0, _ => .error .outOfFuel
  | fuel + 1, ts =>
    if (Parser.peek ts).type ≠ .EndOfFile then
      if Parser.check ts .Func then
        match Parser.functionDecl fuel ts with
        | .error e => .error e
        | .ok (f, ts1) =>
          match Parser.parseLoop fuel ts1 with
          | .error e => .error e
          | .ok ds => .ok (.Func f :: ds)
      else
        match Parser.statement fuel ts with
        | .error e => .error e
        | .ok (s, ts1) =>
          match Parser.parseLoop fuel ts1 with
          | .error e => .error e
          | .ok ds => .ok (.Stmt s :: ds)
    else .ok []

/-- `Parser(tokens).parse()`. The fuel grows with the number of tokens:
every call chain of the descent consumes a token within a bounded number
of calls. -/
def Parser.parse (tokens : List Token) : Except ParseFailure Program :=
  match Parser.parseLoop (16 * tokens.length + 16) tokens with
  | .error e => .error e
  | .ok ds => .ok ⟨{}, ds⟩

/-! ## semantic.hpp, semantic.cpp -/

/-- The exception `SemanticError` of semantic.hpp: `line` and `col` default
to 0 when the thrower passes none. -/
structure SemanticError where
  what : String
  line : Nat := 0
  col : Nat := 0
  deriving DecidableEq, Repr

/-- The enumeration `Type` of semantic.hpp (`Type` is reserved in Lean). -/
inductive Ty where
  | Int | Float | String | Void | Unknown
  deriving DecidableEq, Repr

/-- The struct `SymbolInfo`. -/
structure SymbolInfo where
  isDefined : Bool
  type : Ty
  deriving DecidableEq, Repr

/-- The struct `SemanticAnalyzer::FuncInfo`. -/
structure FuncInfo where
  argCount : Nat
  returnType : Ty
  deriving DecidableEq, Repr

/-- A `std::map<std::string, V>` as an association list; the operations
below keep at most one entry per key. -/
abbrev StdMap (V : Type) := List (String × V)

/-- The lookup `m.find(key)`: `none` stands for `m.end()`. -/
def StdMap.find {V : Type} : StdMap V → String → Option V
  | [], _ => none
  | (k, v) :: m, key => if k = key then some v else StdMap.find m key

/-- The assignment `m[key] = v`: overwrite the entry or add one. -/
def StdMap.set {V : Type} : StdMap V → String → V → StdMap V
  | [], key, v => [(key, v)]
  | (k, w) :: m, key, v => if k = key then (k, v) :: m else (k, w) :: StdMap.set m key v

/-- The private state of `class SemanticAnalyzer`. `scopes` lists the
vector from its back: the head is the innermost scope `scopes.back()`.
`cerr` collects the warnings written to `std::cerr`. -/
structure SemanticAnalyzer where
  scopes : List (StdMap SymbolInfo) := []
  functions : StdMap FuncInfo := []
  lastType : Ty := .Unknown
  cerr : List String := []
  deriving DecidableEq, Repr

/-- The result of a visit: the analyser afterwards, or the exception. -/
abbrev SResult := Except SemanticError SemanticAnalyzer

/-- `SemanticAnalyzer::enterScope`. -/
def SemanticAnalyzer.enterScope (A : SemanticAnalyzer) : SemanticAnalyzer :=
  { A with scopes := [] :: A.scopes }

/-- `SemanticAnalyzer::exitScope`. -/
def SemanticAnalyzer.exitScope (A : SemanticAnalyzer) : SemanticAnalyzer :=
  { A with scopes := A.scopes.tail }

/-- `SemanticAnalyzer::declare`. The exception carries no position. -/
def SemanticAnalyzer.declare (A : SemanticAnalyzer) (name : String) (type : Ty) : SResult :=
  match A.scopes with
  | [] => .ok A
  | scope :: outer =>
    if (scope.find name).isSome then
      .error ⟨"Variable '" ++ name ++ "' already declared in this scope.", 0, 0⟩
    else .ok { A with scopes := scope.set name ⟨false, type⟩ :: outer }

/-- `SemanticAnalyzer::define`: `scope[name].isDefined = true` on the
innermost scope. `operator[]` first adds a value-initialised entry
(`isDefined = false`, `type = Type::Int`, the enumerator 0) when the
innermost scope has none for `name`. -/
def SemanticAnalyzer.define (A : SemanticAnalyzer) (name : String) : SemanticAnalyzer :=
  match A.scopes with
  | [] => A
  | scope :: outer =>
    let info := (scope.find name).getD ⟨false, .Int⟩
    { A with scopes := scope.set name { info with isDefined := true } :: outer }

/-- The statement `scopes.back()[name].isDefined = false` of
`visit(TypedVarDecl&)`. -/
def SemanticAnalyzer.undefine (A : SemanticAnalyzer) (name : String) : SemanticAnalyzer :=
  match A.scopes with
  | [] => A
  | scope :: outer =>
    let info := (scope.find name).getD ⟨false, .Int⟩
    { A with scopes := scope.set name { info with isDefined := false } :: outer }

/-- The search of `SemanticAnalyzer::resolve` through the scopes, innermost
first. -/
def resolveIn : List (StdMap SymbolInfo) → String → Option SymbolInfo
  | [], _ => none
  | scope :: outer, name =>
    match scope.find name with
    | some info => some info
    | none => resolveIn outer name

/-- `SemanticAnalyzer::resolve`: `none` stands for `nullptr`. -/
def SemanticAnalyzer.resolve (A : SemanticAnalyzer) (name : String) : Option SymbolInfo :=
  resolveIn A.scopes name

mutual

/-- The overloads of `SemanticAnalyzer::visit` for the expression nodes. -/
def SemanticAnalyzer.visitExpr : Expr → SemanticAnalyzer → SResult
  | .IntLiteral _ _, A => .ok { A with lastType := .Int }
  | .FloatLiteral _ _, A => .ok { A with lastType := .Float }
  | .StringLiteral _ _, A => .ok { A with lastType := .String }
  | .Variable node name, A =>
    match A.resolve name with
    | none => .error ⟨"Undefined variable '" ++ name ++ "'", node.line, node.col⟩
    | some info => .ok { A with lastType := info.type }
  | .BinaryExpr node op left right, A =>
    match SemanticAnalyzer.visitExpr left A with
    | .error e => .error e
    | .ok A1 =>
      let leftType := A1.lastType
      match SemanticAnalyzer.visitExpr right A1 with
      | .error e => .error e
      | .ok A2 =>
        let rightType := A2.lastType
        if leftType = .String ∧ rightType = .String ∧ op = "+" then
          .ok { A2 with lastType := .String }
        else if (leftType = .Int ∨ leftType = .Float) ∧
            (rightType = .Int ∨ rightType = .Float) then
          if leftType = .Float ∨ rightType = .Float then .ok { A2 with lastType := .Float }
          else .ok { A2 with lastType := .Int }
        else if op = "==" ∨ op = "!=" ∨ op = "<" ∨ op = ">" ∨ op = "<=" ∨ op = ">=" then
          .ok { A2 with lastType := .Int }
        else .error ⟨"Type mismatch in binary operation", node.line, node.col⟩
  | .UnaryExpr _ op operand, A =>
    match SemanticAnalyzer.visitExpr operand A with
    | .error e => .error e
    | .ok A1 => if op = "!" then .ok { A1 with lastType := .Int } else .ok A1
  | .CallExpr node callee args, A =>
    if callee = "input" then .ok { A with lastType := .String }
    else if callee = "len" then
      match args with
      | [arg] =>
        match SemanticAnalyzer.visitExpr arg A with
        | .error e => .error e
        | .ok A1 =>
          if A1.lastType ≠ .String then .error ⟨"len() expects string", node.line, node.col⟩
          else .ok { A1 with lastType := .Int }
      | _ => .error ⟨"len() expects 1 argument", node.line, node.col⟩
    else if callee = "int" then
      match args with
      | [arg] =>
        match SemanticAnalyzer.visitExpr arg A with
        | .error e => .error e
        | .ok A1 => .ok { A1 with lastType := .Int }
      | _ => .error ⟨"int() expects 1 argument", node.line, node.col⟩
    else if callee = "float" then
      match args with
      | [arg] =>
        match SemanticAnalyzer.visitExpr arg A with
        | .error e => .error e
        | .ok A1 => .ok { A1 with lastType := .Float }
      | _ => .error ⟨"float() expects 1 argument", node.line, node.col⟩
    else if callee = "substr" then
      if args.length ≠ 3 then .error ⟨"substr() expects 3 arguments", node.line, node.col⟩
      else
        match SemanticAnalyzer.visitArgs args A with
        | .error e => .error e
        | .ok A1 => .ok { A1 with lastType := .String }
    else
      match SemanticAnalyzer.visitArgs args A with
      | .error e => .error e
      | .ok A1 =>
        match A1.functions.find callee with
        | none => .error ⟨"Undefined function '" ++ callee ++ "'", node.line, node.col⟩
        | some info =>
          if info.returnType = .Unknown then .ok { A1 with lastType := .Int }
          else .ok { A1 with lastType := info.returnType }
  | .ArrayAccess node name index, A =>
    match A.resolve name with
    | none => .error ⟨"Undefined array '" ++ name ++ "'", node.line, node.col⟩
    | some info =>
      let A0 : SemanticAnalyzer :=
        if !info.isDefined then
          { A with cerr := A.cerr ++
              ["Warning: Possible read of uninitialized variable '" ++ name ++ "'\n"] }
        else A
      match SemanticAnalyzer.visitExpr index A0 with
      | .error e => .error e
      | .ok A1 =>
        if A1.lastType ≠ .Int then .error ⟨"Array index must be integer.", node.line, node.col⟩
        else .ok { A1 with lastType := info.type }

/-- The loops `for (auto &arg : node.args) arg->accept(*this);`. -/
def SemanticAnalyzer.visitArgs : List Expr → SemanticAnalyzer → SResult
  | [], A => .ok A
  | arg :: args, A =>
    match SemanticAnalyzer.visitExpr arg A with
    | .error e => .error e
    | .ok A1 => SemanticAnalyzer.visitArgs args A1

end

/-- The type a declaration or parameter annotation stands for in
`visit(TypedVarDecl&)` and `visit(FuncDecl&)`: `Int` unless the text is
`float` or `string`. -/
def annotatedType (type : String) : Ty :=
  if type = "float" then .Float else if type = "string" then .String else .Int

/-- A visit of a child held in a `std::unique_ptr` that may be null. -/
def SemanticAnalyzer.visitOptExpr : Option Expr → SemanticAnalyzer → SResult
  | none, A => .ok A
  | some e, A => SemanticAnalyzer.visitExpr e A

/-- The initializer part of `visit(VarDecl&)`: without an initializer
`lastType` is set to `Int`. -/
def SemanticAnalyzer.visitInit : Option Expr → SemanticAnalyzer → SResult
  | some init, A => SemanticAnalyzer.visitExpr init A
  | none, A => .ok { A with lastType := .Int }

/-- The index part of `visit(AssignStmt&)`: an index, when present, is
visited and must have type `Int`. -/
def SemanticAnalyzer.visitIndex (node : Node) : Option Expr → SemanticAnalyzer → SResult
  | some idx, A =>
    match SemanticAnalyzer.visitExpr idx A with
    | .error e => .error e
    | .ok A1 =>
      if A1.lastType ≠ .Int then .error ⟨"Array index must be integer.", node.line, node.col⟩
      else .ok A1
  | none, A => .ok A

mutual

/-- The overloads of `SemanticAnalyzer::visit` for the statement nodes. -/
def SemanticAnalyzer.visitStmt : Stmt → SemanticAnalyzer → SResult
  | .VarDecl _ name initializer, A =>
    match SemanticAnalyzer.visitInit initializer A with
    | .error e => .error e
    | .ok A1 =>
      match A1.declare name A1.lastType with
      | .error e => .error e
      | .ok A2 => .ok (A2.define name)
  | .TypedVarDecl node name type isArray arraySize initializer, A =>
    match SemanticAnalyzer.visitOptExpr initializer A with
    | .error e => .error e
    | .ok A1 =>
      match A1.declare name (annotatedType type) with
      | .error e => .error e
      | .ok A2 =>
        let A3 := A2.define name
        let A4 := if initializer.isNone ∧ !isArray ∧ arraySize.isNone then A3.undefine name
          else A3
        match arraySize with
        | none => .ok A4
        | some size =>
          match SemanticAnalyzer.visitExpr size A4 with
          | .error e => .error e
          | .ok A5 =>
            if A5.lastType ≠ .Int then
              .error ⟨"Array size must be integer.", node.line, node.col⟩
            else .ok A5
  | .AssignStmt node name index value, A =>
    match A.resolve name with
    | none =>
      .error ⟨"Assignment to undefined variable '" ++ name ++ "'", node.line, node.col⟩
    | some info =>
      match SemanticAnalyzer.visitExpr value A with
      | .error e => .error e
      | .ok A1 =>
        if info.type ≠ A1.lastType ∧ ¬ (info.type = .Float ∧ A1.lastType = .Int) then
          .error ⟨"Type mismatch in assignment", node.line, node.col⟩
        else
          match SemanticAnalyzer.visitIndex node index A1 with
          | .error e => .error e
          | .ok A2 =>
            match SemanticAnalyzer.visitExpr value A2 with
            | .error e => .error e
            | .ok A3 => .ok (A3.define name)
  | .PrintStmt _ expr _, A => SemanticAnalyzer.visitExpr expr A
  | .ExprStmt _ expr, A => SemanticAnalyzer.visitExpr expr A
  | .Block _ statements, A =>
    match SemanticAnalyzer.visitStmts statements A.enterScope with
    | .error e => .error e
    | .ok A1 => .ok A1.exitScope
  | .IfStmt _ condition thenBranch elseBranch, A =>
    match SemanticAnalyzer.visitExpr condition A with
    | .error e => .error e
    | .ok A1 =>
      match SemanticAnalyzer.visitStmt thenBranch A1 with
      | .error e => .error e
      | .ok A2 => SemanticAnalyzer.visitOptStmt elseBranch A2
  | .ForStmt _ init condition update _ body, A =>
    match SemanticAnalyzer.visitOptStmt init A.enterScope with
    | .error e => .error e
    | .ok A1 =>
      match SemanticAnalyzer.visitOptExpr condition A1 with
      | .error e => .error e
      | .ok A2 =>
        match SemanticAnalyzer.visitOptStmt update A2 with
        | .error e => .error e
        | .ok A3 =>
          match SemanticAnalyzer.visitStmts body A3.enterScope with
          | .error e => .error e
          | .ok A4 => .ok A4.exitScope.exitScope
  | .ReturnStmt _ value, A => SemanticAnalyzer.visitOptExpr value A

/-- A visit of a statement held in a `std::unique_ptr` that may be null
(`if (node.init) node.init->accept(*this);`). -/
def SemanticAnalyzer.visitOptStmt : Option Stmt → SemanticAnalyzer → SResult
  | none, A => .ok A
  | some s, A => SemanticAnalyzer.visitStmt s A

/-- The loop `for (auto &stmt : node.statements) stmt->accept(*this);` of
`visit(Block&)`. -/
def SemanticAnalyzer.visitStmts : List Stmt → SemanticAnalyzer → SResult
  | [], A => .ok A
  | stmt :: stmts, A =>
    match SemanticAnalyzer.visitStmt stmt A with
    | .error e => .error e
    | .ok A1 => SemanticAnalyzer.visitStmts stmts A1

end

/-- The parameter loop of `visit(FuncDecl&)`: declare and define each. -/
def SemanticAnalyzer.visitParams : List (String × String) → SemanticAnalyzer → SResult
  | [], A => .ok A
  | param :: params, A =>
    match A.declare param.2 (annotatedType param.1) with
    | .error e => .error e
    | .ok A1 => SemanticAnalyzer.visitParams params (A1.define param.2)

/-- `SemanticAnalyzer::visit(FuncDecl&)`. -/
def SemanticAnalyzer.visitFuncDecl (f : FuncDecl) (A : SemanticAnalyzer) : SResult :=
  match SemanticAnalyzer.visitParams f.params A.enterScope with
  | .error e => .error e
  | .ok A1 =>
    match SemanticAnalyzer.visitStmt (.Block f.bodyNode f.body) A1 with
    | .error e => .error e
    | .ok A2 => .ok A2.exitScope

/-- Pass 1 of `visit(Program&)`: collect the function signatures. -/
def SemanticAnalyzer.collect : List Decl → SemanticAnalyzer → SResult
  | [], A => .ok A
  | .Stmt _ :: decls, A => SemanticAnalyzer.collect decls A
  | .Func func :: decls, A =>
    if (A.functions.find func.name).isSome then
      .error ⟨"Function '" ++ func.name ++ "' redefined.", func.node.line, func.node.col⟩
    else
      SemanticAnalyzer.collect decls
        { A with functions := A.functions.set func.name ⟨func.params.length, .Int⟩ }

/-- Pass 2 of `visit(Program&)`: visit every declaration in order. -/
def SemanticAnalyzer.visitDecls : List Decl → SemanticAnalyzer → SResult
  | [], A => .ok A
  | .Stmt s :: decls, A =>
    match SemanticAnalyzer.visitStmt s A with
    | .error e => .error e
    | .ok A1 => SemanticAnalyzer.visitDecls decls A1
  | .Func f :: decls, A =>
    match SemanticAnalyzer.visitFuncDecl f A with
    | .error e => .error e
    | .ok A1 => SemanticAnalyzer.visitDecls decls A1

/-- `SemanticAnalyzer::visit(Program&)`. -/
def SemanticAnalyzer.visitProgram (prog : Program) (A : SemanticAnalyzer) : SResult :=
  match SemanticAnalyzer.collect prog.declarations A with
  | .error e => .error e
  | .ok A1 => SemanticAnalyzer.visitDecls prog.declarations A1

/-- `SemanticAnalyzer::analyze`. -/
def SemanticAnalyzer.analyze (A : SemanticAnalyzer) (prog : Program) : SResult :=
  match SemanticAnalyzer.visitProgram prog A.enterScope with
  | .error e => .error e
  | .ok A1 => .ok A1.exitScope

/-! ## optimizer.cpp

Every `visit` of the optimizer returns `void` and `BinaryExpr` has no field
for a folded value, so a visit is rendered as the node it leaves behind. -/

/-- The helper `asNumber`: the `IntLiteral` behind the pointer, if any. -/
def asNumber : Expr → Option Int
  | .IntLiteral _ value => some value
  | _ => none

/-- The local `int res` of `Optimizer::visit(BinaryExpr&)` when both
children are integer literals: `none` where the visit returns early (a zero
divisor). For an operator outside `+ - * / %` it keeps its initial 0. -/
def Optimizer.res (op : String) (l r : Int) : Option Int :=
  if op = "+" then some (l + r)
  else if op = "-" then some (l - r)
  else if op = "*" then some (l * r)
  else if op = "/" then (if r ≠ 0 then some (Int.tdiv l r) else none)
  else if op = "%" then (if r ≠ 0 then some (Int.tmod l r) else none)
  else some 0

mutual

/-- The overloads of `Optimizer::visit` for the expression nodes. The
literals, `Variable` and `ArrayAccess` have empty bodies. In `BinaryExpr`
the value `res` is computed into a local and dropped when the visit
returns. -/
def Optimizer.visitExpr : Expr → Expr
  | .BinaryExpr node op left right =>
    let left1 := Optimizer.visitExpr left
    let right1 := Optimizer.visitExpr right
    match asNumber left1, asNumber right1 with
    | some l, some r =>
      let _res := Optimizer.res op l r
      .BinaryExpr node op left1 right1
    | _, _ => .BinaryExpr node op left1 right1
  | .UnaryExpr node op operand => .UnaryExpr node op (Optimizer.visitExpr operand)
  | .CallExpr node callee args => .CallExpr node callee (Optimizer.visitArgs args)
  | e => e

/-- The loop `for (auto &a : node.args) a->accept(*this);`. -/
def Optimizer.visitArgs : List Expr → List Expr
  | [] => []
  | a :: args => Optimizer.visitExpr a :: Optimizer.visitArgs args

end

mutual

/-- The overloads of `Optimizer::visit` for the statement nodes;
`TypedVarDecl` has an empty body and `AssignStmt` visits its value only. -/
def Optimizer.visitStmt : Stmt → Stmt
  | .VarDecl node name initializer =>
    .VarDecl node name (match initializer with
      | some e => some (Optimizer.visitExpr e)
      | none => none)
  | .AssignStmt node name index value => .AssignStmt node name index (Optimizer.visitExpr value)
  | .PrintStmt node expr newLine => .PrintStmt node (Optimizer.visitExpr expr) newLine
  | .ExprStmt node expr => .ExprStmt node (Optimizer.visitExpr expr)
  | .Block node statements => .Block node (Optimizer.visitStmts statements)
  | .IfStmt node condition thenBranch elseBranch =>
    .IfStmt node (Optimizer.visitExpr condition) (Optimizer.visitStmt thenBranch)
      (match elseBranch with
        | some s => some (Optimizer.visitStmt s)
        | none => none)
  | .ForStmt node init condition update bodyNode body =>
    .ForStmt node
      (match init with
        | some s => some (Optimizer.visitStmt s)
        | none => none)
      (match condition with
        | some e => some (Optimizer.visitExpr e)
        | none => none)
      (match update with
        | some s => some (Optimizer.visitStmt s)
        | none => none)
      bodyNode (Optimizer.visitStmts body)
  | .ReturnStmt node value =>
    .ReturnStmt node (match value with
      | some e => some (Optimizer.visitExpr e)
      | none => none)
  | s => s

/-- The loop `for (auto &s : node.statements) s->accept(*this);`. -/
def Optimizer.visitStmts : List Stmt → List Stmt
  | [] => []
  | s :: stmts => Optimizer.visitStmt s :: Optimizer.visitStmts stmts

end

/-- `Optimizer::visit(FuncDecl&)` and the dispatch on a top-level node. -/
def Optimizer.visitDecl : Decl → Decl
  | .Func f => .Func { f with body := Optimizer.visitStmts f.body }
  | .Stmt s => .Stmt (Optimizer.visitStmt s)

/-- `Optimizer::optimize`, that is `visit(Program&)`. -/
def Optimizer.optimize (prog : Program) : Program :=
  { prog with declarations := prog.declarations.map Optimizer.visitDecl }

/-! ## codegen.cpp

The emitter appends to the stream `out` and raises and lowers `indentLevel`
around nested blocks; each visit is rendered as the text it appends at a
given `indentLevel`. -/

/-- Modelled from the spec: codegen.hpp, which declares `class Codegen`
with its members `out` and `indentLevel`, is not among the sources. The
indent counter starts at 0, so that "statements indent two spaces per
nesting level". -/
def Codegen.indentLevel0 : Nat := 0

/-- `Codegen::indent`. -/
def Codegen.indent (indentLevel : Nat) : String :=
  String.join (List.replicate indentLevel "  ")

/-- `Codegen::emitLine`. -/
def Codegen.emitLine (indentLevel : Nat) (str : String) : String :=
  Codegen.indent indentLevel ++ str ++ "\n"

/-- `std::to_string(int)`. -/
def to_string_int (value : Int) : String := toString value

/-- The decimal digits of `n`, padded with zeros on the left to `width`. -/
def padDigits (width n : Nat) : String :=
  let ds := toString n
  String.mk (List.replicate (width - ds.length) '0') ++ ds

/-- `std::to_string(double)`, the `printf` format `%f`: the exact value of
the `double` rounded to six digits after the point, to nearest with ties to
even, behind a `-` when the sign bit is set. -/
def to_string_double (value : Double) : String :=
  let q := roundHalfEven (value.units * 10 ^ 6) (1 <<< 1074)
  (if value.sign then "-" else "") ++ toString (q / 10 ^ 6) ++ "." ++ padDigits 6 (q % 10 ^ 6)

mutual

/-- The overloads of `Codegen::visit` for the expression nodes. -/
def Codegen.visitExpr : Expr → String
  | .IntLiteral _ value => to_string_int value
  | .FloatLiteral _ value => to_string_double value
  | .StringLiteral _ value => "\"" ++ value ++ "\""
  | .Variable _ name => name
  | .ArrayAccess _ name index => name ++ "[" ++ Codegen.visitExpr index ++ "]"
  | .BinaryExpr _ op left right =>
    "(" ++ Codegen.visitExpr left ++ (" " ++ op ++ " ") ++ Codegen.visitExpr right ++ ")"
  | .UnaryExpr _ op operand => ("(" ++ op) ++ Codegen.visitExpr operand ++ ")"
  | .CallExpr _ callee args =>
    if callee = "input" then "_tl_input()"
    else if callee = "len" then
      "_tl_len(" ++ (match args with
        | [] => ""
        | a :: _ => Codegen.visitExpr a) ++ ")"
    else if callee = "substr" then "_tl_substr(" ++ Codegen.visitArgs args ++ ")"
    else if callee = "int" then
      "_tl_to_int(" ++ (match args with
        | [] => ""
        | a :: _ => Codegen.visitExpr a) ++ ")"
    else if callee = "float" then
      "_tl_to_float(" ++ (match args with
        | [] => ""
        | a :: _ => Codegen.visitExpr a) ++ ")"
    else (callee ++ "(") ++ Codegen.visitArgs args ++ ")"

/-- The loops over `node.args` that emit `", "` between the arguments. -/
def Codegen.visitArgs : List Expr → String
  | [] => ""
  | [a] => Codegen.visitExpr a
  | a :: b :: args => Codegen.visitExpr a ++ ", " ++ Codegen.visitArgs (b :: args)

end

/-- The target type of a `TypedVarDecl`. -/
def Codegen.cppType (type : String) : String :=
  if type = "float" then "double" else if type = "string" then "std::string" else "int"

/-- The init part of the header in `Codegen::visit(ForStmt&)`: emitted for
a `VarDecl` and for an `AssignStmt` only. -/
def Codegen.forInit : Option Stmt → String
  | none => "; "
  | some (.VarDecl _ name initializer) =>
    ("int " ++ name ++ " = ") ++ (match initializer with
      | some e => Codegen.visitExpr e
      | none => "0") ++ "; "
  | some (.AssignStmt _ name _ value) => (name ++ " = ") ++ Codegen.visitExpr value ++ "; "
  | some _ => ""

/-- The update part of the header in `Codegen::visit(ForStmt&)`. -/
def Codegen.forUpdate : Option Stmt → String
  | some (.AssignStmt _ name _ value) => (name ++ " = ") ++ Codegen.visitExpr value
  | _ => ""

/-- `Codegen::visit(Block&)` around the text `inner` that its statements
emit at `indentLevel + 1`. -/
def Codegen.visitBlock (indentLevel : Nat) (inner : String) : String :=
  Codegen.emitLine indentLevel "\x7b" ++ inner ++ Codegen.indent indentLevel ++ "\x7d\n"

mutual

/-- The overloads of `Codegen::visit` for the statement nodes, at the
current `indentLevel`. -/
def Codegen.visitStmt (indentLevel : Nat) : Stmt → String
  | .IfStmt _ condition thenBranch elseBranch =>
    "if (" ++ Codegen.visitExpr condition ++ Codegen.emitLine indentLevel ") \x7b" ++
      Codegen.visitStmt (indentLevel + 1) thenBranch ++ Codegen.emitLine indentLevel "\x7d" ++
      (match elseBranch with
        | some s =>
          Codegen.emitLine indentLevel "else \x7b" ++ Codegen.visitStmt (indentLevel + 1) s ++
            Codegen.emitLine indentLevel "\x7d"
        | none => "")
  | .TypedVarDecl _ name type isArray arraySize initializer =>
    let cppType := Codegen.cppType type
    Codegen.indent indentLevel ++
      (if isArray then
        ("std::vector<" ++ cppType ++ "> " ++ name) ++ (match arraySize with
          | some size => "(" ++ Codegen.visitExpr size ++ ")"
          | none => "")
      else
        (cppType ++ " " ++ name) ++ (match initializer with
          | some init => " = " ++ Codegen.visitExpr init
          | none => if cppType = "std::string" then "" else " = 0")) ++
      ";\n" ++ Codegen.indent indentLevel ++
      Codegen.emitLine indentLevel
        ("bool " ++ name ++ "_init = " ++ (if initializer.isSome then "true" else "false") ++ ";")
  | .AssignStmt _ name index value =>
    Codegen.indent indentLevel ++ name ++
      (match index with
        | some idx => "[" ++ Codegen.visitExpr idx ++ "]"
        | none => "") ++
      " = " ++ Codegen.visitExpr value ++ ";\n" ++ Codegen.indent indentLevel ++
      Codegen.emitLine indentLevel (name ++ "_init = true;")
  | .VarDecl _ name initializer =>
    Codegen.indent indentLevel ++ ("auto " ++ name) ++
      (match initializer with
        | some init => " = " ++ Codegen.visitExpr init
        | none => " = 0") ++ ";\n"
  | .ForStmt _ init condition update _ body =>
    Codegen.indent indentLevel ++ "for (" ++ Codegen.forInit init ++
      (match condition with
        | some e => Codegen.visitExpr e
        | none => "") ++ "; " ++ Codegen.forUpdate update ++ ")\n" ++
      Codegen.visitBlock indentLevel (Codegen.visitStmts (indentLevel + 1) body)
  | .ReturnStmt _ value =>
    Codegen.indent indentLevel ++ "return " ++
      (match value with
        | some e => Codegen.visitExpr e
        | none => "0") ++ ";\n"
  | .PrintStmt _ expr newLine =>
    Codegen.indent indentLevel ++ "std::cout << " ++ Codegen.visitExpr expr ++
      (if newLine then " << std::endl;\n" else ";\n")
  | .ExprStmt _ expr => Codegen.indent indentLevel ++ Codegen.visitExpr expr ++ ";\n"
  | .Block _ statements =>
    Codegen.visitBlock indentLevel (Codegen.visitStmts (indentLevel + 1) statements)

/-- The loop `for (auto &stmt : ...) stmt->accept(*this);`. -/
def Codegen.visitStmts (indentLevel : Nat) : List Stmt → String
  | [] => ""
  | stmt :: stmts => Codegen.visitStmt indentLevel stmt ++ Codegen.visitStmts indentLevel stmts

end

/-- The target return type in `Codegen::visit(FuncDecl&)`. -/
def Codegen.retType (name returnType : String) : String :=
  if name = "main" then "int"
  else if returnType ≠ "" then
    (if returnType = "string" then "std::string"
     else if returnType = "float" then "double" else returnType)
  else "auto"

/-- The target type of a parameter in `Codegen::visit(FuncDecl&)`. -/
def Codegen.paramType (type : String) : String :=
  if type = "" then "auto"
  else if type = "string" then "std::string"
  else if type = "float" then "double" else type

/-- The parameter list built by the lambda in `Codegen::visit(FuncDecl&)`. -/
def Codegen.params : List (String × String) → String
  | [] => ""
  | [p] => Codegen.paramType p.1 ++ " " ++ p.2
  | p :: q :: ps => (Codegen.paramType p.1 ++ " " ++ p.2) ++ ", " ++ Codegen.params (q :: ps)

/-- `Codegen::visit(FuncDecl&)`. -/
def Codegen.visitFuncDecl (indentLevel : Nat) (f : FuncDecl) : String :=
  Codegen.emitLine indentLevel
      (Codegen.retType f.name f.returnType ++ " " ++ f.name ++ "(" ++ Codegen.params f.params ++
        ")") ++
    Codegen.visitBlock indentLevel (Codegen.visitStmts (indentLevel + 1) f.body) ++
    Codegen.emitLine indentLevel ""

/-- The vector `funcs` of `Codegen::visit(Program&)`. -/
def Codegen.funcs : List Decl → List FuncDecl
  | [] => []
  | .Func f :: ds => f :: Codegen.funcs ds
  | .Stmt _ :: ds => Codegen.funcs ds

/-- The vector `globalStmts` of `Codegen::visit(Program&)`. -/
def Codegen.globalStmts : List Decl → List Stmt
  | [] => []
  | .Func _ :: ds => Codegen.globalStmts ds
  | .Stmt s :: ds => s :: Codegen.globalStmts ds

/-- The flag `hasMain` of `Codegen::visit(Program&)`. -/
def Codegen.hasMain (ds : List Decl) : Bool :=
  (Codegen.funcs ds).any (fun f => f.name = "main")

/-- `Codegen::visit(Program&)`: the functions, then in script mode the
synthesized `main` around the global statements. -/
def Codegen.visitProgram (indentLevel : Nat) (prog : Program) : String :=
  String.join ((Codegen.funcs prog.declarations).map (Codegen.visitFuncDecl indentLevel)) ++
    (if !Codegen.hasMain prog.declarations then
      Codegen.emitLine indentLevel "int main() \x7b" ++
        Codegen.visitStmts (indentLevel + 1) (Codegen.globalStmts prog.declarations) ++
        Codegen.emitLine (indentLevel + 1) "return 0;" ++ Codegen.emitLine indentLevel "\x7d"
    else "")

/-- The fixed text `Codegen::generate` writes first. -/
def Codegen.preamble : String :=
  "#include <iostream>\n" ++ "#include <string>\n" ++ "#include <vector>\n" ++
    "#include <algorithm>\n\n" ++
    "std::string _tl_input() \x7b std::string s; std::cin >> s; return s; \x7d\n" ++
    "int _tl_len(const std::string& s) \x7b return (int)s.length(); \x7d\n" ++
    "std::string _tl_substr(const std::string& s, int start, int len) \x7b return s.substr(start, len); \x7d\n" ++
    "int _tl_to_int(const std::string& s) \x7b try \x7b return std::stoi(s); \x7d catch (...) \x7b return 0; \x7d \x7d\n" ++
    "double _tl_to_float(const std::string& s) \x7b try \x7b return std::stod(s); \x7d catch (...) \x7b return 0.0; \x7d \x7d\n\n"

/-- `Codegen::generate` on a fresh `Codegen`. -/
def Codegen.generate (prog : Program) : String :=
  Codegen.preamble ++ Codegen.visitProgram Codegen.indentLevel0 prog

/-! ## driver.cpp -/

/-- The error record of `printJson`: phase, message, line, column. -/
structure CompileError where
  phase : String
  message : String
  line : Nat := 0
  col : Nat := 0
  deriving DecidableEq, Repr

/-- The `try` block of `main` in driver.cpp up to the emitted target text:
lexer, scan for `Error` tokens, parser, analyser, optimizer, emitter, with
the `catch` clauses turning each exception into its record. -/
def compile (source : String) : Except CompileError String :=
  match tokenize source with
  | none => .error ⟨"unknown", "out of fuel", 0, 0⟩
  | some tokens =>
    match tokens.find? (fun t => t.type = .Error) with
    | some t => .error ⟨"lexer", "Unexpected character: " ++ t.text, t.line, t.col⟩
    | none =>
      match Parser.parse tokens with
      | .error (.ParseError what line col) => .error ⟨"parser", what, line, col⟩
      | .error (.invalid_argument what) => .error ⟨"unknown", what, 0, 0⟩
      | .error (.out_of_range what) => .error ⟨"unknown", what, 0, 0⟩
      | .error .outOfFuel => .error ⟨"unknown", "out of fuel", 0, 0⟩
      | .ok prog =>
        match SemanticAnalyzer.analyze {} prog with
        | .error e => .error ⟨"semantic", e.what, e.line, e.col⟩
        | .ok _ => .ok (Codegen.generate (Optimizer.optimize prog))

/-! ## Predicates used in the statements -/

/-- What one turn of the lexer loop guarantees: no pushed token is an
`EndOfFile`, and nothing is un-read. -/
def Lexer.ScanOk (L : Lexer) (r : List Token × Lexer) : Prop :=
  (∀ t ∈ r.1, t.type ≠ .EndOfFile) ∧ r.2.rest.length ≤ L.rest.length

/-- The parser `p` reads the tokens `pre` as the expression `e` when they
are followed by `suf`: given enough fuel it returns `e` and leaves `suf`. -/
def Parser.Parses (p : Nat → List Token → PResult Expr) (pre : List Token) (e : Expr)
    (suf : List Token) : Prop :=
  ∃ F, ∀ fuel, F ≤ fuel → p fuel (pre ++ suf) = .ok (e, suf)

/-- The tokens `toks` spell the primary operand `x`: `Parser::primary`
reads them as `x` whatever token follows, except a `(` or `[` (which would
continue an identifier into a call or an array access). -/
def Parser.IsPrimary (toks : List Token) (x : Expr) : Prop :=
  ∀ (t : Token) (rest : List Token), t.type ≠ .LParen → t.type ≠ .LBracket →
    Parser.Parses Parser.primary toks x (t :: rest)

/-- The precedence levels of the binary operators as the specification
lists them, lowest first: equality 0, comparison 1, additive 2,
multiplicative 3; `none` for every other token. -/
def binaryLevel : TokenType → Option Nat
  | .Equals | .NotEquals => some 0
  | .Less | .LessEq | .Greater | .GreaterEq => some 1
  | .Plus | .Minus => some 2
  | .Star | .Slash | .Mod => some 3
  | _ => none

/-- The token types one loop of the expression grammar matches: those of
`equality`, `comparison`, `term`, `factor` for the levels 0 to 3. -/
def Parser.levelOps : Nat → List TokenType
  | 0 => [.Equals, .NotEquals]
  | 1 => [.Less, .LessEq, .Greater, .GreaterEq]
  | 2 => [.Plus, .Minus]
  | 3 => [.Star, .Slash, .Mod]
  | _ => []

/-- The function of parser.cpp for a precedence level: `equality`,
`comparison`, `term`, `factor`, and `unary` above them. -/
def Parser.level : Nat → Nat → List Token → PResult Expr
  | 0 => Parser.equality
  | 1 => Parser.comparison
  | 2 => Parser.term
  | 3 => Parser.factor
  | _ => Parser.unary

/-- The `while` loop of the function for a precedence level. -/
def Parser.levelLoop : Nat → Nat → Expr → List Token → PResult Expr
  | 0 => Parser.equalityLoop
  | 1 => Parser.comparisonLoop
  | 2 => Parser.termLoop
  | _ => Parser.factorLoop

/-- A token after which an expression cannot go on: no binary operator,
no `(`, no `[`. -/
def Parser.EndsExpr (t : Token) : Prop :=
  binaryLevel t.type = none ∧ t.type ≠ .LParen ∧ t.type ≠ .LBracket

/-- An operator token followed by the tokens and the value of its right
operand. -/
abbrev Parser.Step := Token × List Token × Expr

/-- The tokens of a run `o1 x2 o2 x3 ...` of operators and operands. -/
def Parser.stepTokens : List Parser.Step → List Token
  | [] => []
  | (o, ts, _) :: steps => o :: ts ++ Parser.stepTokens steps

/-- The left-nested tree `((acc o1 x2) o2 x3) ...`. -/
def Parser.leftNest : Expr → List Parser.Step → Expr
  | acc, [] => acc
  | acc, (o, _, e) :: steps => Parser.leftNest (.BinaryExpr {} o.text acc e) steps

/-- Every operator of the run is of level `k` and every operand is read by
the function of the next level when followed by the rest of the run and
then `suf`. -/
def Parser.ChainOk (k : Nat) : List Parser.Step → List Token → Prop
  | [], _ => True
  | (o, ts, e) :: steps, suf =>
    binaryLevel o.type = some k ∧
      Parser.Parses (Parser.level (k + 1)) ts e (Parser.stepTokens steps ++ suf) ∧
      Parser.ChainOk k steps suf

/-- What an expression visit yields from `A` carries over to any analyser
`B` with the same scopes and function table: the visit from `B` succeeds
with the same `lastType`, and neither visit touches the tables. -/
def SemanticAnalyzer.Stable (r : SResult) (A : SemanticAnalyzer) (r1 : SResult)
    (B : SemanticAnalyzer) : Prop :=
  ∀ A1, r = .ok A1 →
    A1.scopes = A.scopes ∧ A1.functions = A.functions ∧
      ∃ B1, r1 = .ok B1 ∧ B1.lastType = A1.lastType ∧ B1.scopes = B.scopes ∧
        B1.functions = B.functions

/-- The same for a visit of an argument list, whose `lastType` is that of
the last argument (or the one before the visit, for no argument) and is not
compared. -/
def SemanticAnalyzer.StableTables (r : SResult) (A : SemanticAnalyzer) (r1 : SResult)
    (B : SemanticAnalyzer) : Prop :=
  ∀ A1, r = .ok A1 →
    A1.scopes = A.scopes ∧ A1.functions = A.functions ∧
      ∃ B1, r1 = .ok B1 ∧ B1.scopes = B.scopes ∧ B1.functions = B.functions

/-- The analyser `A1` differs from `A` at most in the innermost scope, in
`lastType` and in the warnings: same function table, same depth of the
scope stack, same enclosing scopes. -/
def SemanticAnalyzer.SameFrame (A A1 : SemanticAnalyzer) : Prop :=
  A1.functions = A.functions ∧ A1.scopes.length = A.scopes.length ∧
    A1.scopes.tail = A.scopes.tail

/-- A visit from `A` that returns normally keeps the frame of `A`. -/
def SemanticAnalyzer.Framed (A : SemanticAnalyzer) (r : SResult) : Prop :=
  ∀ A1, r = .ok A1 → SemanticAnalyzer.SameFrame A A1

/-- The `FuncDecl` behind a top-level node, if it is one
(`dynamic_cast<FuncDecl *>`). -/
def Decl.asFunc : Decl → Option FuncDecl
  | .Func f => some f
  | .Stmt _ => none

/-- The statement behind a top-level node, if it is one
(`dynamic_cast<Stmt *>`). -/
def Decl.asStmt : Decl → Option TinyLang.Stmt
  | .Func _ => none
  | .Stmt s => some s

/-- The names the analyser and the emitter treat as built-in functions. -/
def builtinNames : List String := ["input", "len", "int", "float", "substr"]

/-- Every name that resolves in `A` resolves in `A1`. -/
def SemanticAnalyzer.Grows (A A1 : SemanticAnalyzer) : Prop :=
  ∀ name, (A.resolve name).isSome → (A1.resolve name).isSome

/-- A visit from `A` that returns normally keeps every name of `A`
resolvable. -/
def SemanticAnalyzer.Growing (A : SemanticAnalyzer) (r : SResult) : Prop :=
  ∀ A1, r = .ok A1 → SemanticAnalyzer.Grows A A1

/-- The token `t` moved down by `k` lines: same kind, text and column. -/
def Token.down (k : Nat) (t : Token) : Token := { t with line := t.line + k }

/-- The lexer `L` moved down by `k` lines: same unread input and column. -/
def Lexer.down (k : Nat) (L : Lexer) : Lexer := { L with line := L.line + k }

/-- The outcome `r1` of a turn of the lexer loop is the outcome `r` moved
down by `k` lines. -/
def Lexer.DownRel (k : Nat) (r r1 : List Token × Lexer) : Prop :=
  r1 = (r.1.map (Token.down k), r.2.down k)

/-- The tokens from `current` on end with an `EndOfFile` token: `current`
indexes an element of the vector, at or before that token. -/
def Parser.Live (ts : List Token) : Prop :=
  ∃ pre eof, ts = pre ++ [eof] ∧ eof.type = .EndOfFile

/-- A parsing step that came to its end within its fuel and, when it
returned, left at most `bound` tokens, an `EndOfFile` token last. -/
def Parser.Within {α : Type} (bound : Nat) (r : PResult α) : Prop :=
  r ≠ .error .outOfFuel ∧ ∀ x ts, r = .ok (x, ts) → Parser.Live ts ∧ ts.length ≤ bound

mutual

/-- The tree `e` with every position reset to the default: two trees are
the same up to positions when their images are equal. -/
def Expr.erase : Expr → Expr
  | .IntLiteral _ value => .IntLiteral {} value
  | .FloatLiteral _ value => .FloatLiteral {} value
  | .StringLiteral _ value => .StringLiteral {} value
  | .Variable _ name => .Variable {} name
  | .BinaryExpr _ op left right => .BinaryExpr {} op left.erase right.erase
  | .UnaryExpr _ op operand => .UnaryExpr {} op operand.erase
  | .CallExpr _ callee args => .CallExpr {} callee (Expr.eraseArgs args)
  | .ArrayAccess _ name index => .ArrayAccess {} name index.erase

/-- See `Expr.erase`. -/
def Expr.eraseArgs : List Expr → List Expr
  | [] => []
  | a :: args => a.erase :: Expr.eraseArgs args

end

/-- The text of an identifier as the lexer scans one: a letter or `_`, then
letters, digits and `_`. -/
def isIdentifier (name : String) : Bool :=
  match name.data with
  | [] => false
  | c :: cs => (isalpha c || c == '_') && cs.all (fun d => isalnum d || d == '_')

/-- A name an expression may use: an identifier that is no keyword. -/
def isName (name : String) : Bool := isIdentifier name && (keywords name).isNone

/-- The eleven binary operators of the language. -/
def binaryOperators : List String :=
  ["+", "-", "*", "/", "%", "==", "!=", "<", "<=", ">", ">="]

mutual

/-- The expressions of the round trip: integer literals in `0..2^31-1`,
variables and array accesses with a name, calls of a name that is no
built-in, the unary operators `-` and `!`, the eleven binary operators. -/
def Expr.plain : Expr → Bool
  | .IntLiteral _ value => decide (0 ≤ value) && decide (value ≤ 2147483647)
  | .FloatLiteral _ _ => false
  | .StringLiteral _ _ => false
  | .Variable _ name => isName name
  | .BinaryExpr _ op left right => binaryOperators.contains op && left.plain && right.plain
  | .UnaryExpr _ op operand => (op == "-" || op == "!") && operand.plain
  | .CallExpr _ callee args =>
    isName callee && !builtinNames.contains callee && Expr.plainArgs args
  | .ArrayAccess _ name index => isName name && index.plain

/-- See `Expr.plain`. -/
def Expr.plainArgs : List Expr → Bool
  | [] => true
  | a :: args => a.plain && Expr.plainArgs args

end

/-- What follows the text of an expression inside a larger emitted
expression, if anything: a space, `)`, `]` or `,`. -/
def Lexer.Follow (rest : List Char) : Prop :=
  ∀ d, rest.head? = some d → d = ' ' ∨ d = ')' ∨ d = ']' ∨ d = ','

/-- The lexer loop reads `text`, after any spaces and before any `rest`
that `P` admits, in at most one turn per character, and the tokens it
pushes satisfy `Q`. -/
def Lexer.Lexes (P : List Char → Prop) (text : List Char) (Q : List Token → Prop) : Prop :=
  ∀ (ws rest : List Char) (line col : Nat), (∀ c ∈ ws, c = ' ') → P rest →
    ∃ (n : Nat) (ts : List Token) (line1 col1 : Nat), Q ts ∧ n ≤ text.length ∧
      ∀ (fuel : Nat) (acc : List Token),
        Lexer.tokenizeLoop (fuel + n) ⟨ws ++ (text ++ rest), line, col⟩ acc =
          Lexer.tokenizeLoop fuel ⟨rest, line1, col1⟩ (acc ++ ts)

/-- The loop of `Parser::primary` over the arguments of a call reads the
tokens `pre` as `args` when they are followed by `suf`. -/
def Parser.ParsesArgs (pre : List Token) (args : List Expr) (suf : List Token) : Prop :=
  ∃ F, ∀ fuel, F ≤ fuel → Parser.arguments fuel (pre ++ suf) = .ok (args, suf)

/-- The tokens `ts` are one token of the given type and text. -/
def Token.Single (type : TokenType) (text : String) (ts : List Token) : Prop :=
  ∃ t, ts = [t] ∧ t.type = type ∧ t.text = text

/-- The tokens `ts` spell the expression `e`: `Parser::primary` reads them
as a tree that is `e` up to positions; they do not start with `)`. -/
def Parser.Spells (e : Expr) (ts : List Token) : Prop :=
  ∃ e1, e1.erase = e.erase ∧ Parser.IsPrimary ts e1 ∧ ∃ hd tl, ts = hd :: tl ∧ hd.type ≠ .RParen

/-- The tokens `ts` spell the arguments `args` of a call, in front of its
`)`. -/
def Parser.SpellsArgs (args : List Expr) (ts : List Token) : Prop :=
  ∃ args1, Expr.eraseArgs args1 = Expr.eraseArgs args ∧
    (∀ rp suf, rp.type = .RParen → Parser.ParsesArgs ts args1 (rp :: suf)) ∧
    ∃ hd tl, ts = hd :: tl ∧ hd.type ≠ .RParen

/-! # Theorems

## Lexer -/

theorem Lexer.scanWhileAux_length (p : Char → Bool) (cs : List Char) (line col : Nat) :
    (Lexer.scanWhileAux p cs line col).2.rest.length ≤ cs.length := by
  induction cs generalizing line col with
  | nil => simp [Lexer.scanWhileAux]
  | cons c cs ih =>
    unfold Lexer.scanWhileAux
    split
    · exact Nat.le_succ_of_le (ih _ _)
    · simp

theorem Lexer.scanWhile_length (p : Char → Bool) (L : Lexer) :
    (L.scanWhile p).2.rest.length ≤ L.rest.length :=
  Lexer.scanWhileAux_length p L.rest L.line L.col

theorem Lexer.advance_length (L : Lexer) : L.advance.2.rest.length ≤ L.rest.length := by
  unfold Lexer.advance
  split
  · simp
  · split <;> simp_all

theorem Lexer.advance_length_lt (L : Lexer) (h : L.rest ≠ []) :
    L.advance.2.rest.length < L.rest.length := by
  unfold Lexer.advance
  split
  · contradiction
  · split <;> simp_all

theorem Lexer.match_length (L : Lexer) (c : Char) :
    (L.match_ c).2.rest.length ≤ L.rest.length := by
  unfold Lexer.match_
  split
  · exact Lexer.advance_length L
  · exact Nat.le_refl _

theorem keywords_ne_EndOfFile (s : String) (kw : TokenType) (h : keywords s = some kw) :
    kw ≠ .EndOfFile := by
  unfold keywords at h
  split_ifs at h <;> simp_all <;> (subst h; decide)

theorem Lexer.ScanOk.ite {L : Lexer} {c : Prop} [Decidable c] {a b : List Token × Lexer}
    (ha : Lexer.ScanOk L a) (hb : Lexer.ScanOk L b) : Lexer.ScanOk L (if c then a else b) := by
  split <;> assumption

theorem Lexer.ScanOk.push {L L1 : Lexer} {ty : TokenType} {text : String} {line col : Nat}
    (hty : ty ≠ .EndOfFile) (hlen : L1.rest.length ≤ L.rest.length) :
    Lexer.ScanOk L ([⟨ty, text, line, col⟩], L1) := by
  constructor
  · intro t ht
    simp only [List.mem_singleton] at ht
    subst ht
    exact hty
  · exact hlen

theorem Lexer.scanToken_ok (L : Lexer) : Lexer.ScanOk L.advance.2 L.scanToken := by
  unfold Lexer.scanToken
  generalize L.advance = adv
  obtain ⟨c, L1⟩ := adv
  simp only
  generalize hk : keywords _ = k
  have hkw : ∀ kw, k = some kw → kw ≠ .EndOfFile := fun kw h =>
    keywords_ne_EndOfFile _ kw (hk.trans h)
  clear hk
  repeat' apply Lexer.ScanOk.ite
  on_goal 4 =>
    cases k with
    | none => exact Lexer.ScanOk.push (fun h => TokenType.noConfusion h) (Lexer.scanWhile_length _ _)
    | some kw => exact Lexer.ScanOk.push (hkw kw rfl) (Lexer.scanWhile_length _ _)
  on_goal 16 => exact ⟨fun t ht => absurd ht (List.not_mem_nil t),
    Nat.le_trans (Lexer.scanWhile_length _ _) (Lexer.match_length _ _)⟩
  all_goals refine Lexer.ScanOk.push (fun h => TokenType.noConfusion h) ?_
  on_goal 3 => split
  all_goals
    first
      | exact Nat.le_refl _
      | exact Lexer.scanWhile_length _ _
      | exact Lexer.match_length _ _
      | exact Nat.le_trans (Lexer.advance_length _) (Lexer.scanWhile_length _ _)
      | exact Nat.le_trans (Lexer.scanWhile_length _ _)
          (Nat.le_trans (Lexer.advance_length _) (Lexer.scanWhile_length _ _))

theorem Lexer.tokenizeLoop_spec (fuel : Nat) (L : Lexer) (acc : List Token)
    (hfuel : L.rest.length < fuel) (hacc : ∀ t ∈ acc, t.type ≠ .EndOfFile) :
    ∃ L1 toks, Lexer.tokenizeLoop fuel L acc = some (L1, toks) ∧
      ∀ t ∈ toks, t.type ≠ .EndOfFile := by
  induction fuel generalizing L acc with
  | zero => omega
  | succ fuel ih =>
    unfold Lexer.tokenizeLoop
    split
    · exact ⟨L, acc, rfl, hacc⟩
    · simp only
      split
      · exact ⟨_, acc, rfl, hacc⟩
      · rename_i h1 h2
        have hok := Lexer.scanToken_ok L.skipWhitespace
        have hlt := Lexer.advance_length_lt L.skipWhitespace h2
        have hsk : L.skipWhitespace.rest.length ≤ L.rest.length := Lexer.scanWhile_length _ L
        apply ih
        · have := hok.2
          omega
        · intro t ht
          rcases List.mem_append.mp ht with h | h
          · exact hacc t h
          · exact hok.1 t h

/-- C1. For every source string, `tokenize` returns (it does not run out of
fuel) a token list of the form `toks ++ [last]` whose last token has kind
`EndOfFile` and in which no other token has that kind. -/
theorem tokenize_ends_with_one_EndOfFile (source : String) :
    ∃ toks last, tokenize source = some (toks ++ [last]) ∧ last.type = .EndOfFile ∧
      ∀ t ∈ toks, t.type ≠ .EndOfFile := by
  obtain ⟨L1, toks, h, htoks⟩ :=
    Lexer.tokenizeLoop_spec ((Lexer.new source).rest.length + 1) (Lexer.new source) []
      (Nat.lt_succ_self _) (by simp)
  refine ⟨toks, ⟨.EndOfFile, "", L1.line, L1.col⟩, ?_, rfl, htoks⟩
  simp [tokenize, Lexer.tokenize, h]

/-! ## Parser: expressions -/

theorem Parser.level_succ (k : Nat) (hk : k ≤ 3) (f : Nat) (ts : List Token) :
    Parser.level k (f + 1) ts =
      match Parser.level (k + 1) f ts with
      | .error e => .error e
      | .ok (e, ts1) => Parser.levelLoop k f e ts1 := by
  match k, hk with
  | 0, _ => simp only [Parser.level, Parser.levelLoop]; rw [Parser.equality]
  | 1, _ => simp only [Parser.level, Parser.levelLoop]; rw [Parser.comparison]
  | 2, _ => simp only [Parser.level, Parser.levelLoop]; rw [Parser.term]
  | 3, _ => simp only [Parser.level, Parser.levelLoop]; rw [Parser.factor]

theorem Parser.levelLoop_succ (k : Nat) (hk : k ≤ 3) (f : Nat) (e : Expr) (ts : List Token) :
    Parser.levelLoop k (f + 1) e ts =
      match Parser.matchAny ts (Parser.levelOps k) with
      | none => .ok (e, ts)
      | some (op, ts1) =>
        match Parser.level (k + 1) f ts1 with
        | .error er => .error er
        | .ok (r, ts2) => Parser.levelLoop k f (.BinaryExpr {} op.text e r) ts2 := by
  match k, hk with
  | 0, _ => simp only [Parser.level, Parser.levelLoop, Parser.levelOps]; rw [Parser.equalityLoop]
  | 1, _ => simp only [Parser.level, Parser.levelLoop, Parser.levelOps]; rw [Parser.comparisonLoop]
  | 2, _ => simp only [Parser.level, Parser.levelLoop, Parser.levelOps]; rw [Parser.termLoop]
  | 3, _ => simp only [Parser.level, Parser.levelLoop, Parser.levelOps]; rw [Parser.factorLoop]

theorem Parser.match_cons_of_eq {t : Token} {ts : List Token} {ty : TokenType}
    (h : t.type = ty) (hne : ty ≠ .EndOfFile) : Parser.match_ (t :: ts) ty = some (t, ts) := by
  subst h
  simp [Parser.match_, Parser.check, Parser.peek, Parser.advance, hne]

theorem Parser.match_cons_of_ne {t : Token} {ts : List Token} {ty : TokenType}
    (h : t.type ≠ ty) : Parser.match_ (t :: ts) ty = none := by
  simp [Parser.match_, Parser.check, Parser.peek, h]

theorem Parser.match_nil (ty : TokenType) : Parser.match_ [] ty = none := by
  simp [Parser.match_, Parser.check, Parser.peek]

theorem Parser.matchAny_cons_of_mem {t : Token} {ts : List Token} {tys : List TokenType}
    (h : t.type ∈ tys) (hne : t.type ≠ .EndOfFile) :
    Parser.matchAny (t :: ts) tys = some (t, ts) := by
  induction tys with
  | nil => simp at h
  | cons ty tys ih =>
    unfold Parser.matchAny
    by_cases hty : t.type = ty
    · rw [Parser.match_cons_of_eq hty (hty ▸ hne)]
    · rw [Parser.match_cons_of_ne hty]
      simp only
      exact ih (by simpa [hty] using h)

theorem Parser.matchAny_cons_of_not_mem {t : Token} {ts : List Token} {tys : List TokenType}
    (h : t.type ∉ tys) : Parser.matchAny (t :: ts) tys = none := by
  induction tys with
  | nil => rfl
  | cons ty tys ih =>
    unfold Parser.matchAny
    have hty : t.type ≠ ty := fun hh => h (by simp [hh])
    rw [Parser.match_cons_of_ne hty]
    simp only
    exact ih (fun hh => h (List.mem_cons_of_mem _ hh))

theorem Parser.mem_levelOps_iff (k : Nat) (ty : TokenType) :
    ty ∈ Parser.levelOps k ↔ binaryLevel ty = some k := by
  match k with
  | 0 => cases ty <;> simp [Parser.levelOps, binaryLevel]
  | 1 => cases ty <;> simp [Parser.levelOps, binaryLevel]
  | 2 => cases ty <;> simp [Parser.levelOps, binaryLevel]
  | 3 => cases ty <;> simp [Parser.levelOps, binaryLevel]
  | n + 4 => cases ty <;> simp [Parser.levelOps, binaryLevel]

theorem binaryLevel_ne_EndOfFile {ty : TokenType} {k : Nat} (h : binaryLevel ty = some k) :
    ty ≠ .EndOfFile := by
  intro hh
  subst hh
  simp [binaryLevel] at h

theorem Parser.primary_not_unaryOp {fuel : Nat} {ts : List Token} {r : Expr × List Token}
    (h : Parser.primary fuel ts = .ok r) : Parser.matchAny ts [.Not, .Minus] = none := by
  cases fuel with
  | zero => simp [Parser.primary] at h
  | succ f =>
    cases ts with
    | nil => simp [Parser.matchAny, Parser.match_nil]
    | cons t ts =>
      apply Parser.matchAny_cons_of_not_mem
      intro hmem
      simp only [List.mem_cons, List.mem_singleton, List.not_mem_nil, or_false] at hmem
      rw [Parser.primary] at h
      rcases hmem with hm | hm <;>
        simp [Parser.match_, Parser.check, Parser.peek, hm] at h

theorem Parser.Parses.unary_of_primary {pre suf : List Token} {e : Expr}
    (h : Parser.Parses Parser.primary pre e suf) : Parser.Parses Parser.unary pre e suf := by
  obtain ⟨F, hF⟩ := h
  refine ⟨F + 1, fun fuel hfuel => ?_⟩
  obtain ⟨f, rfl⟩ : ∃ f, fuel = f + 1 := ⟨fuel - 1, by omega⟩
  have hp := hF f (by omega)
  rw [Parser.unary, Parser.primary_not_unaryOp hp]
  exact hp

theorem Parser.matchAny_levelOps_of_level {t : Token} {ts : List Token} {k : Nat}
    (h : binaryLevel t.type = some k) :
    Parser.matchAny (t :: ts) (Parser.levelOps k) = some (t, ts) :=
  Parser.matchAny_cons_of_mem ((Parser.mem_levelOps_iff k t.type).mpr h)
    (binaryLevel_ne_EndOfFile h)

theorem Parser.matchAny_levelOps_of_ne {t : Token} {ts : List Token} {k : Nat}
    (h : binaryLevel t.type ≠ some k) :
    Parser.matchAny (t :: ts) (Parser.levelOps k) = none :=
  Parser.matchAny_cons_of_not_mem (fun hh => h ((Parser.mem_levelOps_iff k t.type).mp hh))

/-- An operand of level `k + 1` followed by a token that the loop of level
`k` does not match is an operand of level `k`. -/
theorem Parser.Parses.lift {k : Nat} (hk : k ≤ 3) {pre : List Token} {e : Expr} {t : Token}
    {rest : List Token} (h : Parser.Parses (Parser.level (k + 1)) pre e (t :: rest))
    (ht : binaryLevel t.type ≠ some k) : Parser.Parses (Parser.level k) pre e (t :: rest) := by
  obtain ⟨F, hF⟩ := h
  refine ⟨F + 2, fun fuel hfuel => ?_⟩
  obtain ⟨f, rfl⟩ : ∃ f, fuel = f + 2 := ⟨fuel - 2, by omega⟩
  rw [Parser.level_succ k hk, hF (f + 1) (by omega)]
  simp only
  rw [Parser.levelLoop_succ k hk, Parser.matchAny_levelOps_of_ne ht]

/-- The same through several levels, from `j + d` down to `j`. -/
theorem Parser.Parses.lift_range (d : Nat) {j : Nat} (hj : j + d ≤ 4) {pre : List Token}
    {e : Expr} {t : Token} {rest : List Token}
    (h : Parser.Parses (Parser.level (j + d)) pre e (t :: rest))
    (ht : ∀ k, j ≤ k → binaryLevel t.type ≠ some k) :
    Parser.Parses (Parser.level j) pre e (t :: rest) := by
  induction d with
  | zero => exact h
  | succ d ih =>
    apply ih (by omega)
    exact Parser.Parses.lift (by omega) h (ht _ (by omega))

theorem Parser.IsPrimary.level {toks : List Token} {x : Expr} (h : Parser.IsPrimary toks x)
    (j : Nat) (hj : j ≤ 4) {t : Token} {r : List Token}
    (ht1 : t.type ≠ .LParen) (ht2 : t.type ≠ .LBracket)
    (ht : ∀ k, j ≤ k → binaryLevel t.type ≠ some k) :
    Parser.Parses (Parser.level j) toks x (t :: r) := by
  have h4 : Parser.Parses (Parser.level (j + (4 - j))) toks x (t :: r) := by
    have : j + (4 - j) = 4 := by omega
    rw [this]
    exact Parser.Parses.unary_of_primary (h t r ht1 ht2)
  exact Parser.Parses.lift_range (4 - j) (by omega) h4 ht

/-- The loop of level `k` folds a run of operators and operands to the
left. -/
theorem Parser.levelLoop_chain {k : Nat} (hk : k ≤ 3) (steps : List Parser.Step)
    (t : Token) (rest : List Token) (ht : binaryLevel t.type ≠ some k)
    (hsteps : Parser.ChainOk k steps (t :: rest)) (acc : Expr) :
    ∃ F, ∀ fuel, F ≤ fuel →
      Parser.levelLoop k fuel acc (Parser.stepTokens steps ++ t :: rest) =
        .ok (Parser.leftNest acc steps, t :: rest) := by
  induction steps generalizing acc with
  | nil =>
    refine ⟨1, fun fuel hfuel => ?_⟩
    obtain ⟨f, rfl⟩ : ∃ f, fuel = f + 1 := ⟨fuel - 1, by omega⟩
    simp only [Parser.stepTokens, List.nil_append, Parser.leftNest]
    rw [Parser.levelLoop_succ k hk, Parser.matchAny_levelOps_of_ne ht]
  | cons s steps ih =>
    obtain ⟨o, ts, e⟩ := s
    obtain ⟨ho, ⟨F1, hF1⟩, hmore⟩ := hsteps
    obtain ⟨F2, hF2⟩ := ih hmore (.BinaryExpr {} o.text acc e)
    refine ⟨F1 + F2 + 1, fun fuel hfuel => ?_⟩
    obtain ⟨f, rfl⟩ : ∃ f, fuel = f + 1 := ⟨fuel - 1, by omega⟩
    simp only [Parser.stepTokens, List.cons_append, List.append_assoc, Parser.leftNest]
    rw [Parser.levelLoop_succ k hk, Parser.matchAny_levelOps_of_level ho]
    simp only
    rw [hF1 f (by omega)]
    simp only
    exact hF2 f (by omega)

/-- The function of level `k` reads `x1 o1 x2 o2 ...` as the left-nested
tree. -/
theorem Parser.Parses.chain {k : Nat} (hk : k ≤ 3) {pre : List Token} {x : Expr}
    (steps : List Parser.Step) (t : Token) (rest : List Token)
    (ht : binaryLevel t.type ≠ some k)
    (hx : Parser.Parses (Parser.level (k + 1)) pre x (Parser.stepTokens steps ++ t :: rest))
    (hsteps : Parser.ChainOk k steps (t :: rest)) :
    Parser.Parses (Parser.level k) (pre ++ Parser.stepTokens steps) (Parser.leftNest x steps)
      (t :: rest) := by
  obtain ⟨F1, hF1⟩ := hx
  obtain ⟨F2, hF2⟩ := Parser.levelLoop_chain hk steps t rest ht hsteps x
  refine ⟨F1 + F2 + 1, fun fuel hfuel => ?_⟩
  obtain ⟨f, rfl⟩ : ∃ f, fuel = f + 1 := ⟨fuel - 1, by omega⟩
  rw [Parser.level_succ k hk, List.append_assoc, hF1 f (by omega)]
  simp only
  exact hF2 f (by omega)

theorem Parser.Parses.expression {pre : List Token} {e : Expr} {suf : List Token}
    (h : Parser.Parses (Parser.level 0) pre e suf) :
    Parser.Parses Parser.expression pre e suf := by
  obtain ⟨F, hF⟩ := h
  refine ⟨F + 1, fun fuel hfuel => ?_⟩
  obtain ⟨f, rfl⟩ : ∃ f, fuel = f + 1 := ⟨fuel - 1, by omega⟩
  rw [Parser.expression]
  exact hF f (by omega)

theorem Parser.Parses.unary_op {pre suf : List Token} {e : Expr} {u : Token}
    (hu : u.type = .Minus ∨ u.type = .Not) (h : Parser.Parses Parser.unary pre e suf) :
    Parser.Parses Parser.unary (u :: pre) (.UnaryExpr {} u.text e) suf := by
  obtain ⟨F, hF⟩ := h
  refine ⟨F + 1, fun fuel hfuel => ?_⟩
  obtain ⟨f, rfl⟩ : ∃ f, fuel = f + 1 := ⟨fuel - 1, by omega⟩
  have hm : Parser.matchAny (u :: (pre ++ suf)) [.Not, .Minus] = some (u, pre ++ suf) := by
    apply Parser.matchAny_cons_of_mem
    · rcases hu with h | h <;> simp [h]
    · rcases hu with h | h <;> simp [h]
  rw [List.cons_append, Parser.unary, hm]
  simp only
  rw [hF f (by omega)]

/-- A `Number` token whose text `std::stoi` accepts is a primary operand. -/
theorem Parser.IsPrimary.number {t : Token} {v : Int} (ht : t.type = .Number)
    (hv : stoi t.text = .ok v) : Parser.IsPrimary [t] (.IntLiteral {} v) := by
  intro t1 rest _ _
  refine ⟨1, fun fuel hfuel => ?_⟩
  obtain ⟨f, rfl⟩ : ∃ f, fuel = f + 1 := ⟨fuel - 1, by omega⟩
  rw [List.singleton_append, Parser.primary, Parser.match_cons_of_eq ht (by decide)]
  simp only [hv]

/-- An `Identifier` token is a primary operand, the variable of its name. -/
theorem Parser.IsPrimary.variable {t : Token} (ht : t.type = .Identifier) :
    Parser.IsPrimary [t] (.Variable ⟨t.line, t.col⟩ t.text) := by
  intro t1 rest h1 h2
  refine ⟨1, fun fuel hfuel => ?_⟩
  obtain ⟨f, rfl⟩ : ∃ f, fuel = f + 1 := ⟨fuel - 1, by omega⟩
  rw [List.singleton_append, Parser.primary,
    Parser.match_cons_of_ne (by rw [ht]; decide : t.type ≠ .Number),
    Parser.match_cons_of_ne (by rw [ht]; decide : t.type ≠ .Float),
    Parser.match_cons_of_ne (by rw [ht]; decide : t.type ≠ .StringLiteral),
    Parser.match_cons_of_eq ht (by decide)]
  simp only
  rw [Parser.match_cons_of_ne h2, Parser.match_cons_of_ne h1]

theorem Parser.stepTokens_head (k : Nat) (steps : List Parser.Step) (tend : Token)
    (rest : List Token) (hsteps : ∀ s ∈ steps, binaryLevel s.1.type = some k)
    (hend : Parser.EndsExpr tend) :
    ∃ t r, Parser.stepTokens steps ++ tend :: rest = t :: r ∧ t.type ≠ .LParen ∧
      t.type ≠ .LBracket ∧ ∀ j, k + 1 ≤ j → binaryLevel t.type ≠ some j := by
  cases steps with
  | nil =>
    refine ⟨tend, rest, rfl, hend.2.1, hend.2.2, fun j _ => ?_⟩
    rw [hend.1]
    exact fun h => Option.noConfusion h
  | cons s steps =>
    obtain ⟨o, ts, e⟩ := s
    have ho : binaryLevel o.type = some k := hsteps (o, ts, e) (List.mem_cons_self _ _)
    refine ⟨o, _, rfl, ?_, ?_, fun j hj => ?_⟩
    · intro h
      rw [h] at ho
      simp [binaryLevel] at ho
    · intro h
      rw [h] at ho
      simp [binaryLevel] at ho
    · rw [ho]
      intro h
      have := Option.some.inj h
      omega

theorem Parser.ChainOk.of_primary (k : Nat) (hk : k ≤ 3) (steps : List Parser.Step)
    (tend : Token) (rest : List Token)
    (hsteps : ∀ s ∈ steps, binaryLevel s.1.type = some k ∧ Parser.IsPrimary s.2.1 s.2.2)
    (hend : Parser.EndsExpr tend) : Parser.ChainOk k steps (tend :: rest) := by
  induction steps with
  | nil => trivial
  | cons s steps ih =>
    obtain ⟨o, ts, e⟩ := s
    have hs := hsteps (o, ts, e) (List.mem_cons_self _ _)
    have hmore : ∀ s ∈ steps, binaryLevel s.1.type = some k ∧ Parser.IsPrimary s.2.1 s.2.2 :=
      fun s h => hsteps s (List.mem_cons_of_mem _ h)
    refine ⟨hs.1, ?_, ih hmore⟩
    obtain ⟨t, r, heq, h1, h2, h3⟩ :=
      Parser.stepTokens_head k steps tend rest (fun s h => (hmore s h).1) hend
    rw [heq]
    exact Parser.IsPrimary.level hs.2 (k + 1) (by omega) h1 h2 h3

theorem Parser.EndsExpr.not_level {t : Token} (h : Parser.EndsExpr t) (k : Nat) :
    binaryLevel t.type ≠ some k := by
  rw [h.1]
  exact fun hh => Option.noConfusion hh

theorem Parser.Parses.to_expression (k : Nat) (hk : k ≤ 4) {pre : List Token} {e : Expr}
    {tend : Token} {rest : List Token} (hend : Parser.EndsExpr tend)
    (h : Parser.Parses (Parser.level k) pre e (tend :: rest)) :
    Parser.Parses Parser.expression pre e (tend :: rest) := by
  apply Parser.Parses.expression
  apply Parser.Parses.lift_range k (by omega) (by simpa using h)
  exact fun j _ => hend.not_level j

/-- C3. All binary operators left-associate: for primary operands `x1`,
`x2`, ... (spelled by the tokens `tx`, and by the token lists in `steps`) and
operators all of one precedence level `k`, `Parser::expression` reads
`x1 o1 x2 o2 ... xn` as the left-nested tree
`BinaryExpr(o(n-1), ... BinaryExpr(o1, x1, x2) ..., xn)`, given enough fuel
and a following token that cannot continue the expression. -/
theorem binary_operators_left_associate (k : Nat) (tx : List Token) (x : Expr)
    (steps : List Parser.Step) (tend : Token) (rest : List Token)
    (hx : Parser.IsPrimary tx x)
    (hsteps : ∀ s ∈ steps, binaryLevel s.1.type = some k ∧ Parser.IsPrimary s.2.1 s.2.2)
    (hend : Parser.EndsExpr tend) :
    Parser.Parses Parser.expression (tx ++ Parser.stepTokens steps)
      (Parser.leftNest x steps) (tend :: rest) := by
  by_cases hk : k ≤ 3
  · apply Parser.Parses.to_expression k (by omega) hend
    apply Parser.Parses.chain hk steps tend rest (hend.not_level k)
    · obtain ⟨t, r, heq, h1, h2, h3⟩ :=
        Parser.stepTokens_head k steps tend rest (fun s h => (hsteps s h).1) hend
      rw [heq]
      exact Parser.IsPrimary.level hx (k + 1) (by omega) h1 h2 h3
    · exact Parser.ChainOk.of_primary k hk steps tend rest hsteps hend
  · cases steps with
    | nil =>
      simp only [Parser.stepTokens, List.append_nil, Parser.leftNest]
      apply Parser.Parses.to_expression 4 (by omega) hend
      exact Parser.IsPrimary.level hx 4 (by omega) hend.2.1 hend.2.2
        (fun j _ => hend.not_level j)
    | cons s steps =>
      exfalso
      have h := (hsteps s (List.mem_cons_self _ _)).1
      have hmem := (Parser.mem_levelOps_iff k s.1.type).mpr h
      match k, hk with
      | n + 4, _ => simp [Parser.levelOps] at hmem

/-- One operator between two operands of the next level. -/
theorem Parser.Parses.binary {k : Nat} (hk : k ≤ 3) {ta tb : List Token} {a b : Expr}
    {o t : Token} {rest : List Token} (ho : binaryLevel o.type = some k)
    (ha : Parser.Parses (Parser.level (k + 1)) ta a (o :: (tb ++ t :: rest)))
    (hb : Parser.Parses (Parser.level (k + 1)) tb b (t :: rest))
    (ht : binaryLevel t.type ≠ some k) :
    Parser.Parses (Parser.level k) (ta ++ o :: tb) (.BinaryExpr {} o.text a b) (t :: rest) := by
  have hsteps : Parser.ChainOk k [(o, tb, b)] (t :: rest) := by
    refine ⟨ho, ?_, trivial⟩
    simpa [Parser.stepTokens] using hb
  have hx : Parser.Parses (Parser.level (k + 1)) ta a
      (Parser.stepTokens [(o, tb, b)] ++ t :: rest) := by
    simpa [Parser.stepTokens] using ha
  have := Parser.Parses.chain hk [(o, tb, b)] t rest ht hx hsteps
  simpa [Parser.stepTokens, Parser.leftNest] using this

/-- An operand of level `j` is an operand of every lower level `i` when the
token after it is no operator of the levels from `i` on. -/
theorem Parser.Parses.lower {i j : Nat} (hij : i ≤ j) (hj : j ≤ 4) {pre : List Token}
    {e : Expr} {t : Token} {rest : List Token}
    (h : Parser.Parses (Parser.level j) pre e (t :: rest))
    (ht : ∀ k, i ≤ k → binaryLevel t.type ≠ some k) :
    Parser.Parses (Parser.level i) pre e (t :: rest) := by
  have h' : Parser.Parses (Parser.level (i + (j - i))) pre e (t :: rest) := by
    have : i + (j - i) = j := by omega
    rw [this]
    exact h
  exact Parser.Parses.lift_range (j - i) (by omega) h' ht

theorem binary_operators_left_associate_witness :
    Parser.IsPrimary [⟨.Number, "7", 1, 1⟩] (.IntLiteral {} 7) ∧
    (∀ s ∈ ([(⟨.Minus, "-", 1, 3⟩, [⟨.Number, "2", 1, 5⟩], .IntLiteral {} 2),
        (⟨.Plus, "+", 1, 7⟩, [⟨.Identifier, "a", 1, 9⟩], .Variable ⟨1, 9⟩ "a")] :
          List Parser.Step),
      binaryLevel s.1.type = some 2 ∧ Parser.IsPrimary s.2.1 s.2.2) ∧
    Parser.EndsExpr ⟨.Semicolon, ";", 1, 10⟩ ∧
    Parser.Parses Parser.expression
      [⟨.Number, "7", 1, 1⟩, ⟨.Minus, "-", 1, 3⟩, ⟨.Number, "2", 1, 5⟩, ⟨.Plus, "+", 1, 7⟩,
        ⟨.Identifier, "a", 1, 9⟩]
      (.BinaryExpr {} "+" (.BinaryExpr {} "-" (.IntLiteral {} 7) (.IntLiteral {} 2))
        (.Variable ⟨1, 9⟩ "a"))
      [⟨.Semicolon, ";", 1, 10⟩, ⟨.EndOfFile, "", 1, 11⟩] := by
  have h1 : Parser.IsPrimary [⟨.Number, "7", 1, 1⟩] (.IntLiteral {} 7) :=
    Parser.IsPrimary.number rfl rfl
  have h2 : ∀ s ∈ ([(⟨.Minus, "-", 1, 3⟩, [⟨.Number, "2", 1, 5⟩], .IntLiteral {} 2),
        (⟨.Plus, "+", 1, 7⟩, [⟨.Identifier, "a", 1, 9⟩], .Variable ⟨1, 9⟩ "a")] :
          List Parser.Step),
      binaryLevel s.1.type = some 2 ∧ Parser.IsPrimary s.2.1 s.2.2 := by
    intro s hs
    simp only [List.mem_cons, List.mem_singleton, List.not_mem_nil, or_false] at hs
    rcases hs with rfl | rfl
    · exact ⟨rfl, Parser.IsPrimary.number rfl rfl⟩
    · exact ⟨rfl, Parser.IsPrimary.variable rfl⟩
  have h3 : Parser.EndsExpr ⟨.Semicolon, ";", 1, 10⟩ := ⟨rfl, by decide, by decide⟩
  exact ⟨h1, h2, h3,
    binary_operators_left_associate 2 _ _ _ _ [⟨.EndOfFile, "", 1, 11⟩] h1 h2 h3⟩

/-- C2. Binary operator precedence is equality < comparison < additive <
multiplicative < unary. For primary operands `x`, `y`, `z` and operator
tokens `o1` of level `l1` and `o2` of a strictly higher level `l2`,
`Parser::expression` reads `x o1 y o2 z` as
`BinaryExpr(o1, x, BinaryExpr(o2, y, z))` and `x o2 y o1 z` as
`BinaryExpr(o1, BinaryExpr(o2, x, y), z)`; and for a unary operator `u`
(`-` or `!`) it reads `u x o1 y` as `BinaryExpr(o1, UnaryExpr(u, x), y)`,
whatever the level of the binary operator. -/
theorem operator_precedence (tx ty tz : List Token) (x y z : Expr) (o1 o2 u tend : Token)
    (rest : List Token) (l1 l2 : Nat)
    (hx : Parser.IsPrimary tx x) (hy : Parser.IsPrimary ty y) (hz : Parser.IsPrimary tz z)
    (h1 : binaryLevel o1.type = some l1) (h2 : binaryLevel o2.type = some l2) (hlt : l1 < l2)
    (hu : u.type = .Minus ∨ u.type = .Not) (hend : Parser.EndsExpr tend) :
    Parser.Parses Parser.expression (tx ++ o1 :: ty ++ o2 :: tz)
        (.BinaryExpr {} o1.text x (.BinaryExpr {} o2.text y z)) (tend :: rest) ∧
      Parser.Parses Parser.expression (tx ++ o2 :: ty ++ o1 :: tz)
        (.BinaryExpr {} o1.text (.BinaryExpr {} o2.text x y) z) (tend :: rest) ∧
      Parser.Parses Parser.expression (u :: tx ++ o1 :: ty)
        (.BinaryExpr {} o1.text (.UnaryExpr {} u.text x) y) (tend :: rest) ∧
      Parser.Parses Parser.expression (u :: tx ++ o2 :: ty)
        (.BinaryExpr {} o2.text (.UnaryExpr {} u.text x) y) (tend :: rest) := by
  have hl2 : l2 ≤ 3 := by
    have hmem := (Parser.mem_levelOps_iff l2 o2.type).mpr h2
    match l2, hmem with
    | 0, _ => omega
    | 1, _ => omega
    | 2, _ => omega
    | 3, _ => omega
    | n + 4, hmem => simp [Parser.levelOps] at hmem
  have hl1 : l1 ≤ 3 := by omega
  have hnoParen : ∀ (o : Token) (l : Nat), binaryLevel o.type = some l →
      o.type ≠ .LParen ∧ o.type ≠ .LBracket := by
    intro o l ho
    constructor <;> (intro h; rw [h] at ho; simp [binaryLevel] at ho)
  have habove : ∀ (o : Token) (l : Nat), binaryLevel o.type = some l →
      ∀ j, l + 1 ≤ j → binaryLevel o.type ≠ some j := by
    intro o l ho j hj h
    rw [ho] at h
    have := Option.some.inj h
    omega
  have hnone : ∀ j : Nat, 0 ≤ j → binaryLevel tend.type ≠ some j := fun j _ => hend.not_level j
  -- an operand that ends the expression, at any level
  have last : ∀ (j : Nat) (ts : List Token) (e : Expr), j ≤ 4 → Parser.IsPrimary ts e →
      Parser.Parses (Parser.level j) ts e (tend :: rest) := by
    intro j ts e hj he
    exact Parser.IsPrimary.level he j hj hend.2.1 hend.2.2 (fun k _ => hend.not_level k)
  -- a unary operand in front of a binary operator `o` of any level `l`
  have unaryCase : ∀ (o : Token) (l : Nat), binaryLevel o.type = some l → l ≤ 3 →
      Parser.Parses Parser.expression (u :: tx ++ o :: ty)
        (.BinaryExpr {} o.text (.UnaryExpr {} u.text x) y) (tend :: rest) := by
    intro o l ho hl
    have hux4 : Parser.Parses (Parser.level 4) (u :: tx) (.UnaryExpr {} u.text x)
        (o :: (ty ++ tend :: rest)) :=
      Parser.Parses.unary_op hu
        (Parser.Parses.unary_of_primary (hx o _ (hnoParen o l ho).1 (hnoParen o l ho).2))
    have hux := Parser.Parses.lower (i := l + 1) (by omega) (by omega) hux4 (habove o l ho)
    have hb := Parser.Parses.binary hl ho hux (last (l + 1) ty y (by omega) hy)
      (hend.not_level l)
    have := Parser.Parses.to_expression l (by omega) hend hb
    simpa using this
  refine ⟨?_, ?_, unaryCase o1 l1 h1 hl1, unaryCase o2 l2 h2 hl2⟩
  · -- x o1 (y o2 z)
    have hy2 := Parser.IsPrimary.level hy (l2 + 1) (by omega) (t := o2)
      (r := tz ++ tend :: rest) (hnoParen o2 l2 h2).1 (hnoParen o2 l2 h2).2 (habove o2 l2 h2)
    have hyz := Parser.Parses.binary hl2 h2 hy2 (last (l2 + 1) tz z (by omega) hz)
      (hend.not_level l2)
    have hyz1 := Parser.Parses.lower (i := l1 + 1) (by omega) (by omega) hyz
      (fun k _ => hend.not_level k)
    have hx1 := Parser.IsPrimary.level hx (l1 + 1) (by omega) (t := o1)
      (r := (ty ++ o2 :: tz) ++ tend :: rest) (hnoParen o1 l1 h1).1 (hnoParen o1 l1 h1).2
      (habove o1 l1 h1)
    have hb := Parser.Parses.binary hl1 h1 hx1 hyz1 (hend.not_level l1)
    have := Parser.Parses.to_expression l1 (by omega) hend hb
    simpa using this
  · -- (x o2 y) o1 z
    have hx2 := Parser.IsPrimary.level hx (l2 + 1) (by omega) (t := o2)
      (r := ty ++ o1 :: (tz ++ tend :: rest)) (hnoParen o2 l2 h2).1 (hnoParen o2 l2 h2).2
      (habove o2 l2 h2)
    have hy2 := Parser.IsPrimary.level hy (l2 + 1) (by omega) (t := o1)
      (r := tz ++ tend :: rest) (hnoParen o1 l1 h1).1 (hnoParen o1 l1 h1).2
      (fun j hj => habove o1 l1 h1 j (by omega))
    have hne12 : binaryLevel o1.type ≠ some l2 := habove o1 l1 h1 l2 (by omega)
    have hxy := Parser.Parses.binary hl2 h2 hx2 hy2 hne12
    have hxy1 := Parser.Parses.lower (i := l1 + 1) (by omega) (by omega) hxy (habove o1 l1 h1)
    have hb := Parser.Parses.binary hl1 h1 hxy1 (last (l1 + 1) tz z (by omega) hz)
      (hend.not_level l1)
    have := Parser.Parses.to_expression l1 (by omega) hend hb
    simpa using this

theorem operator_precedence_witness :
    Parser.IsPrimary [⟨.Number, "1", 1, 1⟩] (.IntLiteral {} 1) ∧
    Parser.IsPrimary [⟨.Number, "2", 1, 5⟩] (.IntLiteral {} 2) ∧
    Parser.IsPrimary [⟨.Number, "3", 1, 9⟩] (.IntLiteral {} 3) ∧
    binaryLevel TokenType.Plus = some 2 ∧ binaryLevel TokenType.Star = some 3 ∧
    Parser.EndsExpr ⟨.Semicolon, ";", 1, 10⟩ ∧
    Parser.Parses Parser.expression
      [⟨.Number, "1", 1, 1⟩, ⟨.Plus, "+", 1, 3⟩, ⟨.Number, "2", 1, 5⟩, ⟨.Star, "*", 1, 7⟩,
        ⟨.Number, "3", 1, 9⟩]
      (.BinaryExpr {} "+" (.IntLiteral {} 1) (.BinaryExpr {} "*" (.IntLiteral {} 2)
        (.IntLiteral {} 3)))
      [⟨.Semicolon, ";", 1, 10⟩, ⟨.EndOfFile, "", 1, 11⟩] ∧
    Parser.Parses Parser.expression
      [⟨.Number, "1", 1, 1⟩, ⟨.Star, "*", 1, 7⟩, ⟨.Number, "2", 1, 5⟩, ⟨.Plus, "+", 1, 3⟩,
        ⟨.Number, "3", 1, 9⟩]
      (.BinaryExpr {} "+" (.BinaryExpr {} "*" (.IntLiteral {} 1) (.IntLiteral {} 2))
        (.IntLiteral {} 3))
      [⟨.Semicolon, ";", 1, 10⟩, ⟨.EndOfFile, "", 1, 11⟩] ∧
    Parser.Parses Parser.expression
      [⟨.Minus, "-", 1, 0⟩, ⟨.Number, "1", 1, 1⟩, ⟨.Star, "*", 1, 7⟩, ⟨.Number, "2", 1, 5⟩]
      (.BinaryExpr {} "*" (.UnaryExpr {} "-" (.IntLiteral {} 1)) (.IntLiteral {} 2))
      [⟨.Semicolon, ";", 1, 10⟩, ⟨.EndOfFile, "", 1, 11⟩] := by
  have h1 : Parser.IsPrimary [⟨.Number, "1", 1, 1⟩] (.IntLiteral {} 1) :=
    Parser.IsPrimary.number rfl rfl
  have h2 : Parser.IsPrimary [⟨.Number, "2", 1, 5⟩] (.IntLiteral {} 2) :=
    Parser.IsPrimary.number rfl rfl
  have h3 : Parser.IsPrimary [⟨.Number, "3", 1, 9⟩] (.IntLiteral {} 3) :=
    Parser.IsPrimary.number rfl rfl
  have hend : Parser.EndsExpr ⟨.Semicolon, ";", 1, 10⟩ := ⟨rfl, by decide, by decide⟩
  have h := operator_precedence _ _ _ _ _ _ ⟨.Plus, "+", 1, 3⟩ ⟨.Star, "*", 1, 7⟩
    ⟨.Minus, "-", 1, 0⟩ _ [⟨.EndOfFile, "", 1, 11⟩] 2 3 h1 h2 h3 rfl rfl (by decide)
    (Or.inl rfl) hend
  exact ⟨h1, h2, h3, rfl, rfl, hend, h.1, h.2.1, h.2.2.2⟩

/-! ## Optimizer and emitter -/

/-- The optimizer leaves a `BinaryExpr` over two integer literals as it is,
and the emitter writes it out in full, whatever the operator. -/
theorem Codegen.visitExpr_optimized_literals (node n1 n2 : Node) (op : String) (a b : Int) :
    Codegen.visitExpr
        (Optimizer.visitExpr (.BinaryExpr node op (.IntLiteral n1 a) (.IntLiteral n2 b))) =
      "(" ++ to_string_int a ++ (" " ++ op ++ " ") ++ to_string_int b ++ ")" := by
  simp [Optimizer.visitExpr, asNumber, Codegen.visitExpr]

/-- C4 (the code departs from the claim). After the optimizer has visited
`1 + 2`, a `BinaryExpr` over two integer literals, the emitter writes the
text `(1 + 2)` and not the single integer `3`. -/
theorem folded_constant_not_emitted :
    Codegen.visitExpr
        (Optimizer.visitExpr (.BinaryExpr {} "+" (.IntLiteral {} 1) (.IntLiteral {} 2))) =
      "(1 + 2)" := by
  rfl

/-- The tokens of the source `println(1 + 2 * 3);`. -/
theorem tokenize_println_example :
    tokenize "println(1 + 2 * 3);" =
      some [⟨.Println, "println", 1, 1⟩, ⟨.LParen, "(", 1, 8⟩, ⟨.Number, "1", 1, 9⟩,
        ⟨.Plus, "+", 1, 11⟩, ⟨.Number, "2", 1, 13⟩, ⟨.Star, "*", 1, 15⟩,
        ⟨.Number, "3", 1, 17⟩, ⟨.RParen, ")", 1, 18⟩, ⟨.Semicolon, ";", 1, 19⟩,
        ⟨.EndOfFile, "", 1, 20⟩] := by
  decide

/-- C5 (the code departs from the claim). For the source
`println(1 + 2 * 3);` the pipeline succeeds and the emitted print statement
prints the expression tree `(1 + (2 * 3))`, not the integer `7`. -/
theorem println_example_not_folded :
    compile "println(1 + 2 * 3);" =
      .ok (Codegen.preamble ++
        "int main() \x7b\n  std::cout << (1 + (2 * 3)) << std::endl;\n  return 0;\n\x7d\n") := by
  unfold compile
  rw [tokenize_println_example]
  rfl

/-! ## Semantic analyser -/

/-- C7. For a `BinaryExpr` whose operands are analysed with the numeric
types `lt` and `rt` (each `Int` or `Float`) and whose operator is one of
`+ - * / %`, the derived type is `Float` if either operand is `Float` and
`Int` otherwise; for `+` on two `String` operands it is `String`. -/
theorem binary_arithmetic_type (node : Node) (op : String) (left right : Expr)
    (A A1 A2 : SemanticAnalyzer) (hl : SemanticAnalyzer.visitExpr left A = .ok A1)
    (hr : SemanticAnalyzer.visitExpr right A1 = .ok A2) :
    ((op = "+" ∨ op = "-" ∨ op = "*" ∨ op = "/" ∨ op = "%") →
      (A1.lastType = .Int ∨ A1.lastType = .Float) →
      (A2.lastType = .Int ∨ A2.lastType = .Float) →
      SemanticAnalyzer.visitExpr (.BinaryExpr node op left right) A =
        .ok { A2 with lastType :=
          if A1.lastType = .Float ∨ A2.lastType = .Float then .Float else .Int }) ∧
    (op = "+" → A1.lastType = .String → A2.lastType = .String →
      SemanticAnalyzer.visitExpr (.BinaryExpr node op left right) A =
        .ok { A2 with lastType := .String }) := by
  constructor
  · intro _ h1 h2
    rw [SemanticAnalyzer.visitExpr, hl]
    simp only [hr]
    rcases h1 with h1 | h1 <;> rcases h2 with h2 | h2 <;> simp [h1, h2]
  · intro hop h1 h2
    rw [SemanticAnalyzer.visitExpr, hl]
    simp only [hr]
    simp [h1, h2, hop]

theorem binary_arithmetic_type_witness :
    SemanticAnalyzer.visitExpr (.IntLiteral {} 1) {} = .ok { lastType := .Int } ∧
    SemanticAnalyzer.visitExpr (.FloatLiteral {} ⟨false, 1024, 1125899906842624⟩) { lastType := .Int } =
      .ok { lastType := .Float } ∧
    SemanticAnalyzer.visitExpr
        (.BinaryExpr {} "*" (.IntLiteral {} 1) (.FloatLiteral {} ⟨false, 1024, 1125899906842624⟩)) {} =
      .ok { lastType := .Float } :=
  ⟨rfl, rfl,
    (binary_arithmetic_type {} "*" (.IntLiteral {} 1) (.FloatLiteral {} ⟨false, 1024, 1125899906842624⟩) {}
      { lastType := .Int } { lastType := .Float } rfl rfl).1
      (Or.inr (Or.inr (Or.inl rfl))) (Or.inl rfl) (Or.inr rfl)⟩

/-- C8 (the code departs from the claim). The comparison `1.5 < 2`, on a
`Float` and an `Int` operand, is given the type `Float`: the branch for two
numeric operands returns before the operator is looked at. -/
theorem comparison_of_float_is_float :
    SemanticAnalyzer.visitExpr
        (.BinaryExpr {} "<" (.FloatLiteral {} ⟨false, 1023, 2251799813685248⟩) (.IntLiteral {} 2)) {} =
      .ok { lastType := .Float } := by
  rfl

/-- Whatever the operator, two numeric operands one of which is `Float`
give the type `Float`. -/
theorem SemanticAnalyzer.visitExpr_binary_float (node : Node) (op : String)
    (left right : Expr) (A A1 A2 : SemanticAnalyzer)
    (hl : SemanticAnalyzer.visitExpr left A = .ok A1)
    (hr : SemanticAnalyzer.visitExpr right A1 = .ok A2)
    (h1 : A1.lastType = .Float) (h2 : A2.lastType = .Int ∨ A2.lastType = .Float) :
    SemanticAnalyzer.visitExpr (.BinaryExpr node op left right) A =
      .ok { A2 with lastType := .Float } := by
  rw [SemanticAnalyzer.visitExpr, hl]
  simp only [hr]
  rcases h2 with h2 | h2 <;> simp [h1, h2]

theorem StdMap.find_set_self {V : Type} (m : StdMap V) (key : String) (v : V) :
    (m.set key v).find key = some v := by
  induction m with
  | nil => simp [StdMap.set, StdMap.find]
  | cons p m ih =>
    obtain ⟨k, w⟩ := p
    by_cases h : k = key
    · simp [StdMap.set, StdMap.find, h]
    · simp [StdMap.set, StdMap.find, h, ih]

theorem StdMap.find_set_of_ne {V : Type} (m : StdMap V) (key other : String) (v : V)
    (h : other ≠ key) : (m.set key v).find other = m.find other := by
  induction m with
  | nil =>
    have : key ≠ other := fun hh => h hh.symm
    simp [StdMap.set, StdMap.find, this]
  | cons p m ih =>
    obtain ⟨k, w⟩ := p
    by_cases hk : k = key
    · have : key ≠ other := fun hh => h hh.symm
      simp [StdMap.set, StdMap.find, hk, this]
    · by_cases ho : k = other
      · subst ho
        simp [StdMap.set, StdMap.find, hk]
      · simp [StdMap.set, StdMap.find, hk, ho, ih]

/-- C9. With a non-empty scope stack (innermost scope `scope`, enclosing
scopes `outer`), `declare(name, type)` throws, with the message
"Variable 'name' already declared in this scope.", exactly when `name` is a
key of the innermost scope. Otherwise it returns, the enclosing scopes and
everything else in the analyser are unchanged, and the innermost scope maps
`name` to `type` with `isDefined = false` and every other key as before:
a name held by an enclosing scope only is accepted and shadowed. -/
theorem declare_spec (A : SemanticAnalyzer) (scope : StdMap SymbolInfo)
    (outer : List (StdMap SymbolInfo)) (name : String) (type : Ty)
    (hA : A.scopes = scope :: outer) :
    ((∃ e, A.declare name type = .error e) ↔ (scope.find name).isSome) ∧
    ((scope.find name).isSome → A.declare name type =
      .error ⟨"Variable '" ++ name ++ "' already declared in this scope.", 0, 0⟩) ∧
    ((scope.find name).isSome = false →
      ∃ scope1, A.declare name type = .ok { A with scopes := scope1 :: outer } ∧
        scope1.find name = some ⟨false, type⟩ ∧
        (∀ other, other ≠ name → scope1.find other = scope.find other) ∧
        ({ A with scopes := scope1 :: outer } : SemanticAnalyzer).resolve name =
          some ⟨false, type⟩) := by
  by_cases h : (scope.find name).isSome
  · have herr : A.declare name type =
        .error ⟨"Variable '" ++ name ++ "' already declared in this scope.", 0, 0⟩ := by
      simp [SemanticAnalyzer.declare, hA, h]
    refine ⟨⟨fun _ => h, fun _ => ⟨_, herr⟩⟩, fun _ => herr, fun hn => ?_⟩
    · rw [h] at hn
      cases hn
  · refine ⟨⟨fun ⟨e, he⟩ => ?_, fun hs => absurd hs h⟩, fun hs => absurd hs h, fun _ => ?_⟩
    · simp [SemanticAnalyzer.declare, hA, h] at he
    · refine ⟨scope.set name ⟨false, type⟩, ?_, StdMap.find_set_self _ _ _,
        fun other ho => StdMap.find_set_of_ne _ _ _ _ ho, ?_⟩
      · simp [SemanticAnalyzer.declare, hA, h]
      · simp [SemanticAnalyzer.resolve, resolveIn, StdMap.find_set_self]

theorem declare_spec_witness :
    ({ scopes := [[], [("x", ⟨true, .Int⟩)]] } : SemanticAnalyzer).scopes =
      [] :: [[("x", ⟨true, .Int⟩)]] ∧
    (({ scopes := [[], [("x", ⟨true, .Int⟩)]] } : SemanticAnalyzer).declare "x" .Float =
      .ok { scopes := [[("x", ⟨false, .Float⟩)], [("x", ⟨true, .Int⟩)]] }) ∧
    ((∃ e, ({ scopes := [[], [("x", ⟨true, .Int⟩)]] } : SemanticAnalyzer).declare "x" .Float =
      .error e) ↔ (StdMap.find ([] : StdMap SymbolInfo) "x").isSome) :=
  ⟨rfl, rfl,
    (declare_spec { scopes := [[], [("x", ⟨true, .Int⟩)]] } [] [[("x", ⟨true, .Int⟩)]] "x"
      .Float rfl).1⟩

/-- The tokens of the source `let x = 1; let x = 2;`. -/
theorem tokenize_redeclaration_example :
    tokenize "let x = 1; let x = 2;" =
      some [⟨.Let, "let", 1, 1⟩, ⟨.Identifier, "x", 1, 5⟩, ⟨.Assign, "=", 1, 7⟩,
        ⟨.Number, "1", 1, 9⟩, ⟨.Semicolon, ";", 1, 10⟩, ⟨.Let, "let", 1, 12⟩,
        ⟨.Identifier, "x", 1, 16⟩, ⟨.Assign, "=", 1, 18⟩, ⟨.Number, "2", 1, 20⟩,
        ⟨.Semicolon, ";", 1, 21⟩, ⟨.EndOfFile, "", 1, 22⟩] := by
  decide

/-- C10 (the code departs from the claim). The program
`let x = 1; let x = 2;` fails in the semantic phase with the message
"Variable 'x' already declared in this scope." and no target text, but the
error carries line 0 and column 0, not the position (line 1, column 12 or
16) of the second declaration. -/
theorem redeclaration_error_has_no_position :
    compile "let x = 1; let x = 2;" =
      .error ⟨"semantic", "Variable 'x' already declared in this scope.", 0, 0⟩ := by
  unfold compile
  rw [tokenize_redeclaration_example]
  rfl


theorem SemanticAnalyzer.Stable.ok_of_eq {A B A1 B1 : SemanticAnalyzer}
    (h1 : A1.scopes = A.scopes) (h2 : A1.functions = A.functions)
    (h3 : B1.lastType = A1.lastType) (h4 : B1.scopes = B.scopes)
    (h5 : B1.functions = B.functions) :
    SemanticAnalyzer.Stable (.ok A1) A (.ok B1) B := by
  intro A2 h
  cases h
  exact ⟨h1, h2, B1, rfl, h3, h4, h5⟩

theorem SemanticAnalyzer.Stable.of_error {A B : SemanticAnalyzer} (e : SemanticError)
    (r : SResult) : SemanticAnalyzer.Stable (.error e) A r B := by
  intro A2 h
  cases h

theorem SemanticAnalyzer.StableTables.of_error_tables {A B : SemanticAnalyzer} (e : SemanticError)
    (r : SResult) : SemanticAnalyzer.StableTables (.error e) A r B := by
  intro A2 h
  cases h

theorem SemanticAnalyzer.Stable.toTables {A B : SemanticAnalyzer} {r rB : SResult}
    (h : SemanticAnalyzer.Stable r A rB B) : SemanticAnalyzer.StableTables r A rB B := by
  intro A1 hA1
  obtain ⟨hs1, hf1, B1, hB1, _, hsB1, hfB1⟩ := h A1 hA1
  exact ⟨hs1, hf1, B1, hB1, hsB1, hfB1⟩

theorem SemanticAnalyzer.Stable.setType {A B : SemanticAnalyzer} {r rB : SResult} (ty : Ty) :
    SemanticAnalyzer.StableTables r A rB B →
    SemanticAnalyzer.Stable
      (match r with
        | .error e => .error e
        | .ok A1 => .ok { A1 with lastType := ty }) A
      (match rB with
        | .error e => .error e
        | .ok A1 => .ok { A1 with lastType := ty }) B := by
  intro h
  cases r with
  | error e => exact SemanticAnalyzer.Stable.of_error _ _
  | ok A1 =>
    obtain ⟨hs1, hf1, B1, hB1, hsB1, hfB1⟩ := h A1 rfl
    subst hB1
    exact SemanticAnalyzer.Stable.ok_of_eq hs1 hf1 rfl hsB1 hfB1

theorem SemanticAnalyzer.Stable.lenTail {A B : SemanticAnalyzer} {r rB : SResult}
    (err : SemanticError) :
    SemanticAnalyzer.Stable r A rB B →
    SemanticAnalyzer.Stable
      (match r with
        | .error e => .error e
        | .ok A1 =>
          if A1.lastType ≠ .String then .error err else .ok { A1 with lastType := .Int }) A
      (match rB with
        | .error e => .error e
        | .ok A1 =>
          if A1.lastType ≠ .String then .error err else .ok { A1 with lastType := .Int }) B := by
  intro h
  cases r with
  | error e => exact SemanticAnalyzer.Stable.of_error _ _
  | ok A1 =>
    obtain ⟨hs1, hf1, B1, hB1, ht1, hsB1, hfB1⟩ := h A1 rfl
    subst hB1
    simp only [ht1]
    split_ifs
    · exact SemanticAnalyzer.Stable.of_error _ _
    · exact SemanticAnalyzer.Stable.ok_of_eq hs1 hf1 rfl hsB1 hfB1

theorem SemanticAnalyzer.Stable.userTail {A B : SemanticAnalyzer} {r rB : SResult}
    (hf : A.functions = B.functions) (callee : String) (err : SemanticError) :
    SemanticAnalyzer.StableTables r A rB B →
    SemanticAnalyzer.Stable
      (match r with
        | .error e => .error e
        | .ok A1 =>
          match A1.functions.find callee with
          | none => .error err
          | some info =>
            if info.returnType = .Unknown then .ok { A1 with lastType := .Int }
            else .ok { A1 with lastType := info.returnType }) A
      (match rB with
        | .error e => .error e
        | .ok A1 =>
          match A1.functions.find callee with
          | none => .error err
          | some info =>
            if info.returnType = .Unknown then .ok { A1 with lastType := .Int }
            else .ok { A1 with lastType := info.returnType }) B := by
  intro h
  cases r with
  | error e => exact SemanticAnalyzer.Stable.of_error _ _
  | ok A1 =>
    obtain ⟨hs1, hf1, B1, hB1, hsB1, hfB1⟩ := h A1 rfl
    subst hB1
    simp only
    rw [show A1.functions.find callee = B1.functions.find callee from by
      rw [hf1, hfB1, hf]]
    cases B1.functions.find callee with
    | none => exact SemanticAnalyzer.Stable.of_error _ _
    | some info =>
      simp only
      split_ifs
      · exact SemanticAnalyzer.Stable.ok_of_eq hs1 hf1 rfl hsB1 hfB1
      · exact SemanticAnalyzer.Stable.ok_of_eq hs1 hf1 rfl hsB1 hfB1

mutual

theorem SemanticAnalyzer.visitExpr_stable : ∀ (e : Expr) (A B : SemanticAnalyzer),
    A.scopes = B.scopes → A.functions = B.functions →
    SemanticAnalyzer.Stable (SemanticAnalyzer.visitExpr e A) A
      (SemanticAnalyzer.visitExpr e B) B
  | .IntLiteral _ _, A, B, hs, hf => by
    simp only [SemanticAnalyzer.visitExpr]
    exact SemanticAnalyzer.Stable.ok_of_eq rfl rfl rfl rfl rfl
  | .FloatLiteral _ _, A, B, hs, hf => by
    simp only [SemanticAnalyzer.visitExpr]
    exact SemanticAnalyzer.Stable.ok_of_eq rfl rfl rfl rfl rfl
  | .StringLiteral _ _, A, B, hs, hf => by
    simp only [SemanticAnalyzer.visitExpr]
    exact SemanticAnalyzer.Stable.ok_of_eq rfl rfl rfl rfl rfl
  | .Variable node name, A, B, hs, hf => by
    simp only [SemanticAnalyzer.visitExpr, SemanticAnalyzer.resolve]
    rw [show resolveIn A.scopes name = resolveIn B.scopes name from by rw [hs]]
    cases resolveIn B.scopes name with
    | none => exact SemanticAnalyzer.Stable.of_error _ _
    | some info => exact SemanticAnalyzer.Stable.ok_of_eq rfl rfl rfl rfl rfl
  | .BinaryExpr node op left right, A, B, hs, hf => by
    have ihl := SemanticAnalyzer.visitExpr_stable left A B hs hf
    simp only [SemanticAnalyzer.visitExpr]
    cases hl : SemanticAnalyzer.visitExpr left A with
    | error e => exact SemanticAnalyzer.Stable.of_error _ _
    | ok A1 =>
      obtain ⟨hs1, hf1, B1, hB1, ht1, hsB1, hfB1⟩ := ihl A1 hl
      have ihr := SemanticAnalyzer.visitExpr_stable right A1 B1 (by rw [hs1, hsB1, hs])
        (by rw [hf1, hfB1, hf])
      rw [hB1]
      simp only
      cases hr : SemanticAnalyzer.visitExpr right A1 with
      | error e => exact SemanticAnalyzer.Stable.of_error _ _
      | ok A2 =>
        obtain ⟨hs2, hf2, B2, hB2, ht2, hsB2, hfB2⟩ := ihr A2 hr
        rw [hB2]
        simp only [ht1, ht2]
        split_ifs
        · exact SemanticAnalyzer.Stable.ok_of_eq (hs2.trans hs1) (hf2.trans hf1) rfl
            (hsB2.trans hsB1) (hfB2.trans hfB1)
        · exact SemanticAnalyzer.Stable.ok_of_eq (hs2.trans hs1) (hf2.trans hf1) rfl
            (hsB2.trans hsB1) (hfB2.trans hfB1)
        · exact SemanticAnalyzer.Stable.ok_of_eq (hs2.trans hs1) (hf2.trans hf1) rfl
            (hsB2.trans hsB1) (hfB2.trans hfB1)
        · exact SemanticAnalyzer.Stable.ok_of_eq (hs2.trans hs1) (hf2.trans hf1) rfl
            (hsB2.trans hsB1) (hfB2.trans hfB1)
        · exact SemanticAnalyzer.Stable.of_error _ _
  | .UnaryExpr _ op operand, A, B, hs, hf => by
    have ih := SemanticAnalyzer.visitExpr_stable operand A B hs hf
    simp only [SemanticAnalyzer.visitExpr]
    cases h : SemanticAnalyzer.visitExpr operand A with
    | error e => exact SemanticAnalyzer.Stable.of_error _ _
    | ok A1 =>
      obtain ⟨hs1, hf1, B1, hB1, ht1, hsB1, hfB1⟩ := ih A1 h
      rw [hB1]
      simp only
      split_ifs
      · exact SemanticAnalyzer.Stable.ok_of_eq hs1 hf1 rfl hsB1 hfB1
      · exact SemanticAnalyzer.Stable.ok_of_eq hs1 hf1 ht1 hsB1 hfB1
  | .CallExpr node callee [], A, B, hs, hf => by
    have ih := SemanticAnalyzer.visitArgs_stable [] A B hs hf
    simp only [SemanticAnalyzer.visitExpr]
    split_ifs
    all_goals first
      | exact SemanticAnalyzer.Stable.of_error _ _
      | exact SemanticAnalyzer.Stable.ok_of_eq rfl rfl rfl rfl rfl
      | exact SemanticAnalyzer.Stable.setType _ ih
      | exact SemanticAnalyzer.Stable.userTail hf _ _ ih
  | .CallExpr node callee [arg], A, B, hs, hf => by
    have ih := SemanticAnalyzer.visitArgs_stable [arg] A B hs hf
    have iha := SemanticAnalyzer.visitExpr_stable arg A B hs hf
    simp only [SemanticAnalyzer.visitExpr]
    split_ifs
    all_goals first
      | exact SemanticAnalyzer.Stable.of_error _ _
      | exact SemanticAnalyzer.Stable.ok_of_eq rfl rfl rfl rfl rfl
      | exact SemanticAnalyzer.Stable.setType _ ih
      | exact SemanticAnalyzer.Stable.userTail hf _ _ ih
      | exact SemanticAnalyzer.Stable.setType _ iha.toTables
      | exact SemanticAnalyzer.Stable.lenTail _ iha
  | .CallExpr node callee (a :: b :: rest), A, B, hs, hf => by
    have ih := SemanticAnalyzer.visitArgs_stable (a :: b :: rest) A B hs hf
    simp only [SemanticAnalyzer.visitExpr]
    split_ifs
    all_goals first
      | exact SemanticAnalyzer.Stable.of_error _ _
      | exact SemanticAnalyzer.Stable.ok_of_eq rfl rfl rfl rfl rfl
      | exact SemanticAnalyzer.Stable.setType _ ih
      | exact SemanticAnalyzer.Stable.userTail hf _ _ ih
  | .ArrayAccess node name index, A, B, hs, hf => by
    simp only [SemanticAnalyzer.visitExpr, SemanticAnalyzer.resolve]
    rw [show resolveIn A.scopes name = resolveIn B.scopes name from by rw [hs]]
    cases resolveIn B.scopes name with
    | none => exact SemanticAnalyzer.Stable.of_error _ _
    | some info =>
      simp only
      generalize hA0 : (if (!info.isDefined) = true then
        ({ A with cerr := A.cerr ++
          ["Warning: Possible read of uninitialized variable '" ++ name ++ "'\n"] } :
            SemanticAnalyzer) else A) = A0
      generalize hB0 : (if (!info.isDefined) = true then
        ({ B with cerr := B.cerr ++
          ["Warning: Possible read of uninitialized variable '" ++ name ++ "'\n"] } :
            SemanticAnalyzer) else B) = B0
      have hsA0 : A0.scopes = A.scopes ∧ A0.functions = A.functions := by
        subst hA0
        split_ifs <;> exact ⟨rfl, rfl⟩
      have hsB0 : B0.scopes = B.scopes ∧ B0.functions = B.functions := by
        subst hB0
        split_ifs <;> exact ⟨rfl, rfl⟩
      have ih := SemanticAnalyzer.visitExpr_stable index A0 B0
        (by rw [hsA0.1, hsB0.1, hs]) (by rw [hsA0.2, hsB0.2, hf])
      cases h : SemanticAnalyzer.visitExpr index A0 with
      | error e => exact SemanticAnalyzer.Stable.of_error _ _
      | ok A1 =>
        obtain ⟨hs1, hf1, B1, hB1, ht1, hsB1, hfB1⟩ := ih A1 h
        rw [hB1]
        simp only [ht1]
        split_ifs
        · exact SemanticAnalyzer.Stable.of_error _ _
        · exact SemanticAnalyzer.Stable.ok_of_eq (hs1.trans hsA0.1) (hf1.trans hsA0.2) rfl
            (hsB1.trans hsB0.1) (hfB1.trans hsB0.2)

theorem SemanticAnalyzer.visitArgs_stable : ∀ (es : List Expr) (A B : SemanticAnalyzer),
    A.scopes = B.scopes → A.functions = B.functions →
    SemanticAnalyzer.StableTables (SemanticAnalyzer.visitArgs es A) A
      (SemanticAnalyzer.visitArgs es B) B
  | [], A, B, hs, hf => by
    simp only [SemanticAnalyzer.visitArgs]
    intro A1 h
    cases h
    exact ⟨rfl, rfl, B, rfl, rfl, rfl⟩
  | e :: es, A, B, hs, hf => by
    have ih := SemanticAnalyzer.visitExpr_stable e A B hs hf
    simp only [SemanticAnalyzer.visitArgs]
    cases h : SemanticAnalyzer.visitExpr e A with
    | error e => exact SemanticAnalyzer.StableTables.of_error_tables _ _
    | ok A1 =>
      obtain ⟨hs1, hf1, B1, hB1, ht1, hsB1, hfB1⟩ := ih A1 h
      have ihs := SemanticAnalyzer.visitArgs_stable es A1 B1 (by rw [hs1, hsB1, hs])
        (by rw [hf1, hfB1, hf])
      rw [hB1]
      simp only
      intro A2 h2
      obtain ⟨hs2, hf2, B2, hB2, hsB2, hfB2⟩ := ihs A2 h2
      exact ⟨hs2.trans hs1, hf2.trans hf1, B2, hB2, hsB2.trans hsB1, hfB2.trans hfB1⟩

end


/-- C6. An `AssignStmt` whose target does not resolve is rejected. When the
target resolves to a variable of declared type `info.type`, the value is
analysed with type `A1.lastType` and the index, if present, with type `Int`,
the analyser accepts the statement if and only if the value type equals the
target type or the target is `Float` and the value `Int`; otherwise it
throws "Type mismatch in assignment". -/
theorem assignment_type_rule (node : Node) (name : String) (index : Option Expr)
    (value : Expr) (A : SemanticAnalyzer) :
    (A.resolve name = none →
      SemanticAnalyzer.visitStmt (.AssignStmt node name index value) A =
        .error ⟨"Assignment to undefined variable '" ++ name ++ "'", node.line, node.col⟩) ∧
    (∀ (info : SymbolInfo) (A1 : SemanticAnalyzer), A.resolve name = some info →
      SemanticAnalyzer.visitExpr value A = .ok A1 →
      (∀ idx, index = some idx →
        ∃ A2, SemanticAnalyzer.visitExpr idx A1 = .ok A2 ∧ A2.lastType = .Int) →
      ((∃ A3, SemanticAnalyzer.visitStmt (.AssignStmt node name index value) A = .ok A3) ↔
          (A1.lastType = info.type ∨ (info.type = .Float ∧ A1.lastType = .Int))) ∧
        (¬ (A1.lastType = info.type ∨ (info.type = .Float ∧ A1.lastType = .Int)) →
          SemanticAnalyzer.visitStmt (.AssignStmt node name index value) A =
            .error ⟨"Type mismatch in assignment", node.line, node.col⟩)) := by
  constructor
  · intro hres
    simp only [SemanticAnalyzer.visitStmt, hres]
  · intro info A1 hres hval hidx
    have hA1 := SemanticAnalyzer.visitExpr_stable value A A rfl rfl A1 hval
    by_cases hc : A1.lastType = info.type ∨ (info.type = .Float ∧ A1.lastType = .Int)
    · have hcond : ¬ (info.type ≠ A1.lastType ∧ ¬ (info.type = .Float ∧ A1.lastType = .Int)) := by
        rintro ⟨h1, h2⟩
        rcases hc with h | h
        · exact h1 h.symm
        · exact h2 h
      have hacc : ∃ A3, SemanticAnalyzer.visitStmt (.AssignStmt node name index value) A =
          .ok A3 := by
        simp only [SemanticAnalyzer.visitStmt, hres, hval, if_neg hcond]
        cases index with
        | none =>
          obtain ⟨_, _, B1, hB1, _⟩ :=
            SemanticAnalyzer.visitExpr_stable value A A1 hA1.1.symm hA1.2.1.symm A1 hval
          simp only [SemanticAnalyzer.visitIndex, hB1]
          exact ⟨_, rfl⟩
        | some idx =>
          obtain ⟨A2, hA2, hInt⟩ := hidx idx rfl
          have hA2s := SemanticAnalyzer.visitExpr_stable idx A1 A1 rfl rfl A2 hA2
          obtain ⟨_, _, B1, hB1, _⟩ :=
            SemanticAnalyzer.visitExpr_stable value A A2 (by rw [hA2s.1, hA1.1])
              (by rw [hA2s.2.1, hA1.2.1]) A1 hval
          simp only [SemanticAnalyzer.visitIndex, hA2, hInt, ne_eq, not_true_eq_false,
            if_false, hB1]
          exact ⟨_, rfl⟩
      exact ⟨⟨fun _ => hc, fun _ => hacc⟩, fun h => absurd hc h⟩
    · have hcond : info.type ≠ A1.lastType ∧ ¬ (info.type = .Float ∧ A1.lastType = .Int) :=
        ⟨fun h => hc (Or.inl h.symm), fun h => hc (Or.inr h)⟩
      have herr : SemanticAnalyzer.visitStmt (.AssignStmt node name index value) A =
          .error ⟨"Type mismatch in assignment", node.line, node.col⟩ := by
        simp only [SemanticAnalyzer.visitStmt, hres, hval, if_pos hcond]
      refine ⟨⟨fun ⟨A3, h3⟩ => ?_, fun h => absurd h hc⟩, fun _ => herr⟩
      rw [herr] at h3
      cases h3

theorem assignment_type_rule_witness :
    SemanticAnalyzer.resolve { scopes := [[("x", ⟨true, .Float⟩)]] } "x" =
      some ⟨true, .Float⟩ ∧
    SemanticAnalyzer.visitExpr (.IntLiteral {} 1) { scopes := [[("x", ⟨true, .Float⟩)]] } =
      .ok { scopes := [[("x", ⟨true, .Float⟩)]], lastType := .Int } ∧
    ((∃ A3, SemanticAnalyzer.visitStmt (.AssignStmt {} "x" none (.IntLiteral {} 1))
        { scopes := [[("x", ⟨true, .Float⟩)]] } = .ok A3) ↔
      (Ty.Int = Ty.Float ∨ (Ty.Float = Ty.Float ∧ Ty.Int = Ty.Int))) :=
  ⟨rfl, rfl,
    ((assignment_type_rule {} "x" none (.IntLiteral {} 1)
      { scopes := [[("x", ⟨true, .Float⟩)]] }).2 ⟨true, .Float⟩
      { scopes := [[("x", ⟨true, .Float⟩)]], lastType := .Int } rfl rfl
      (fun _ h => Option.noConfusion h)).1⟩


/-! ## Semantic analyser: scopes and the function table -/

theorem SemanticAnalyzer.SameFrame.rfl_frame (A : SemanticAnalyzer) :
    SemanticAnalyzer.SameFrame A A := ⟨rfl, rfl, rfl⟩

theorem SemanticAnalyzer.SameFrame.trans_frame {A B C : SemanticAnalyzer}
    (h1 : SemanticAnalyzer.SameFrame A B) (h2 : SemanticAnalyzer.SameFrame B C) :
    SemanticAnalyzer.SameFrame A C :=
  ⟨h2.1.trans h1.1, h2.2.1.trans h1.2.1, h2.2.2.trans h1.2.2⟩

theorem SemanticAnalyzer.SameFrame.of_scopes_eq {A B : SemanticAnalyzer}
    (hs : B.scopes = A.scopes) (hf : B.functions = A.functions) :
    SemanticAnalyzer.SameFrame A B := ⟨hf, by rw [hs], by rw [hs]⟩

theorem SemanticAnalyzer.Framed.of_ok {A A1 : SemanticAnalyzer}
    (h : SemanticAnalyzer.SameFrame A A1) : SemanticAnalyzer.Framed A (.ok A1) := by
  intro A2 h2
  cases h2
  exact h

theorem SemanticAnalyzer.Framed.of_fail (A : SemanticAnalyzer) (e : SemanticError) :
    SemanticAnalyzer.Framed A (.error e) := by
  intro A2 h2
  cases h2

theorem SemanticAnalyzer.Framed.bind {A : SemanticAnalyzer} {r : SResult}
    {k : SemanticAnalyzer → SResult} :
    SemanticAnalyzer.Framed A r →
    (∀ A1, r = .ok A1 → SemanticAnalyzer.Framed A1 (k A1)) →
    SemanticAnalyzer.Framed A
      (match r with
        | .error e => .error e
        | .ok A1 => k A1) := by
  intro h hk
  cases r with
  | error e => exact SemanticAnalyzer.Framed.of_fail _ _
  | ok A1 =>
    intro A2 h2
    exact (h A1 rfl).trans_frame (hk A1 rfl A2 h2)

theorem SemanticAnalyzer.visitExpr_framed (e : Expr) (A : SemanticAnalyzer) :
    SemanticAnalyzer.Framed A (SemanticAnalyzer.visitExpr e A) := by
  intro A1 h
  obtain ⟨hs, hf, _⟩ := SemanticAnalyzer.visitExpr_stable e A A rfl rfl A1 h
  exact SemanticAnalyzer.SameFrame.of_scopes_eq hs hf

theorem SemanticAnalyzer.visitOptExpr_framed (e : Option Expr) (A : SemanticAnalyzer) :
    SemanticAnalyzer.Framed A (SemanticAnalyzer.visitOptExpr e A) := by
  cases e with
  | none => exact SemanticAnalyzer.Framed.of_ok (SemanticAnalyzer.SameFrame.rfl_frame A)
  | some e => exact SemanticAnalyzer.visitExpr_framed e A

theorem SemanticAnalyzer.visitInit_framed (e : Option Expr) (A : SemanticAnalyzer) :
    SemanticAnalyzer.Framed A (SemanticAnalyzer.visitInit e A) := by
  cases e with
  | none => exact SemanticAnalyzer.Framed.of_ok ⟨rfl, rfl, rfl⟩
  | some e => exact SemanticAnalyzer.visitExpr_framed e A

theorem SemanticAnalyzer.visitIndex_framed (node : Node) (e : Option Expr)
    (A : SemanticAnalyzer) :
    SemanticAnalyzer.Framed A (SemanticAnalyzer.visitIndex node e A) := by
  cases e with
  | none => exact SemanticAnalyzer.Framed.of_ok (SemanticAnalyzer.SameFrame.rfl_frame A)
  | some e =>
    simp only [SemanticAnalyzer.visitIndex]
    refine SemanticAnalyzer.Framed.bind (SemanticAnalyzer.visitExpr_framed e A) ?_
    intro A1 _
    split_ifs
    · exact SemanticAnalyzer.Framed.of_fail _ _
    · exact SemanticAnalyzer.Framed.of_ok (SemanticAnalyzer.SameFrame.rfl_frame A1)

theorem SemanticAnalyzer.declare_framed (A : SemanticAnalyzer) (name : String) (type : Ty) :
    SemanticAnalyzer.Framed A (A.declare name type) := by
  unfold SemanticAnalyzer.declare
  split
  · exact SemanticAnalyzer.Framed.of_ok (SemanticAnalyzer.SameFrame.rfl_frame A)
  · rename_i scope outer hsc
    split_ifs
    · exact SemanticAnalyzer.Framed.of_fail _ _
    · exact SemanticAnalyzer.Framed.of_ok ⟨rfl, by simp [hsc], by simp [hsc]⟩

theorem SemanticAnalyzer.define_frame (A : SemanticAnalyzer) (name : String) :
    SemanticAnalyzer.SameFrame A (A.define name) := by
  unfold SemanticAnalyzer.define
  split
  · exact SemanticAnalyzer.SameFrame.rfl_frame A
  · rename_i scope outer hsc
    exact ⟨rfl, by simp [hsc], by simp [hsc]⟩

theorem SemanticAnalyzer.undefine_frame (A : SemanticAnalyzer) (name : String) :
    SemanticAnalyzer.SameFrame A (A.undefine name) := by
  unfold SemanticAnalyzer.undefine
  split
  · exact SemanticAnalyzer.SameFrame.rfl_frame A
  · rename_i scope outer hsc
    exact ⟨rfl, by simp [hsc], by simp [hsc]⟩

/-- Leaving a scope entered from `A` gives back the scopes of `A`. -/
theorem SemanticAnalyzer.SameFrame.exit_enter {A A1 : SemanticAnalyzer}
    (h : SemanticAnalyzer.SameFrame A.enterScope A1) :
    SemanticAnalyzer.SameFrame A A1.exitScope ∧ A1.exitScope.scopes = A.scopes := by
  obtain ⟨hf, hl, ht⟩ := h
  have hs : A1.exitScope.scopes = A.scopes := by
    simpa [SemanticAnalyzer.exitScope, SemanticAnalyzer.enterScope] using ht
  exact ⟨SemanticAnalyzer.SameFrame.of_scopes_eq hs hf, hs⟩


mutual

theorem SemanticAnalyzer.visitStmt_framed : ∀ (s : Stmt) (A : SemanticAnalyzer),
    SemanticAnalyzer.Framed A (SemanticAnalyzer.visitStmt s A)
  | .VarDecl _ name initializer, A => by
    simp only [SemanticAnalyzer.visitStmt]
    refine SemanticAnalyzer.Framed.bind (SemanticAnalyzer.visitInit_framed initializer A) ?_
    intro A1 _
    refine SemanticAnalyzer.Framed.bind (SemanticAnalyzer.declare_framed A1 name _) ?_
    intro A2 _
    exact SemanticAnalyzer.Framed.of_ok (SemanticAnalyzer.define_frame A2 name)
  | .TypedVarDecl node name type isArray arraySize initializer, A => by
    simp only [SemanticAnalyzer.visitStmt]
    refine SemanticAnalyzer.Framed.bind (SemanticAnalyzer.visitOptExpr_framed initializer A) ?_
    intro A1 _
    refine SemanticAnalyzer.Framed.bind (SemanticAnalyzer.declare_framed A1 name _) ?_
    intro A2 _
    have h4 : SemanticAnalyzer.SameFrame A2
        (if initializer.isNone ∧ !isArray ∧ arraySize.isNone then
          (A2.define name).undefine name else A2.define name) := by
      split_ifs
      · exact (SemanticAnalyzer.define_frame A2 name).trans_frame
          (SemanticAnalyzer.undefine_frame _ name)
      · exact SemanticAnalyzer.define_frame A2 name
    generalize (if initializer.isNone ∧ !isArray ∧ arraySize.isNone then
      (A2.define name).undefine name else A2.define name) = A4 at h4 ⊢
    cases arraySize with
    | none => exact SemanticAnalyzer.Framed.of_ok h4
    | some size =>
      simp only
      intro A6 h6
      refine SemanticAnalyzer.SameFrame.trans_frame h4 ?_
      revert A6
      refine SemanticAnalyzer.Framed.bind (SemanticAnalyzer.visitExpr_framed size A4) ?_
      intro A5 _
      split_ifs
      · exact SemanticAnalyzer.Framed.of_fail _ _
      · exact SemanticAnalyzer.Framed.of_ok (SemanticAnalyzer.SameFrame.rfl_frame A5)
  | .AssignStmt node name index value, A => by
    simp only [SemanticAnalyzer.visitStmt]
    cases A.resolve name with
    | none => exact SemanticAnalyzer.Framed.of_fail _ _
    | some info =>
      simp only
      refine SemanticAnalyzer.Framed.bind (SemanticAnalyzer.visitExpr_framed value A) ?_
      intro A1 _
      split_ifs
      · exact SemanticAnalyzer.Framed.of_fail _ _
      · refine SemanticAnalyzer.Framed.bind (SemanticAnalyzer.visitIndex_framed node index A1) ?_
        intro A2 _
        refine SemanticAnalyzer.Framed.bind (SemanticAnalyzer.visitExpr_framed value A2) ?_
        intro A3 _
        exact SemanticAnalyzer.Framed.of_ok (SemanticAnalyzer.define_frame A3 name)
  | .PrintStmt _ expr _, A => by
    simp only [SemanticAnalyzer.visitStmt]
    exact SemanticAnalyzer.visitExpr_framed expr A
  | .ExprStmt _ expr, A => by
    simp only [SemanticAnalyzer.visitStmt]
    exact SemanticAnalyzer.visitExpr_framed expr A
  | .Block _ statements, A => by
    have ih := SemanticAnalyzer.visitStmts_framed statements A.enterScope
    simp only [SemanticAnalyzer.visitStmt]
    intro A2 h2
    cases h : SemanticAnalyzer.visitStmts statements A.enterScope with
    | error e => rw [h] at h2; cases h2
    | ok A1 =>
      rw [h] at h2
      cases h2
      exact (SemanticAnalyzer.SameFrame.exit_enter (ih A1 h)).1
  | .IfStmt _ condition thenBranch elseBranch, A => by
    simp only [SemanticAnalyzer.visitStmt]
    refine SemanticAnalyzer.Framed.bind (SemanticAnalyzer.visitExpr_framed condition A) ?_
    intro A1 _
    refine SemanticAnalyzer.Framed.bind (SemanticAnalyzer.visitStmt_framed thenBranch A1) ?_
    intro A2 _
    exact SemanticAnalyzer.visitOptStmt_framed elseBranch A2
  | .ForStmt _ init condition update _ body, A => by
    simp only [SemanticAnalyzer.visitStmt]
    intro A5 h5
    cases h1 : SemanticAnalyzer.visitOptStmt init A.enterScope with
    | error e => rw [h1] at h5; cases h5
    | ok A1 =>
      rw [h1] at h5
      simp only at h5
      cases h2 : SemanticAnalyzer.visitOptExpr condition A1 with
      | error e => rw [h2] at h5; cases h5
      | ok A2 =>
        rw [h2] at h5
        simp only at h5
        cases h3 : SemanticAnalyzer.visitOptStmt update A2 with
        | error e => rw [h3] at h5; cases h5
        | ok A3 =>
          rw [h3] at h5
          simp only at h5
          cases h4 : SemanticAnalyzer.visitStmts body A3.enterScope with
          | error e => rw [h4] at h5; cases h5
          | ok A4 =>
            rw [h4] at h5
            cases h5
            have f1 := SemanticAnalyzer.visitOptStmt_framed init A.enterScope A1 h1
            have f2 := SemanticAnalyzer.visitOptExpr_framed condition A1 A2 h2
            have f3 := SemanticAnalyzer.visitOptStmt_framed update A2 A3 h3
            have f4 := SemanticAnalyzer.visitStmts_framed body A3.enterScope A4 h4
            have g4 := (SemanticAnalyzer.SameFrame.exit_enter f4).1
            have g3 : SemanticAnalyzer.SameFrame A.enterScope A4.exitScope :=
              (f1.trans_frame f2).trans_frame (f3.trans_frame g4)
            exact (SemanticAnalyzer.SameFrame.exit_enter g3).1
  | .ReturnStmt _ value, A => by
    simp only [SemanticAnalyzer.visitStmt]
    exact SemanticAnalyzer.visitOptExpr_framed value A

theorem SemanticAnalyzer.visitOptStmt_framed : ∀ (s : Option Stmt) (A : SemanticAnalyzer),
    SemanticAnalyzer.Framed A (SemanticAnalyzer.visitOptStmt s A)
  | none, A => by
    simp only [SemanticAnalyzer.visitOptStmt]
    exact SemanticAnalyzer.Framed.of_ok (SemanticAnalyzer.SameFrame.rfl_frame A)
  | some s, A => by
    simp only [SemanticAnalyzer.visitOptStmt]
    exact SemanticAnalyzer.visitStmt_framed s A

theorem SemanticAnalyzer.visitStmts_framed : ∀ (ss : List Stmt) (A : SemanticAnalyzer),
    SemanticAnalyzer.Framed A (SemanticAnalyzer.visitStmts ss A)
  | [], A => by
    simp only [SemanticAnalyzer.visitStmts]
    exact SemanticAnalyzer.Framed.of_ok (SemanticAnalyzer.SameFrame.rfl_frame A)
  | s :: ss, A => by
    simp only [SemanticAnalyzer.visitStmts]
    refine SemanticAnalyzer.Framed.bind (SemanticAnalyzer.visitStmt_framed s A) ?_
    intro A1 _
    exact SemanticAnalyzer.visitStmts_framed ss A1

end


theorem SemanticAnalyzer.visitParams_framed : ∀ (params : List (String × String))
    (A : SemanticAnalyzer), SemanticAnalyzer.Framed A (SemanticAnalyzer.visitParams params A)
  | [], A => by
    simp only [SemanticAnalyzer.visitParams]
    exact SemanticAnalyzer.Framed.of_ok (SemanticAnalyzer.SameFrame.rfl_frame A)
  | p :: ps, A => by
    simp only [SemanticAnalyzer.visitParams]
    refine SemanticAnalyzer.Framed.bind (SemanticAnalyzer.declare_framed A _ _) ?_
    intro A1 _ A2 h2
    exact (SemanticAnalyzer.define_frame A1 p.2).trans_frame
      (SemanticAnalyzer.visitParams_framed ps _ A2 h2)

/-- A visit of a `FuncDecl` that returns normally gives back the scope stack
and the function table it was entered with. -/
theorem SemanticAnalyzer.visitFuncDecl_scopes (f : FuncDecl) (A A1 : SemanticAnalyzer)
    (h : SemanticAnalyzer.visitFuncDecl f A = .ok A1) :
    A1.scopes = A.scopes ∧ A1.functions = A.functions := by
  unfold SemanticAnalyzer.visitFuncDecl at h
  cases h1 : SemanticAnalyzer.visitParams f.params A.enterScope with
  | error e => rw [h1] at h; cases h
  | ok B1 =>
    rw [h1] at h
    simp only at h
    cases h2 : SemanticAnalyzer.visitStmt (.Block f.bodyNode f.body) B1 with
    | error e => rw [h2] at h; cases h
    | ok B2 =>
      rw [h2] at h
      cases h
      have f1 := SemanticAnalyzer.visitParams_framed f.params A.enterScope B1 h1
      have f2 := SemanticAnalyzer.visitStmt_framed _ B1 B2 h2
      have g := SemanticAnalyzer.SameFrame.exit_enter (f1.trans_frame f2)
      exact ⟨g.2, g.1.1⟩

theorem SemanticAnalyzer.visitFuncDecl_framed (f : FuncDecl) (A : SemanticAnalyzer) :
    SemanticAnalyzer.Framed A (SemanticAnalyzer.visitFuncDecl f A) := by
  intro A1 h
  obtain ⟨hs, hf⟩ := SemanticAnalyzer.visitFuncDecl_scopes f A A1 h
  exact SemanticAnalyzer.SameFrame.of_scopes_eq hs hf

theorem SemanticAnalyzer.visitDecls_framed : ∀ (decls : List Decl) (A : SemanticAnalyzer),
    SemanticAnalyzer.Framed A (SemanticAnalyzer.visitDecls decls A)
  | [], A => by
    simp only [SemanticAnalyzer.visitDecls]
    exact SemanticAnalyzer.Framed.of_ok (SemanticAnalyzer.SameFrame.rfl_frame A)
  | .Stmt s :: decls, A => by
    simp only [SemanticAnalyzer.visitDecls]
    refine SemanticAnalyzer.Framed.bind (SemanticAnalyzer.visitStmt_framed s A) ?_
    intro A1 _
    exact SemanticAnalyzer.visitDecls_framed decls A1
  | .Func f :: decls, A => by
    simp only [SemanticAnalyzer.visitDecls]
    refine SemanticAnalyzer.Framed.bind (SemanticAnalyzer.visitFuncDecl_framed f A) ?_
    intro A1 _
    exact SemanticAnalyzer.visitDecls_framed decls A1

/-- Pass 1 touches the function table only. -/
theorem SemanticAnalyzer.collect_scopes : ∀ (decls : List Decl) (A A1 : SemanticAnalyzer),
    SemanticAnalyzer.collect decls A = .ok A1 → A1.scopes = A.scopes
  | [], A, A1, h => by
    simp only [SemanticAnalyzer.collect] at h
    cases h
    rfl
  | .Stmt _ :: decls, A, A1, h => by
    simp only [SemanticAnalyzer.collect] at h
    exact SemanticAnalyzer.collect_scopes decls A A1 h
  | .Func f :: decls, A, A1, h => by
    simp only [SemanticAnalyzer.collect] at h
    split_ifs at h
    have := SemanticAnalyzer.collect_scopes decls _ A1 h
    exact this

theorem SemanticAnalyzer.visitProgram_length (prog : Program) (A A1 : SemanticAnalyzer)
    (h : SemanticAnalyzer.visitProgram prog A = .ok A1) :
    A1.scopes.length = A.scopes.length := by
  unfold SemanticAnalyzer.visitProgram at h
  cases h1 : SemanticAnalyzer.collect prog.declarations A with
  | error e => rw [h1] at h; cases h
  | ok B1 =>
    rw [h1] at h
    simp only at h
    rw [(SemanticAnalyzer.visitDecls_framed _ B1 A1 h).2.1,
      SemanticAnalyzer.collect_scopes _ A B1 h1]

theorem SemanticAnalyzer.analyze_scopes (prog : Program) (A A1 : SemanticAnalyzer)
    (h : SemanticAnalyzer.analyze A prog = .ok A1) : A1.scopes = A.scopes := by
  unfold SemanticAnalyzer.analyze at h
  cases h1 : SemanticAnalyzer.visitProgram prog A.enterScope with
  | error e => rw [h1] at h; cases h
  | ok B1 =>
    rw [h1] at h
    cases h
    unfold SemanticAnalyzer.visitProgram at h1
    cases h2 : SemanticAnalyzer.collect prog.declarations A.enterScope with
    | error e => rw [h2] at h1; cases h1
    | ok B0 =>
      rw [h2] at h1
      simp only at h1
      have hs := SemanticAnalyzer.collect_scopes _ _ B0 h2
      have hfr := SemanticAnalyzer.visitDecls_framed _ B0 B1 h1
      have : B1.scopes.tail = A.scopes := by
        rw [hfr.2.2, hs]
        rfl
      simpa [SemanticAnalyzer.exitScope] using this

/-- C20. Starting from a fresh `SemanticAnalyzer` (and from any other),
whenever `analyze(prog)` returns normally the scope stack is as before the
call: empty for a fresh analyser. Every visit of an expression, a
statement, a `FuncDecl` or the `Program` that returns normally leaves the
scope stack at the depth it had on entry. -/
theorem scope_stack_balanced :
    (∀ (prog : Program) (A1 : SemanticAnalyzer),
      SemanticAnalyzer.analyze {} prog = .ok A1 → A1.scopes = []) ∧
    (∀ (prog : Program) (A A1 : SemanticAnalyzer),
      SemanticAnalyzer.analyze A prog = .ok A1 → A1.scopes = A.scopes) ∧
    (∀ (e : Expr) (A A1 : SemanticAnalyzer),
      SemanticAnalyzer.visitExpr e A = .ok A1 → A1.scopes.length = A.scopes.length) ∧
    (∀ (s : Stmt) (A A1 : SemanticAnalyzer),
      SemanticAnalyzer.visitStmt s A = .ok A1 → A1.scopes.length = A.scopes.length) ∧
    (∀ (f : FuncDecl) (A A1 : SemanticAnalyzer),
      SemanticAnalyzer.visitFuncDecl f A = .ok A1 → A1.scopes.length = A.scopes.length) ∧
    (∀ (prog : Program) (A A1 : SemanticAnalyzer),
      SemanticAnalyzer.visitProgram prog A = .ok A1 → A1.scopes.length = A.scopes.length) :=
  ⟨fun prog A1 h => SemanticAnalyzer.analyze_scopes prog {} A1 h,
    SemanticAnalyzer.analyze_scopes,
    fun e A A1 h => (SemanticAnalyzer.visitExpr_framed e A A1 h).2.1,
    fun s A A1 h => (SemanticAnalyzer.visitStmt_framed s A A1 h).2.1,
    fun f A A1 h => (SemanticAnalyzer.visitFuncDecl_framed f A A1 h).2.1,
    SemanticAnalyzer.visitProgram_length⟩

theorem scope_stack_balanced_witness :
    SemanticAnalyzer.analyze {}
        ⟨{}, [.Func ⟨{}, "f", [("int", "a")], "", {},
            [.VarDecl {} "b" (some (.Variable {} "a"))]⟩,
          .Stmt (.ForStmt {} (some (.VarDecl {} "i" (some (.IntLiteral {} 0)))) none none {}
            [.PrintStmt {} (.Variable {} "i") true])]⟩ =
      .ok { functions := [("f", ⟨1, .Int⟩)], lastType := .Int } ∧
    ({ functions := [("f", ⟨1, .Int⟩)], lastType := .Int } : SemanticAnalyzer).scopes = [] := by
  have h : SemanticAnalyzer.analyze {}
        ⟨{}, [.Func ⟨{}, "f", [("int", "a")], "", {},
            [.VarDecl {} "b" (some (.Variable {} "a"))]⟩,
          .Stmt (.ForStmt {} (some (.VarDecl {} "i" (some (.IntLiteral {} 0)))) none none {}
            [.PrintStmt {} (.Variable {} "i") true])]⟩ =
      .ok { functions := [("f", ⟨1, .Int⟩)], lastType := .Int } := rfl
  exact ⟨h, scope_stack_balanced.1 _ _ h⟩


theorem Decl.mem_filterMap_asFunc (decls : List Decl) (f : FuncDecl) :
    f ∈ decls.filterMap Decl.asFunc ↔ Decl.Func f ∈ decls := by
  rw [List.mem_filterMap]
  constructor
  · rintro ⟨d, hd, hf⟩
    cases d with
    | Func g =>
      simp only [Decl.asFunc, Option.some.injEq] at hf
      subst hf
      exact hd
    | Stmt s => simp [Decl.asFunc] at hf
  · intro h
    exact ⟨_, h, rfl⟩

/-- What a successful pass 1 says about the declarations and the table. -/
theorem SemanticAnalyzer.collect_ok : ∀ (decls : List Decl) (A A1 : SemanticAnalyzer),
    SemanticAnalyzer.collect decls A = .ok A1 →
    ((decls.filterMap Decl.asFunc).map FuncDecl.name).Nodup ∧
    (∀ f ∈ decls.filterMap Decl.asFunc, A.functions.find f.name = none) ∧
    (∀ f ∈ decls.filterMap Decl.asFunc,
      A1.functions.find f.name = some ⟨f.params.length, .Int⟩) ∧
    (∀ name, (∀ f ∈ decls.filterMap Decl.asFunc, f.name ≠ name) →
      A1.functions.find name = A.functions.find name)
  | [], A, A1, h => by
    simp only [SemanticAnalyzer.collect] at h
    cases h
    simp
  | .Stmt _ :: decls, A, A1, h => by
    simp only [SemanticAnalyzer.collect] at h
    simpa [Decl.asFunc] using SemanticAnalyzer.collect_ok decls A A1 h
  | .Func g :: decls, A, A1, h => by
    simp only [SemanticAnalyzer.collect] at h
    split_ifs at h with hg
    obtain ⟨ih1, ih2, ih3, ih4⟩ := SemanticAnalyzer.collect_ok decls _ A1 h
    simp only at ih2 ih4
    have hgn : A.functions.find g.name = none := by
      cases hx : A.functions.find g.name with
      | none => rfl
      | some v => rw [hx] at hg; simp at hg
    have hne : ∀ f ∈ decls.filterMap Decl.asFunc, f.name ≠ g.name := by
      intro f hf hfg
      have := ih2 f hf
      rw [hfg, StdMap.find_set_self] at this
      cases this
    simp only [List.filterMap_cons, Decl.asFunc, List.map_cons, List.nodup_cons, List.mem_map,
      List.mem_cons, forall_eq_or_imp, not_exists, not_and]
    refine ⟨⟨fun f hf hfg => hne f hf hfg, ih1⟩, ⟨hgn, ?_⟩, ⟨?_, ih3⟩, ?_⟩
    · intro f hf
      have := ih2 f hf
      rwa [StdMap.find_set_of_ne _ _ _ _ (hne f hf)] at this
    · rw [ih4 g.name hne, StdMap.find_set_self]
    · intro name hname
      rw [ih4 name hname.2, StdMap.find_set_of_ne _ _ _ _ (fun hh => hname.1 hh.symm)]

/-- Pass 1 succeeds when the function names are pairwise different and new
to the table. -/
theorem SemanticAnalyzer.collect_succeeds : ∀ (decls : List Decl) (A : SemanticAnalyzer),
    ((decls.filterMap Decl.asFunc).map FuncDecl.name).Nodup →
    (∀ f ∈ decls.filterMap Decl.asFunc, A.functions.find f.name = none) →
    ∃ A1, SemanticAnalyzer.collect decls A = .ok A1
  | [], A, _, _ => ⟨A, rfl⟩
  | .Stmt _ :: decls, A, h1, h2 => by
    simp only [SemanticAnalyzer.collect]
    exact SemanticAnalyzer.collect_succeeds decls A (by simpa [Decl.asFunc] using h1)
      (by simpa [Decl.asFunc] using h2)
  | .Func g :: decls, A, h1, h2 => by
    simp only [List.filterMap_cons, Decl.asFunc, List.map_cons, List.nodup_cons, List.mem_map,
      List.mem_cons, forall_eq_or_imp, not_exists, not_and] at h1 h2
    simp only [SemanticAnalyzer.collect, h2.1, Option.isSome_none, Bool.false_eq_true, if_false]
    apply SemanticAnalyzer.collect_succeeds decls _ h1.2
    intro f hf
    simp only
    rw [StdMap.find_set_of_ne _ _ _ _ (fun hh => h1.1 f hf hh)]
    exact h2.2 f hf


/-- A call to a name that is not built in: the arguments are visited, then
the callee is looked up in the function table. -/
theorem SemanticAnalyzer.visitExpr_call_user (node : Node) (callee : String)
    (args : List Expr) (A : SemanticAnalyzer) (hb : callee ∉ builtinNames) :
    SemanticAnalyzer.visitExpr (.CallExpr node callee args) A =
      match SemanticAnalyzer.visitArgs args A with
      | .error e => .error e
      | .ok A1 =>
        match A1.functions.find callee with
        | none => .error ⟨"Undefined function '" ++ callee ++ "'", node.line, node.col⟩
        | some info =>
          if info.returnType = .Unknown then .ok { A1 with lastType := .Int }
          else .ok { A1 with lastType := info.returnType } := by
  simp only [builtinNames, List.mem_cons, List.mem_singleton, List.not_mem_nil, or_false,
    not_or] at hb
  obtain ⟨h1, h2, h3, h4, h5⟩ := hb
  match args with
  | [] => simp only [SemanticAnalyzer.visitExpr, h1, h2, h3, h4, h5, if_false]
  | [a] => simp only [SemanticAnalyzer.visitExpr, h1, h2, h3, h4, h5, if_false]
  | a :: b :: rest =>
    simp only [SemanticAnalyzer.visitExpr, h1, h2, h3, h4, h5, if_false]

/-! ## Emitter: the layout of the program -/

theorem join_cons_eq (a : String) (l : List String) :
    String.join (a :: l) = a ++ String.join l := by
  apply String.ext
  simp [String.data_join]

theorem join_nil_eq : String.join [] = "" := rfl

theorem Codegen.emitLine_zero (str : String) : Codegen.emitLine 0 str = str ++ "\n" := by
  simp [Codegen.emitLine, Codegen.indent, join_nil_eq]

theorem Codegen.emitLine_one (str : String) :
    Codegen.emitLine 1 str = "  " ++ str ++ "\n" := by
  simp [Codegen.emitLine, Codegen.indent, join_cons_eq, join_nil_eq]

theorem Codegen.funcs_eq (ds : List Decl) : Codegen.funcs ds = ds.filterMap Decl.asFunc := by
  induction ds with
  | nil => rfl
  | cons d ds ih => cases d <;> simp [Codegen.funcs, Decl.asFunc, ih]

theorem Codegen.globalStmts_eq (ds : List Decl) :
    Codegen.globalStmts ds = ds.filterMap Decl.asStmt := by
  induction ds with
  | nil => rfl
  | cons d ds ih => cases d <;> simp [Codegen.globalStmts, Decl.asStmt, ih]

theorem Codegen.visitStmts_eq_join (n : Nat) (ss : List Stmt) :
    Codegen.visitStmts n ss = String.join (ss.map (Codegen.visitStmt n)) := by
  induction ss with
  | nil => simp [Codegen.visitStmts, join_nil_eq]
  | cons s ss ih => simp [Codegen.visitStmts, join_cons_eq, ih]

theorem Codegen.hasMain_eq_false (ds : List Decl)
    (h : ∀ f, Decl.Func f ∈ ds → f.name ≠ "main") : Codegen.hasMain ds = false := by
  rw [Codegen.hasMain, List.any_eq_false]
  intro f hf
  rw [Codegen.funcs_eq] at hf
  simpa using h f ((Decl.mem_filterMap_asFunc ds f).mp hf)

theorem Codegen.hasMain_eq_true (ds : List Decl) (f : FuncDecl) (hf : Decl.Func f ∈ ds)
    (hname : f.name = "main") : Codegen.hasMain ds = true := by
  rw [Codegen.hasMain, List.any_eq_true]
  refine ⟨f, ?_, by simpa using hname⟩
  rw [Codegen.funcs_eq]
  exact (Decl.mem_filterMap_asFunc ds f).mpr hf

/-- C14. Script mode: for every `Program` that declares no function named
`main`, `Codegen::generate` returns the fixed preamble, then the emission of
every `FuncDecl` in source order, then the line `int main() {`, the emission
of every top-level statement in source order at indent level 1, the line
`  return 0;` and the line `}`. -/
theorem script_mode_layout (prog : Program)
    (h : ∀ f, Decl.Func f ∈ prog.declarations → f.name ≠ "main") :
    Codegen.generate prog =
      Codegen.preamble ++
        String.join ((prog.declarations.filterMap Decl.asFunc).map (Codegen.visitFuncDecl 0)) ++
        "int main() \x7b\n" ++
        String.join ((prog.declarations.filterMap Decl.asStmt).map (Codegen.visitStmt 1)) ++
        "  return 0;\n" ++ "\x7d\n" := by
  simp only [Codegen.generate, Codegen.visitProgram, Codegen.indentLevel0,
    Codegen.hasMain_eq_false prog.declarations h, Codegen.funcs_eq, Codegen.globalStmts_eq,
    Codegen.visitStmts_eq_join, Codegen.emitLine_zero, Codegen.emitLine_one, Bool.not_false,
    if_true, String.append_assoc]
  rfl

theorem script_mode_layout_witness :
    (∀ f, Decl.Func f ∈ [Decl.Stmt (.PrintStmt {} (.IntLiteral {} 1) true)] → f.name ≠ "main") ∧
    Codegen.generate ⟨{}, [Decl.Stmt (.PrintStmt {} (.IntLiteral {} 1) true)]⟩ =
      Codegen.preamble ++ String.join [] ++ "int main() \x7b\n" ++
        String.join ["  std::cout << 1 << std::endl;\n"] ++ "  return 0;\n" ++ "\x7d\n" := by
  have h : ∀ f, Decl.Func f ∈ [Decl.Stmt (.PrintStmt {} (.IntLiteral {} 1) true)] →
      f.name ≠ "main" := by
    intro f hf
    simp at hf
  exact ⟨h, script_mode_layout ⟨{}, [Decl.Stmt (.PrintStmt {} (.IntLiteral {} 1) true)]⟩ h⟩


theorem Decl.filterMap_asFunc_filter (ds : List Decl) :
    (ds.filter (fun d => (Decl.asFunc d).isSome)).filterMap Decl.asFunc =
      ds.filterMap Decl.asFunc := by
  induction ds with
  | nil => rfl
  | cons d ds ih =>
    cases d with
    | Func f =>
      rw [List.filter_cons_of_pos (by rfl),
        List.filterMap_cons_some (show Decl.asFunc (.Func f) = some f from rfl),
        List.filterMap_cons_some (show Decl.asFunc (.Func f) = some f from rfl), ih]
    | Stmt s =>
      rw [List.filter_cons_of_neg (by simp [Decl.asFunc]),
        List.filterMap_cons_none (show Decl.asFunc (.Stmt s) = none from rfl), ih]

/-- C16. For every `Program` that declares a function named `main`, the
emitted text equals the emitted text of the same `Program` with every
top-level statement removed: it is the preamble followed by the emission of
the functions, so global statements contribute nothing and no second `main`
is synthesized; and the declared `main` is emitted with return type `int`
whatever return type it declares. -/
theorem declared_main_drops_globals (prog : Program) (f : FuncDecl)
    (hf : Decl.Func f ∈ prog.declarations) (hname : f.name = "main") :
    Codegen.generate prog =
        Codegen.generate
          { prog with
            declarations := prog.declarations.filter (fun d => (Decl.asFunc d).isSome) } ∧
      Codegen.generate prog =
        Codegen.preamble ++
          String.join
            ((prog.declarations.filterMap Decl.asFunc).map (Codegen.visitFuncDecl 0)) ∧
      (∀ n, Codegen.visitFuncDecl n f =
        Codegen.emitLine n ("int" ++ " " ++ "main" ++ "(" ++ Codegen.params f.params ++ ")") ++
          Codegen.visitBlock n (Codegen.visitStmts (n + 1) f.body) ++ Codegen.emitLine n "") := by
  have hmain := Codegen.hasMain_eq_true prog.declarations f hf hname
  have hf2 : Decl.Func f ∈ prog.declarations.filter (fun d => (Decl.asFunc d).isSome) := by
    rw [List.mem_filter]
    exact ⟨hf, rfl⟩
  have hmain2 := Codegen.hasMain_eq_true _ f hf2 hname
  have hgen : ∀ ds : List Decl, Codegen.hasMain ds = true →
      Codegen.generate ⟨prog.node, ds⟩ =
        Codegen.preamble ++
          String.join ((ds.filterMap Decl.asFunc).map (Codegen.visitFuncDecl 0)) := by
    intro ds hds
    simp only [Codegen.generate, Codegen.visitProgram, Codegen.indentLevel0, hds,
      Codegen.funcs_eq, Bool.not_true, Bool.false_eq_true, if_false, String.append_empty]
  refine ⟨?_, hgen prog.declarations hmain, ?_⟩
  · rw [show prog = ⟨prog.node, prog.declarations⟩ from rfl]
    simp only
    rw [hgen prog.declarations hmain, hgen _ hmain2, Decl.filterMap_asFunc_filter]
  · intro n
    simp only [Codegen.visitFuncDecl, Codegen.retType, hname, if_true]

theorem declared_main_drops_globals_witness :
    Decl.Func ⟨{}, "main", [], "void", {}, []⟩ ∈
      [Decl.Stmt (.PrintStmt {} (.IntLiteral {} 1) true),
        Decl.Func ⟨{}, "main", [], "void", {}, []⟩] ∧
    Codegen.generate ⟨{}, [Decl.Stmt (.PrintStmt {} (.IntLiteral {} 1) true),
        Decl.Func ⟨{}, "main", [], "void", {}, []⟩]⟩ =
      Codegen.preamble ++ String.join ["int main()\n\x7b\n\x7d\n\n"] :=
  ⟨by simp,
    (declared_main_drops_globals
      ⟨{}, [Decl.Stmt (.PrintStmt {} (.IntLiteral {} 1) true),
        Decl.Func ⟨{}, "main", [], "void", {}, []⟩]⟩
      ⟨{}, "main", [], "void", {}, []⟩ (by simp) rfl).2.1⟩


/-! ## Semantic analyser: calls of user-defined functions -/

/-- The tokens of the source `func f(int a) { return a; } println(f());`. -/
theorem tokenize_arity_example :
    tokenize "func f(int a) \x7b return a; \x7d println(f());" =
      some [⟨.Func, "func", 1, 1⟩, ⟨.Identifier, "f", 1, 6⟩, ⟨.LParen, "(", 1, 7⟩,
        ⟨.Identifier, "int", 1, 8⟩, ⟨.Identifier, "a", 1, 12⟩, ⟨.RParen, ")", 1, 13⟩,
        ⟨.LBrace, "\x7b", 1, 15⟩, ⟨.Return, "return", 1, 17⟩, ⟨.Identifier, "a", 1, 24⟩,
        ⟨.Semicolon, ";", 1, 25⟩, ⟨.RBrace, "\x7d", 1, 27⟩, ⟨.Println, "println", 1, 29⟩,
        ⟨.LParen, "(", 1, 36⟩, ⟨.Identifier, "f", 1, 37⟩, ⟨.LParen, "(", 1, 38⟩,
        ⟨.RParen, ")", 1, 39⟩, ⟨.RParen, ")", 1, 40⟩, ⟨.Semicolon, ";", 1, 41⟩,
        ⟨.EndOfFile, "", 1, 42⟩] := by
  decide

/-- C12 (the code departs from the claim). The program
`func f(int a) { return a; } println(f());` calls the one-parameter
function `f` with no argument; the semantic analyser accepts it and the
pipeline emits the call `f()`. -/
theorem user_function_arity_not_checked :
    compile "func f(int a) \x7b return a; \x7d println(f());" =
      .ok (Codegen.preamble ++
        "auto f(int a)\n\x7b\n  return a;\n\x7d\n\nint main() \x7b\n  std::cout << f() << std::endl;\n  return 0;\n\x7d\n") := by
  unfold compile
  rw [tokenize_arity_example]
  rfl

/-- The tokens of the source
`func f() -> string { return "a"; } println(len(f()));`. -/
theorem tokenize_return_type_example :
    tokenize "func f() -> string \x7b return \"a\"; \x7d println(len(f()));" =
      some [⟨.Func, "func", 1, 1⟩, ⟨.Identifier, "f", 1, 6⟩, ⟨.LParen, "(", 1, 7⟩,
        ⟨.RParen, ")", 1, 8⟩, ⟨.Arrow, "->", 1, 10⟩, ⟨.Identifier, "string", 1, 13⟩,
        ⟨.LBrace, "\x7b", 1, 20⟩, ⟨.Return, "return", 1, 22⟩, ⟨.StringLiteral, "a", 1, 29⟩,
        ⟨.Semicolon, ";", 1, 32⟩, ⟨.RBrace, "\x7d", 1, 34⟩, ⟨.Println, "println", 1, 36⟩,
        ⟨.LParen, "(", 1, 43⟩, ⟨.Identifier, "len", 1, 44⟩, ⟨.LParen, "(", 1, 47⟩,
        ⟨.Identifier, "f", 1, 48⟩, ⟨.LParen, "(", 1, 49⟩, ⟨.RParen, ")", 1, 50⟩,
        ⟨.RParen, ")", 1, 51⟩, ⟨.RParen, ")", 1, 52⟩, ⟨.Semicolon, ";", 1, 53⟩,
        ⟨.EndOfFile, "", 1, 54⟩] := by
  decide

/-- C13. The type derived for a call is not the declared return type. The
function `f` is declared `-> string` and the parser records that in
`FuncDecl::returnType`, yet pass 1 stores `Type::Int` for every function
and never reads the field: a call `f()` is given the type `Int`, and the
program `func f() -> string { return "a"; } println(len(f()));` is
rejected with "len() expects string". -/
theorem call_type_is_not_declared_return_type :
    (∃ ts f rest,
      tokenize "func f() -> string \x7b return \"a\"; \x7d println(len(f()));" = some ts ∧
      Parser.parse ts = .ok ⟨{}, .Func f :: rest⟩ ∧ f.name = "f" ∧ f.returnType = "string") ∧
    SemanticAnalyzer.collect
        [.Func ⟨{}, "f", [], "string", {}, [.ReturnStmt {} (some (.StringLiteral {} "a"))]⟩] {} =
      .ok { functions := [("f", ⟨0, .Int⟩)] } ∧
    SemanticAnalyzer.visitExpr (.CallExpr {} "f" []) { functions := [("f", ⟨0, .Int⟩)] } =
      .ok { functions := [("f", ⟨0, .Int⟩)], lastType := .Int } ∧
    compile "func f() -> string \x7b return \"a\"; \x7d println(len(f()));" =
      .error ⟨"semantic", "len() expects string", 1, 44⟩ := by
  refine ⟨⟨_, _, _, tokenize_return_type_example, rfl, rfl, rfl⟩, rfl, rfl, ?_⟩
  unfold compile
  rw [tokenize_return_type_example]
  rfl

/-- How far the loss of the declared return type reaches: after pass 1 over
`decls`, a call to any function `f` declared in `decls` (whose name is not
a built-in) whose arguments are analysed successfully is given the type
`Int`, whatever `f.returnType` is and however many arguments are passed. -/
theorem user_call_type_is_int (decls : List Decl) (A A1 : SemanticAnalyzer)
    (h : SemanticAnalyzer.collect decls A = .ok A1)
    (f : FuncDecl) (hf : Decl.Func f ∈ decls) (hb : f.name ∉ builtinNames)
    (node : Node) (args : List Expr) (B B1 : SemanticAnalyzer)
    (hB : B.functions = A1.functions)
    (hargs : SemanticAnalyzer.visitArgs args B = .ok B1) :
    SemanticAnalyzer.visitExpr (.CallExpr node f.name args) B =
      .ok { B1 with lastType := .Int } := by
  obtain ⟨_, _, h3, _⟩ := SemanticAnalyzer.collect_ok decls A A1 h
  have hfind := h3 f ((Decl.mem_filterMap_asFunc decls f).2 hf)
  obtain ⟨_, hfun, _⟩ := SemanticAnalyzer.visitArgs_stable args B B rfl rfl B1 hargs
  rw [SemanticAnalyzer.visitExpr_call_user node f.name args B hb, hargs]
  simp only [hfun, hB, hfind]
  rfl

theorem user_call_type_is_int_witness :
    SemanticAnalyzer.visitExpr (.CallExpr {} "f" [.IntLiteral {} 1])
        { functions := [("f", ⟨0, .Int⟩)] } =
      .ok { functions := [("f", ⟨0, .Int⟩)], lastType := .Int } :=
  user_call_type_is_int
    [.Func ⟨{}, "f", [], "float", {}, [.ReturnStmt {} (some (.FloatLiteral {} ⟨false, 1023, 2251799813685248⟩))]⟩]
    {} { functions := [("f", ⟨0, .Int⟩)] } rfl
    ⟨{}, "f", [], "float", {}, [.ReturnStmt {} (some (.FloatLiteral {} ⟨false, 1023, 2251799813685248⟩))]⟩
    (List.mem_singleton.2 rfl) (by decide) {} [.IntLiteral {} 1]
    { functions := [("f", ⟨0, .Int⟩)] } { functions := [("f", ⟨0, .Int⟩)], lastType := .Int }
    rfl rfl

/-! ## Parser: the positions of the nodes -/

/-- The tokens of the source `println(1);`. -/
theorem tokenize_print_one :
    tokenize "println(1);" =
      some [⟨.Println, "println", 1, 1⟩, ⟨.LParen, "(", 1, 8⟩, ⟨.Number, "1", 1, 9⟩,
        ⟨.RParen, ")", 1, 10⟩, ⟨.Semicolon, ";", 1, 11⟩, ⟨.EndOfFile, "", 1, 12⟩] := by
  decide

/-- C19 (the code departs from the claim). The source `println(1);`
tokenizes and parses, and in the resulting `Program` the program node, the
`PrintStmt` and the `IntLiteral` all carry line 0 and column 0, although
their first tokens stand at line 1, columns 1, 1 and 9. -/
theorem parsed_nodes_carry_no_position :
    (tokenize "println(1);").map Parser.parse =
      some (.ok ⟨⟨0, 0⟩, [.Stmt (.PrintStmt ⟨0, 0⟩ (.IntLiteral ⟨0, 0⟩ 1) true)]⟩) := by
  rw [tokenize_print_one]
  rfl

/-! ## The emitted text is not TinyLang source -/

/-- The loop only ever appends to the tokens it was given. -/
theorem Lexer.tokenizeLoop_prefix : ∀ (fuel : Nat) (L : Lexer) (acc : List Token)
    (L1 : Lexer) (toks : List Token),
    Lexer.tokenizeLoop fuel L acc = some (L1, toks) → ∃ more, toks = acc ++ more
  | 0, _, _, _, _, h => by
    simp [Lexer.tokenizeLoop] at h
  | fuel + 1, L, acc, L1, toks, h => by
    unfold Lexer.tokenizeLoop at h
    split at h
    · cases h
      exact ⟨[], by simp⟩
    · simp only at h
      split at h
      · cases h
        exact ⟨[], by simp⟩
      · obtain ⟨more, hmore⟩ := Lexer.tokenizeLoop_prefix fuel _ _ L1 toks h
        exact ⟨L.skipWhitespace.scanToken.1 ++ more, by rw [hmore, List.append_assoc]⟩

/-- A `#` is no character of the language: one `Error` token. -/
theorem Lexer.scanToken_hash (tl : List Char) (line col : Nat) :
    Lexer.scanToken ⟨'#' :: tl, line, col⟩ =
      ([⟨.Error, "#", line, col⟩], ⟨tl, line, col + 1⟩) := by
  rfl

/-- The text of every emitted program starts with the `#` of `#include`. -/
theorem Codegen.generate_data (prog : Program) :
    ∃ tl, (Codegen.generate prog).data = '#' :: tl := by
  have h : ∃ tl, Codegen.preamble.data = '#' :: tl := ⟨_, rfl⟩
  obtain ⟨tl, htl⟩ := h
  exact ⟨tl ++ (Codegen.visitProgram Codegen.indentLevel0 prog).data, by
    simp only [Codegen.generate, String.data_append, htl, List.cons_append]⟩

/-- The tokens of a text that starts with `#` start with an `Error` token at
line 1, column 1. -/
theorem tokenize_hash (source : String) (tl : List Char) (h : source.data = '#' :: tl) :
    ∃ toks, tokenize source = some (⟨.Error, "#", 1, 1⟩ :: toks) := by
  obtain ⟨L1, toks, hloop, _⟩ :=
    Lexer.tokenizeLoop_spec (tl.length + 1) ⟨tl, 1, 2⟩ [⟨.Error, "#", 1, 1⟩]
      (Nat.lt_succ_self _) (by simp)
  obtain ⟨more, hmore⟩ := Lexer.tokenizeLoop_prefix _ _ _ _ _ hloop
  refine ⟨more ++ [⟨.EndOfFile, "", L1.line, L1.col⟩], ?_⟩
  have hstep : Lexer.tokenizeLoop (tl.length + 1 + 1) ⟨'#' :: tl, 1, 1⟩ [] =
      Lexer.tokenizeLoop (tl.length + 1) ⟨tl, 1, 2⟩ [⟨.Error, "#", 1, 1⟩] := by
    rw [Lexer.tokenizeLoop]
    rfl
  simp only [tokenize, Lexer.tokenize, Lexer.new, h, List.length_cons, hstep, hloop, hmore,
    List.singleton_append, List.cons_append, List.nil_append]

/-- A token list that starts with the `Error` token `#` does not parse: the
descent reaches `primary`, which throws "Expect expression". -/
theorem Parser.parseLoop_hash (n : Nat) (rest : List Token) :
    Parser.parseLoop (n + 16) (⟨.Error, "#", 1, 1⟩ :: rest) =
      .error (.ParseError "Expect expression" 1 1) := by
  rfl

theorem Parser.parse_hash (rest : List Token) :
    Parser.parse (⟨.Error, "#", 1, 1⟩ :: rest) =
      .error (.ParseError "Expect expression" 1 1) := by
  unfold Parser.parse
  rw [Parser.parseLoop_hash]

/-- The driver on a text that starts with `#`: a lexer error. -/
theorem compile_hash (source : String) (tl : List Char) (h : source.data = '#' :: tl) :
    compile source = .error ⟨"lexer", "Unexpected character: #", 1, 1⟩ := by
  obtain ⟨toks, htoks⟩ := tokenize_hash source tl h
  unfold compile
  rw [htoks]
  rfl

/-- C17, as claimed, fails. The text emitted for the empty program does not
parse back: its tokens parse to the error "Expect expression" at line 1,
column 1, and the driver rejects the text in the lexer phase. -/
theorem emitted_empty_program_does_not_parse :
    (tokenize (Codegen.generate ⟨{}, []⟩)).map Parser.parse =
      some (.error (.ParseError "Expect expression" 1 1)) ∧
    compile (Codegen.generate ⟨{}, []⟩) =
      .error ⟨"lexer", "Unexpected character: #", 1, 1⟩ := by
  obtain ⟨tl, htl⟩ := Codegen.generate_data ⟨{}, []⟩
  obtain ⟨toks, htoks⟩ := tokenize_hash _ tl htl
  exact ⟨by rw [htoks, Option.map_some', Parser.parse_hash], compile_hash _ tl htl⟩

/-- C17, amended. The emitted text is C++, not TinyLang source: for every
program, the tokens of `generate prog` start with the `Error` token `#` at
line 1, column 1, parsing them fails with "Expect expression" at that
position, and the driver rejects the text in the lexer phase; no round trip
exists. -/
theorem emitted_text_never_parses (prog : Program) :
    (∃ toks, tokenize (Codegen.generate prog) = some (⟨.Error, "#", 1, 1⟩ :: toks)) ∧
    (tokenize (Codegen.generate prog)).map Parser.parse =
      some (.error (.ParseError "Expect expression" 1 1)) ∧
    compile (Codegen.generate prog) =
      .error ⟨"lexer", "Unexpected character: #", 1, 1⟩ := by
  obtain ⟨tl, htl⟩ := Codegen.generate_data prog
  obtain ⟨toks, htoks⟩ := tokenize_hash _ tl htl
  exact ⟨⟨toks, htoks⟩, by rw [htoks, Option.map_some', Parser.parse_hash],
    compile_hash _ tl htl⟩

/-! ## Lexer: the empty source and the source that is one comment -/

/-- A loop whose test accepts every character left, none of them a newline,
consumes them all and moves the column by their number. -/
theorem Lexer.scanWhileAux_all (p : Char → Bool) : ∀ (cs : List Char) (line col : Nat),
    (∀ d ∈ cs, p d = true) → '\n' ∉ cs →
    Lexer.scanWhileAux p cs line col = (cs, ⟨[], line, col + cs.length⟩)
  | [], line, col, _, _ => rfl
  | c :: cs, line, col, hp, hnl => by
    have hc : c ≠ '\n' := fun h => hnl (h ▸ List.mem_cons_self _ _)
    rw [Lexer.scanWhileAux, if_pos (hp c (List.mem_cons_self _ _))]
    simp only [Lexer.advance, if_neg hc]
    rw [Lexer.scanWhileAux_all p cs line (col + 1)
      (fun d hd => hp d (List.mem_cons_of_mem _ hd))
      (fun h => hnl (List.mem_cons_of_mem _ h))]
    simp only [List.length_cons, Nat.add_assoc, Nat.add_comm 1]

/-- The tokens of a source that is one line comment with neither a newline
nor a NUL character in it: the `EndOfFile` token alone, at the column after
the comment. -/
theorem tokenize_comment (c : List Char) (hnl : '\n' ∉ c) (hnul : '\x00' ∉ c) :
    tokenize (String.mk ('/' :: '/' :: c)) = some [⟨.EndOfFile, "", 1, 3 + c.length⟩] := by
  have hscan : Lexer.scanToken ⟨'/' :: '/' :: c, 1, 1⟩ = ([], ⟨[], 1, 3 + c.length⟩) := by
    have h1 : Lexer.scanToken ⟨'/' :: '/' :: c, 1, 1⟩ =
        ([], (Lexer.scanWhileAux (fun d => d != '\n' && d != '\x00') c 1 3).2) := rfl
    rw [h1, Lexer.scanWhileAux_all _ c 1 3 ?_ hnl]
    intro d hd
    have h2 : d ≠ '\n' := fun h => hnl (h ▸ hd)
    have h3 : d ≠ '\x00' := fun h => hnul (h ▸ hd)
    simp [h2, h3]
  have hskip : Lexer.skipWhitespace ⟨'/' :: '/' :: c, 1, 1⟩ = ⟨'/' :: '/' :: c, 1, 1⟩ := rfl
  have hloop : Lexer.tokenizeLoop (c.length + 1 + 1 + 1) ⟨'/' :: '/' :: c, 1, 1⟩ [] =
      some (⟨[], 1, 3 + c.length⟩, []) := by
    rw [Lexer.tokenizeLoop]
    simp only [hskip, hscan, List.cons_ne_nil, if_false, List.append_nil]
    rw [Lexer.tokenizeLoop]
    simp
  simp only [tokenize, Lexer.tokenize, Lexer.new, List.length_cons, hloop, List.nil_append]

/-- The pipeline on a source that is one line comment with neither a newline
nor a NUL character in it: the empty program, in script mode. -/
theorem compile_comment (c : List Char) (hnl : '\n' ∉ c) (hnul : '\x00' ∉ c) :
    compile (String.mk ('/' :: '/' :: c)) =
      .ok (Codegen.preamble ++ "int main() \x7b\n  return 0;\n\x7d\n") := by
  unfold compile
  rw [tokenize_comment c hnl hnul]
  rfl

/-- The pipeline on the empty source: the `EndOfFile` token alone, the empty
program, a successful analysis, the preamble and a `main` returning zero. -/
theorem compile_empty :
    tokenize "" = some [⟨.EndOfFile, "", 1, 1⟩] ∧
    Parser.parse [⟨.EndOfFile, "", 1, 1⟩] = .ok ⟨{}, []⟩ ∧
    SemanticAnalyzer.analyze {} ⟨{}, []⟩ = .ok {} ∧
    Codegen.generate ⟨{}, []⟩ = Codegen.preamble ++ "int main() \x7b\n  return 0;\n\x7d\n" ∧
    compile "" = .ok (Codegen.preamble ++ "int main() \x7b\n  return 0;\n\x7d\n") := by
  refine ⟨rfl, rfl, rfl, rfl, rfl⟩

/-- C15 (the code departs from the claim). The source `//` followed by one
NUL character is one line comment running to end-of-file, yet the comment
loop stops at the NUL: the tokens are an `Error` token for the NUL and the
`EndOfFile` token, and the driver reports a lexer error. -/
theorem comment_stops_at_nul :
    tokenize "//\x00" = some [⟨.Error, "\x00", 1, 3⟩, ⟨.EndOfFile, "", 1, 4⟩] ∧
    compile "//\x00" = .error ⟨"lexer", "Unexpected character: \x00", 1, 3⟩ := by
  have h : tokenize "//\x00" = some [⟨.Error, "\x00", 1, 3⟩, ⟨.EndOfFile, "", 1, 4⟩] := by
    decide
  refine ⟨h, ?_⟩
  unfold compile
  rw [h]
  rfl

/-! ## Lexer: the position of a token -/

/-- A scanning loop run on `cs ++ rest`, where the test accepts every
character of `cs` and rejects the first of `rest` (if any): it consumes
exactly `cs`. -/
theorem Lexer.scanWhileAux_append (p : Char → Bool) (rest : List Char)
    (hrest : ∀ d, rest.head? = some d → p d = false) : ∀ (cs : List Char) (line col : Nat),
    (∀ d ∈ cs, p d = true) →
    (Lexer.scanWhileAux p (cs ++ rest) line col).1 = cs ∧
      (Lexer.scanWhileAux p (cs ++ rest) line col).2.rest = rest
  | [], line, col, _ => by
    cases rest with
    | nil => exact ⟨rfl, rfl⟩
    | cons d tl =>
      have hd : p d = false := hrest d rfl
      simp [Lexer.scanWhileAux, hd]
  | c :: cs, line, col, hp => by
    have ih := fun l k => Lexer.scanWhileAux_append p rest hrest cs l k
      (fun d hd => hp d (List.mem_cons_of_mem _ hd))
    rw [List.cons_append, Lexer.scanWhileAux, if_pos (hp c (List.mem_cons_self _ _))]
    exact ⟨by simp only [(ih _ _).1], (ih _ _).2⟩

/-- As `scanWhileAux_append`, with the position reached when no consumed
character is a newline. -/
theorem Lexer.scanWhileAux_append_pos (p : Char → Bool) (rest : List Char)
    (hrest : ∀ d, rest.head? = some d → p d = false) : ∀ (cs : List Char) (line col : Nat),
    (∀ d ∈ cs, p d = true) → '\n' ∉ cs →
    Lexer.scanWhileAux p (cs ++ rest) line col = (cs, ⟨rest, line, col + cs.length⟩)
  | [], line, col, _, _ => by
    cases rest with
    | nil => rfl
    | cons d tl =>
      have hd : p d = false := hrest d rfl
      simp [Lexer.scanWhileAux, hd]
  | c :: cs, line, col, hp, hnl => by
    have hc : c ≠ '\n' := fun h => hnl (h ▸ List.mem_cons_self _ _)
    rw [List.cons_append, Lexer.scanWhileAux, if_pos (hp c (List.mem_cons_self _ _))]
    simp only [Lexer.advance, if_neg hc]
    rw [Lexer.scanWhileAux_append_pos p rest hrest cs line (col + 1)
      (fun d hd => hp d (List.mem_cons_of_mem _ hd))
      (fun h => hnl (List.mem_cons_of_mem _ h))]
    simp only [List.length_cons, Nat.add_assoc, Nat.add_comm 1]

theorem isdigit_ne_newline {d : Char} (h : isdigit d = true) : d ≠ '\n' := by
  intro hd
  subst hd
  exact absurd h (by decide)

theorem not_mem_newline_of_isdigit {ds : List Char} (h : ∀ d ∈ ds, isdigit d = true) :
    '\n' ∉ ds := fun hmem => isdigit_ne_newline (h _ hmem) rfl

/-- The number branch of the lexer loop, entered on the digit `c`: the
digits `ds` that follow are consumed, and the token is a `Float` exactly
when the next character is a `.`. -/
theorem Lexer.scanToken_digit (c : Char) (cs : List Char) (line col : Nat)
    (hc : isdigit c = true) :
    Lexer.scanToken ⟨c :: cs, line, col⟩ =
      (let r := Lexer.scanWhile isdigit ⟨cs, line, col + 1⟩
       if r.2.peek = '.' then
         let r3 := Lexer.scanWhile isdigit r.2.advance.2
         ([⟨.Float, String.mk (c :: r.1 ++ '.' :: r3.1), line, col⟩], r3.2)
       else ([⟨.Number, String.mk (c :: r.1), line, col⟩], r.2)) := by
  unfold Lexer.scanToken
  simp only [Lexer.advance, if_neg (isdigit_ne_newline hc)]
  rw [if_pos hc]

/-- The lexer skips nothing in front of a character that is no white space. -/
theorem Lexer.skipWhitespace_cons (c : Char) (cs : List Char) (line col : Nat)
    (hc : isspace c = false) :
    Lexer.skipWhitespace ⟨c :: cs, line, col⟩ = ⟨c :: cs, line, col⟩ := by
  simp [Lexer.skipWhitespace, Lexer.scanWhile, Lexer.scanWhileAux, hc]

/-- The first token of a source that starts with a character that is no
white space is the token the first turn of the loop pushes. -/
theorem tokenize_first (source : String) (c : Char) (cs : List Char) (t : Token) (L : Lexer)
    (h : source.data = c :: cs) (hc : isspace c = false)
    (hscan : Lexer.scanToken ⟨c :: cs, 1, 1⟩ = ([t], L)) :
    ∃ toks, tokenize source = some (t :: toks) := by
  have hlen : L.rest.length ≤ cs.length := by
    have h1 := (Lexer.scanToken_ok ⟨c :: cs, 1, 1⟩).2
    rw [hscan] at h1
    simp only at h1
    have h2 := Lexer.advance_length_lt ⟨c :: cs, 1, 1⟩ (List.cons_ne_nil _ _)
    simp only [List.length_cons] at h2
    omega
  obtain ⟨L1, toks, hloop, _⟩ :=
    Lexer.tokenizeLoop_spec (cs.length + 1) L [t] (by omega) (fun u hu => by
      have h1 := (Lexer.scanToken_ok ⟨c :: cs, 1, 1⟩).1
      rw [hscan] at h1
      exact h1 u (by simpa using hu))
  obtain ⟨more, hmore⟩ := Lexer.tokenizeLoop_prefix _ _ _ _ _ hloop
  refine ⟨more ++ [⟨.EndOfFile, "", L1.line, L1.col⟩], ?_⟩
  have hstep : Lexer.tokenizeLoop (cs.length + 1 + 1) ⟨c :: cs, 1, 1⟩ [] =
      Lexer.tokenizeLoop (cs.length + 1) L [t] := by
    rw [Lexer.tokenizeLoop]
    simp only [List.cons_ne_nil, if_false, Lexer.skipWhitespace_cons c cs 1 1 hc, hscan,
      List.nil_append]
  simp only [tokenize, Lexer.tokenize, Lexer.new, h, List.length_cons, hstep, hloop, hmore,
    List.singleton_append, List.cons_append, List.nil_append]

/-- The number branch on digits followed by a `.`: a `Float` token whose
text is the digits, the `.` and the digits after it, if any. -/
theorem Lexer.scanToken_float (c : Char) (ds fs rest : List Char) (line col : Nat)
    (hc : isdigit c = true) (hd : ∀ d ∈ ds, isdigit d = true)
    (hf : ∀ d ∈ fs, isdigit d = true) (hrest : ∀ d, rest.head? = some d → isdigit d = false) :
    Lexer.scanToken ⟨c :: ds ++ '.' :: (fs ++ rest), line, col⟩ =
      ([⟨.Float, String.mk (c :: ds ++ '.' :: fs), line, col⟩],
        ⟨rest, line, col + 1 + ds.length + 1 + fs.length⟩) := by
  rw [List.cons_append, Lexer.scanToken_digit c _ line col hc]
  have h1 := Lexer.scanWhileAux_append_pos isdigit ('.' :: (fs ++ rest))
    (fun d hd => by cases hd; rfl) ds line (col + 1) hd (not_mem_newline_of_isdigit hd)
  have h2 := Lexer.scanWhileAux_append_pos isdigit rest hrest fs line
    (col + 1 + ds.length + 1) hf (not_mem_newline_of_isdigit hf)
  simp only [Lexer.scanWhile, h1, Lexer.peek, List.headD_cons, if_true, Lexer.advance,
    show ('.' : Char) ≠ '\n' by decide, if_false, h2]

/-- The number branch on digits followed by neither a digit nor a `.`: a
`Number` token whose text is the digits. -/
theorem Lexer.scanToken_number (c : Char) (ds rest : List Char) (line col : Nat)
    (hc : isdigit c = true) (hd : ∀ d ∈ ds, isdigit d = true)
    (hrest : ∀ d, rest.head? = some d → isdigit d = false ∧ d ≠ '.') :
    Lexer.scanToken ⟨c :: ds ++ rest, line, col⟩ =
      ([⟨.Number, String.mk (c :: ds), line, col⟩], ⟨rest, line, col + 1 + ds.length⟩) := by
  rw [List.cons_append, Lexer.scanToken_digit c _ line col hc]
  have h1 := Lexer.scanWhileAux_append_pos isdigit rest (fun d hd => (hrest d hd).1) ds line
    (col + 1) hd (not_mem_newline_of_isdigit hd)
  have hpeek : Lexer.peek ⟨rest, line, col + 1 + ds.length⟩ ≠ '.' := by
    cases rest with
    | nil => simp only [Lexer.peek, List.headD_nil]; decide
    | cons d tl => simpa [Lexer.peek] using (hrest d rfl).2
  simp only [Lexer.scanWhile, h1, if_neg hpeek]

theorem isspace_of_isdigit {c : Char} (h : isdigit c = true) : isspace c = false := by
  simp only [isdigit, Bool.and_eq_true, decide_eq_true_eq] at h
  have h1 : (48 : Nat) ≤ c.toNat := h.1
  simp only [isspace, Bool.or_eq_false_iff, beq_eq_false_iff_ne, ne_eq]
  refine ⟨⟨⟨⟨⟨?_, ?_⟩, ?_⟩, ?_⟩, ?_⟩, ?_⟩ <;> (intro hc; subst hc; revert h1; decide)

/-- C21, as claimed, fails. The source `1.` gives the `Float` token `1.`
and the source `1.x` gives the `Float` token `1.` followed by the identifier
`x`: the `.` is part of the number token although no digit follows it. -/
theorem digits_dot_without_digit_is_float :
    tokenize "1." = some [⟨.Float, "1.", 1, 1⟩, ⟨.EndOfFile, "", 1, 3⟩] ∧
    tokenize "1.x" =
      some [⟨.Float, "1.", 1, 1⟩, ⟨.Identifier, "x", 1, 3⟩, ⟨.EndOfFile, "", 1, 4⟩] := by
  constructor <;> decide

/-- C21, amended. A run of digits `c :: ds` at the start of a source is
emitted as a `Float` token whenever it is immediately followed by `.`: the
text of the token is the digits, the `.` and the digits `fs` that follow
it, of which there may be none. It is emitted as a `Number` token, whose
text is the digits, when it is followed by the end of input or by a
character that is neither a digit nor `.`. -/
theorem digits_dot_is_float (c : Char) (ds : List Char) (hc : isdigit c = true)
    (hd : ∀ d ∈ ds, isdigit d = true) :
    (∀ fs rest, (∀ d ∈ fs, isdigit d = true) →
      (∀ d, rest.head? = some d → isdigit d = false) →
      ∃ toks, tokenize (String.mk (c :: ds ++ '.' :: (fs ++ rest))) =
        some (⟨.Float, String.mk (c :: ds ++ '.' :: fs), 1, 1⟩ :: toks)) ∧
    (∀ rest, (∀ d, rest.head? = some d → isdigit d = false ∧ d ≠ '.') →
      ∃ toks, tokenize (String.mk (c :: ds ++ rest)) =
        some (⟨.Number, String.mk (c :: ds), 1, 1⟩ :: toks)) := by
  constructor
  · intro fs rest hf hrest
    exact tokenize_first _ c (ds ++ '.' :: (fs ++ rest)) _ _ rfl (isspace_of_isdigit hc)
      (Lexer.scanToken_float c ds fs rest 1 1 hc hd hf hrest)
  · intro rest hrest
    exact tokenize_first _ c (ds ++ rest) _ _ rfl (isspace_of_isdigit hc)
      (Lexer.scanToken_number c ds rest 1 1 hc hd hrest)

theorem digits_dot_is_float_witness :
    (∃ toks, tokenize (String.mk ('1' :: ['2'] ++ '.' :: ([] ++ ['x']))) =
      some (⟨.Float, String.mk ('1' :: ['2'] ++ '.' :: []), 1, 1⟩ :: toks)) ∧
    (∃ toks, tokenize (String.mk ('1' :: ['2'] ++ ['x'])) =
      some (⟨.Number, String.mk ('1' :: ['2']), 1, 1⟩ :: toks)) :=
  ⟨(digits_dot_is_float '1' ['2'] (by decide) (by decide)).1 [] ['x'] (by decide) (by decide),
    (digits_dot_is_float '1' ['2'] (by decide) (by decide)).2 ['x'] (by decide)⟩

/-- The string branch of the lexer loop, entered on `"`: the characters up
to the next `"` or NUL are the text of the token, and a `"` found there is
consumed. -/
theorem Lexer.scanToken_quote (cs : List Char) (line col : Nat) :
    Lexer.scanToken ⟨'"' :: cs, line, col⟩ =
      (let r := Lexer.scanWhile (fun d => d != '"' && d != '\x00') ⟨cs, line, col + 1⟩
       ([⟨.StringLiteral, String.mk r.1, line, col⟩],
         if r.2.peek = '"' then r.2.advance.2 else r.2)) := by
  have hadv : Lexer.advance ⟨'"' :: cs, line, col⟩ = ('"', ⟨cs, line, col + 1⟩) := rfl
  unfold Lexer.scanToken
  simp only [hadv]
  rw [if_neg (by decide), if_pos True.intro]

theorem Lexer.stringPred_of_not_mem {r : List Char} (hq : '"' ∉ r) (hnul : '\x00' ∉ r) :
    ∀ d ∈ r, (fun d : Char => d != '"' && d != '\x00') d = true := by
  intro d hd
  have h2 : d ≠ '"' := fun h => hq (h ▸ hd)
  have h3 : d ≠ '\x00' := fun h => hnul (h ▸ hd)
  simp [h2, h3]

/-- A closed string literal whose characters `r` hold neither `"` nor NUL is
read as one `StringLiteral` token with the text `r`; the lexer stands
behind the closing quote. -/
theorem Lexer.scanToken_string_closed (r rest : List Char) (line col : Nat)
    (hq : '"' ∉ r) (hnul : '\x00' ∉ r) :
    (Lexer.scanToken ⟨'"' :: (r ++ '"' :: rest), line, col⟩).1 =
        [⟨.StringLiteral, String.mk r, line, col⟩] ∧
      (Lexer.scanToken ⟨'"' :: (r ++ '"' :: rest), line, col⟩).2.rest = rest := by
  rw [Lexer.scanToken_quote]
  obtain ⟨h1, h2⟩ := Lexer.scanWhileAux_append (fun d => d != '"' && d != '\x00')
    ('"' :: rest) (fun d hd => by cases hd; rfl) r line (col + 1)
    (Lexer.stringPred_of_not_mem hq hnul)
  simp only [Lexer.scanWhile]
  generalize Lexer.scanWhileAux _ (r ++ '"' :: rest) line (col + 1) = res at h1 h2
  obtain ⟨val, L1⟩ := res
  obtain ⟨rest1, l1, c1⟩ := L1
  simp only at h1 h2
  subst h1 h2
  refine ⟨rfl, ?_⟩
  simp [Lexer.peek, Lexer.advance]

/-- An open string literal whose characters `r` hold neither `"` nor NUL is
read to the end of input as one `StringLiteral` token with the text `r`. -/
theorem Lexer.scanToken_string_open (r : List Char) (line col : Nat)
    (hq : '"' ∉ r) (hnul : '\x00' ∉ r) :
    (Lexer.scanToken ⟨'"' :: r, line, col⟩).1 = [⟨.StringLiteral, String.mk r, line, col⟩] ∧
      (Lexer.scanToken ⟨'"' :: r, line, col⟩).2.rest = [] := by
  rw [Lexer.scanToken_quote]
  obtain ⟨h1, h2⟩ := Lexer.scanWhileAux_append (fun d => d != '"' && d != '\x00')
    [] (fun d hd => by cases hd) r line (col + 1) (Lexer.stringPred_of_not_mem hq hnul)
  rw [List.append_nil] at h1 h2
  simp only [Lexer.scanWhile]
  generalize Lexer.scanWhileAux _ r line (col + 1) = res at h1 h2
  obtain ⟨val, L1⟩ := res
  obtain ⟨rest1, l1, c1⟩ := L1
  simp only at h1 h2
  subst h1 h2
  refine ⟨rfl, ?_⟩
  rw [if_neg (by simp only [Lexer.peek, List.headD_nil]; decide)]

/-- C22, amended. For every run `r` of characters none of which is `"` or
NUL, the tokens of `"r"` followed by any rest begin with a `StringLiteral`
token whose text is exactly `r` (no escape processing), and the tokens of
the open literal `"r` are exactly that `StringLiteral` token followed by
`EndOfFile`, with no `Error` token. -/
theorem string_literal_without_nul (r : List Char) (hq : '"' ∉ r) (hnul : '\x00' ∉ r) :
    (∀ rest, ∃ toks, tokenize (String.mk ('"' :: (r ++ '"' :: rest))) =
      some (⟨.StringLiteral, String.mk r, 1, 1⟩ :: toks)) ∧
    (∃ line col, tokenize (String.mk ('"' :: r)) =
      some [⟨.StringLiteral, String.mk r, 1, 1⟩, ⟨.EndOfFile, "", line, col⟩]) := by
  constructor
  · intro rest
    exact tokenize_first _ '"' (r ++ '"' :: rest) _
      (Lexer.scanToken ⟨'"' :: (r ++ '"' :: rest), 1, 1⟩).2 rfl (by decide)
      (Prod.ext (Lexer.scanToken_string_closed r rest 1 1 hq hnul).1 rfl)
  · obtain ⟨h1, h2⟩ := Lexer.scanToken_string_open r 1 1 hq hnul
    generalize hres : Lexer.scanToken ⟨'"' :: r, 1, 1⟩ = res at h1 h2
    obtain ⟨pushed, L⟩ := res
    simp only at h1 h2
    subst h1
    refine ⟨L.line, L.col, ?_⟩
    have hloop : Lexer.tokenizeLoop (r.length + 1 + 1) ⟨'"' :: r, 1, 1⟩ [] =
        some (L, [⟨.StringLiteral, String.mk r, 1, 1⟩]) := by
      rw [Lexer.tokenizeLoop]
      simp only [List.cons_ne_nil, if_false, Lexer.skipWhitespace_cons '"' r 1 1 (by decide),
        hres, List.nil_append]
      rw [Lexer.tokenizeLoop, if_pos h2]
    simp only [tokenize, Lexer.tokenize, Lexer.new, List.length_cons, hloop,
      List.singleton_append]

theorem string_literal_without_nul_witness :
    (∃ toks, tokenize (String.mk ('"' :: (['a', '\\', 'n'] ++ '"' :: [';']))) =
      some (⟨.StringLiteral, String.mk ['a', '\\', 'n'], 1, 1⟩ :: toks)) ∧
    (∃ line col, tokenize (String.mk ('"' :: ['a', '\\', 'n'])) =
      some [⟨.StringLiteral, String.mk ['a', '\\', 'n'], 1, 1⟩, ⟨.EndOfFile, "", line, col⟩]) :=
  ⟨(string_literal_without_nul ['a', '\\', 'n'] (by decide) (by decide)).1 [';'],
    (string_literal_without_nul ['a', '\\', 'n'] (by decide) (by decide)).2⟩

/-- C22, as claimed, fails. The run `a`, NUL, `b` holds no `"`, yet the
closed literal around it is read as the `StringLiteral` `a` (not the whole
run), an `Error` token for the NUL, the identifier `b` and an empty
`StringLiteral`; and the open literal `"a` NUL is read as the
`StringLiteral` `a`, an `Error` token and `EndOfFile`. The scan of a
literal stops at a NUL character as it does at the end of input. -/
theorem string_literal_stops_at_nul :
    tokenize "\"a\x00b\"" =
      some [⟨.StringLiteral, "a", 1, 1⟩, ⟨.Error, "\x00", 1, 3⟩, ⟨.Identifier, "b", 1, 4⟩,
        ⟨.StringLiteral, "", 1, 5⟩, ⟨.EndOfFile, "", 1, 6⟩] ∧
    tokenize "\"a\x00" =
      some [⟨.StringLiteral, "a", 1, 1⟩, ⟨.Error, "\x00", 1, 3⟩, ⟨.EndOfFile, "", 1, 4⟩] := by
  constructor <;> decide

/-- C23 (the code departs from the claim). The text NUL holds no newline,
yet the comment `//` NUL does not run to the end of the line: the source
`//` NUL newline `x` gives an `Error` token for the NUL in front of the
tokens of `x`, and the source `//a` NUL `b` gives an `Error` token and the
identifier `b` where `EndOfFile` alone is claimed. -/
theorem comment_line_stops_at_nul :
    tokenize "//\x00\nx" =
      some [⟨.Error, "\x00", 1, 3⟩, ⟨.Identifier, "x", 2, 1⟩, ⟨.EndOfFile, "", 2, 2⟩] ∧
    tokenize "x" = some [⟨.Identifier, "x", 1, 1⟩, ⟨.EndOfFile, "", 1, 2⟩] ∧
    tokenize "//a\x00b" =
      some [⟨.Error, "\x00", 1, 4⟩, ⟨.Identifier, "b", 1, 5⟩, ⟨.EndOfFile, "", 1, 6⟩] := by
  refine ⟨?_, ?_, ?_⟩ <;> decide

/-! ## Parser: statements -/

/-- C24. In an expression statement whose expression `expr` is followed by
the token `=`: if `expr` is a `Variable` and the value and a `;` follow, the
parser returns `AssignStmt(name, value)` with no index; if it is an
`ArrayAccess`, it returns `AssignStmt(name, value, index)` with the index
of the `ArrayAccess`; for every other expression the parser throws the
ParseError "Invalid assignment target." (at the token after the `=`). -/
theorem assignment_target_rule (fuel : Nat) (ts ts2 : List Token) (expr : Expr) (eq : Token)
    (hexpr : Parser.expression fuel ts = .ok (expr, eq :: ts2)) (heq : eq.type = .Assign) :
    (∀ node name val semi ts3, expr = .Variable node name →
      Parser.expression fuel ts2 = .ok (val, semi :: ts3) → semi.type = .Semicolon →
      Parser.expressionStmt fuel ts = .ok (.AssignStmt {} name none val, ts3)) ∧
    (∀ node name index val semi ts3, expr = .ArrayAccess node name index →
      Parser.expression fuel ts2 = .ok (val, semi :: ts3) → semi.type = .Semicolon →
      Parser.expressionStmt fuel ts = .ok (.AssignStmt {} name (some index) val, ts3)) ∧
    ((∀ node name, expr ≠ .Variable node name) →
      (∀ node name index, expr ≠ .ArrayAccess node name index) →
      Parser.expressionStmt fuel ts =
        .error (.ParseError "Invalid assignment target." (Parser.peek ts2).line
          (Parser.peek ts2).col)) := by
  have hmatch : Parser.match_ (eq :: ts2) .Assign = some (eq, ts2) := by
    simp [Parser.match_, Parser.check, Parser.peek, Parser.advance, heq]
  have hsemi : ∀ (semi : Token) (ts3 : List Token), semi.type = .Semicolon →
      Parser.consume (semi :: ts3) .Semicolon "Expect ';'" = .ok (semi, ts3) := by
    intro semi ts3 h
    simp [Parser.consume, Parser.check, Parser.peek, Parser.advance, h]
  refine ⟨?_, ?_, ?_⟩
  · intro node name val semi ts3 he hval hs
    subst he
    simp only [Parser.expressionStmt, hexpr, hmatch, Parser.assignTail, hval, hsemi semi ts3 hs]
  · intro node name index val semi ts3 he hval hs
    subst he
    simp only [Parser.expressionStmt, hexpr, hmatch, Parser.assignTail, hval, hsemi semi ts3 hs]
  · intro h1 h2
    cases expr with
    | Variable node name => exact absurd rfl (h1 node name)
    | ArrayAccess node name index => exact absurd rfl (h2 node name index)
    | _ => simp only [Parser.expressionStmt, hexpr, hmatch]

theorem assignment_target_rule_witness :
    Parser.expressionStmt 20
        [⟨.Identifier, "x", 1, 1⟩, ⟨.Assign, "=", 1, 3⟩, ⟨.Number, "1", 1, 5⟩,
          ⟨.Semicolon, ";", 1, 6⟩, ⟨.EndOfFile, "", 1, 7⟩] =
      .ok (.AssignStmt {} "x" none (.IntLiteral {} 1), [⟨.EndOfFile, "", 1, 7⟩]) ∧
    Parser.expressionStmt 20
        [⟨.Identifier, "a", 1, 1⟩, ⟨.LBracket, "[", 1, 2⟩, ⟨.Number, "0", 1, 3⟩,
          ⟨.RBracket, "]", 1, 4⟩, ⟨.Assign, "=", 1, 6⟩, ⟨.Number, "1", 1, 8⟩,
          ⟨.Semicolon, ";", 1, 9⟩, ⟨.EndOfFile, "", 1, 10⟩] =
      .ok (.AssignStmt {} "a" (some (.IntLiteral {} 0)) (.IntLiteral {} 1),
        [⟨.EndOfFile, "", 1, 10⟩]) ∧
    Parser.expressionStmt 20
        [⟨.Identifier, "f", 1, 1⟩, ⟨.LParen, "(", 1, 2⟩, ⟨.RParen, ")", 1, 3⟩,
          ⟨.Assign, "=", 1, 5⟩, ⟨.Number, "1", 1, 7⟩, ⟨.Semicolon, ";", 1, 8⟩,
          ⟨.EndOfFile, "", 1, 9⟩] =
      .error (.ParseError "Invalid assignment target." 1 7) :=
  ⟨(assignment_target_rule 20
      [⟨.Identifier, "x", 1, 1⟩, ⟨.Assign, "=", 1, 3⟩, ⟨.Number, "1", 1, 5⟩,
        ⟨.Semicolon, ";", 1, 6⟩, ⟨.EndOfFile, "", 1, 7⟩]
      [⟨.Number, "1", 1, 5⟩, ⟨.Semicolon, ";", 1, 6⟩, ⟨.EndOfFile, "", 1, 7⟩]
      (.Variable ⟨1, 1⟩ "x") ⟨.Assign, "=", 1, 3⟩ rfl rfl).1
      ⟨1, 1⟩ "x" (.IntLiteral {} 1) ⟨.Semicolon, ";", 1, 6⟩ [⟨.EndOfFile, "", 1, 7⟩] rfl rfl rfl,
    (assignment_target_rule 20
      [⟨.Identifier, "a", 1, 1⟩, ⟨.LBracket, "[", 1, 2⟩, ⟨.Number, "0", 1, 3⟩,
        ⟨.RBracket, "]", 1, 4⟩, ⟨.Assign, "=", 1, 6⟩, ⟨.Number, "1", 1, 8⟩,
        ⟨.Semicolon, ";", 1, 9⟩, ⟨.EndOfFile, "", 1, 10⟩]
      [⟨.Number, "1", 1, 8⟩, ⟨.Semicolon, ";", 1, 9⟩, ⟨.EndOfFile, "", 1, 10⟩]
      (.ArrayAccess ⟨1, 1⟩ "a" (.IntLiteral {} 0)) ⟨.Assign, "=", 1, 6⟩ rfl rfl).2.1
      ⟨1, 1⟩ "a" (.IntLiteral {} 0) (.IntLiteral {} 1) ⟨.Semicolon, ";", 1, 9⟩
      [⟨.EndOfFile, "", 1, 10⟩] rfl rfl rfl,
    (assignment_target_rule 20
      [⟨.Identifier, "f", 1, 1⟩, ⟨.LParen, "(", 1, 2⟩, ⟨.RParen, ")", 1, 3⟩,
        ⟨.Assign, "=", 1, 5⟩, ⟨.Number, "1", 1, 7⟩, ⟨.Semicolon, ";", 1, 8⟩,
        ⟨.EndOfFile, "", 1, 9⟩]
      [⟨.Number, "1", 1, 7⟩, ⟨.Semicolon, ";", 1, 8⟩, ⟨.EndOfFile, "", 1, 9⟩]
      (.CallExpr ⟨1, 1⟩ "f" []) ⟨.Assign, "=", 1, 5⟩ rfl rfl).2.2
      (fun _ _ h => Expr.noConfusion h) (fun _ _ _ h => Expr.noConfusion h)⟩

/-- The tokens of the source `int(s);`. -/
theorem tokenize_cast_statement :
    tokenize "int(s);" =
      some [⟨.Identifier, "int", 1, 1⟩, ⟨.LParen, "(", 1, 4⟩, ⟨.Identifier, "s", 1, 5⟩,
        ⟨.RParen, ")", 1, 6⟩, ⟨.Semicolon, ";", 1, 7⟩, ⟨.EndOfFile, "", 1, 8⟩] := by
  decide

/-- C25, as claimed, fails. The statement `int(s);` is not parsed as an
expression statement holding a call: the parser takes it for a typed
declaration and throws "Expected variable name." at the `(`. -/
theorem cast_statement_is_parse_error :
    (tokenize "int(s);").map Parser.parse =
      some (.error (.ParseError "Expected variable name." 1 4)) := by
  rw [tokenize_cast_statement]
  rfl

/-- C25, amended. A statement that begins with an identifier equal to
`int`, `float` or `string` is always parsed as a typed variable
declaration, whatever follows: no further token is looked at. When the
next token is neither `[` nor an identifier (as the `(` of `int(s);`), the
parser throws "Expected variable name." at that token. -/
theorem type_name_starts_declaration (fuel : Nat) (t : Token) (rest : List Token)
    (ht : t.type = .Identifier)
    (htxt : t.text = "int" ∨ t.text = "float" ∨ t.text = "string") :
    Parser.statement (fuel + 1) (t :: rest) = Parser.typedVarDecl fuel (t :: rest) ∧
    (∀ next rest1, rest = next :: rest1 → next.type ≠ .LBracket → next.type ≠ .Identifier →
      Parser.statement (fuel + 1) (t :: rest) =
        .error (.ParseError "Expected variable name." next.line next.col)) := by
  have hstmt : Parser.statement (fuel + 1) (t :: rest) = Parser.typedVarDecl fuel (t :: rest) := by
    rw [Parser.statement]
    simp [Parser.match_, Parser.check, Parser.peek, ht, htxt]
  refine ⟨hstmt, ?_⟩
  intro next rest1 hrest h1 h2
  subst hrest
  rw [hstmt]
  simp [Parser.typedVarDecl, Parser.parseType, Parser.match_, Parser.check, Parser.peek,
    Parser.advance, Parser.consume, ht, h1, h2]

theorem type_name_starts_declaration_witness :
    Parser.statement (20 + 1)
        [⟨.Identifier, "float", 1, 1⟩, ⟨.LParen, "(", 1, 6⟩, ⟨.Identifier, "s", 1, 7⟩,
          ⟨.RParen, ")", 1, 8⟩, ⟨.Semicolon, ";", 1, 9⟩, ⟨.EndOfFile, "", 1, 10⟩] =
      .error (.ParseError "Expected variable name." 1 6) :=
  (type_name_starts_declaration 20 ⟨.Identifier, "float", 1, 1⟩
    [⟨.LParen, "(", 1, 6⟩, ⟨.Identifier, "s", 1, 7⟩, ⟨.RParen, ")", 1, 8⟩,
      ⟨.Semicolon, ";", 1, 9⟩, ⟨.EndOfFile, "", 1, 10⟩] rfl (Or.inr (Or.inl rfl))).2
    ⟨.LParen, "(", 1, 6⟩ _ rfl (by decide) (by decide)

/-! ## Semantic analyser: lexical scoping -/

theorem SemanticAnalyzer.Grows.rfl_grows (A : SemanticAnalyzer) :
    SemanticAnalyzer.Grows A A := fun _ h => h

theorem SemanticAnalyzer.Grows.trans_grows {A B C : SemanticAnalyzer}
    (h1 : SemanticAnalyzer.Grows A B) (h2 : SemanticAnalyzer.Grows B C) :
    SemanticAnalyzer.Grows A C := fun name h => h2 name (h1 name h)

theorem SemanticAnalyzer.Grows.of_scopes {A B : SemanticAnalyzer} (h : B.scopes = A.scopes) :
    SemanticAnalyzer.Grows A B := by
  intro name hn
  simpa [SemanticAnalyzer.resolve, h] using hn

theorem SemanticAnalyzer.Growing.ok_grows {A A1 : SemanticAnalyzer}
    (h : SemanticAnalyzer.Grows A A1) : SemanticAnalyzer.Growing A (.ok A1) := by
  intro A2 h2
  cases h2
  exact h

theorem SemanticAnalyzer.Growing.fail_grows (A : SemanticAnalyzer) (e : SemanticError) :
    SemanticAnalyzer.Growing A (.error e) := by
  intro A2 h2
  cases h2

theorem SemanticAnalyzer.Growing.bind_grows {A : SemanticAnalyzer} {r : SResult}
    {k : SemanticAnalyzer → SResult} :
    SemanticAnalyzer.Growing A r →
    (∀ A1, r = .ok A1 → SemanticAnalyzer.Growing A1 (k A1)) →
    SemanticAnalyzer.Growing A
      (match r with
        | .error e => .error e
        | .ok A1 => k A1) := by
  intro h1 h2
  cases r with
  | error e => exact SemanticAnalyzer.Growing.fail_grows A e
  | ok A1 =>
    intro A2 hA2
    exact (h1 A1 rfl).trans_grows (h2 A1 rfl A2 hA2)

/-- Writing an entry into the innermost scope keeps every name resolvable. -/
theorem resolveIn_set_isSome (scope : StdMap SymbolInfo) (outer : List (StdMap SymbolInfo))
    (key : String) (v : SymbolInfo) (name : String)
    (h : (resolveIn (scope :: outer) name).isSome) :
    (resolveIn (scope.set key v :: outer) name).isSome := by
  by_cases hk : name = key
  · subst hk
    simp [resolveIn, StdMap.find_set_self]
  · simp only [resolveIn, StdMap.find_set_of_ne scope key name v hk] at h ⊢
    exact h

theorem SemanticAnalyzer.declare_growing (A : SemanticAnalyzer) (name : String) (type : Ty) :
    SemanticAnalyzer.Growing A (A.declare name type) := by
  unfold SemanticAnalyzer.declare
  split
  · exact SemanticAnalyzer.Growing.ok_grows (SemanticAnalyzer.Grows.rfl_grows A)
  · rename_i scope outer hsc
    split_ifs
    · exact SemanticAnalyzer.Growing.fail_grows _ _
    · apply SemanticAnalyzer.Growing.ok_grows
      intro n hn
      simp only [SemanticAnalyzer.resolve, hsc] at hn ⊢
      exact resolveIn_set_isSome scope outer name _ n hn

theorem SemanticAnalyzer.define_grows (A : SemanticAnalyzer) (name : String) :
    SemanticAnalyzer.Grows A (A.define name) := by
  unfold SemanticAnalyzer.define
  split
  · exact SemanticAnalyzer.Grows.rfl_grows A
  · rename_i scope outer hsc
    intro n hn
    simp only [SemanticAnalyzer.resolve, hsc] at hn ⊢
    exact resolveIn_set_isSome scope outer name _ n hn

theorem SemanticAnalyzer.undefine_grows (A : SemanticAnalyzer) (name : String) :
    SemanticAnalyzer.Grows A (A.undefine name) := by
  unfold SemanticAnalyzer.undefine
  split
  · exact SemanticAnalyzer.Grows.rfl_grows A
  · rename_i scope outer hsc
    intro n hn
    simp only [SemanticAnalyzer.resolve, hsc] at hn ⊢
    exact resolveIn_set_isSome scope outer name _ n hn

theorem SemanticAnalyzer.visitExpr_scopes (e : Expr) (A A1 : SemanticAnalyzer)
    (h : SemanticAnalyzer.visitExpr e A = .ok A1) : A1.scopes = A.scopes :=
  (SemanticAnalyzer.visitExpr_stable e A A rfl rfl A1 h).1

theorem SemanticAnalyzer.visitOptExpr_scopes (e : Option Expr) (A A1 : SemanticAnalyzer)
    (h : SemanticAnalyzer.visitOptExpr e A = .ok A1) : A1.scopes = A.scopes := by
  cases e with
  | none => simp only [SemanticAnalyzer.visitOptExpr] at h; cases h; rfl
  | some e => exact SemanticAnalyzer.visitExpr_scopes e A A1 h

theorem SemanticAnalyzer.visitExpr_growing (e : Expr) (A : SemanticAnalyzer) :
    SemanticAnalyzer.Growing A (SemanticAnalyzer.visitExpr e A) :=
  fun A1 h => SemanticAnalyzer.Grows.of_scopes (SemanticAnalyzer.visitExpr_scopes e A A1 h)

theorem SemanticAnalyzer.visitOptExpr_growing (e : Option Expr) (A : SemanticAnalyzer) :
    SemanticAnalyzer.Growing A (SemanticAnalyzer.visitOptExpr e A) :=
  fun A1 h => SemanticAnalyzer.Grows.of_scopes (SemanticAnalyzer.visitOptExpr_scopes e A A1 h)

theorem SemanticAnalyzer.visitInit_growing (e : Option Expr) (A : SemanticAnalyzer) :
    SemanticAnalyzer.Growing A (SemanticAnalyzer.visitInit e A) := by
  cases e with
  | none =>
    simp only [SemanticAnalyzer.visitInit]
    exact SemanticAnalyzer.Growing.ok_grows (SemanticAnalyzer.Grows.of_scopes rfl)
  | some e => exact SemanticAnalyzer.visitExpr_growing e A

theorem SemanticAnalyzer.visitIndex_growing (node : Node) (e : Option Expr)
    (A : SemanticAnalyzer) :
    SemanticAnalyzer.Growing A (SemanticAnalyzer.visitIndex node e A) := by
  cases e with
  | none =>
    simp only [SemanticAnalyzer.visitIndex]
    exact SemanticAnalyzer.Growing.ok_grows (SemanticAnalyzer.Grows.rfl_grows A)
  | some e =>
    simp only [SemanticAnalyzer.visitIndex]
    refine SemanticAnalyzer.Growing.bind_grows (SemanticAnalyzer.visitExpr_growing e A) ?_
    intro A1 _
    split_ifs
    · exact SemanticAnalyzer.Growing.fail_grows _ _
    · exact SemanticAnalyzer.Growing.ok_grows (SemanticAnalyzer.Grows.rfl_grows A1)

/-- A visit of a `Block` that returns normally gives back the scope stack it
was entered with. -/
theorem SemanticAnalyzer.visitStmt_block_scopes (node : Node) (stmts : List Stmt)
    (A A1 : SemanticAnalyzer)
    (h : SemanticAnalyzer.visitStmt (.Block node stmts) A = .ok A1) :
    A1.scopes = A.scopes := by
  simp only [SemanticAnalyzer.visitStmt] at h
  cases h1 : SemanticAnalyzer.visitStmts stmts A.enterScope with
  | error e => rw [h1] at h; cases h
  | ok B1 =>
    rw [h1] at h
    cases h
    exact (SemanticAnalyzer.SameFrame.exit_enter
      (SemanticAnalyzer.visitStmts_framed stmts A.enterScope B1 h1)).2

/-- The steps of a visit of a `ForStmt` that returns normally. -/
theorem SemanticAnalyzer.visitStmt_for_steps (node bodyNode : Node) (init : Option Stmt)
    (cond : Option Expr) (update : Option Stmt) (body : List Stmt) (A A5 : SemanticAnalyzer)
    (h : SemanticAnalyzer.visitStmt (.ForStmt node init cond update bodyNode body) A = .ok A5) :
    ∃ A1 A2 A3 A4, SemanticAnalyzer.visitOptStmt init A.enterScope = .ok A1 ∧
      SemanticAnalyzer.visitOptExpr cond A1 = .ok A2 ∧
      SemanticAnalyzer.visitOptStmt update A2 = .ok A3 ∧
      SemanticAnalyzer.visitStmts body A3.enterScope = .ok A4 ∧
      A5 = A4.exitScope.exitScope := by
  simp only [SemanticAnalyzer.visitStmt] at h
  cases h1 : SemanticAnalyzer.visitOptStmt init A.enterScope with
  | error e => rw [h1] at h; cases h
  | ok A1 =>
    rw [h1] at h
    simp only at h
    cases h2 : SemanticAnalyzer.visitOptExpr cond A1 with
    | error e => rw [h2] at h; cases h
    | ok A2 =>
      rw [h2] at h
      simp only at h
      cases h3 : SemanticAnalyzer.visitOptStmt update A2 with
      | error e => rw [h3] at h; cases h
      | ok A3 =>
        rw [h3] at h
        simp only at h
        cases h4 : SemanticAnalyzer.visitStmts body A3.enterScope with
        | error e => rw [h4] at h; cases h
        | ok A4 =>
          rw [h4] at h
          cases h
          exact ⟨A1, A2, A3, A4, by first | exact h1 | rfl, h2, h3, h4, rfl⟩

/-- A visit of a `ForStmt` that returns normally gives back the scope stack
it was entered with. -/
theorem SemanticAnalyzer.visitStmt_for_scopes (node bodyNode : Node) (init : Option Stmt)
    (cond : Option Expr) (update : Option Stmt) (body : List Stmt) (A A5 : SemanticAnalyzer)
    (h : SemanticAnalyzer.visitStmt (.ForStmt node init cond update bodyNode body) A = .ok A5) :
    A5.scopes = A.scopes := by
  obtain ⟨A1, A2, A3, A4, h1, h2, h3, h4, h5⟩ :=
    SemanticAnalyzer.visitStmt_for_steps node bodyNode init cond update body A A5 h
  subst h5
  have f1 := SemanticAnalyzer.visitOptStmt_framed init A.enterScope A1 h1
  have f2 := SemanticAnalyzer.visitOptExpr_framed cond A1 A2 h2
  have f3 := SemanticAnalyzer.visitOptStmt_framed update A2 A3 h3
  have f4 := SemanticAnalyzer.visitStmts_framed body A3.enterScope A4 h4
  have g4 := (SemanticAnalyzer.SameFrame.exit_enter f4).1
  have g3 : SemanticAnalyzer.SameFrame A.enterScope A4.exitScope :=
    (f1.trans_frame f2).trans_frame (f3.trans_frame g4)
  exact (SemanticAnalyzer.SameFrame.exit_enter g3).2

mutual

theorem SemanticAnalyzer.visitStmt_growing : ∀ (s : Stmt) (A : SemanticAnalyzer),
    SemanticAnalyzer.Growing A (SemanticAnalyzer.visitStmt s A)
  | .VarDecl _ name initializer, A => by
    simp only [SemanticAnalyzer.visitStmt]
    refine SemanticAnalyzer.Growing.bind_grows (SemanticAnalyzer.visitInit_growing initializer A) ?_
    intro A1 _
    refine SemanticAnalyzer.Growing.bind_grows (SemanticAnalyzer.declare_growing A1 name _) ?_
    intro A2 _
    exact SemanticAnalyzer.Growing.ok_grows (SemanticAnalyzer.define_grows A2 name)
  | .TypedVarDecl node name type isArray arraySize initializer, A => by
    simp only [SemanticAnalyzer.visitStmt]
    refine SemanticAnalyzer.Growing.bind_grows
      (SemanticAnalyzer.visitOptExpr_growing initializer A) ?_
    intro A1 _
    refine SemanticAnalyzer.Growing.bind_grows (SemanticAnalyzer.declare_growing A1 name _) ?_
    intro A2 _
    have h4 : SemanticAnalyzer.Grows A2
        (if initializer.isNone ∧ !isArray ∧ arraySize.isNone then
          (A2.define name).undefine name else A2.define name) := by
      split_ifs
      · exact (SemanticAnalyzer.define_grows A2 name).trans_grows
          (SemanticAnalyzer.undefine_grows _ name)
      · exact SemanticAnalyzer.define_grows A2 name
    generalize (if initializer.isNone ∧ !isArray ∧ arraySize.isNone then
      (A2.define name).undefine name else A2.define name) = A4 at h4 ⊢
    cases arraySize with
    | none => exact SemanticAnalyzer.Growing.ok_grows h4
    | some size =>
      simp only
      intro A6 h6
      refine SemanticAnalyzer.Grows.trans_grows h4 ?_
      revert A6
      refine SemanticAnalyzer.Growing.bind_grows (SemanticAnalyzer.visitExpr_growing size A4) ?_
      intro A5 _
      split_ifs
      · exact SemanticAnalyzer.Growing.fail_grows _ _
      · exact SemanticAnalyzer.Growing.ok_grows (SemanticAnalyzer.Grows.rfl_grows A5)
  | .AssignStmt node name index value, A => by
    simp only [SemanticAnalyzer.visitStmt]
    cases A.resolve name with
    | none => exact SemanticAnalyzer.Growing.fail_grows _ _
    | some info =>
      simp only
      refine SemanticAnalyzer.Growing.bind_grows (SemanticAnalyzer.visitExpr_growing value A) ?_
      intro A1 _
      split_ifs
      · exact SemanticAnalyzer.Growing.fail_grows _ _
      · refine SemanticAnalyzer.Growing.bind_grows
          (SemanticAnalyzer.visitIndex_growing node index A1) ?_
        intro A2 _
        refine SemanticAnalyzer.Growing.bind_grows
          (SemanticAnalyzer.visitExpr_growing value A2) ?_
        intro A3 _
        exact SemanticAnalyzer.Growing.ok_grows (SemanticAnalyzer.define_grows A3 name)
  | .PrintStmt _ expr _, A => by
    simp only [SemanticAnalyzer.visitStmt]
    exact SemanticAnalyzer.visitExpr_growing expr A
  | .ExprStmt _ expr, A => by
    simp only [SemanticAnalyzer.visitStmt]
    exact SemanticAnalyzer.visitExpr_growing expr A
  | .Block node statements, A => fun A1 h =>
    SemanticAnalyzer.Grows.of_scopes
      (SemanticAnalyzer.visitStmt_block_scopes node statements A A1 h)
  | .IfStmt _ condition thenBranch elseBranch, A => by
    simp only [SemanticAnalyzer.visitStmt]
    refine SemanticAnalyzer.Growing.bind_grows
      (SemanticAnalyzer.visitExpr_growing condition A) ?_
    intro A1 _
    refine SemanticAnalyzer.Growing.bind_grows
      (SemanticAnalyzer.visitStmt_growing thenBranch A1) ?_
    intro A2 _
    exact SemanticAnalyzer.visitOptStmt_growing elseBranch A2
  | .ForStmt node init condition update bodyNode body, A => fun A1 h =>
    SemanticAnalyzer.Grows.of_scopes
      (SemanticAnalyzer.visitStmt_for_scopes node bodyNode init condition update body A A1 h)
  | .ReturnStmt _ value, A => by
    simp only [SemanticAnalyzer.visitStmt]
    exact SemanticAnalyzer.visitOptExpr_growing value A

theorem SemanticAnalyzer.visitOptStmt_growing : ∀ (s : Option Stmt) (A : SemanticAnalyzer),
    SemanticAnalyzer.Growing A (SemanticAnalyzer.visitOptStmt s A)
  | none, A => by
    simp only [SemanticAnalyzer.visitOptStmt]
    exact SemanticAnalyzer.Growing.ok_grows (SemanticAnalyzer.Grows.rfl_grows A)
  | some s, A => by
    simp only [SemanticAnalyzer.visitOptStmt]
    exact SemanticAnalyzer.visitStmt_growing s A

end

theorem SemanticAnalyzer.visitStmts_growing : ∀ (ss : List Stmt) (A : SemanticAnalyzer),
    SemanticAnalyzer.Growing A (SemanticAnalyzer.visitStmts ss A)
  | [], A => by
    simp only [SemanticAnalyzer.visitStmts]
    exact SemanticAnalyzer.Growing.ok_grows (SemanticAnalyzer.Grows.rfl_grows A)
  | s :: ss, A => by
    simp only [SemanticAnalyzer.visitStmts]
    refine SemanticAnalyzer.Growing.bind_grows (SemanticAnalyzer.visitStmt_growing s A) ?_
    intro A1 _
    exact SemanticAnalyzer.visitStmts_growing ss A1

theorem SemanticAnalyzer.visitParams_growing : ∀ (params : List (String × String))
    (A : SemanticAnalyzer), SemanticAnalyzer.Growing A (SemanticAnalyzer.visitParams params A)
  | [], A => by
    simp only [SemanticAnalyzer.visitParams]
    exact SemanticAnalyzer.Growing.ok_grows (SemanticAnalyzer.Grows.rfl_grows A)
  | p :: ps, A => by
    simp only [SemanticAnalyzer.visitParams]
    intro A2 h2
    cases h1 : A.declare p.2 (annotatedType p.1) with
    | error e => rw [h1] at h2; cases h2
    | ok A1 =>
      rw [h1] at h2
      exact ((SemanticAnalyzer.declare_growing A _ _ A1 h1).trans_grows
        (SemanticAnalyzer.define_grows A1 p.2)).trans_grows
        (SemanticAnalyzer.visitParams_growing ps _ A2 h2)

/-- Entering a scope keeps every name resolvable. -/
theorem SemanticAnalyzer.enterScope_resolve (A : SemanticAnalyzer) (name : String) :
    A.enterScope.resolve name = A.resolve name := by
  simp [SemanticAnalyzer.resolve, SemanticAnalyzer.enterScope, resolveIn, StdMap.find]

/-- A name resolves once it is defined in a scope stack that is not empty. -/
theorem SemanticAnalyzer.define_resolve (A : SemanticAnalyzer) (name : String)
    (hs : A.scopes ≠ []) : ((A.define name).resolve name).isSome := by
  unfold SemanticAnalyzer.define
  split
  · rename_i h; exact absurd h hs
  · simp [SemanticAnalyzer.resolve, resolveIn, StdMap.find_set_self]

theorem SemanticAnalyzer.SameFrame.scopes_ne_nil {A A1 : SemanticAnalyzer}
    (h : SemanticAnalyzer.SameFrame A A1) (hs : A.scopes ≠ []) : A1.scopes ≠ [] := by
  intro h1
  have h2 := h.2.1
  rw [h1] at h2
  exact hs (List.length_eq_zero.mp h2.symm)

/-- A `let` declaration leaves its name resolvable. -/
theorem SemanticAnalyzer.visitStmt_let_resolve (node : Node) (name : String)
    (init : Option Expr) (A A3 : SemanticAnalyzer) (hs : A.scopes ≠ [])
    (h : SemanticAnalyzer.visitStmt (.VarDecl node name init) A = .ok A3) :
    (A3.resolve name).isSome := by
  simp only [SemanticAnalyzer.visitStmt] at h
  cases h1 : SemanticAnalyzer.visitInit init A with
  | error e => rw [h1] at h; cases h
  | ok A1 =>
    rw [h1] at h
    simp only at h
    cases h2 : A1.declare name A1.lastType with
    | error e => rw [h2] at h; cases h
    | ok A2 =>
      rw [h2] at h
      cases h
      have f1 := SemanticAnalyzer.visitInit_framed init A A1 h1
      have f2 := SemanticAnalyzer.declare_framed A1 name _ A2 h2
      exact SemanticAnalyzer.define_resolve A2 name ((f1.trans_frame f2).scopes_ne_nil hs)

/-- A typed declaration leaves its name resolvable. -/
theorem SemanticAnalyzer.visitStmt_typed_resolve (node : Node) (name type : String)
    (isArray : Bool) (size init : Option Expr) (A A5 : SemanticAnalyzer) (hs : A.scopes ≠ [])
    (h : SemanticAnalyzer.visitStmt (.TypedVarDecl node name type isArray size init) A = .ok A5) :
    (A5.resolve name).isSome := by
  simp only [SemanticAnalyzer.visitStmt] at h
  cases h1 : SemanticAnalyzer.visitOptExpr init A with
  | error e => rw [h1] at h; cases h
  | ok A1 =>
    rw [h1] at h
    simp only at h
    cases h2 : A1.declare name (annotatedType type) with
    | error e => rw [h2] at h; cases h
    | ok A2 =>
      rw [h2] at h
      simp only at h
      have f1 := SemanticAnalyzer.visitOptExpr_framed init A A1 h1
      have f2 := SemanticAnalyzer.declare_framed A1 name _ A2 h2
      have h3 := SemanticAnalyzer.define_resolve A2 name ((f1.trans_frame f2).scopes_ne_nil hs)
      have h4 : ((if init.isNone ∧ !isArray ∧ size.isNone then
          (A2.define name).undefine name else A2.define name).resolve name).isSome := by
        split_ifs
        · exact SemanticAnalyzer.undefine_grows _ name name h3
        · exact h3
      generalize (if init.isNone ∧ !isArray ∧ size.isNone then
        (A2.define name).undefine name else A2.define name) = A4 at h h4
      cases size with
      | none =>
        simp only at h
        cases h
        exact h4
      | some sz =>
        simp only at h
        cases h5 : SemanticAnalyzer.visitExpr sz A4 with
        | error e => rw [h5] at h; cases h
        | ok A6 =>
          rw [h5] at h
          simp only at h
          split_ifs at h
          cases h
          exact SemanticAnalyzer.visitExpr_growing sz A4 A5 h5 name h4

/-- The parameters of a function resolve after the parameter loop. -/
theorem SemanticAnalyzer.visitParams_resolve : ∀ (params : List (String × String))
    (A A1 : SemanticAnalyzer), A.scopes ≠ [] →
    SemanticAnalyzer.visitParams params A = .ok A1 →
    ∀ p ∈ params, (A1.resolve p.2).isSome
  | [], _, _, _, _ => fun p hp => absurd hp (List.not_mem_nil p)
  | q :: ps, A, A2, hs, h => by
    simp only [SemanticAnalyzer.visitParams] at h
    cases h1 : A.declare q.2 (annotatedType q.1) with
    | error e => rw [h1] at h; cases h
    | ok A1 =>
      rw [h1] at h
      simp only at h
      have f1 := SemanticAnalyzer.declare_framed A _ _ A1 h1
      have hs1 := f1.scopes_ne_nil hs
      have hs2 := (SemanticAnalyzer.define_frame A1 q.2).scopes_ne_nil hs1
      intro p hp
      rcases List.mem_cons.mp hp with hpq | hpp
      · subst hpq
        exact SemanticAnalyzer.visitParams_growing ps _ A2 h p.2
          (SemanticAnalyzer.define_resolve A1 p.2 hs1)
      · exact SemanticAnalyzer.visitParams_resolve ps _ A2 hs2 h p hpp

theorem SemanticAnalyzer.visitStmts_append : ∀ (pre post : List Stmt) (A : SemanticAnalyzer),
    SemanticAnalyzer.visitStmts (pre ++ post) A =
      match SemanticAnalyzer.visitStmts pre A with
      | .error e => .error e
      | .ok A1 => SemanticAnalyzer.visitStmts post A1
  | [], post, A => by simp only [List.nil_append, SemanticAnalyzer.visitStmts]
  | s :: pre, post, A => by
    simp only [List.cons_append, SemanticAnalyzer.visitStmts]
    cases SemanticAnalyzer.visitStmt s A with
    | error e => rfl
    | ok A1 => exact SemanticAnalyzer.visitStmts_append pre post A1

/-- C26. Lexical scoping. A visit of a `Block`, a `ForStmt` or a
`FuncDecl` that returns normally gives back the scope stack it was entered
with, so whatever was declared inside resolves no longer: a later use of a
name that did not resolve before is rejected as undefined. Inside, a
`let` or typed declaration leaves its name resolvable, every statement
visit keeps resolvable what was, the statements after a prefix of a
statement list are visited in the analyser the prefix leaves, the
condition, update and body of a `ForStmt` are visited with everything
resolvable that resolves after the init, and the body of a function with
every parameter resolvable. -/
theorem lexical_scoping :
    (∀ node stmts A A1, SemanticAnalyzer.visitStmt (.Block node stmts) A = .ok A1 →
      A1.scopes = A.scopes) ∧
    (∀ node init cond update bodyNode body A A1,
      SemanticAnalyzer.visitStmt (.ForStmt node init cond update bodyNode body) A = .ok A1 →
      A1.scopes = A.scopes) ∧
    (∀ f A A1, SemanticAnalyzer.visitFuncDecl f A = .ok A1 → A1.scopes = A.scopes) ∧
    (∀ (A A1 : SemanticAnalyzer) (node : Node) (name : String), A1.scopes = A.scopes →
      A.resolve name = none →
      SemanticAnalyzer.visitExpr (.Variable node name) A1 =
        .error ⟨"Undefined variable '" ++ name ++ "'", node.line, node.col⟩) ∧
    (∀ node name init (A A1 : SemanticAnalyzer), A.scopes ≠ [] →
      SemanticAnalyzer.visitStmt (.VarDecl node name init) A = .ok A1 →
      (A1.resolve name).isSome) ∧
    (∀ node name type isArray size init (A A1 : SemanticAnalyzer), A.scopes ≠ [] →
      SemanticAnalyzer.visitStmt (.TypedVarDecl node name type isArray size init) A = .ok A1 →
      (A1.resolve name).isSome) ∧
    (∀ s A A1, SemanticAnalyzer.visitStmt s A = .ok A1 → SemanticAnalyzer.Grows A A1) ∧
    (∀ pre post A A2, SemanticAnalyzer.visitStmts (pre ++ post) A = .ok A2 →
      ∃ A1, SemanticAnalyzer.visitStmts pre A = .ok A1 ∧ SemanticAnalyzer.Grows A A1 ∧
        SemanticAnalyzer.visitStmts post A1 = .ok A2) ∧
    (∀ node init cond update bodyNode body A A5,
      SemanticAnalyzer.visitStmt (.ForStmt node init cond update bodyNode body) A = .ok A5 →
      ∃ A1 A2 A3 A4, SemanticAnalyzer.visitOptStmt init A.enterScope = .ok A1 ∧
        SemanticAnalyzer.visitOptExpr cond A1 = .ok A2 ∧
        SemanticAnalyzer.visitOptStmt update A2 = .ok A3 ∧
        SemanticAnalyzer.visitStmts body A3.enterScope = .ok A4 ∧
        SemanticAnalyzer.Grows A1 A2 ∧ SemanticAnalyzer.Grows A1 A3.enterScope) ∧
    (∀ f A A3, SemanticAnalyzer.visitFuncDecl f A = .ok A3 →
      ∃ A1 A2, SemanticAnalyzer.visitParams f.params A.enterScope = .ok A1 ∧
        SemanticAnalyzer.visitStmts f.body A1.enterScope = .ok A2 ∧
        ∀ p ∈ f.params, (A1.enterScope.resolve p.2).isSome) := by
  refine ⟨SemanticAnalyzer.visitStmt_block_scopes, ?_, ?_, ?_,
    fun node name init A A1 hs h => SemanticAnalyzer.visitStmt_let_resolve node name init A A1 hs h,
    fun node name type isArray size init A A1 hs h =>
      SemanticAnalyzer.visitStmt_typed_resolve node name type isArray size init A A1 hs h,
    fun s A A1 h => SemanticAnalyzer.visitStmt_growing s A A1 h, ?_, ?_, ?_⟩
  · intro node init cond update bodyNode body A A1 h
    exact SemanticAnalyzer.visitStmt_for_scopes node bodyNode init cond update body A A1 h
  · intro f A A1 h
    exact (SemanticAnalyzer.visitFuncDecl_scopes f A A1 h).1
  · intro A A1 node name hs hn
    have : A1.resolve name = none := by
      simpa [SemanticAnalyzer.resolve, hs] using hn
    simp only [SemanticAnalyzer.visitExpr, this]
  · intro pre post A A2 h
    rw [SemanticAnalyzer.visitStmts_append] at h
    cases h1 : SemanticAnalyzer.visitStmts pre A with
    | error e => rw [h1] at h; cases h
    | ok A1 =>
      rw [h1] at h
      exact ⟨A1, rfl, SemanticAnalyzer.visitStmts_growing pre A A1 h1, h⟩
  · intro node init cond update bodyNode body A A5 h
    obtain ⟨A1, A2, A3, A4, h1, h2, h3, h4, _⟩ :=
      SemanticAnalyzer.visitStmt_for_steps node bodyNode init cond update body A A5 h
    have g2 := SemanticAnalyzer.visitOptExpr_growing cond A1 A2 h2
    have g3 := SemanticAnalyzer.visitOptStmt_growing update A2 A3 h3
    refine ⟨A1, A2, A3, A4, h1, h2, h3, h4, g2, ?_⟩
    intro name hn
    rw [SemanticAnalyzer.enterScope_resolve]
    exact g3 name (g2 name hn)
  · intro f A A3 h
    unfold SemanticAnalyzer.visitFuncDecl at h
    cases h1 : SemanticAnalyzer.visitParams f.params A.enterScope with
    | error e => rw [h1] at h; cases h
    | ok A1 =>
      rw [h1] at h
      simp only [SemanticAnalyzer.visitStmt] at h
      cases h2 : SemanticAnalyzer.visitStmts f.body A1.enterScope with
      | error e => rw [h2] at h; cases h
      | ok A2 =>
        refine ⟨A1, A2, by first | exact h1 | rfl, h2, ?_⟩
        intro p hp
        rw [SemanticAnalyzer.enterScope_resolve]
        exact SemanticAnalyzer.visitParams_resolve f.params A.enterScope A1
          (by simp [SemanticAnalyzer.enterScope]) h1 p hp

theorem lexical_scoping_witness :
    SemanticAnalyzer.visitStmt
        (.ForStmt {} (some (.VarDecl {} "i" (some (.IntLiteral {} 0))))
          (some (.BinaryExpr {} "<" (.Variable {} "i") (.IntLiteral {} 3)))
          (some (.AssignStmt {} "i" none (.BinaryExpr {} "+" (.Variable {} "i") (.IntLiteral {} 1))))
          {} [.PrintStmt {} (.Variable {} "i") true])
        { scopes := [[]] } =
      .ok { scopes := [[]], lastType := .Int } ∧
    SemanticAnalyzer.visitExpr (.Variable ⟨3, 9⟩ "i") { scopes := [[]], lastType := .Int } =
      .error ⟨"Undefined variable 'i'", 3, 9⟩ :=
  ⟨rfl, lexical_scoping.2.2.2.1 { scopes := [[]] } { scopes := [[]], lastType := .Int } ⟨3, 9⟩ "i"
    rfl rfl⟩

/-! ## Semantic analyser: built-in calls and the initialized flag -/

/-- The tokens of the source `println(substr(1, "a", "b"));`. -/
theorem tokenize_substr_example :
    tokenize "println(substr(1, \"a\", \"b\"));" =
      some [⟨.Println, "println", 1, 1⟩, ⟨.LParen, "(", 1, 8⟩, ⟨.Identifier, "substr", 1, 9⟩,
        ⟨.LParen, "(", 1, 15⟩, ⟨.Number, "1", 1, 16⟩, ⟨.Comma, ",", 1, 17⟩,
        ⟨.StringLiteral, "a", 1, 19⟩, ⟨.Comma, ",", 1, 22⟩, ⟨.StringLiteral, "b", 1, 24⟩,
        ⟨.RParen, ")", 1, 27⟩, ⟨.RParen, ")", 1, 28⟩, ⟨.Semicolon, ";", 1, 29⟩,
        ⟨.EndOfFile, "", 1, 30⟩] := by
  decide

/-- The tokens of the source `println(input(1, 2));`. -/
theorem tokenize_input_example :
    tokenize "println(input(1, 2));" =
      some [⟨.Println, "println", 1, 1⟩, ⟨.LParen, "(", 1, 8⟩, ⟨.Identifier, "input", 1, 9⟩,
        ⟨.LParen, "(", 1, 14⟩, ⟨.Number, "1", 1, 15⟩, ⟨.Comma, ",", 1, 16⟩,
        ⟨.Number, "2", 1, 18⟩, ⟨.RParen, ")", 1, 19⟩, ⟨.RParen, ")", 1, 20⟩,
        ⟨.Semicolon, ";", 1, 21⟩, ⟨.EndOfFile, "", 1, 22⟩] := by
  decide

/-- C27 (the code departs from the claim). The call `substr(1, "a", "b")`,
whose first argument is an `Int` and whose second and third are `String`s,
is accepted with type `String`, and so is the call `input(1, 2)` with two
arguments; both programs compile. Only the number of arguments of `substr`
is checked (`substr(1)` is rejected), and nothing about `input`. -/
theorem builtin_arguments_not_checked :
    SemanticAnalyzer.visitExpr
        (.CallExpr {} "substr" [.IntLiteral {} 1, .StringLiteral {} "a", .StringLiteral {} "b"])
        {} = .ok { lastType := .String } ∧
    SemanticAnalyzer.visitExpr (.CallExpr {} "input" [.IntLiteral {} 1, .IntLiteral {} 2]) {} =
      .ok { lastType := .String } ∧
    SemanticAnalyzer.visitExpr (.CallExpr ⟨1, 9⟩ "substr" [.IntLiteral {} 1]) {} =
      .error ⟨"substr() expects 3 arguments", 1, 9⟩ ∧
    compile "println(substr(1, \"a\", \"b\"));" =
      .ok (Codegen.preamble ++
        "int main() \x7b\n  std::cout << _tl_substr(1, \"a\", \"b\") << std::endl;\n  return 0;\n\x7d\n") ∧
    compile "println(input(1, 2));" =
      .ok (Codegen.preamble ++
        "int main() \x7b\n  std::cout << _tl_input() << std::endl;\n  return 0;\n\x7d\n") := by
  refine ⟨rfl, rfl, rfl, ?_, ?_⟩
  · unfold compile
    rw [tokenize_substr_example]
    rfl
  · unfold compile
    rw [tokenize_input_example]
    rfl

/-- The tokens of the source `int[] xs;`. -/
theorem tokenize_array_declaration :
    tokenize "int[] xs;" =
      some [⟨.Identifier, "int", 1, 1⟩, ⟨.LBracket, "[", 1, 4⟩, ⟨.RBracket, "]", 1, 5⟩,
        ⟨.Identifier, "xs", 1, 7⟩, ⟨.Semicolon, ";", 1, 9⟩, ⟨.EndOfFile, "", 1, 10⟩] := by
  decide

/-- C28, as claimed, fails. The declaration `int[] xs;` parses to an array
declaration with neither a size nor an initializer, and analysing it leaves
`xs` with the initialized flag true. -/
theorem empty_array_declaration_is_initialized :
    (tokenize "int[] xs;").map Parser.parse =
      some (.ok ⟨{}, [.Stmt (.TypedVarDecl {} "xs" "int" true none none)]⟩) ∧
    SemanticAnalyzer.visitStmt (.TypedVarDecl {} "xs" "int" true none none) { scopes := [[]] } =
      .ok { scopes := [[("xs", ⟨true, .Int⟩)]] } := by
  refine ⟨?_, rfl⟩
  rw [tokenize_array_declaration]
  rfl

theorem SemanticAnalyzer.declare_ok_scopes (A A1 : SemanticAnalyzer) (name : String) (type : Ty)
    (scope : StdMap SymbolInfo) (outer : List (StdMap SymbolInfo))
    (hsc : A.scopes = scope :: outer) (h : A.declare name type = .ok A1) :
    A1.scopes = scope.set name ⟨false, type⟩ :: outer := by
  unfold SemanticAnalyzer.declare at h
  rw [hsc] at h
  simp only at h
  split_ifs at h
  cases h
  rfl

/-- C28, amended. After a visit of a `TypedVarDecl` that returns normally
(in a scope stack that is not empty), the declared name resolves to its
annotated type with the initialized flag true if the declaration has an
initializer, is an array (with or without a size) or has a size, and false
only if it is a scalar with no initializer. -/
theorem typed_declaration_initialized_flag (node : Node) (name type : String) (isArray : Bool)
    (size init : Option Expr) (A A5 : SemanticAnalyzer) (hs : A.scopes ≠ [])
    (h : SemanticAnalyzer.visitStmt (.TypedVarDecl node name type isArray size init) A = .ok A5) :
    A5.resolve name = some ⟨init.isSome || isArray || size.isSome, annotatedType type⟩ := by
  simp only [SemanticAnalyzer.visitStmt] at h
  cases h1 : SemanticAnalyzer.visitOptExpr init A with
  | error e => rw [h1] at h; cases h
  | ok A1 =>
    rw [h1] at h
    simp only at h
    cases h2 : A1.declare name (annotatedType type) with
    | error e => rw [h2] at h; cases h
    | ok A2 =>
      rw [h2] at h
      simp only at h
      have hs1 : A1.scopes = A.scopes := SemanticAnalyzer.visitOptExpr_scopes init A A1 h1
      obtain ⟨scope, outer, hsc⟩ : ∃ scope outer, A1.scopes = scope :: outer := by
        rw [hs1]
        cases hA : A.scopes with
        | nil => exact absurd hA hs
        | cons s o => exact ⟨s, o, rfl⟩
      have hs2 := SemanticAnalyzer.declare_ok_scopes A1 A2 name _ scope outer hsc h2
      have h4 : (if init.isNone ∧ !isArray ∧ size.isNone then
          (A2.define name).undefine name else A2.define name).resolve name =
          some ⟨init.isSome || isArray || size.isSome, annotatedType type⟩ := by
        have hdef : (A2.define name).scopes =
            (scope.set name ⟨false, annotatedType type⟩).set name ⟨true, annotatedType type⟩ ::
              outer := by
          simp [SemanticAnalyzer.define, hs2, StdMap.find_set_self]
        split_ifs with hc
        · obtain ⟨hc1, hc2, hc3⟩ := hc
          simp only [Option.isNone_iff_eq_none] at hc1 hc3
          simp only [Bool.not_eq_true'] at hc2
          subst hc1 hc2 hc3
          simp [SemanticAnalyzer.undefine, hdef, SemanticAnalyzer.resolve, resolveIn,
            StdMap.find_set_self]
        · have hflag : (init.isSome || isArray || size.isSome) = true := by
            cases init <;> cases isArray <;> cases size <;> simp_all
          simp [hflag, hdef, SemanticAnalyzer.resolve, resolveIn, StdMap.find_set_self]
      generalize (if init.isNone ∧ !isArray ∧ size.isNone then
        (A2.define name).undefine name else A2.define name) = A4 at h h4
      cases size with
      | none =>
        simp only at h
        cases h
        exact h4
      | some sz =>
        simp only at h
        cases h5 : SemanticAnalyzer.visitExpr sz A4 with
        | error e => rw [h5] at h; cases h
        | ok A6 =>
          rw [h5] at h
          simp only at h
          split_ifs at h
          cases h
          have hs5 := SemanticAnalyzer.visitExpr_scopes sz A4 A5 h5
          simp only [SemanticAnalyzer.resolve, hs5] at h4 ⊢
          exact h4

theorem typed_declaration_initialized_flag_witness :
    ({ scopes := [[("xs", ⟨true, .Int⟩)]] } : SemanticAnalyzer).resolve "xs" =
      some ⟨(none : Option Expr).isSome || true || (none : Option Expr).isSome,
        annotatedType "int"⟩ :=
  typed_declaration_initialized_flag {} "xs" "int" true none none { scopes := [[]] }
    { scopes := [[("xs", ⟨true, .Int⟩)]] } (by decide) rfl

/-! ## Emitter: literals and the header of a for statement -/

theorem isdigit_ne_sign {c : Char} (h : isdigit c = true) : c ≠ '-' ∧ c ≠ '+' := by
  constructor <;> (intro hc; subst hc; exact absurd h (by decide))
theorem sign_of_digit_aux {α : Type} (c : Char) (ds : List Char) (hc : isdigit c = true)
    (f g h : List Char → α) :
    (match c :: ds with
      | '-' :: r => f r
      | '+' :: r => g r
      | x => h x) = h (c :: ds) := by
  obtain ⟨h1, h2⟩ := isdigit_ne_sign hc
  split
  · rename_i heq; cases heq; exact absurd rfl h1
  · rename_i heq; cases heq; exact absurd rfl h2
  · rfl

/-- The sign test of `std::stoi` and `std::stod` on a text that starts with
a digit: no sign is read. -/
theorem sign_of_digit {α : Type} (c : Char) (ds : List Char) (hc : isdigit c = true)
    (f g h : List Char → α) :
    stoi.match_1 (fun _ => α) (c :: ds) f g h = h (c :: ds) :=
  sign_of_digit_aux c ds hc f g h

theorem dropWhile_isspace_digit (c : Char) (ds : List Char) (hc : isdigit c = true) :
    List.dropWhile isspace (c :: ds) = c :: ds := by
  rw [List.dropWhile_cons_of_neg (by simp [isspace_of_isdigit hc])]

theorem takeWhile_isdigit_append (ds rest : List Char) (hd : ∀ d ∈ ds, isdigit d = true)
    (hrest : ∀ d, rest.head? = some d → isdigit d = false) :
    List.takeWhile isdigit (ds ++ rest) = ds ∧ List.dropWhile isdigit (ds ++ rest) = rest := by
  induction ds with
  | nil =>
    cases rest with
    | nil => exact ⟨rfl, rfl⟩
    | cons d tl =>
      have := hrest d rfl
      simp [List.takeWhile, List.dropWhile, this]
  | cons d ds ih =>
    have h1 := hd d (List.mem_cons_self _ _)
    have ih1 := ih (fun x hx => hd x (List.mem_cons_of_mem _ hx))
    simp [List.takeWhile, List.dropWhile, h1, ih1.1, ih1.2]

/-- `std::stoi` on a text of digits whose value fits an `int`. -/
theorem stoi_digits (c : Char) (ds : List Char) (hc : isdigit c = true)
    (hd : ∀ d ∈ ds, isdigit d = true) (hrange : digitsValue (c :: ds) ≤ 2147483647) :
    stoi (String.mk (c :: ds)) = .ok (digitsValue (c :: ds) : Int) := by
  have htake : List.takeWhile isdigit (c :: ds) = c :: ds := by
    have := (takeWhile_isdigit_append (c :: ds) [] (by
      intro d hd1
      rcases List.mem_cons.mp hd1 with h | h
      · rw [h]; exact hc
      · exact hd d h) (fun d h => by cases h)).1
    rwa [List.append_nil] at this
  unfold stoi
  simp only [dropWhile_isspace_digit c ds hc, sign_of_digit c ds hc, htake, List.cons_ne_nil,
    if_false, Bool.false_eq_true]
  rw [if_neg]
  omega

/-- The tokens of the source `for (int i = 0; i < 3; i = i + 1) { }`. -/
theorem tokenize_typed_for_example :
    tokenize "for (int i = 0; i < 3; i = i + 1) \x7b \x7d" =
      some [⟨.For, "for", 1, 1⟩, ⟨.LParen, "(", 1, 5⟩, ⟨.Identifier, "int", 1, 6⟩,
        ⟨.Identifier, "i", 1, 10⟩, ⟨.Assign, "=", 1, 12⟩, ⟨.Number, "0", 1, 14⟩,
        ⟨.Semicolon, ";", 1, 15⟩, ⟨.Identifier, "i", 1, 17⟩, ⟨.Less, "<", 1, 19⟩,
        ⟨.Number, "3", 1, 21⟩, ⟨.Semicolon, ";", 1, 22⟩, ⟨.Identifier, "i", 1, 24⟩,
        ⟨.Assign, "=", 1, 26⟩, ⟨.Identifier, "i", 1, 28⟩, ⟨.Plus, "+", 1, 30⟩,
        ⟨.Number, "1", 1, 32⟩, ⟨.RParen, ")", 1, 33⟩, ⟨.LBrace, "\x7b", 1, 35⟩,
        ⟨.RBrace, "\x7d", 1, 37⟩, ⟨.EndOfFile, "", 1, 38⟩] := by
  decide

/-- The header emitted for a `ForStmt` whose init is a typed declaration:
nothing stands for the init, not even its `;`. -/
theorem Codegen.visitStmt_for_typed_init (indentLevel : Nat) (node declNode bodyNode : Node)
    (name type : String) (isArray : Bool) (size init cond : Option Expr)
    (update : Option Stmt) (body : List Stmt) :
    Codegen.visitStmt indentLevel
        (.ForStmt node (some (.TypedVarDecl declNode name type isArray size init)) cond update
          bodyNode body) =
      Codegen.indent indentLevel ++ "for (" ++
        (match cond with
          | some e => Codegen.visitExpr e
          | none => "") ++ "; " ++ Codegen.forUpdate update ++ ")\n" ++
        Codegen.visitBlock indentLevel (Codegen.visitStmts (indentLevel + 1) body) := by
  simp only [Codegen.visitStmt, Codegen.forInit, String.append_empty]

/-- C30 (the code departs from the claim). For the source
`for (int i = 0; i < 3; i = i + 1) { }`, whose init is a typed declaration,
the emitted header is `for ((i < 3); i = (i + 1))`: the init is not
rendered and the header holds one `;` only. -/
theorem typed_for_init_not_emitted :
    compile "for (int i = 0; i < 3; i = i + 1) \x7b \x7d" =
      .ok (Codegen.preamble ++
        "int main() \x7b\n  for ((i < 3); i = (i + 1))\n  \x7b\n  \x7d\n  return 0;\n\x7d\n") := by
  unfold compile
  rw [tokenize_typed_for_example]
  rfl

/-! ## Lexer: a comment line in front of a source -/

theorem Lexer.peek_down (k : Nat) (L : Lexer) : (L.down k).peek = L.peek := rfl

theorem Lexer.rest_down (k : Nat) (L : Lexer) : (L.down k).rest = L.rest := rfl

theorem Lexer.line_down (k : Nat) (L : Lexer) : (L.down k).line = L.line + k := rfl

theorem Lexer.col_down (k : Nat) (L : Lexer) : (L.down k).col = L.col := rfl

theorem Lexer.advance_down (k : Nat) (L : Lexer) :
    (L.down k).advance = (L.advance.1, L.advance.2.down k) := by
  obtain ⟨rest, line, col⟩ := L
  cases rest with
  | nil => rfl
  | cons c cs =>
    simp only [Lexer.down, Lexer.advance]
    split
    · simp only [Nat.add_right_comm line 1 k]
    · rfl

theorem Lexer.scanWhileAux_down (p : Char → Bool) (k : Nat) : ∀ (cs : List Char)
    (line col : Nat),
    Lexer.scanWhileAux p cs (line + k) col =
      ((Lexer.scanWhileAux p cs line col).1, (Lexer.scanWhileAux p cs line col).2.down k)
  | [], line, col => rfl
  | c :: cs, line, col => by
    rw [Lexer.scanWhileAux, Lexer.scanWhileAux]
    split
    · have h := Lexer.advance_down k ⟨c :: cs, line, col⟩
      simp only [Lexer.down] at h
      simp only [h]
      rw [Lexer.scanWhileAux_down p k cs]
    · rfl

theorem Lexer.scanWhile_down (p : Char → Bool) (k : Nat) (L : Lexer) :
    (L.down k).scanWhile p = ((L.scanWhile p).1, (L.scanWhile p).2.down k) :=
  Lexer.scanWhileAux_down p k L.rest L.line L.col

theorem Lexer.skipWhitespace_down (k : Nat) (L : Lexer) :
    (L.down k).skipWhitespace = L.skipWhitespace.down k := by
  simp only [Lexer.skipWhitespace, Lexer.scanWhile_down]

theorem Lexer.match_down (k : Nat) (L : Lexer) (expected : Char) :
    (L.down k).match_ expected = ((L.match_ expected).1, (L.match_ expected).2.down k) := by
  simp only [Lexer.match_, Lexer.peek_down, Lexer.advance_down]
  split <;> rfl

theorem Lexer.DownRel.ite_down {k : Nat} {c : Prop} [Decidable c]
    {a b a1 b1 : List Token × Lexer} (ha : c → Lexer.DownRel k a a1)
    (hb : ¬c → Lexer.DownRel k b b1) :
    Lexer.DownRel k (if c then a else b) (if c then a1 else b1) := by
  split
  · exact ha ‹_›
  · exact hb ‹_›

theorem Lexer.DownRel.push_down {k : Nat} {ty : TokenType} {text : String} {line col : Nat}
    {L1 : Lexer} :
    Lexer.DownRel k ([⟨ty, text, line, col⟩], L1) ([⟨ty, text, line + k, col⟩], L1.down k) :=
  rfl

/-- One turn of the lexer loop started `k` lines further down gives the same
tokens and the same lexer, `k` lines further down. -/
theorem Lexer.scanToken_down (k : Nat) (L0 : Lexer) :
    Lexer.DownRel k L0.scanToken (L0.down k).scanToken := by
  unfold Lexer.scanToken
  simp only [Lexer.advance_down, Lexer.line_down, Lexer.col_down]
  generalize L0.advance = adv
  obtain ⟨c, L⟩ := adv
  simp only [Lexer.scanWhile_down, Lexer.match_down, Lexer.peek_down, Lexer.advance_down]
  generalize keywords _ = kw
  repeat' (refine Lexer.DownRel.ite_down (fun _ => ?_) (fun _ => ?_))
  on_goal 4 =>
    cases kw with
    | none => exact Lexer.DownRel.push_down
    | some kw => exact Lexer.DownRel.push_down
  all_goals
    first
      | exact Lexer.DownRel.push_down
      | rfl
      | (unfold Lexer.DownRel; simp only [List.map_cons, List.map_nil, Token.down]; split <;> rfl)

/-- The lexer loop started `k` lines further down gives the same tokens,
`k` lines further down. -/
theorem Lexer.tokenizeLoop_down (k : Nat) : ∀ (fuel : Nat) (L : Lexer) (acc : List Token),
    Lexer.tokenizeLoop fuel (L.down k) (acc.map (Token.down k)) =
      (Lexer.tokenizeLoop fuel L acc).map (fun r => (r.1.down k, r.2.map (Token.down k)))
  | 0, _, _ => rfl
  | fuel + 1, L, acc => by
    rw [Lexer.tokenizeLoop, Lexer.tokenizeLoop]
    simp only [Lexer.rest_down, Lexer.skipWhitespace_down]
    split
    · rfl
    · split
      · rfl
      · have h := Lexer.scanToken_down k L.skipWhitespace
        unfold Lexer.DownRel at h
        rw [h]
        simp only
        rw [← List.map_append]
        exact Lexer.tokenizeLoop_down k fuel _ _

/-- More fuel does not change what the lexer loop returns. -/
theorem Lexer.tokenizeLoop_succ : ∀ (fuel : Nat) (L : Lexer) (acc : List Token)
    (r : Lexer × List Token), Lexer.tokenizeLoop fuel L acc = some r →
    Lexer.tokenizeLoop (fuel + 1) L acc = some r
  | 0, _, _, _, h => by simp [Lexer.tokenizeLoop] at h
  | fuel + 1, L, acc, r, h => by
    rw [Lexer.tokenizeLoop] at h ⊢
    split
    · rename_i h1
      rw [if_pos h1] at h
      exact h
    · rename_i h1
      rw [if_neg h1] at h
      simp only at h ⊢
      split
      · rename_i h2
        rw [if_pos h2] at h
        exact h
      · rename_i h2
        rw [if_neg h2] at h
        exact Lexer.tokenizeLoop_succ fuel _ _ r h

theorem Lexer.tokenizeLoop_add (n : Nat) (fuel : Nat) (L : Lexer) (acc : List Token)
    (r : Lexer × List Token) (h : Lexer.tokenizeLoop fuel L acc = some r) :
    Lexer.tokenizeLoop (fuel + n) L acc = some r := by
  induction n with
  | zero => exact h
  | succ n ih => exact Lexer.tokenizeLoop_succ _ L acc r ih

/-- With fuel for every character left, the lexer loop returns what it
returns with exactly that much fuel. -/
theorem Lexer.tokenizeLoop_fuel (fuel : Nat) (L : Lexer) (h : L.rest.length < fuel) :
    Lexer.tokenizeLoop fuel L [] = Lexer.tokenizeLoop (L.rest.length + 1) L [] := by
  obtain ⟨L1, toks, h1, _⟩ := Lexer.tokenizeLoop_spec (L.rest.length + 1) L [] (Nat.lt_succ_self _)
    (fun t ht => absurd ht (List.not_mem_nil t))
  have h3 := Lexer.tokenizeLoop_add (fuel - (L.rest.length + 1)) _ L [] _ h1
  rw [show L.rest.length + 1 + (fuel - (L.rest.length + 1)) = fuel by omega] at h3
  rw [h3, h1]

/-- The lexer loop entered in front of a newline goes on as it does when
entered behind it, on the next line at column 1. -/
theorem Lexer.tokenizeLoop_newline (fuel : Nat) (rest : List Char) (line col : Nat)
    (acc : List Token) :
    Lexer.tokenizeLoop (fuel + 1) ⟨'\n' :: rest, line, col⟩ acc =
      Lexer.tokenizeLoop (fuel + 1) ⟨rest, line + 1, 1⟩ acc := by
  have hskip : Lexer.skipWhitespace ⟨'\n' :: rest, line, col⟩ =
      Lexer.skipWhitespace ⟨rest, line + 1, 1⟩ := by
    simp only [Lexer.skipWhitespace, Lexer.scanWhile]
    rw [Lexer.scanWhileAux, if_pos (by decide)]
    rfl
  rw [Lexer.tokenizeLoop, Lexer.tokenizeLoop]
  simp only [List.cons_ne_nil, if_false, hskip]
  cases rest with
  | nil => rfl
  | cons d tl => simp only [List.cons_ne_nil, if_false]

/-- A comment line in front of a source: for a comment text `c` with
neither a newline nor a NUL character, the tokens of `//` `c` newline `rest`
are the tokens of `rest`, each one line further down. -/
theorem tokenize_comment_line (c rest : List Char) (hnl : '\n' ∉ c) (hnul : '\x00' ∉ c) :
    tokenize (String.mk ('/' :: '/' :: (c ++ '\n' :: rest))) =
      (tokenize (String.mk rest)).map (List.map (Token.down 1)) := by
  have hscan : Lexer.scanToken ⟨'/' :: '/' :: (c ++ '\n' :: rest), 1, 1⟩ =
      ([], ⟨'\n' :: rest, 1, 3 + c.length⟩) := by
    have h1 : Lexer.scanToken ⟨'/' :: '/' :: (c ++ '\n' :: rest), 1, 1⟩ =
        ([], (Lexer.scanWhileAux (fun d => d != '\n' && d != '\x00') (c ++ '\n' :: rest)
          1 3).2) := rfl
    rw [h1, Lexer.scanWhileAux_append_pos _ ('\n' :: rest) (fun d hd => by cases hd; rfl) c 1 3
      ?_ hnl]
    intro d hd
    have h2 : d ≠ '\n' := fun h => hnl (h ▸ hd)
    have h3 : d ≠ '\x00' := fun h => hnul (h ▸ hd)
    simp [h2, h3]
  have hstep : Lexer.tokenizeLoop ((c ++ '\n' :: rest).length + 1 + 1 + 1)
      ⟨'/' :: '/' :: (c ++ '\n' :: rest), 1, 1⟩ [] =
      Lexer.tokenizeLoop ((c ++ '\n' :: rest).length + 1 + 1) ⟨'\n' :: rest, 1, 3 + c.length⟩
        [] := by
    rw [Lexer.tokenizeLoop]
    simp only [List.cons_ne_nil, if_false,
      Lexer.skipWhitespace_cons '/' _ 1 1 (by decide), hscan, List.append_nil]
  have hdown := Lexer.tokenizeLoop_down 1 ((c ++ '\n' :: rest).length + 1 + 1) ⟨rest, 1, 1⟩ []
  have hfuel := Lexer.tokenizeLoop_fuel ((c ++ '\n' :: rest).length + 1 + 1) ⟨rest, 1, 1⟩
    (by simp only [List.length_append, List.length_cons]; omega)
  simp only [tokenize, Lexer.tokenize, Lexer.new, List.length_cons, hstep,
    Lexer.tokenizeLoop_newline]
  simp only [Lexer.down, List.map_nil] at hdown
  rw [hdown, hfuel]
  cases Lexer.tokenizeLoop (rest.length + 1) ⟨rest, 1, 1⟩ [] with
  | none => rfl
  | some r =>
    simp only [Option.map_some', List.map_append, List.map_cons, List.map_nil, Token.down]

/-! ## Emitter: indentation -/

/-- The tokens of the source `if (1) { print(1); }`. -/
theorem tokenize_if_example :
    tokenize "if (1) \x7b print(1); \x7d" =
      some [⟨.If, "if", 1, 1⟩, ⟨.LParen, "(", 1, 4⟩, ⟨.Number, "1", 1, 5⟩, ⟨.RParen, ")", 1, 6⟩,
        ⟨.LBrace, "\x7b", 1, 8⟩, ⟨.Print, "print", 1, 10⟩, ⟨.LParen, "(", 1, 15⟩,
        ⟨.Number, "1", 1, 16⟩, ⟨.RParen, ")", 1, 17⟩, ⟨.Semicolon, ";", 1, 18⟩,
        ⟨.RBrace, "\x7d", 1, 20⟩, ⟨.EndOfFile, "", 1, 21⟩] := by
  decide

/-- The tokens of the source `int x = 1; x = 2;`. -/
theorem tokenize_typed_assign_example :
    tokenize "int x = 1; x = 2;" =
      some [⟨.Identifier, "int", 1, 1⟩, ⟨.Identifier, "x", 1, 5⟩, ⟨.Assign, "=", 1, 7⟩,
        ⟨.Number, "1", 1, 9⟩, ⟨.Semicolon, ";", 1, 10⟩, ⟨.Identifier, "x", 1, 12⟩,
        ⟨.Assign, "=", 1, 14⟩, ⟨.Number, "2", 1, 16⟩, ⟨.Semicolon, ";", 1, 17⟩,
        ⟨.EndOfFile, "", 1, 18⟩] := by
  decide

/-- C31 (the code departs from the claim). In the synthesized `main`, at
nesting level 1: the line of an if-statement begins with `if (` and no
space (and carries the indentation in front of its `)`), and the second
line of a typed declaration and of an assignment, which sets the flag
`x_init`, begins with four spaces, not two. -/
theorem statement_lines_not_indented :
    compile "if (1) \x7b print(1); \x7d" =
      .ok (Codegen.preamble ++
        "int main() \x7b\nif (1  ) \x7b\n    \x7b\n      std::cout << 1;\n    \x7d\n  \x7d\n  return 0;\n\x7d\n") ∧
    compile "int x = 1; x = 2;" =
      .ok (Codegen.preamble ++
        "int main() \x7b\n  int x = 1;\n    bool x_init = true;\n  x = 2;\n    x_init = true;\n  return 0;\n\x7d\n") := by
  constructor
  · unfold compile
    rw [tokenize_if_example]
    rfl
  · unfold compile
    rw [tokenize_typed_assign_example]
    rfl

/-! ## Optimizer: nothing is folded -/

mutual

theorem Optimizer.visitExpr_eq : ∀ e : Expr, Optimizer.visitExpr e = e
  | .IntLiteral _ _ => by simp only [Optimizer.visitExpr]
  | .FloatLiteral _ _ => by simp only [Optimizer.visitExpr]
  | .StringLiteral _ _ => by simp only [Optimizer.visitExpr]
  | .Variable _ _ => by simp only [Optimizer.visitExpr]
  | .ArrayAccess _ _ _ => by simp only [Optimizer.visitExpr]
  | .BinaryExpr node op left right => by
    simp only [Optimizer.visitExpr, Optimizer.visitExpr_eq left, Optimizer.visitExpr_eq right]
    split <;> rfl
  | .UnaryExpr node op operand => by
    simp only [Optimizer.visitExpr, Optimizer.visitExpr_eq operand]
  | .CallExpr node callee args => by
    simp only [Optimizer.visitExpr, Optimizer.visitArgs_eq args]

theorem Optimizer.visitArgs_eq : ∀ args : List Expr, Optimizer.visitArgs args = args
  | [] => by simp only [Optimizer.visitArgs]
  | a :: args => by
    simp only [Optimizer.visitArgs, Optimizer.visitExpr_eq a, Optimizer.visitArgs_eq args]

end

mutual

theorem Optimizer.visitStmt_eq : ∀ s : Stmt, Optimizer.visitStmt s = s
  | .VarDecl _ _ initializer => by
    cases initializer <;> simp only [Optimizer.visitStmt, Optimizer.visitExpr_eq]
  | .TypedVarDecl _ _ _ _ _ _ => by simp only [Optimizer.visitStmt]
  | .AssignStmt _ _ _ _ => by simp only [Optimizer.visitStmt, Optimizer.visitExpr_eq]
  | .PrintStmt _ _ _ => by simp only [Optimizer.visitStmt, Optimizer.visitExpr_eq]
  | .ExprStmt _ _ => by simp only [Optimizer.visitStmt, Optimizer.visitExpr_eq]
  | .Block _ statements => by
    simp only [Optimizer.visitStmt, Optimizer.visitStmts_eq statements]
  | .IfStmt _ _ thenBranch none => by
    simp only [Optimizer.visitStmt, Optimizer.visitExpr_eq, Optimizer.visitStmt_eq thenBranch]
  | .IfStmt _ _ thenBranch (some s) => by
    simp only [Optimizer.visitStmt, Optimizer.visitExpr_eq, Optimizer.visitStmt_eq thenBranch,
      Optimizer.visitStmt_eq s]
  | .ForStmt _ none condition none _ body => by
    cases condition <;>
      simp only [Optimizer.visitStmt, Optimizer.visitExpr_eq, Optimizer.visitStmts_eq body]
  | .ForStmt _ (some i) condition none _ body => by
    cases condition <;>
      simp only [Optimizer.visitStmt, Optimizer.visitExpr_eq, Optimizer.visitStmts_eq body,
        Optimizer.visitStmt_eq i]
  | .ForStmt _ none condition (some u) _ body => by
    cases condition <;>
      simp only [Optimizer.visitStmt, Optimizer.visitExpr_eq, Optimizer.visitStmts_eq body,
        Optimizer.visitStmt_eq u]
  | .ForStmt _ (some i) condition (some u) _ body => by
    cases condition <;>
      simp only [Optimizer.visitStmt, Optimizer.visitExpr_eq, Optimizer.visitStmts_eq body,
        Optimizer.visitStmt_eq i, Optimizer.visitStmt_eq u]
  | .ReturnStmt _ value => by
    cases value <;> simp only [Optimizer.visitStmt, Optimizer.visitExpr_eq]

theorem Optimizer.visitStmts_eq : ∀ ss : List Stmt, Optimizer.visitStmts ss = ss
  | [] => by simp only [Optimizer.visitStmts]
  | s :: ss => by
    simp only [Optimizer.visitStmts, Optimizer.visitStmt_eq s, Optimizer.visitStmts_eq ss]

end

/-- The optimizer leaves every program as it is. -/
theorem Optimizer.optimize_eq (prog : Program) : Optimizer.optimize prog = prog := by
  have h : ∀ d : Decl, Optimizer.visitDecl d = d := by
    intro d
    cases d with
    | Func f => simp only [Optimizer.visitDecl, Optimizer.visitStmts_eq]
    | Stmt s => simp only [Optimizer.visitDecl, Optimizer.visitStmt_eq]
  have hmap : prog.declarations.map Optimizer.visitDecl = prog.declarations := by
    rw [show Optimizer.visitDecl = id from funext h, List.map_id]
  simp only [Optimizer.optimize, hmap]

/-- C32. Division and modulo by an integer-literal zero are not folded:
the optimizer leaves a `BinaryExpr` whose right operand is the integer
literal 0 as it is, with the same operator and operands (its local `res` is
not even computed for `/` and `%`), and the emitter writes it as `(a / 0)`
respectively `(a % 0)`. The same holds for every operator, and the
optimizer leaves every program as it is. -/
theorem division_by_zero_not_folded (node n0 : Node) (op : String) (a : Expr) :
    Optimizer.visitExpr (.BinaryExpr node op a (.IntLiteral n0 0)) =
      .BinaryExpr node op a (.IntLiteral n0 0) ∧
    Codegen.visitExpr (Optimizer.visitExpr (.BinaryExpr node op a (.IntLiteral n0 0))) =
      "(" ++ Codegen.visitExpr a ++ (" " ++ op ++ " ") ++ "0" ++ ")" ∧
    (∀ l, Optimizer.res "/" l 0 = none ∧ Optimizer.res "%" l 0 = none) ∧
    (∀ prog, Optimizer.optimize prog = prog) := by
  have h := Optimizer.visitExpr_eq (.BinaryExpr node op a (.IntLiteral n0 0))
  refine ⟨h, ?_, fun l => ⟨rfl, rfl⟩, Optimizer.optimize_eq⟩
  rw [h]
  simp only [Codegen.visitExpr]
  rfl

/-! ## Semantic analyser: what `define` writes -/

/-- C33 (the code departs from the claim). With `s` declared as a `String`
in the enclosing scope only, `define("s")` adds a key `s` to the innermost
scope, with the type `Int`; and after the successful assignment `s = "b"`
there, `resolve("s")` returns an entry of type `Int`, where it returned one
of type `String` before. -/
theorem define_adds_a_default_entry :
    ({ scopes := [[], [("s", ⟨true, .String⟩)]] } : SemanticAnalyzer).define "s" =
      { scopes := [[("s", ⟨true, .Int⟩)], [("s", ⟨true, .String⟩)]] } ∧
    ({ scopes := [[], [("s", ⟨true, .String⟩)]] } : SemanticAnalyzer).resolve "s" =
      some ⟨true, .String⟩ ∧
    SemanticAnalyzer.visitStmt (.AssignStmt {} "s" none (.StringLiteral {} "b"))
        { scopes := [[], [("s", ⟨true, .String⟩)]] } =
      .ok { scopes := [[("s", ⟨true, .Int⟩)], [("s", ⟨true, .String⟩)]], lastType := .String } ∧
    ({ scopes := [[("s", ⟨true, .Int⟩)], [("s", ⟨true, .String⟩)]], lastType := .String } :
        SemanticAnalyzer).resolve "s" = some ⟨true, .Int⟩ := by
  refine ⟨rfl, rfl, rfl, rfl⟩

/-- The tokens of the source `string s = "a"; if (1) { s = "b"; }`. -/
theorem tokenize_assign_once_example :
    tokenize "string s = \"a\"; if (1) \x7b s = \"b\"; \x7d" =
      some [⟨.Identifier, "string", 1, 1⟩, ⟨.Identifier, "s", 1, 8⟩, ⟨.Assign, "=", 1, 10⟩,
        ⟨.StringLiteral, "a", 1, 12⟩, ⟨.Semicolon, ";", 1, 15⟩, ⟨.If, "if", 1, 17⟩,
        ⟨.LParen, "(", 1, 20⟩, ⟨.Number, "1", 1, 21⟩, ⟨.RParen, ")", 1, 22⟩,
        ⟨.LBrace, "\x7b", 1, 24⟩, ⟨.Identifier, "s", 1, 26⟩, ⟨.Assign, "=", 1, 28⟩,
        ⟨.StringLiteral, "b", 1, 30⟩, ⟨.Semicolon, ";", 1, 33⟩, ⟨.RBrace, "\x7d", 1, 35⟩,
        ⟨.EndOfFile, "", 1, 36⟩] := by
  decide

/-- The tokens of the source `string s = "a"; if (1) { s = "b"; s = "b"; }`. -/
theorem tokenize_assign_twice_example :
    tokenize "string s = \"a\"; if (1) \x7b s = \"b\"; s = \"b\"; \x7d" =
      some [⟨.Identifier, "string", 1, 1⟩, ⟨.Identifier, "s", 1, 8⟩, ⟨.Assign, "=", 1, 10⟩,
        ⟨.StringLiteral, "a", 1, 12⟩, ⟨.Semicolon, ";", 1, 15⟩, ⟨.If, "if", 1, 17⟩,
        ⟨.LParen, "(", 1, 20⟩, ⟨.Number, "1", 1, 21⟩, ⟨.RParen, ")", 1, 22⟩,
        ⟨.LBrace, "\x7b", 1, 24⟩, ⟨.Identifier, "s", 1, 26⟩, ⟨.Assign, "=", 1, 28⟩,
        ⟨.StringLiteral, "b", 1, 30⟩, ⟨.Semicolon, ";", 1, 33⟩, ⟨.Identifier, "s", 1, 35⟩,
        ⟨.Assign, "=", 1, 37⟩, ⟨.StringLiteral, "b", 1, 39⟩, ⟨.Semicolon, ";", 1, 42⟩,
        ⟨.RBrace, "\x7d", 1, 44⟩, ⟨.EndOfFile, "", 1, 45⟩] := by
  decide

/-- C34 (the code departs from the claim). The program
`string s = "a"; if (1) { s = "b"; }` is accepted, and the same program
with the assignment repeated, `string s = "a"; if (1) { s = "b"; s = "b"; }`,
is rejected with "Type mismatch in assignment": the first assignment left
an entry of type `Int` for `s` in the scope of the block. -/
theorem repeated_assignment_rejected :
    compile "string s = \"a\"; if (1) \x7b s = \"b\"; \x7d" =
      .ok (Codegen.preamble ++
        "int main() \x7b\n  std::string s = \"a\";\n    bool s_init = true;\nif (1  ) \x7b\n    \x7b\n      s = \"b\";\n            s_init = true;\n    \x7d\n  \x7d\n  return 0;\n\x7d\n") ∧
    compile "string s = \"a\"; if (1) \x7b s = \"b\"; s = \"b\"; \x7d" =
      .error ⟨"semantic", "Type mismatch in assignment", 0, 0⟩ := by
  constructor
  · unfold compile
    rw [tokenize_assign_once_example]
    rfl
  · unfold compile
    rw [tokenize_assign_twice_example]
    rfl

/-! ## Parser: failures that are no `ParseError` -/

/-- The tokens of the source `println(99999999999);`. -/
theorem tokenize_big_number_example :
    tokenize "println(99999999999);" =
      some [⟨.Println, "println", 1, 1⟩, ⟨.LParen, "(", 1, 8⟩,
        ⟨.Number, "99999999999", 1, 9⟩, ⟨.RParen, ")", 1, 20⟩, ⟨.Semicolon, ";", 1, 21⟩,
        ⟨.EndOfFile, "", 1, 22⟩] := by
  decide

/-- C37 (the code departs from the claim). The source
`println(99999999999);` tokenizes, and parsing its tokens fails with the
`std::out_of_range` that `std::stoi` throws, which is no `ParseError` and
carries no position; the driver reports it under the phase "unknown". -/
theorem number_out_of_range_is_not_a_parse_error :
    (tokenize "println(99999999999);").map Parser.parse =
      some (.error (.out_of_range "stoi")) ∧
    compile "println(99999999999);" = .error ⟨"unknown", "stoi", 0, 0⟩ := by
  constructor
  · rw [tokenize_big_number_example]
    rfl
  · unfold compile
    rw [tokenize_big_number_example]
    rfl

/-! ## Emitter: the flag variables and the for-init -/

/-- The tokens of the source `let x = 1; x = 2;`. -/
theorem tokenize_let_assign_example :
    tokenize "let x = 1; x = 2;" =
      some [⟨.Let, "let", 1, 1⟩, ⟨.Identifier, "x", 1, 5⟩, ⟨.Assign, "=", 1, 7⟩,
        ⟨.Number, "1", 1, 9⟩, ⟨.Semicolon, ";", 1, 10⟩, ⟨.Identifier, "x", 1, 12⟩,
        ⟨.Assign, "=", 1, 14⟩, ⟨.Number, "2", 1, 16⟩, ⟨.Semicolon, ";", 1, 17⟩,
        ⟨.EndOfFile, "", 1, 18⟩] := by
  decide

/-- The tokens of the source `func f(int a) { a = 1; }`. -/
theorem tokenize_param_assign_example :
    tokenize "func f(int a) \x7b a = 1; \x7d" =
      some [⟨.Func, "func", 1, 1⟩, ⟨.Identifier, "f", 1, 6⟩, ⟨.LParen, "(", 1, 7⟩,
        ⟨.Identifier, "int", 1, 8⟩, ⟨.Identifier, "a", 1, 12⟩, ⟨.RParen, ")", 1, 13⟩,
        ⟨.LBrace, "\x7b", 1, 15⟩, ⟨.Identifier, "a", 1, 17⟩, ⟨.Assign, "=", 1, 19⟩,
        ⟨.Number, "1", 1, 21⟩, ⟨.Semicolon, ";", 1, 22⟩, ⟨.RBrace, "\x7d", 1, 24⟩,
        ⟨.EndOfFile, "", 1, 25⟩] := by
  decide

/-- C38 (the code departs from the claim). The accepted program
`let x = 1; x = 2;` is emitted with the assignment `x_init = true;` and no
declaration of `x_init`: a `let` declaration emits `auto x = 1;` only. The
same holds for the parameter `a` of `func f(int a) { a = 1; }`, whose flag
`a_init` is assigned and never declared. -/
theorem flag_assigned_but_not_declared :
    compile "let x = 1; x = 2;" =
      .ok (Codegen.preamble ++
        "int main() \x7b\n  auto x = 1;\n  x = 2;\n    x_init = true;\n  return 0;\n\x7d\n") ∧
    compile "func f(int a) \x7b a = 1; \x7d" =
      .ok (Codegen.preamble ++
        "auto f(int a)\n\x7b\n  a = 1;\n    a_init = true;\n\x7d\n\nint main() \x7b\n  return 0;\n\x7d\n") := by
  constructor
  · unfold compile
    rw [tokenize_let_assign_example]
    rfl
  · unfold compile
    rw [tokenize_param_assign_example]
    rfl

/-- C39. The analyser does not check the initializer of a `TypedVarDecl`
against the annotation: for every annotation `type` and every initializer
`e` that the analyser accepts (leaving any `lastType` whatever), the scalar
declaration `type name = e;` of a name that is new to the innermost scope
is accepted, and `name` then resolves to an initialized entry of the
annotated type. -/
theorem typed_initializer_not_checked (node : Node) (name type : String) (e : Expr)
    (A A1 : SemanticAnalyzer) (scope : StdMap SymbolInfo) (outer : List (StdMap SymbolInfo))
    (hsc : A.scopes = scope :: outer) (hnew : scope.find name = none)
    (he : SemanticAnalyzer.visitExpr e A = .ok A1) :
    ∃ A2, SemanticAnalyzer.visitStmt (.TypedVarDecl node name type false none (some e)) A =
        .ok A2 ∧
      A2.resolve name = some ⟨true, annotatedType type⟩ ∧ A2.lastType = A1.lastType := by
  have hs1 : A1.scopes = scope :: outer := by
    rw [SemanticAnalyzer.visitExpr_scopes e A A1 he, hsc]
  simp only [SemanticAnalyzer.visitStmt, SemanticAnalyzer.visitOptExpr, he,
    SemanticAnalyzer.declare, hs1, hnew, Option.isSome_none, Bool.false_eq_true, if_false,
    Option.isNone_some, false_and]
  refine ⟨_, rfl, ?_, ?_⟩
  · simp [SemanticAnalyzer.define, SemanticAnalyzer.resolve, resolveIn, StdMap.find_set_self]
  · simp [SemanticAnalyzer.define]

theorem typed_initializer_not_checked_witness :
    ∃ A2, SemanticAnalyzer.visitStmt
        (.TypedVarDecl {} "x" "int" false none (some (.StringLiteral {} "s")))
        { scopes := [[]] } = .ok A2 ∧
      A2.resolve "x" = some ⟨true, annotatedType "int"⟩ ∧
      A2.lastType = ({ scopes := [[]], lastType := .String } : SemanticAnalyzer).lastType :=
  typed_initializer_not_checked {} "x" "int" (.StringLiteral {} "s") { scopes := [[]] }
    { scopes := [[]], lastType := .String } [] [] rfl rfl rfl

/-- The tokens of the source `for (let s = "a"; ; ) { } let t = "a";`. -/
theorem tokenize_for_let_example :
    tokenize "for (let s = \"a\"; ; ) \x7b \x7d let t = \"a\";" =
      some [⟨.For, "for", 1, 1⟩, ⟨.LParen, "(", 1, 5⟩, ⟨.Let, "let", 1, 6⟩,
        ⟨.Identifier, "s", 1, 10⟩, ⟨.Assign, "=", 1, 12⟩, ⟨.StringLiteral, "a", 1, 14⟩,
        ⟨.Semicolon, ";", 1, 17⟩, ⟨.Semicolon, ";", 1, 19⟩, ⟨.RParen, ")", 1, 21⟩,
        ⟨.LBrace, "\x7b", 1, 23⟩, ⟨.RBrace, "\x7d", 1, 25⟩, ⟨.Let, "let", 1, 27⟩,
        ⟨.Identifier, "t", 1, 31⟩, ⟨.Assign, "=", 1, 33⟩, ⟨.StringLiteral, "a", 1, 35⟩,
        ⟨.Semicolon, ";", 1, 38⟩, ⟨.EndOfFile, "", 1, 39⟩] := by
  decide

/-- C40 (the code departs from the claim). The declaration `let s = "a"`
is emitted as `int s = "a"` when it is the init of a for statement and as
`auto t = "a";` when it is a statement; the analyser infers `String` for the
initializer. -/
theorem for_let_init_emitted_as_int :
    compile "for (let s = \"a\"; ; ) \x7b \x7d let t = \"a\";" =
      .ok (Codegen.preamble ++
        "int main() \x7b\n  for (int s = \"a\"; ; )\n  \x7b\n  \x7d\n  auto t = \"a\";\n  return 0;\n\x7d\n") ∧
    SemanticAnalyzer.visitStmt (.VarDecl {} "s" (some (.StringLiteral {} "a"))) { scopes := [[]] } =
      .ok { scopes := [[("s", ⟨true, .String⟩)]], lastType := .String } ∧
    (∀ node name e, Codegen.forInit (some (.VarDecl node name (some e))) =
      ("int " ++ name ++ " = ") ++ Codegen.visitExpr e ++ "; ") ∧
    (∀ node name e, Codegen.visitStmt 0 (.VarDecl node name (some e)) =
      Codegen.indent 0 ++ ("auto " ++ name) ++ (" = " ++ Codegen.visitExpr e) ++ ";\n") := by
  refine ⟨?_, rfl, fun _ _ _ => rfl, fun _ _ _ => ?_⟩
  · unfold compile
    rw [tokenize_for_let_example]
    rfl
  · simp only [Codegen.visitStmt]

/-! ## Parser: termination and reads within the token vector -/

theorem Parser.Live.length_pos {ts : List Token} (h : Parser.Live ts) : 1 ≤ ts.length := by
  obtain ⟨pre, eof, rfl, _⟩ := h
  simp

theorem Parser.Live.tail {t : Token} {ts : List Token} (h : Parser.Live (t :: ts))
    (ht : t.type ≠ .EndOfFile) : Parser.Live ts := by
  obtain ⟨pre, eof, h1, h2⟩ := h
  cases pre with
  | nil =>
    simp only [List.nil_append, List.cons.injEq] at h1
    exact absurd (h1.1 ▸ h2) ht
  | cons p pre =>
    simp only [List.cons_append, List.cons.injEq] at h1
    exact ⟨pre, eof, h1.2, h2⟩

theorem Parser.check_cons {ts : List Token} {type : TokenType}
    (h : Parser.check ts type = true) :
    ∃ t rest, ts = t :: rest ∧ t.type = type ∧ t.type ≠ .EndOfFile ∧
      Parser.peek ts = t ∧ Parser.advance ts = rest := by
  cases ts with
  | nil => simp [Parser.check, Parser.peek] at h
  | cons t rest =>
    simp only [Parser.check, Parser.peek, List.headD_cons] at h
    by_cases h1 : t.type = .EndOfFile
    · simp [h1] at h
    · simp only [h1, if_false, decide_eq_true_eq] at h
      refine ⟨t, rest, rfl, h, h1, rfl, ?_⟩
      simp [Parser.advance, Parser.peek, h1]

theorem Parser.Live.advance {ts : List Token} (h : Parser.Live ts) :
    Parser.Live (Parser.advance ts) ∧ (Parser.advance ts).length ≤ ts.length := by
  unfold Parser.advance
  split
  · next h1 =>
    cases ts with
    | nil => exact ⟨h, Nat.le_refl _⟩
    | cons t rest =>
      simp only [Parser.peek, List.headD_cons] at h1
      exact ⟨h.tail h1, by simp⟩
  · exact ⟨h, Nat.le_refl _⟩

theorem Parser.match_some {ts : List Token} {type : TokenType} {t : Token} {rest : List Token}
    (h : Parser.match_ ts type = some (t, rest)) :
    ts = t :: rest ∧ t.type = type ∧ t.type ≠ .EndOfFile := by
  unfold Parser.match_ at h
  split at h
  · next hc =>
    obtain ⟨t1, rest1, h1, h2, h3, h4, h5⟩ := Parser.check_cons hc
    simp only [h4, h5, Option.some.injEq, Prod.mk.injEq] at h
    obtain ⟨rfl, rfl⟩ := h
    exact ⟨h1, h2, h3⟩
  · cases h

theorem Parser.matchAny_some {ts : List Token} {t : Token} {rest : List Token} :
    ∀ {types : List TokenType}, Parser.matchAny ts types = some (t, rest) →
    ts = t :: rest ∧ t.type ∈ types ∧ t.type ≠ .EndOfFile
  | [], h => by cases h
  | type :: types, h => by
    unfold Parser.matchAny at h
    split at h
    · next r hr =>
      cases h
      obtain ⟨h1, h2, h3⟩ := Parser.match_some hr
      exact ⟨h1, by simp [h2], h3⟩
    · obtain ⟨h1, h2, h3⟩ := Parser.matchAny_some h
      exact ⟨h1, List.mem_cons_of_mem _ h2, h3⟩

theorem Parser.Live.of_match {ts : List Token} {type : TokenType} {t : Token}
    {rest : List Token} (hl : Parser.Live ts) (h : Parser.match_ ts type = some (t, rest)) :
    Parser.Live rest ∧ rest.length + 1 ≤ ts.length := by
  obtain ⟨h1, _, h3⟩ := Parser.match_some h
  subst h1
  exact ⟨hl.tail h3, by simp⟩

theorem Parser.Live.of_matchAny {ts : List Token} {types : List TokenType} {t : Token}
    {rest : List Token} (hl : Parser.Live ts) (h : Parser.matchAny ts types = some (t, rest)) :
    Parser.Live rest ∧ rest.length + 1 ≤ ts.length := by
  obtain ⟨h1, _, h3⟩ := Parser.matchAny_some h
  subst h1
  exact ⟨hl.tail h3, by simp⟩

theorem Parser.Within.ok {α : Type} {b : Nat} {x : α} {ts : List Token}
    (hl : Parser.Live ts) (hb : ts.length ≤ b) : Parser.Within b (.ok (x, ts) : PResult α) := by
  refine ⟨by simp, fun y ts1 h => ?_⟩
  cases h
  exact ⟨hl, hb⟩

theorem Parser.Within.parseError {α : Type} {b : Nat} {what : String} {line col : Nat} :
    Parser.Within b (.error (.ParseError what line col) : PResult α) :=
  ⟨by simp, fun _ _ h => by cases h⟩

theorem Parser.Within.mono {α : Type} {b c : Nat} {r : PResult α}
    (h : Parser.Within b r) (hbc : b ≤ c) : Parser.Within c r :=
  ⟨h.1, fun x ts hr => ⟨(h.2 x ts hr).1, Nat.le_trans (h.2 x ts hr).2 hbc⟩⟩

theorem Parser.Within.bind_error {α β : Type} {b c : Nat} {e : ParseFailure}
    (h : Parser.Within b (.error e : PResult α)) : Parser.Within c (.error e : PResult β) := by
  refine ⟨?_, fun _ _ h1 => by cases h1⟩
  intro h1
  cases h1
  exact h.1 rfl

theorem Parser.Within.bind_token {β : Type} {b c : Nat} {r : PResult Token}
    {k : Token → List Token → PResult β} (h : Parser.Within b r)
    (hk : ∀ x ts, Parser.Live ts → ts.length ≤ b → Parser.Within c (k x ts)) :
    Parser.Within c (match r with
      | .error e => .error e
      | .ok (x, ts) => k x ts) := by
  cases r with
  | error e => exact h.bind_error
  | ok p =>
    obtain ⟨x, ts⟩ := p
    exact hk x ts (h.2 x ts rfl).1 (h.2 x ts rfl).2

theorem Parser.Within.bind_expr {β : Type} {b c : Nat} {r : PResult Expr}
    {k : Expr → List Token → PResult β} (h : Parser.Within b r)
    (hk : ∀ x ts, Parser.Live ts → ts.length ≤ b → Parser.Within c (k x ts)) :
    Parser.Within c (match r with
      | .error e => .error e
      | .ok (x, ts) => k x ts) := by
  cases r with
  | error e => exact h.bind_error
  | ok p =>
    obtain ⟨x, ts⟩ := p
    exact hk x ts (h.2 x ts rfl).1 (h.2 x ts rfl).2

theorem Parser.Within.bind_exprs {β : Type} {b c : Nat} {r : PResult (List Expr)}
    {k : (List Expr) → List Token → PResult β} (h : Parser.Within b r)
    (hk : ∀ x ts, Parser.Live ts → ts.length ≤ b → Parser.Within c (k x ts)) :
    Parser.Within c (match r with
      | .error e => .error e
      | .ok (x, ts) => k x ts) := by
  cases r with
  | error e => exact h.bind_error
  | ok p =>
    obtain ⟨x, ts⟩ := p
    exact hk x ts (h.2 x ts rfl).1 (h.2 x ts rfl).2

theorem Parser.Within.bind_optExpr {β : Type} {b c : Nat} {r : PResult (Option Expr)}
    {k : (Option Expr) → List Token → PResult β} (h : Parser.Within b r)
    (hk : ∀ x ts, Parser.Live ts → ts.length ≤ b → Parser.Within c (k x ts)) :
    Parser.Within c (match r with
      | .error e => .error e
      | .ok (x, ts) => k x ts) := by
  cases r with
  | error e => exact h.bind_error
  | ok p =>
    obtain ⟨x, ts⟩ := p
    exact hk x ts (h.2 x ts rfl).1 (h.2 x ts rfl).2

theorem Parser.Within.bind_stmt {β : Type} {b c : Nat} {r : PResult TinyLang.Stmt}
    {k : TinyLang.Stmt → List Token → PResult β} (h : Parser.Within b r)
    (hk : ∀ x ts, Parser.Live ts → ts.length ≤ b → Parser.Within c (k x ts)) :
    Parser.Within c (match r with
      | .error e => .error e
      | .ok (x, ts) => k x ts) := by
  cases r with
  | error e => exact h.bind_error
  | ok p =>
    obtain ⟨x, ts⟩ := p
    exact hk x ts (h.2 x ts rfl).1 (h.2 x ts rfl).2

theorem Parser.Within.bind_stmts {β : Type} {b c : Nat} {r : PResult (List TinyLang.Stmt)}
    {k : (List TinyLang.Stmt) → List Token → PResult β} (h : Parser.Within b r)
    (hk : ∀ x ts, Parser.Live ts → ts.length ≤ b → Parser.Within c (k x ts)) :
    Parser.Within c (match r with
      | .error e => .error e
      | .ok (x, ts) => k x ts) := by
  cases r with
  | error e => exact h.bind_error
  | ok p =>
    obtain ⟨x, ts⟩ := p
    exact hk x ts (h.2 x ts rfl).1 (h.2 x ts rfl).2

theorem Parser.Within.bind_optStmt {β : Type} {b c : Nat} {r : PResult (Option TinyLang.Stmt)}
    {k : (Option TinyLang.Stmt) → List Token → PResult β} (h : Parser.Within b r)
    (hk : ∀ x ts, Parser.Live ts → ts.length ≤ b → Parser.Within c (k x ts)) :
    Parser.Within c (match r with
      | .error e => .error e
      | .ok (x, ts) => k x ts) := by
  cases r with
  | error e => exact h.bind_error
  | ok p =>
    obtain ⟨x, ts⟩ := p
    exact hk x ts (h.2 x ts rfl).1 (h.2 x ts rfl).2

theorem Parser.Within.bind_type {β : Type} {b c : Nat} {r : PResult ParsedType}
    {k : ParsedType → List Token → PResult β} (h : Parser.Within b r)
    (hk : ∀ x ts, Parser.Live ts → ts.length ≤ b → Parser.Within c (k x ts)) :
    Parser.Within c (match r with
      | .error e => .error e
      | .ok (x, ts) => k x ts) := by
  cases r with
  | error e => exact h.bind_error
  | ok p =>
    obtain ⟨x, ts⟩ := p
    exact hk x ts (h.2 x ts rfl).1 (h.2 x ts rfl).2

theorem Parser.Within.bind_params {β : Type} {b c : Nat} {r : PResult (List (String × String))}
    {k : (List (String × String)) → List Token → PResult β} (h : Parser.Within b r)
    (hk : ∀ x ts, Parser.Live ts → ts.length ≤ b → Parser.Within c (k x ts)) :
    Parser.Within c (match r with
      | .error e => .error e
      | .ok (x, ts) => k x ts) := by
  cases r with
  | error e => exact h.bind_error
  | ok p =>
    obtain ⟨x, ts⟩ := p
    exact hk x ts (h.2 x ts rfl).1 (h.2 x ts rfl).2

theorem Parser.Within.bind_pair {β : Type} {b c : Nat}
    {r : PResult (Option Expr × Option TinyLang.Stmt)}
    {k : Option Expr → Option TinyLang.Stmt → List Token → PResult β} (h : Parser.Within b r)
    (hk : ∀ x y ts, Parser.Live ts → ts.length ≤ b → Parser.Within c (k x y ts)) :
    Parser.Within c (match r with
      | .error e => .error e
      | .ok ((x, y), ts) => k x y ts) := by
  cases r with
  | error e => exact h.bind_error
  | ok p =>
    obtain ⟨⟨x, y⟩, ts⟩ := p
    exact hk x y ts (h.2 (x, y) ts rfl).1 (h.2 (x, y) ts rfl).2

theorem Parser.Within.consume {ts : List Token} (hl : Parser.Live ts) (type : TokenType)
    (message : String) : Parser.Within (ts.length - 1) (Parser.consume ts type message) := by
  unfold Parser.consume
  split
  · next hc =>
    obtain ⟨t, rest, h1, _, h3, h4, h5⟩ := Parser.check_cons hc
    subst h1
    rw [h5]
    exact Parser.Within.ok (hl.tail h3) (by simp)
  · exact Parser.Within.parseError

theorem Parser.Within.present {α : Type} {b : Nat} {r : PResult α} (h : Parser.Within b r) :
    Parser.Within b (Parser.present r) := by
  cases r with
  | error e => exact h.bind_error
  | ok p =>
    obtain ⟨x, ts⟩ := p
    exact Parser.Within.ok (h.2 x ts rfl).1 (h.2 x ts rfl).2

theorem Parser.Within.absent {α : Type} {b : Nat} {ts : List Token}
    (hl : Parser.Live ts) (hb : ts.length ≤ b) : Parser.Within b (Parser.absent ts : PResult (Option α)) :=
  Parser.Within.ok hl hb

theorem Parser.Within.match_ {α : Type} {c : Nat} {ts : List Token} {type : TokenType}
    {A : Token → List Token → PResult α} {B : PResult α} (hl : Parser.Live ts)
    (hA : ∀ t rest, Parser.Live rest → rest.length + 1 ≤ ts.length → Parser.Within c (A t rest))
    (hB : Parser.Within c B) :
    Parser.Within c (match Parser.match_ ts type with
      | some (t, rest) => A t rest
      | none => B) := by
  cases h : Parser.match_ ts type with
  | none => exact hB
  | some p =>
    obtain ⟨t, rest⟩ := p
    exact hA t rest (hl.of_match h).1 (hl.of_match h).2

theorem Parser.Within.matchAny {α : Type} {c : Nat} {ts : List Token} {types : List TokenType}
    {A : Token → List Token → PResult α} {B : PResult α} (hl : Parser.Live ts)
    (hA : ∀ t rest, Parser.Live rest → rest.length + 1 ≤ ts.length → Parser.Within c (A t rest))
    (hB : Parser.Within c B) :
    Parser.Within c (match Parser.matchAny ts types with
      | some (t, rest) => A t rest
      | none => B) := by
  cases h : Parser.matchAny ts types with
  | none => exact hB
  | some p =>
    obtain ⟨t, rest⟩ := p
    exact hA t rest (hl.of_matchAny h).1 (hl.of_matchAny h).2

theorem Parser.Within.matchAny_loop {α : Type} {c : Nat} {ts : List Token} {types : List TokenType}
    {A : Token → List Token → PResult α} {B : PResult α} (hl : Parser.Live ts)
    (hA : ∀ t rest, Parser.Live rest → rest.length + 1 ≤ ts.length → Parser.Within c (A t rest))
    (hB : Parser.Within c B) :
    Parser.Within c (match Parser.matchAny ts types with
      | none => B
      | some (t, rest) => A t rest) := by
  cases h : Parser.matchAny ts types with
  | none => exact hB
  | some p =>
    obtain ⟨t, rest⟩ := p
    exact hA t rest (hl.of_matchAny h).1 (hl.of_matchAny h).2

theorem stoi_ne_outOfFuel (text : String) : stoi text ≠ .error .outOfFuel := by
  unfold stoi
  simp only
  repeat' split
  all_goals simp

theorem strtod_ne_outOfFuel (neg : Bool) (num den : Nat) :
    strtod neg num den ≠ .error .outOfFuel := by
  unfold strtod
  simp only
  split <;> simp

theorem stod_ne_outOfFuel (text : String) : stod text ≠ .error .outOfFuel := by
  unfold stod
  simp only
  split
  · simp
  · exact strtod_ne_outOfFuel _ _ _

/-- With sixteen units of fuel for every token left and a few more for the
depth of the descent, each function of the expression grammar comes to its
end, and what it leaves still ends with the `EndOfFile` token. -/
theorem Parser.expression_within_aux : ∀ fuel : Nat,
    (∀ ts, Parser.Live ts → 16 * ts.length + 1 ≤ fuel →
      Parser.Within ts.length (Parser.primary fuel ts)) ∧
    (∀ ts, Parser.Live ts → 16 * ts.length + 2 ≤ fuel →
      Parser.Within ts.length (Parser.unary fuel ts)) ∧
    (∀ e ts, Parser.Live ts → 16 * ts.length + 2 ≤ fuel →
      Parser.Within ts.length (Parser.factorLoop fuel e ts)) ∧
    (∀ ts, Parser.Live ts → 16 * ts.length + 3 ≤ fuel →
      Parser.Within ts.length (Parser.factor fuel ts)) ∧
    (∀ e ts, Parser.Live ts → 16 * ts.length + 3 ≤ fuel →
      Parser.Within ts.length (Parser.termLoop fuel e ts)) ∧
    (∀ ts, Parser.Live ts → 16 * ts.length + 4 ≤ fuel →
      Parser.Within ts.length (Parser.term fuel ts)) ∧
    (∀ e ts, Parser.Live ts → 16 * ts.length + 4 ≤ fuel →
      Parser.Within ts.length (Parser.comparisonLoop fuel e ts)) ∧
    (∀ ts, Parser.Live ts → 16 * ts.length + 5 ≤ fuel →
      Parser.Within ts.length (Parser.comparison fuel ts)) ∧
    (∀ e ts, Parser.Live ts → 16 * ts.length + 5 ≤ fuel →
      Parser.Within ts.length (Parser.equalityLoop fuel e ts)) ∧
    (∀ ts, Parser.Live ts → 16 * ts.length + 6 ≤ fuel →
      Parser.Within ts.length (Parser.equality fuel ts)) ∧
    (∀ ts, Parser.Live ts → 16 * ts.length + 7 ≤ fuel →
      Parser.Within ts.length (Parser.expression fuel ts)) ∧
    (∀ ts, Parser.Live ts → 16 * ts.length + 8 ≤ fuel →
      Parser.Within ts.length (Parser.arguments fuel ts))
  | 0 => by
    refine ⟨?_, ?_, ?_, ?_, ?_, ?_, ?_, ?_, ?_, ?_, ?_, ?_⟩ <;> intros <;> omega
  | fuel + 1 => by
    obtain ⟨hprim, hun, hfl, hfa, htl, hte, hcl, hco, hel, heq, hex, har⟩ :=
      Parser.expression_within_aux fuel
    refine ⟨?_, ?_, ?_, ?_, ?_, ?_, ?_, ?_, ?_, ?_, ?_, ?_⟩
    · intro ts hl hf
      rw [Parser.primary]
      refine Parser.Within.match_ hl (fun prev ts1 h1 l1 => ?_) ?_
      · cases hv : stoi prev.text with
        | error e =>
          exact ⟨fun h => stoi_ne_outOfFuel prev.text (by rw [hv]; cases h; rfl),
            fun _ _ h => by cases h⟩
        | ok v => exact Parser.Within.ok h1 (by omega)
      refine Parser.Within.match_ hl (fun prev ts1 h1 l1 => ?_) ?_
      · cases hv : stod prev.text with
        | error e =>
          exact ⟨fun h => stod_ne_outOfFuel prev.text (by rw [hv]; cases h; rfl),
            fun _ _ h => by cases h⟩
        | ok v => exact Parser.Within.ok h1 (by omega)
      refine Parser.Within.match_ hl (fun prev ts1 h1 l1 => Parser.Within.ok h1 (by omega)) ?_
      refine Parser.Within.match_ hl (fun idToken ts1 h1 l1 => ?_) ?_
      · refine Parser.Within.match_ h1 (fun _ ts2 h2 l2 => ?_) ?_
        · refine Parser.Within.bind_expr (hex ts2 h2 (by omega)) (fun _ ts3 h3 l3 => ?_)
          refine Parser.Within.bind_token (Parser.Within.consume h3 _ _) (fun _ ts4 h4 l4 => ?_)
          exact Parser.Within.ok h4 (by omega)
        refine Parser.Within.match_ h1 (fun _ ts2 h2 l2 => ?_) ?_
        · refine Parser.Within.bind_exprs (b := ts2.length) ?_ (fun _ ts3 h3 l3 => ?_)
          · split
            · exact har ts2 h2 (by omega)
            · exact Parser.Within.ok h2 (Nat.le_refl _)
          refine Parser.Within.bind_token (Parser.Within.consume h3 _ _) (fun _ ts4 h4 l4 => ?_)
          exact Parser.Within.ok h4 (by omega)
        exact Parser.Within.ok h1 (by omega)
      refine Parser.Within.match_ hl (fun _ ts1 h1 l1 => ?_) Parser.Within.parseError
      refine Parser.Within.bind_expr (hex ts1 h1 (by omega)) (fun _ ts2 h2 l2 => ?_)
      refine Parser.Within.bind_token (Parser.Within.consume h2 _ _) (fun _ ts3 h3 l3 => ?_)
      exact Parser.Within.ok h3 (by omega)
    · intro ts hl hf
      rw [Parser.unary]
      refine Parser.Within.matchAny hl (fun _ ts1 h1 l1 => ?_) (hprim ts hl (by omega))
      refine Parser.Within.bind_expr (hun ts1 h1 (by omega)) (fun _ ts2 h2 l2 => ?_)
      exact Parser.Within.ok h2 (by omega)
    · intro e ts hl hf
      rw [Parser.factorLoop]
      refine Parser.Within.matchAny_loop hl (fun _ ts1 h1 l1 => ?_)
        (Parser.Within.ok hl (Nat.le_refl _))
      refine Parser.Within.bind_expr (hun ts1 h1 (by omega)) (fun _ ts2 h2 l2 => ?_)
      exact (hfl _ ts2 h2 (by omega)).mono (by omega)
    · intro ts hl hf
      rw [Parser.factor]
      refine Parser.Within.bind_expr (hun ts hl (by omega)) (fun _ ts1 h1 l1 => ?_)
      exact (hfl _ ts1 h1 (by omega)).mono (by omega)
    · intro e ts hl hf
      rw [Parser.termLoop]
      refine Parser.Within.matchAny_loop hl (fun _ ts1 h1 l1 => ?_)
        (Parser.Within.ok hl (Nat.le_refl _))
      refine Parser.Within.bind_expr (hfa ts1 h1 (by omega)) (fun _ ts2 h2 l2 => ?_)
      exact (htl _ ts2 h2 (by omega)).mono (by omega)
    · intro ts hl hf
      rw [Parser.term]
      refine Parser.Within.bind_expr (hfa ts hl (by omega)) (fun _ ts1 h1 l1 => ?_)
      exact (htl _ ts1 h1 (by omega)).mono (by omega)
    · intro e ts hl hf
      rw [Parser.comparisonLoop]
      refine Parser.Within.matchAny_loop hl (fun _ ts1 h1 l1 => ?_)
        (Parser.Within.ok hl (Nat.le_refl _))
      refine Parser.Within.bind_expr (hte ts1 h1 (by omega)) (fun _ ts2 h2 l2 => ?_)
      exact (hcl _ ts2 h2 (by omega)).mono (by omega)
    · intro ts hl hf
      rw [Parser.comparison]
      refine Parser.Within.bind_expr (hte ts hl (by omega)) (fun _ ts1 h1 l1 => ?_)
      exact (hcl _ ts1 h1 (by omega)).mono (by omega)
    · intro e ts hl hf
      rw [Parser.equalityLoop]
      refine Parser.Within.matchAny_loop hl (fun _ ts1 h1 l1 => ?_)
        (Parser.Within.ok hl (Nat.le_refl _))
      refine Parser.Within.bind_expr (hco ts1 h1 (by omega)) (fun _ ts2 h2 l2 => ?_)
      exact (hel _ ts2 h2 (by omega)).mono (by omega)
    · intro ts hl hf
      rw [Parser.equality]
      refine Parser.Within.bind_expr (hco ts hl (by omega)) (fun _ ts1 h1 l1 => ?_)
      exact (hel _ ts1 h1 (by omega)).mono (by omega)
    · intro ts hl hf
      rw [Parser.expression]
      exact heq ts hl (by omega)
    · intro ts hl hf
      rw [Parser.arguments]
      refine Parser.Within.bind_expr (hex ts hl (by omega)) (fun _ ts1 h1 l1 => ?_)
      refine Parser.Within.match_ h1 (fun _ ts2 h2 l2 => ?_) (Parser.Within.ok h1 (by omega))
      refine Parser.Within.bind_exprs (har ts2 h2 (by omega)) (fun _ ts3 h3 l3 => ?_)
      exact Parser.Within.ok h3 (by omega)

theorem Parser.expression_within (fuel : Nat) (ts : List Token) (hl : Parser.Live ts)
    (hf : 16 * ts.length + 7 ≤ fuel) : Parser.Within ts.length (Parser.expression fuel ts) :=
  (Parser.expression_within_aux fuel).2.2.2.2.2.2.2.2.2.2.1 ts hl hf

theorem Parser.optExpression_within (fuel : Nat) (ts : List Token) (type : TokenType)
    (hl : Parser.Live ts) (hf : 16 * ts.length + 7 ≤ fuel) :
    Parser.Within ts.length (if !Parser.check ts type then
      Parser.present (Parser.expression fuel ts) else Parser.absent ts) := by
  split
  · exact (Parser.expression_within fuel ts hl hf).present
  · exact Parser.Within.absent hl (Nat.le_refl _)

theorem Parser.parseType_within (fuel : Nat) (ts : List Token) (hl : Parser.Live ts)
    (hf : 16 * ts.length + 7 ≤ fuel) : Parser.Within ts.length (Parser.parseType fuel ts) := by
  unfold Parser.parseType
  simp only []
  have h1 := hl.advance
  refine Parser.Within.match_ h1.1 (fun _ ts2 h2 l2 => ?_) (Parser.Within.ok h1.1 h1.2)
  refine Parser.Within.bind_optExpr (Parser.optExpression_within fuel ts2 _ h2 (by omega))
    (fun _ ts3 h3 l3 => ?_)
  refine Parser.Within.bind_token (Parser.Within.consume h3 _ _) (fun _ ts4 h4 l4 => ?_)
  exact Parser.Within.ok h4 (by omega)

theorem Parser.typedVarDecl_within (fuel : Nat) (ts : List Token) (hl : Parser.Live ts)
    (hf : 16 * ts.length + 7 ≤ fuel) :
    Parser.Within (ts.length - 1) (Parser.typedVarDecl fuel ts) := by
  unfold Parser.typedVarDecl
  refine Parser.Within.bind_type (Parser.parseType_within fuel ts hl hf) (fun _ ts1 h1 l1 => ?_)
  refine Parser.Within.bind_token (Parser.Within.consume h1 _ _) (fun _ ts2 h2 l2 => ?_)
  refine Parser.Within.bind_optExpr (b := ts2.length) ?_ (fun _ ts4 h4 l4 => ?_)
  · refine Parser.Within.match_ h2 (fun _ ts3 h3 l3 => ?_)
      (Parser.Within.absent h2 (Nat.le_refl _))
    exact ((Parser.expression_within fuel ts3 h3 (by omega)).mono (by omega)).present
  refine Parser.Within.bind_token (Parser.Within.consume h4 _ _) (fun _ ts5 h5 l5 => ?_)
  exact Parser.Within.ok h5 (by omega)

theorem Parser.varDecl_within (fuel : Nat) (ts : List Token) (hl : Parser.Live ts)
    (hf : 16 * ts.length + 7 ≤ fuel) :
    Parser.Within (ts.length - 1) (Parser.varDecl fuel ts) := by
  unfold Parser.varDecl
  refine Parser.Within.bind_token (Parser.Within.consume hl _ _) (fun _ ts1 h1 l1 => ?_)
  refine Parser.Within.bind_token (Parser.Within.consume h1 _ _) (fun _ ts2 h2 l2 => ?_)
  refine Parser.Within.bind_expr (Parser.expression_within fuel ts2 h2 (by omega))
    (fun _ ts3 h3 l3 => ?_)
  refine Parser.Within.bind_token (Parser.Within.consume h3 _ _) (fun _ ts4 h4 l4 => ?_)
  exact Parser.Within.ok h4 (by omega)

theorem Parser.assignTail_within (fuel : Nat) (name : String) (index : Option Expr)
    (ts : List Token) (hl : Parser.Live ts) (hf : 16 * ts.length + 7 ≤ fuel) :
    Parser.Within (ts.length - 1) (Parser.assignTail fuel name index ts) := by
  unfold Parser.assignTail
  refine Parser.Within.bind_expr (Parser.expression_within fuel ts hl hf) (fun _ ts1 h1 l1 => ?_)
  refine Parser.Within.bind_token (Parser.Within.consume h1 _ _) (fun _ ts2 h2 l2 => ?_)
  exact Parser.Within.ok h2 (by omega)

theorem Parser.expressionStmt_within (fuel : Nat) (ts : List Token) (hl : Parser.Live ts)
    (hf : 16 * ts.length + 7 ≤ fuel) :
    Parser.Within (ts.length - 1) (Parser.expressionStmt fuel ts) := by
  unfold Parser.expressionStmt
  refine Parser.Within.bind_expr (Parser.expression_within fuel ts hl hf)
    (fun expr ts1 h1 l1 => ?_)
  refine Parser.Within.match_ h1 (fun _ ts2 h2 l2 => ?_) ?_
  · split
    · exact (Parser.assignTail_within fuel _ _ ts2 h2 (by omega)).mono (by omega)
    · exact (Parser.assignTail_within fuel _ _ ts2 h2 (by omega)).mono (by omega)
    · exact Parser.Within.parseError
  refine Parser.Within.bind_token (Parser.Within.consume h1 _ _) (fun _ ts2 h2 l2 => ?_)
  exact Parser.Within.ok h2 (by omega)

theorem Parser.forAssign_within (fuel : Nat) (what : String) (ts : List Token)
    (hl : Parser.Live ts) (hf : 16 * ts.length + 7 ≤ fuel) :
    Parser.Within (ts.length - 1) (Parser.forAssign fuel what ts) := by
  unfold Parser.forAssign
  refine Parser.Within.bind_token (Parser.Within.consume hl _ _) (fun _ ts1 h1 l1 => ?_)
  refine Parser.Within.bind_token (Parser.Within.consume h1 _ _) (fun _ ts2 h2 l2 => ?_)
  refine Parser.Within.bind_expr (Parser.expression_within fuel ts2 h2 (by omega))
    (fun _ ts3 h3 l3 => ?_)
  exact Parser.Within.ok h3 (by omega)

theorem Parser.forInit_within (fuel : Nat) (ts : List Token) (hl : Parser.Live ts)
    (hf : 16 * ts.length + 7 ≤ fuel) :
    Parser.Within (ts.length - 1) (Parser.forInit fuel ts) := by
  unfold Parser.forInit
  refine Parser.Within.match_ hl (fun _ ts1 h1 l1 => Parser.Within.ok h1 (by omega)) ?_
  refine Parser.Within.match_ hl (fun _ ts1 h1 l1 => ?_) ?_
  · exact ((Parser.varDecl_within fuel ts1 h1 (by omega)).mono (by omega)).present
  split
  · exact (Parser.typedVarDecl_within fuel ts hl hf).present
  · refine Parser.Within.bind_stmt (Parser.forAssign_within fuel _ ts hl hf)
      (fun _ ts1 h1 l1 => ?_)
    refine Parser.Within.bind_token (Parser.Within.consume h1 _ _) (fun _ ts2 h2 l2 => ?_)
    exact Parser.Within.ok h2 (by omega)

theorem Parser.forCondUpdate_within (fuel : Nat) (ts : List Token) (hl : Parser.Live ts)
    (hf : 16 * ts.length + 7 ≤ fuel) :
    Parser.Within (ts.length - 1) (Parser.forCondUpdate fuel ts) := by
  unfold Parser.forCondUpdate
  refine Parser.Within.bind_optExpr (Parser.optExpression_within fuel ts _ hl hf)
    (fun _ ts1 h1 l1 => ?_)
  refine Parser.Within.bind_token (Parser.Within.consume h1 _ _) (fun _ ts2 h2 l2 => ?_)
  refine Parser.Within.bind_optStmt (b := ts2.length) ?_ (fun _ ts3 h3 l3 => ?_)
  · split
    · exact ((Parser.forAssign_within fuel _ ts2 h2 (by omega)).mono (by omega)).present
    · exact Parser.Within.absent h2 (Nat.le_refl _)
  refine Parser.Within.bind_token (Parser.Within.consume h3 _ _) (fun _ ts4 h4 l4 => ?_)
  exact Parser.Within.ok h4 (by omega)

theorem Parser.returnStmt_within (fuel : Nat) (ts : List Token) (hl : Parser.Live ts)
    (hf : 16 * ts.length + 7 ≤ fuel) :
    Parser.Within (ts.length - 1) (Parser.returnStmt fuel ts) := by
  unfold Parser.returnStmt
  refine Parser.Within.bind_optExpr (Parser.optExpression_within fuel ts _ hl hf)
    (fun _ ts1 h1 l1 => ?_)
  refine Parser.Within.bind_token (Parser.Within.consume h1 _ _) (fun _ ts2 h2 l2 => ?_)
  exact Parser.Within.ok h2 (by omega)

theorem Parser.printStmt_within (fuel : Nat) (newLine : Bool) (ts : List Token)
    (hl : Parser.Live ts) (hf : 16 * ts.length + 7 ≤ fuel) :
    Parser.Within (ts.length - 1) (Parser.printStmt fuel newLine ts) := by
  unfold Parser.printStmt
  refine Parser.Within.bind_token (Parser.Within.consume hl _ _) (fun _ ts1 h1 l1 => ?_)
  refine Parser.Within.bind_expr (Parser.expression_within fuel ts1 h1 (by omega))
    (fun _ ts2 h2 l2 => ?_)
  refine Parser.Within.bind_token (Parser.Within.consume h2 _ _) (fun _ ts3 h3 l3 => ?_)
  refine Parser.Within.bind_token (Parser.Within.consume h3 _ _) (fun _ ts4 h4 l4 => ?_)
  exact Parser.Within.ok h4 (by omega)

/-- The statement grammar under the same fuel bound: every statement and
block comes to its end and consumes at least one token when it returns. -/
theorem Parser.statement_within_aux : ∀ fuel : Nat,
    (∀ ts, Parser.Live ts → 16 * ts.length + 8 ≤ fuel →
      Parser.Within (ts.length - 1) (Parser.statement fuel ts)) ∧
    (∀ ts, Parser.Live ts → 16 * ts.length + 9 ≤ fuel →
      Parser.Within ts.length (Parser.blockLoop fuel ts)) ∧
    (∀ ts, Parser.Live ts → 16 * ts.length + 10 ≤ fuel →
      Parser.Within (ts.length - 1) (Parser.block fuel ts)) ∧
    (∀ ts, Parser.Live ts → 16 * ts.length + 10 ≤ fuel →
      Parser.Within (ts.length - 1) (Parser.ifStmt fuel ts)) ∧
    (∀ ts, Parser.Live ts → 16 * ts.length + 10 ≤ fuel →
      Parser.Within (ts.length - 1) (Parser.forStmt fuel ts))
  | 0 => by
    refine ⟨?_, ?_, ?_, ?_, ?_⟩ <;> intros <;> omega
  | fuel + 1 => by
    obtain ⟨hst, hbl, hbk, hif, hfor⟩ := Parser.statement_within_aux fuel
    refine ⟨?_, ?_, ?_, ?_, ?_⟩
    · intro ts hl hf
      rw [Parser.statement]
      refine Parser.Within.match_ hl (fun _ ts1 h1 l1 =>
        (Parser.varDecl_within fuel ts1 h1 (by omega)).mono (by omega)) ?_
      refine Parser.Within.match_ hl (fun _ ts1 h1 l1 =>
        (hfor ts1 h1 (by omega)).mono (by omega)) ?_
      refine Parser.Within.match_ hl (fun _ ts1 h1 l1 =>
        (hif ts1 h1 (by omega)).mono (by omega)) ?_
      refine Parser.Within.match_ hl (fun _ ts1 h1 l1 =>
        (Parser.printStmt_within fuel _ ts1 h1 (by omega)).mono (by omega)) ?_
      refine Parser.Within.match_ hl (fun _ ts1 h1 l1 =>
        (Parser.printStmt_within fuel _ ts1 h1 (by omega)).mono (by omega)) ?_
      refine Parser.Within.match_ hl (fun _ ts1 h1 l1 =>
        (Parser.returnStmt_within fuel ts1 h1 (by omega)).mono (by omega)) ?_
      refine Parser.Within.match_ hl (fun _ ts1 h1 l1 => ?_) ?_
      · refine Parser.Within.bind_stmts (hbk ts1 h1 (by omega)) (fun _ ts2 h2 l2 => ?_)
        exact Parser.Within.ok h2 (by omega)
      split
      · exact Parser.typedVarDecl_within fuel ts hl (by omega)
      · exact Parser.expressionStmt_within fuel ts hl (by omega)
    · intro ts hl hf
      rw [Parser.blockLoop]
      split
      · refine Parser.Within.bind_stmt (hst ts hl (by omega)) (fun _ ts1 h1 l1 => ?_)
        have := hl.length_pos
        refine Parser.Within.bind_stmts (hbl ts1 h1 (by omega)) (fun _ ts2 h2 l2 => ?_)
        exact Parser.Within.ok h2 (by omega)
      · exact Parser.Within.ok hl (Nat.le_refl _)
    · intro ts hl hf
      rw [Parser.block]
      refine Parser.Within.bind_token (Parser.Within.consume hl _ _) (fun _ ts1 h1 l1 => ?_)
      refine Parser.Within.bind_stmts (hbl ts1 h1 (by omega)) (fun _ ts2 h2 l2 => ?_)
      refine Parser.Within.bind_token (Parser.Within.consume h2 _ _) (fun _ ts3 h3 l3 => ?_)
      exact Parser.Within.ok h3 (by omega)
    · intro ts hl hf
      have := hl.length_pos
      rw [Parser.ifStmt]
      refine Parser.Within.bind_token (Parser.Within.consume hl _ _) (fun _ ts1 h1 l1 => ?_)
      refine Parser.Within.bind_expr (Parser.expression_within fuel ts1 h1 (by omega))
        (fun _ ts2 h2 l2 => ?_)
      refine Parser.Within.bind_token (Parser.Within.consume h2 _ _) (fun _ ts3 h3 l3 => ?_)
      refine Parser.Within.bind_stmts (hbk ts3 h3 (by omega)) (fun _ ts4 h4 l4 => ?_)
      refine Parser.Within.match_ h4 (fun _ ts5 h5 l5 => ?_) (Parser.Within.ok h4 (by omega))
      refine Parser.Within.bind_stmts (hbk ts5 h5 (by omega)) (fun _ ts6 h6 l6 => ?_)
      exact Parser.Within.ok h6 (by omega)
    · intro ts hl hf
      have := hl.length_pos
      rw [Parser.forStmt]
      refine Parser.Within.bind_token (Parser.Within.consume hl _ _) (fun _ ts1 h1 l1 => ?_)
      refine Parser.Within.bind_optStmt (Parser.forInit_within fuel ts1 h1 (by omega))
        (fun _ ts2 h2 l2 => ?_)
      refine Parser.Within.bind_pair (Parser.forCondUpdate_within fuel ts2 h2 (by omega))
        (fun _ _ ts3 h3 l3 => ?_)
      refine Parser.Within.bind_stmts (hbk ts3 h3 (by omega)) (fun _ ts4 h4 l4 => ?_)
      exact Parser.Within.ok h4 (by omega)

theorem Parser.statement_within (fuel : Nat) (ts : List Token) (hl : Parser.Live ts)
    (hf : 16 * ts.length + 8 ≤ fuel) :
    Parser.Within (ts.length - 1) (Parser.statement fuel ts) :=
  (Parser.statement_within_aux fuel).1 ts hl hf

theorem Parser.block_within (fuel : Nat) (ts : List Token) (hl : Parser.Live ts)
    (hf : 16 * ts.length + 10 ≤ fuel) :
    Parser.Within (ts.length - 1) (Parser.block fuel ts) :=
  (Parser.statement_within_aux fuel).2.2.1 ts hl hf

theorem Parser.Live.ite_advance {ts : List Token} (hl : Parser.Live ts) (c : Bool) :
    Parser.Live (if c then Parser.advance ts else ts) ∧
      (if c then Parser.advance ts else ts).length ≤ ts.length := by
  split
  · exact hl.advance
  · exact ⟨hl, Nat.le_refl _⟩

theorem Parser.params_within : ∀ (fuel : Nat) (ts : List Token), Parser.Live ts →
    16 * ts.length + 1 ≤ fuel → Parser.Within (ts.length - 1) (Parser.params fuel ts)
  | 0, _, _, hf => by omega
  | fuel + 1, ts, hl, hf => by
    rw [Parser.params]
    have h1 := Parser.Live.ite_advance hl (Parser.check ts .Identifier &&
        ((Parser.peek ts).text = "int" || (Parser.peek ts).text = "float" ||
          (Parser.peek ts).text = "string" || (Parser.peek ts).text = "void"))
    refine Parser.Within.bind_token (Parser.Within.consume h1.1 _ _) (fun _ ts2 h2 l2 => ?_)
    refine Parser.Within.match_ h2 (fun _ ts3 h3 l3 => ?_) (Parser.Within.ok h2 (by omega))
    refine Parser.Within.bind_params (Parser.params_within fuel ts3 h3 (by omega))
      (fun _ ts4 h4 l4 => ?_)
    exact Parser.Within.ok h4 (by omega)

theorem Parser.functionDecl_within (fuel : Nat) (ts : List Token) (hl : Parser.Live ts)
    (hf : 16 * ts.length + 10 ≤ fuel) :
    Parser.Within (ts.length - 1) (Parser.functionDecl fuel ts) := by
  unfold Parser.functionDecl
  refine Parser.Within.bind_token (Parser.Within.consume hl _ _) (fun _ ts1 h1 l1 => ?_)
  refine Parser.Within.bind_token (Parser.Within.consume h1 _ _) (fun _ ts2 h2 l2 => ?_)
  refine Parser.Within.bind_token (Parser.Within.consume h2 _ _) (fun _ ts3 h3 l3 => ?_)
  refine Parser.Within.bind_params (b := ts3.length) ?_ (fun _ ts4 h4 l4 => ?_)
  · split
    · exact (Parser.params_within fuel ts3 h3 (by omega)).mono (by omega)
    · exact Parser.Within.ok h3 (Nat.le_refl _)
  refine Parser.Within.bind_token (Parser.Within.consume h4 _ _) (fun _ ts5 h5 l5 => ?_)
  have := hl.length_pos
  cases hm : Parser.match_ ts5 .Arrow with
  | none =>
    simp only []
    refine Parser.Within.bind_stmts (Parser.block_within fuel ts5 h5 (by omega))
      (fun _ ts7 h7 l7 => ?_)
    exact Parser.Within.ok h7 (by omega)
  | some q =>
    obtain ⟨t, ts6⟩ := q
    have h6 := h5.of_match hm
    simp only []
    by_cases hc : Parser.check ts6 .Identifier = true
    · rw [if_pos hc]
      simp only []
      have h7 := h6.1.advance
      refine Parser.Within.bind_stmts (Parser.block_within fuel _ h7.1 (by omega))
        (fun _ ts7 h7 l7 => ?_)
      exact Parser.Within.ok h7 (by omega)
    · rw [if_neg hc]
      simp only []
      refine Parser.Within.bind_stmts (Parser.block_within fuel ts6 h6.1 (by omega))
        (fun _ ts7 h7 l7 => ?_)
      exact Parser.Within.ok h7 (by omega)

theorem Parser.parseLoop_ne_outOfFuel : ∀ (fuel : Nat) (ts : List Token), Parser.Live ts →
    16 * ts.length + 11 ≤ fuel → Parser.parseLoop fuel ts ≠ .error .outOfFuel
  | 0, _, _, hf => by omega
  | fuel + 1, ts, hl, hf => by
    have := hl.length_pos
    rw [Parser.parseLoop]
    split
    · split
      · cases hr : Parser.functionDecl fuel ts with
        | error e =>
          intro h
          cases h
          exact (Parser.functionDecl_within fuel ts hl (by omega)).1 hr
        | ok p =>
          obtain ⟨f, ts1⟩ := p
          have h1 := (Parser.functionDecl_within fuel ts hl (by omega)).2 f ts1 hr
          have h2 := Parser.parseLoop_ne_outOfFuel fuel ts1 h1.1 (by omega)
          simp only []
          cases hr2 : Parser.parseLoop fuel ts1 with
          | error e =>
            intro h
            cases h
            exact h2 hr2
          | ok ds => simp
      · cases hr : Parser.statement fuel ts with
        | error e =>
          intro h
          cases h
          exact (Parser.statement_within fuel ts hl (by omega)).1 hr
        | ok p =>
          obtain ⟨f, ts1⟩ := p
          have h1 := (Parser.statement_within fuel ts hl (by omega)).2 f ts1 hr
          have h2 := Parser.parseLoop_ne_outOfFuel fuel ts1 h1.1 (by omega)
          simp only []
          cases hr2 : Parser.parseLoop fuel ts1 with
          | error e =>
            intro h
            cases h
            exact h2 hr2
          | ok ds => simp
    · simp

theorem Parser.parse_ne_outOfFuel (tokens : List Token) (hl : Parser.Live tokens) :
    Parser.parse tokens ≠ .error .outOfFuel := by
  unfold Parser.parse
  have h := Parser.parseLoop_ne_outOfFuel (16 * tokens.length + 16) tokens hl (by omega)
  cases hr : Parser.parseLoop (16 * tokens.length + 16) tokens with
  | error e =>
    intro h1
    cases h1
    exact h hr
  | ok ds => simp

/-- C36: on a token list that ends with an `EndOfFile` token, `Parser::parse`
comes to its end, with a `Program` or with an exception (the fuel of the
embedding is never used up); while it runs, the tokens from `current` on
always hold at least that `EndOfFile` token, so `peek()` reads an element of
the vector: `advance` keeps it so, a successful `check` makes `advance` step
over a token that is not `EndOfFile` (what `previous()` then returns), and
`expression`, `statement`, `block` and `functionDecl` hand on such a list,
the last three one that is shorter. -/
theorem parse_terminates_in_range (pre : List Token) (eof : Token)
    (heof : eof.type = .EndOfFile) :
    ((∃ prog, Parser.parse (pre ++ [eof]) = .ok prog) ∨
      (∃ e, e ≠ .outOfFuel ∧ Parser.parse (pre ++ [eof]) = .error e)) ∧
    Parser.Live (pre ++ [eof]) ∧
    (∀ ts, Parser.Live ts →
      (∃ t rest, ts = t :: rest ∧ Parser.peek ts = t) ∧ Parser.Live (Parser.advance ts)) ∧
    (∀ ts type, Parser.check ts type = true →
      ∃ t rest, ts = t :: rest ∧ t.type ≠ .EndOfFile ∧ Parser.peek ts = t ∧
        Parser.advance ts = rest) ∧
    (∀ fuel ts, Parser.Live ts → 16 * ts.length + 10 ≤ fuel →
      Parser.Within ts.length (Parser.expression fuel ts) ∧
      Parser.Within (ts.length - 1) (Parser.statement fuel ts) ∧
      Parser.Within (ts.length - 1) (Parser.block fuel ts) ∧
      Parser.Within (ts.length - 1) (Parser.functionDecl fuel ts)) := by
  have hl : Parser.Live (pre ++ [eof]) := ⟨pre, eof, rfl, heof⟩
  refine ⟨?_, hl, ?_, ?_, ?_⟩
  · have h := Parser.parse_ne_outOfFuel (pre ++ [eof]) hl
    cases hr : Parser.parse (pre ++ [eof]) with
    | error e => exact Or.inr ⟨e, fun he => h (by rw [hr, he]), rfl⟩
    | ok prog => exact Or.inl ⟨prog, rfl⟩
  · intro ts h
    refine ⟨?_, h.advance.1⟩
    cases ts with
    | nil => exact absurd h.length_pos (by simp)
    | cons t rest => exact ⟨t, rest, rfl, rfl⟩
  · intro ts type h
    obtain ⟨t, rest, h1, _, h3, h4, h5⟩ := Parser.check_cons h
    exact ⟨t, rest, h1, h3, h4, h5⟩
  · intro fuel ts h hf
    exact ⟨Parser.expression_within fuel ts h (by omega),
      Parser.statement_within fuel ts h (by omega), Parser.block_within fuel ts h hf,
      Parser.functionDecl_within fuel ts h hf⟩

theorem parse_terminates_in_range_witness :
    (⟨.EndOfFile, "", 1, 10⟩ : Token).type = .EndOfFile ∧
    ((∃ prog, Parser.parse ([⟨.Print, "print", 1, 1⟩, ⟨.LParen, "(", 1, 6⟩,
        ⟨.Number, "1", 1, 7⟩, ⟨.RParen, ")", 1, 8⟩, ⟨.Semicolon, ";", 1, 9⟩] ++
        [⟨.EndOfFile, "", 1, 10⟩]) = .ok prog) ∨
      (∃ e, e ≠ .outOfFuel ∧ Parser.parse ([⟨.Print, "print", 1, 1⟩, ⟨.LParen, "(", 1, 6⟩,
        ⟨.Number, "1", 1, 7⟩, ⟨.RParen, ")", 1, 8⟩, ⟨.Semicolon, ";", 1, 9⟩] ++
        [⟨.EndOfFile, "", 1, 10⟩]) = .error e)) :=
  ⟨rfl, (parse_terminates_in_range [⟨.Print, "print", 1, 1⟩, ⟨.LParen, "(", 1, 6⟩,
    ⟨.Number, "1", 1, 7⟩, ⟨.RParen, ")", 1, 8⟩, ⟨.Semicolon, ";", 1, 9⟩]
    ⟨.EndOfFile, "", 1, 10⟩ rfl).1⟩

/-! ## Round trip of emitted expressions through the lexer and the parser -/

theorem Lexer.skipWhitespace_spaces (ws : List Char) (c : Char) (cs : List Char)
    (line col : Nat) (hws : ∀ d ∈ ws, d = ' ') (hc : isspace c = false) :
    Lexer.skipWhitespace ⟨ws ++ c :: cs, line, col⟩ = ⟨c :: cs, line, col + ws.length⟩ := by
  have h := Lexer.scanWhileAux_append_pos isspace (c :: cs)
    (fun d hd => by simp only [List.head?_cons, Option.some.injEq] at hd; rw [← hd]; exact hc)
    ws line col (fun d hd => by rw [hws d hd]; rfl)
    (fun hmem => absurd (hws _ hmem) (by decide))
  simp only [Lexer.skipWhitespace, Lexer.scanWhile, h]

/-- One turn of the lexer loop in front of a character that is no white
space, after spaces: the turn of `scanToken` on that character. -/
theorem Lexer.tokenizeLoop_step (fuel : Nat) (ws : List Char) (c : Char) (cs : List Char)
    (line col : Nat) (acc : List Token) (hws : ∀ d ∈ ws, d = ' ') (hc : isspace c = false) :
    Lexer.tokenizeLoop (fuel + 1) ⟨ws ++ c :: cs, line, col⟩ acc =
      Lexer.tokenizeLoop fuel (Lexer.scanToken ⟨c :: cs, line, col + ws.length⟩).2
        (acc ++ (Lexer.scanToken ⟨c :: cs, line, col + ws.length⟩).1) := by
  rw [Lexer.tokenizeLoop]
  have h1 : ¬ (ws ++ c :: cs = []) := by simp
  rw [if_neg h1]
  simp only [Lexer.skipWhitespace_spaces ws c cs line col hws hc]
  rw [if_neg (List.cons_ne_nil _ _)]

/-- A text that one turn of `scanToken` reads as one token. -/
theorem Lexer.Lexes.token {P : List Char → Prop} {Q : List Token → Prop} (c : Char)
    (cs : List Char) (hc : isspace c = false)
    (h : ∀ rest line col, P rest → ∃ t line1 col1,
      Lexer.scanToken ⟨c :: (cs ++ rest), line, col⟩ = ([t], ⟨rest, line1, col1⟩) ∧ Q [t]) :
    Lexer.Lexes P (c :: cs) Q := by
  intro ws rest line col hws hP
  obtain ⟨t, line1, col1, hscan, hQ⟩ := h rest line (col + ws.length) hP
  refine ⟨1, [t], line1, col1, hQ, by simp, fun fuel acc => ?_⟩
  rw [List.cons_append, Lexer.tokenizeLoop_step fuel ws c (cs ++ rest) line col acc hws hc,
    hscan]

/-- Two texts in a row. -/
theorem Lexer.Lexes.append {P R : List Char → Prop} {A B : List Token → Prop}
    {s t : List Char} (h1 : Lexer.Lexes P s A) (h2 : Lexer.Lexes R t B)
    (hP : ∀ rest, R rest → P (t ++ rest)) :
    Lexer.Lexes R (s ++ t) (fun ts => ∃ a b, ts = a ++ b ∧ A a ∧ B b) := by
  intro ws rest line col hws hR
  obtain ⟨n1, a, l1, c1, hA, hn1, hf1⟩ := h1 ws (t ++ rest) line col hws (hP rest hR)
  obtain ⟨n2, b, l2, c2, hB, hn2, hf2⟩ := h2 [] rest l1 c1 (fun _ h => by cases h) hR
  refine ⟨n2 + n1, a ++ b, l2, c2, ⟨a, b, rfl, hA, hB⟩, ?_, fun fuel acc => ?_⟩
  · rw [List.length_append]
    omega
  · rw [← Nat.add_assoc, List.append_assoc, hf1 (fuel + n2) acc]
    have h3 := hf2 fuel (acc ++ a)
    simp only [List.nil_append] at h3
    rw [h3, List.append_assoc]

/-- A space in front of a text is skipped in the turn that reads its first
token. -/
theorem Lexer.Lexes.space {P : List Char → Prop} {Q : List Token → Prop} {t : List Char}
    (h : Lexer.Lexes P t Q) : Lexer.Lexes P (' ' :: t) Q := by
  intro ws rest line col hws hP
  obtain ⟨n, ts, l1, c1, hQ, hn, hf⟩ := h (ws ++ [' ']) rest line col
    (fun c hc => by
      rcases List.mem_append.1 hc with h1 | h1
      · exact hws c h1
      · simpa using h1) hP
  refine ⟨n, ts, l1, c1, hQ, by rw [List.length_cons]; omega, fun fuel acc => ?_⟩
  have h3 := hf fuel acc
  simp only [List.append_assoc, List.singleton_append] at h3
  rw [List.cons_append]
  exact h3

theorem Lexer.Lexes.lex_mono {P R : List Char → Prop} {A B : List Token → Prop} {t : List Char}
    (h : Lexer.Lexes P t A) (hP : ∀ rest, R rest → P rest) (hQ : ∀ ts, A ts → B ts) :
    Lexer.Lexes R t B := by
  intro ws rest line col hws hR
  obtain ⟨n, ts, l1, c1, hA, hn, hf⟩ := h ws rest line col hws (hP rest hR)
  exact ⟨n, ts, l1, c1, hQ ts hA, hn, hf⟩

theorem Lexer.Lexes.lparen {P : List Char → Prop} :
    Lexer.Lexes P ['('] (Token.Single .LParen "(") :=
  Lexer.Lexes.token '(' [] rfl (fun _ _ _ _ => ⟨_, _, _, rfl, _, rfl, rfl, rfl⟩)

theorem Lexer.Lexes.rparen {P : List Char → Prop} :
    Lexer.Lexes P [')'] (Token.Single .RParen ")") :=
  Lexer.Lexes.token ')' [] rfl (fun _ _ _ _ => ⟨_, _, _, rfl, _, rfl, rfl, rfl⟩)

theorem Lexer.Lexes.lbracket {P : List Char → Prop} :
    Lexer.Lexes P ['['] (Token.Single .LBracket "[") :=
  Lexer.Lexes.token '[' [] rfl (fun _ _ _ _ => ⟨_, _, _, rfl, _, rfl, rfl, rfl⟩)

theorem Lexer.Lexes.rbracket {P : List Char → Prop} :
    Lexer.Lexes P [']'] (Token.Single .RBracket "]") :=
  Lexer.Lexes.token ']' [] rfl (fun _ _ _ _ => ⟨_, _, _, rfl, _, rfl, rfl, rfl⟩)

theorem Lexer.Lexes.comma {P : List Char → Prop} :
    Lexer.Lexes P [','] (Token.Single .Comma ",") :=
  Lexer.Lexes.token ',' [] rfl (fun _ _ _ _ => ⟨_, _, _, rfl, _, rfl, rfl, rfl⟩)

/-- Each of the eleven binary operators, followed by a space, is one token
of its text, of one of the four precedence levels. -/
theorem Lexer.Lexes.binaryOp (op : String) (h : op ∈ binaryOperators) :
    ∃ ty k, binaryLevel ty = some k ∧ k ≤ 3 ∧
      Lexer.Lexes (fun rest => ∃ tl, rest = ' ' :: tl) op.data (Token.Single ty op) := by
  simp only [binaryOperators, List.mem_cons, List.mem_singleton, List.not_mem_nil,
    or_false] at h
  rcases h with rfl | rfl | rfl | rfl | rfl | rfl | rfl | rfl | rfl | rfl | rfl
  · exact ⟨.Plus, 2, rfl, by omega, Lexer.Lexes.token '+' [] rfl (by
      rintro rest line col ⟨tl, rfl⟩
      exact ⟨_, _, _, rfl, _, rfl, rfl, rfl⟩)⟩
  · exact ⟨.Minus, 2, rfl, by omega, Lexer.Lexes.token '-' [] rfl (by
      rintro rest line col ⟨tl, rfl⟩
      exact ⟨_, _, _, rfl, _, rfl, rfl, rfl⟩)⟩
  · exact ⟨.Star, 3, rfl, by omega, Lexer.Lexes.token '*' [] rfl (by
      rintro rest line col ⟨tl, rfl⟩
      exact ⟨_, _, _, rfl, _, rfl, rfl, rfl⟩)⟩
  · exact ⟨.Slash, 3, rfl, by omega, Lexer.Lexes.token '/' [] rfl (by
      rintro rest line col ⟨tl, rfl⟩
      exact ⟨_, _, _, rfl, _, rfl, rfl, rfl⟩)⟩
  · exact ⟨.Mod, 3, rfl, by omega, Lexer.Lexes.token '%' [] rfl (by
      rintro rest line col ⟨tl, rfl⟩
      exact ⟨_, _, _, rfl, _, rfl, rfl, rfl⟩)⟩
  · exact ⟨.Equals, 0, rfl, by omega, Lexer.Lexes.token '=' ['='] rfl (by
      rintro rest line col ⟨tl, rfl⟩
      exact ⟨_, _, _, rfl, _, rfl, rfl, rfl⟩)⟩
  · exact ⟨.NotEquals, 0, rfl, by omega, Lexer.Lexes.token '!' ['='] rfl (by
      rintro rest line col ⟨tl, rfl⟩
      exact ⟨_, _, _, rfl, _, rfl, rfl, rfl⟩)⟩
  · exact ⟨.Less, 1, rfl, by omega, Lexer.Lexes.token '<' [] rfl (by
      rintro rest line col ⟨tl, rfl⟩
      exact ⟨_, _, _, rfl, _, rfl, rfl, rfl⟩)⟩
  · exact ⟨.LessEq, 1, rfl, by omega, Lexer.Lexes.token '<' ['='] rfl (by
      rintro rest line col ⟨tl, rfl⟩
      exact ⟨_, _, _, rfl, _, rfl, rfl, rfl⟩)⟩
  · exact ⟨.Greater, 1, rfl, by omega, Lexer.Lexes.token '>' [] rfl (by
      rintro rest line col ⟨tl, rfl⟩
      exact ⟨_, _, _, rfl, _, rfl, rfl, rfl⟩)⟩
  · exact ⟨.GreaterEq, 1, rfl, by omega, Lexer.Lexes.token '>' ['='] rfl (by
      rintro rest line col ⟨tl, rfl⟩
      exact ⟨_, _, _, rfl, _, rfl, rfl, rfl⟩)⟩

theorem Lexer.scanToken_minus (c : Char) (tl : List Char) (line col : Nat) (hc : c ≠ '>') :
    Lexer.scanToken ⟨'-' :: c :: tl, line, col⟩ =
      ([⟨.Minus, "-", line, col⟩], ⟨c :: tl, line, col + 1⟩) := by
  have hm : Lexer.match_ ⟨c :: tl, line, col + 1⟩ '>' = (false, ⟨c :: tl, line, col + 1⟩) := by
    simp [Lexer.match_, Lexer.peek, hc]
  have hadv : Lexer.advance ⟨'-' :: c :: tl, line, col⟩ = ('-', ⟨c :: tl, line, col + 1⟩) := rfl
  unfold Lexer.scanToken
  simp only [hadv, hm]
  rfl

theorem Lexer.scanToken_not (c : Char) (tl : List Char) (line col : Nat) (hc : c ≠ '=') :
    Lexer.scanToken ⟨'!' :: c :: tl, line, col⟩ =
      ([⟨.Not, "!", line, col⟩], ⟨c :: tl, line, col + 1⟩) := by
  have hm : Lexer.match_ ⟨c :: tl, line, col + 1⟩ '=' = (false, ⟨c :: tl, line, col + 1⟩) := by
    simp [Lexer.match_, Lexer.peek, hc]
  have hadv : Lexer.advance ⟨'!' :: c :: tl, line, col⟩ = ('!', ⟨c :: tl, line, col + 1⟩) := rfl
  unfold Lexer.scanToken
  simp only [hadv, hm]
  rfl

theorem isalpha_toNat {c : Char} (h : isalpha c = true) :
    (97 ≤ c.toNat ∧ c.toNat ≤ 122) ∨ (65 ≤ c.toNat ∧ c.toNat ≤ 90) := by
  simp only [isalpha, Bool.or_eq_true, Bool.and_eq_true, decide_eq_true_eq] at h
  exact h

theorem isdigit_toNat {c : Char} (h : isdigit c = true) : 48 ≤ c.toNat ∧ c.toNat ≤ 57 := by
  simp only [isdigit, Bool.and_eq_true, decide_eq_true_eq] at h
  exact h

theorem isdigit_of_toNat {c : Char} (h : 48 ≤ c.toNat ∧ c.toNat ≤ 57) : isdigit c = true := by
  simp only [isdigit, Bool.and_eq_true, decide_eq_true_eq]
  exact h

/-- The code of a character of a name: a letter, a digit or `_`. -/
theorem nameChar_toNat {c : Char} (h : isalnum c = true ∨ c = '_') :
    (97 ≤ c.toNat ∧ c.toNat ≤ 122) ∨ (65 ≤ c.toNat ∧ c.toNat ≤ 90) ∨
      (48 ≤ c.toNat ∧ c.toNat ≤ 57) ∨ c.toNat = 95 := by
  rcases h with h | h
  · simp only [isalnum, Bool.or_eq_true] at h
    rcases h with h | h
    · rcases isalpha_toNat h with h1 | h1
      · exact Or.inl h1
      · exact Or.inr (Or.inl h1)
    · exact Or.inr (Or.inr (Or.inl (isdigit_toNat h)))
  · subst h
    exact Or.inr (Or.inr (Or.inr rfl))

theorem isdigit_false_of_toNat {c : Char} (h : c.toNat < 48 ∨ 57 < c.toNat) :
    isdigit c = false := by
  cases hd : isdigit c with
  | false => rfl
  | true =>
    have := isdigit_toNat hd
    omega

/-- The identifier branch of the lexer loop: a letter or `_`, the name
characters `cs` after it, then something that is no name character; the
token is an `Identifier` when the text is no keyword. -/
theorem Lexer.scanToken_identifier (c : Char) (cs rest : List Char) (line col : Nat)
    (hc : isalpha c = true ∨ c = '_') (hcs : ∀ d ∈ cs, isalnum d = true ∨ d = '_')
    (hrest : ∀ d, rest.head? = some d → isalnum d = false ∧ d ≠ '_')
    (hk : keywords (String.mk (c :: cs)) = none) :
    Lexer.scanToken ⟨c :: (cs ++ rest), line, col⟩ =
      ([⟨.Identifier, String.mk (c :: cs), line, col⟩], ⟨rest, line, col + 1 + cs.length⟩) := by
  have hn := nameChar_toNat (c := c) (hc.imp (fun h => by simp [isalnum, h]) id)
  have hnl : c ≠ '\n' := by
    intro h
    subst h
    revert hn
    decide
  have hq : c ≠ '"' := by
    intro h
    subst h
    revert hn
    decide
  have hd : ¬ (isdigit c = true) := by
    intro h
    rcases hc with h1 | h1
    · have := isalpha_toNat h1
      have := isdigit_toNat h
      omega
    · subst h1
      revert h
      decide
  have ha : (isalpha c || decide (c = '_')) = true := by
    rcases hc with h1 | h1
    · simp [h1]
    · simp [h1]
  have hnl2 : '\n' ∉ cs := by
    intro hmem
    have := nameChar_toNat (hcs _ hmem)
    revert this
    decide
  have h1 := Lexer.scanWhileAux_append_pos (fun d => isalnum d || d == '_') rest
    (fun d hd => by
      have := hrest d hd
      simp [this.1, this.2])
    cs line (col + 1)
    (fun d hd => by
      rcases hcs d hd with h2 | h2
      · simp [h2]
      · simp [h2])
    hnl2
  unfold Lexer.scanToken
  simp only [Lexer.advance, if_neg hnl]
  rw [if_neg hd, if_neg hq, if_pos ha]
  simp only [Lexer.scanWhile, h1, hk]

theorem digitChar_spec (k : Nat) (hk : k < 10) :
    isdigit (Nat.digitChar k) = true ∧ (Nat.digitChar k).toNat - '0'.toNat = k := by
  interval_cases k <;> exact ⟨rfl, rfl⟩

theorem digitsValue_snoc (ds : List Char) (d : Char) :
    digitsValue (ds ++ [d]) = 10 * digitsValue ds + (d.toNat - '0'.toNat) := by
  simp only [digitsValue, List.foldl_append, List.foldl_cons, List.foldl_nil]

/-- The digits `Nat.repr` writes: at least one, all decimal digits, and
their value is the number. -/
theorem toDigitsCore_spec : ∀ (fuel n : Nat) (ds : List Char), n < fuel →
    ∃ pre, Nat.toDigitsCore 10 fuel n ds = pre ++ ds ∧ pre ≠ [] ∧
      (∀ d ∈ pre, isdigit d = true) ∧ digitsValue pre = n
  | 0, _, _, h => by omega
  | fuel + 1, n, ds, h => by
    have hd := digitChar_spec (n % 10) (Nat.mod_lt _ (by omega))
    rw [Nat.toDigitsCore]
    split
    · rename_i h0
      refine ⟨[Nat.digitChar (n % 10)], rfl, by simp, ?_, ?_⟩
      · intro d hmem
        rw [List.mem_singleton] at hmem
        rw [hmem]
        exact hd.1
      · have h1 := digitsValue_snoc [] (Nat.digitChar (n % 10))
        simp only [List.nil_append] at h1
        rw [h1, hd.2]
        simp only [digitsValue, List.foldl_nil]
        omega
    · rename_i h0
      obtain ⟨pre, h1, _, h3, h4⟩ :=
        toDigitsCore_spec fuel (n / 10) (Nat.digitChar (n % 10) :: ds) (by omega)
      refine ⟨pre ++ [Nat.digitChar (n % 10)], ?_, by simp, ?_, ?_⟩
      · rw [h1, List.append_assoc, List.singleton_append]
      · intro d hmem
        rcases List.mem_append.1 hmem with h5 | h5
        · exact h3 d h5
        · rw [List.mem_singleton] at h5
          rw [h5]
          exact hd.1
      · rw [digitsValue_snoc, h4, hd.2]
        omega

/-- The text `std::to_string` writes for an `int` that is not negative. -/
theorem to_string_int_digits (value : Int) (h0 : 0 ≤ value) :
    ∃ c ds, (to_string_int value).data = c :: ds ∧ to_string_int value = String.mk (c :: ds) ∧
      isdigit c = true ∧ (∀ d ∈ ds, isdigit d = true) ∧ (digitsValue (c :: ds) : Int) = value := by
  obtain ⟨n, rfl⟩ := Int.eq_ofNat_of_zero_le h0
  obtain ⟨pre, h1, h2, h3, h4⟩ := toDigitsCore_spec (n + 1) n [] (by omega)
  rw [List.append_nil] at h1
  have hdata : (to_string_int (n : Int)).data = pre := h1
  cases pre with
  | nil => exact absurd rfl h2
  | cons c ds =>
    refine ⟨c, ds, hdata, ?_, h3 c (List.mem_cons_self _ _),
      fun d hd => h3 d (List.mem_cons_of_mem _ hd), by rw [h4]⟩
    rw [← hdata]

theorem Lexer.Follow.cons_of_mem {c : Char} {cs : List Char}
    (h : c = ' ' ∨ c = ')' ∨ c = ']' ∨ c = ',') : Lexer.Follow (c :: cs) := by
  intro d hd
  simp only [List.head?_cons, Option.some.injEq] at hd
  rw [← hd]
  exact h

theorem Lexer.Follow.nil_follow : Lexer.Follow [] := by
  intro d hd
  cases hd

/-- What may follow an expression ends a number and ends a name. -/
theorem Lexer.Follow.not_nameChar {rest : List Char} (h : Lexer.Follow rest) :
    ∀ d, rest.head? = some d → (isalnum d = false ∧ d ≠ '_') ∧ (isdigit d = false ∧ d ≠ '.') := by
  intro d hd
  rcases h d hd with h1 | h1 | h1 | h1 <;> subst h1 <;> decide

/-- The decimal text of a number in `0..2^31-1` is read as one `Number`
token that `std::stoi` converts back to the number. -/
theorem Lexer.Lexes.lex_number (value : Int) (h0 : 0 ≤ value) (h1 : value ≤ 2147483647) :
    Lexer.Lexes Lexer.Follow (to_string_int value).data
      (fun ts => ∃ t, ts = [t] ∧ t.type = .Number ∧ stoi t.text = .ok value) := by
  obtain ⟨c, ds, hdata, htext, hc, hds, hv⟩ := to_string_int_digits value h0
  rw [hdata]
  refine Lexer.Lexes.token c ds (isspace_of_isdigit hc) (fun rest line col hrest => ?_)
  refine ⟨_, _, _, Lexer.scanToken_number c ds rest line col hc hds
    (fun d hd => (hrest.not_nameChar d hd).2), _, rfl, rfl, ?_⟩
  have h2 := stoi_digits c ds hc hds (by
    have : (digitsValue (c :: ds) : Int) ≤ 2147483647 := by rw [hv]; exact h1
    exact_mod_cast this)
  rw [hv] at h2
  exact h2

theorem isName_spec {name : String} (h : isName name = true) :
    ∃ c cs, name.data = c :: cs ∧ (isalpha c = true ∨ c = '_') ∧
      (∀ d ∈ cs, isalnum d = true ∨ d = '_') ∧ keywords name = none := by
  simp only [isName, Bool.and_eq_true, Option.isNone_iff_eq_none] at h
  obtain ⟨h1, h2⟩ := h
  unfold isIdentifier at h1
  cases hd : name.data with
  | nil => simp [hd] at h1
  | cons c cs =>
    simp only [hd, Bool.and_eq_true, Bool.or_eq_true, beq_iff_eq, List.all_eq_true] at h1
    exact ⟨c, cs, rfl, h1.1, h1.2, h2⟩

theorem isspace_of_nameStart {c : Char} (hc : isalpha c = true ∨ c = '_') :
    isspace c = false := by
  have hn := nameChar_toNat (c := c) (hc.imp (fun h => by simp [isalnum, h]) id)
  simp only [isspace, Bool.or_eq_false_iff, beq_eq_false_iff_ne, ne_eq]
  refine ⟨⟨⟨⟨⟨?_, ?_⟩, ?_⟩, ?_⟩, ?_⟩, ?_⟩ <;> (intro h; subst h; revert hn; decide)

/-- A name followed by something that is no name character is read as one
`Identifier` token. -/
theorem Lexer.Lexes.identifier (name : String) (h : isName name = true) :
    Lexer.Lexes (fun rest => ∀ d, rest.head? = some d → isalnum d = false ∧ d ≠ '_') name.data
      (Token.Single .Identifier name) := by
  obtain ⟨c, cs, hdata, hc, hcs, hk⟩ := isName_spec h
  have hname : name = String.mk (c :: cs) := by rw [← hdata]
  rw [hdata]
  refine Lexer.Lexes.token c cs (isspace_of_nameStart hc) (fun rest line col hrest => ?_)
  refine ⟨_, _, _, Lexer.scanToken_identifier c cs rest line col hc hcs hrest
    (by rw [← hname]; exact hk), _, rfl, rfl, ?_⟩
  exact hname.symm

theorem Parser.consume_cons_of_eq {t : Token} {ts : List Token} {ty : TokenType}
    (h : t.type = ty) (hne : ty ≠ .EndOfFile) (message : String) :
    Parser.consume (t :: ts) ty message = .ok (t, ts) := by
  have h1 : Parser.match_ (t :: ts) ty = some (t, ts) := Parser.match_cons_of_eq h hne
  unfold Parser.match_ at h1
  unfold Parser.consume
  split
  · rename_i hc
    rw [if_pos hc] at h1
    simp only [Option.some.injEq, Prod.mk.injEq] at h1
    rw [h1.1, h1.2]
  · rename_i hc
    rw [if_neg hc] at h1
    cases h1

theorem Parser.check_cons_of_ne {t : Token} {ts : List Token} {ty : TokenType}
    (h : t.type ≠ ty) : Parser.check (t :: ts) ty = false := by
  have h1 : Parser.match_ (t :: ts) ty = none := Parser.match_cons_of_ne h
  unfold Parser.match_ at h1
  cases hc : Parser.check (t :: ts) ty with
  | false => rfl
  | true =>
    rw [if_pos hc] at h1
    cases h1

theorem Parser.check_cons_of_eq {t : Token} {ts : List Token} {ty : TokenType}
    (h : t.type = ty) (hne : ty ≠ .EndOfFile) : Parser.check (t :: ts) ty = true := by
  have h1 : Parser.match_ (t :: ts) ty = some (t, ts) := Parser.match_cons_of_eq h hne
  unfold Parser.match_ at h1
  cases hc : Parser.check (t :: ts) ty with
  | true => rfl
  | false =>
    rw [hc] at h1
    cases h1

/-- An operand is an expression in front of a token that ends one. -/
theorem Parser.IsPrimary.to_expr {toks : List Token} {x : Expr} (h : Parser.IsPrimary toks x)
    {t : Token} (ht : Parser.EndsExpr t) (rest : List Token) :
    Parser.Parses Parser.expression toks x (t :: rest) :=
  (h.level 0 (by omega) ht.2.1 ht.2.2 (fun k _ => ht.not_level k)).expression

/-- An expression between `(` and `)` is a primary operand, whatever
follows. -/
theorem Parser.IsPrimary.paren {lp rp : Token} {pre : List Token} {e : Expr}
    (hlp : lp.type = .LParen) (hrp : rp.type = .RParen)
    (h : ∀ suf, Parser.Parses Parser.expression pre e (rp :: suf)) :
    Parser.IsPrimary (lp :: (pre ++ [rp])) e := by
  intro t rest _ _
  obtain ⟨F, hF⟩ := h (t :: rest)
  refine ⟨F + 1, fun fuel hfuel => ?_⟩
  obtain ⟨f, rfl⟩ : ∃ f, fuel = f + 1 := ⟨fuel - 1, by omega⟩
  rw [List.cons_append, Parser.primary,
    Parser.match_cons_of_ne (by rw [hlp]; decide),
    Parser.match_cons_of_ne (by rw [hlp]; decide),
    Parser.match_cons_of_ne (by rw [hlp]; decide),
    Parser.match_cons_of_ne (by rw [hlp]; decide),
    Parser.match_cons_of_eq hlp (by decide)]
  simp only [List.append_assoc, List.singleton_append]
  rw [hF f (by omega)]
  simp only [Parser.consume_cons_of_eq hrp (by decide)]

/-- An identifier, `[`, an expression and `]` are an array access. -/
theorem Parser.IsPrimary.index {id lb rb : Token} {pre : List Token} {e : Expr}
    (hid : id.type = .Identifier) (hlb : lb.type = .LBracket) (hrb : rb.type = .RBracket)
    (h : ∀ suf, Parser.Parses Parser.expression pre e (rb :: suf)) :
    Parser.IsPrimary (id :: lb :: (pre ++ [rb])) (.ArrayAccess ⟨id.line, id.col⟩ id.text e) := by
  intro t rest _ _
  obtain ⟨F, hF⟩ := h (t :: rest)
  refine ⟨F + 1, fun fuel hfuel => ?_⟩
  obtain ⟨f, rfl⟩ : ∃ f, fuel = f + 1 := ⟨fuel - 1, by omega⟩
  rw [List.cons_append, List.cons_append, Parser.primary,
    Parser.match_cons_of_ne (by rw [hid]; decide),
    Parser.match_cons_of_ne (by rw [hid]; decide),
    Parser.match_cons_of_ne (by rw [hid]; decide),
    Parser.match_cons_of_eq hid (by decide)]
  simp only [Parser.match_cons_of_eq hlb (by decide), List.append_assoc, List.singleton_append]
  rw [hF f (by omega)]
  simp only [Parser.consume_cons_of_eq hrb (by decide)]

/-- An identifier, `(` and `)` are a call without arguments. -/
theorem Parser.IsPrimary.call_nil {id lp rp : Token}
    (hid : id.type = .Identifier) (hlp : lp.type = .LParen) (hrp : rp.type = .RParen) :
    Parser.IsPrimary [id, lp, rp] (.CallExpr ⟨id.line, id.col⟩ id.text []) := by
  intro t rest _ _
  refine ⟨1, fun fuel hfuel => ?_⟩
  obtain ⟨f, rfl⟩ : ∃ f, fuel = f + 1 := ⟨fuel - 1, by omega⟩
  rw [List.cons_append, List.cons_append, List.cons_append, Parser.primary,
    Parser.match_cons_of_ne (by rw [hid]; decide),
    Parser.match_cons_of_ne (by rw [hid]; decide),
    Parser.match_cons_of_ne (by rw [hid]; decide),
    Parser.match_cons_of_eq hid (by decide)]
  simp only [Parser.match_cons_of_ne (show lp.type ≠ .LBracket by rw [hlp]; decide),
    Parser.match_cons_of_eq hlp (by decide),
    Parser.check_cons_of_eq hrp (by decide), List.nil_append, Bool.not_true,
    Bool.false_eq_true, if_false, Parser.consume_cons_of_eq hrp (by decide)]

/-- An identifier, `(`, arguments that do not start with `)`, and `)` are a
call. -/
theorem Parser.IsPrimary.call {id lp rp hd : Token} {tl : List Token} {args : List Expr}
    (hid : id.type = .Identifier) (hlp : lp.type = .LParen) (hrp : rp.type = .RParen)
    (hhd : hd.type ≠ .RParen)
    (h : ∀ suf, Parser.ParsesArgs (hd :: tl) args (rp :: suf)) :
    Parser.IsPrimary (id :: lp :: (hd :: tl ++ [rp])) (.CallExpr ⟨id.line, id.col⟩ id.text args) := by
  intro t rest _ _
  obtain ⟨F, hF⟩ := h (t :: rest)
  refine ⟨F + 1, fun fuel hfuel => ?_⟩
  obtain ⟨f, rfl⟩ : ∃ f, fuel = f + 1 := ⟨fuel - 1, by omega⟩
  rw [List.cons_append, List.cons_append, Parser.primary,
    Parser.match_cons_of_ne (by rw [hid]; decide),
    Parser.match_cons_of_ne (by rw [hid]; decide),
    Parser.match_cons_of_ne (by rw [hid]; decide),
    Parser.match_cons_of_eq hid (by decide)]
  simp only [Parser.match_cons_of_ne (show lp.type ≠ .LBracket by rw [hlp]; decide),
    Parser.match_cons_of_eq hlp (by decide), List.append_assoc, List.singleton_append,
    List.cons_append, Parser.check_cons_of_ne hhd]
  have h1 := hF f (by omega)
  rw [List.cons_append] at h1
  simp only [Bool.not_false, if_true, List.nil_append, h1,
    Parser.consume_cons_of_eq hrp (by decide)]

/-- One expression in front of `)` is an argument list. -/
theorem Parser.ParsesArgs.single {pre : List Token} {e : Expr} {rp : Token}
    {suf : List Token} (hrp : rp.type = .RParen)
    (h : Parser.Parses Parser.expression pre e (rp :: suf)) :
    Parser.ParsesArgs pre [e] (rp :: suf) := by
  obtain ⟨F, hF⟩ := h
  refine ⟨F + 1, fun fuel hfuel => ?_⟩
  obtain ⟨f, rfl⟩ : ∃ f, fuel = f + 1 := ⟨fuel - 1, by omega⟩
  rw [Parser.arguments, hF f (by omega)]
  simp only [Parser.match_cons_of_ne (show rp.type ≠ .Comma by rw [hrp]; decide)]

/-- An expression, `,` and an argument list are an argument list. -/
theorem Parser.ParsesArgs.cons {pre more : List Token} {e : Expr} {args : List Expr}
    {comma : Token} {suf : List Token} (hc : comma.type = .Comma)
    (h : Parser.Parses Parser.expression pre e (comma :: (more ++ suf)))
    (hargs : Parser.ParsesArgs more args suf) :
    Parser.ParsesArgs (pre ++ comma :: more) (e :: args) suf := by
  obtain ⟨F, hF⟩ := h
  obtain ⟨G, hG⟩ := hargs
  refine ⟨F + G + 1, fun fuel hfuel => ?_⟩
  obtain ⟨f, rfl⟩ : ∃ f, fuel = f + 1 := ⟨fuel - 1, by omega⟩
  rw [Parser.arguments, List.append_assoc, List.cons_append, hF f (by omega)]
  simp only [Parser.match_cons_of_eq hc (by decide), hG f (by omega)]

theorem Lexer.Lexes.minus :
    Lexer.Lexes (fun rest => ∃ c tl, rest = c :: tl ∧ c ≠ '>' ∧ c ≠ '=') ['-']
      (Token.Single .Minus "-") :=
  Lexer.Lexes.token '-' [] rfl (by
    rintro rest line col ⟨c, tl, rfl, h1, _⟩
    exact ⟨_, _, _, Lexer.scanToken_minus c tl line col h1, _, rfl, rfl, rfl⟩)

theorem Lexer.Lexes.bang :
    Lexer.Lexes (fun rest => ∃ c tl, rest = c :: tl ∧ c ≠ '>' ∧ c ≠ '=') ['!']
      (Token.Single .Not "!") :=
  Lexer.Lexes.token '!' [] rfl (by
    rintro rest line col ⟨c, tl, rfl, _, h2⟩
    exact ⟨_, _, _, Lexer.scanToken_not c tl line col h2, _, rfl, rfl, rfl⟩)

theorem Parser.EndsExpr.of_rparen {t : Token} (h : t.type = .RParen) : Parser.EndsExpr t := by
  simp [Parser.EndsExpr, h, binaryLevel]

theorem Parser.EndsExpr.of_rbracket {t : Token} (h : t.type = .RBracket) :
    Parser.EndsExpr t := by
  simp [Parser.EndsExpr, h, binaryLevel]

theorem Parser.EndsExpr.of_comma {t : Token} (h : t.type = .Comma) : Parser.EndsExpr t := by
  simp [Parser.EndsExpr, h, binaryLevel]

theorem Parser.EndsExpr.of_eof {t : Token} (h : t.type = .EndOfFile) : Parser.EndsExpr t := by
  simp [Parser.EndsExpr, h, binaryLevel]

theorem Lexer.Lexes.lex_int (node : Node) (value : Int) (h0 : 0 ≤ value)
    (h1 : value ≤ 2147483647) :
    Lexer.Lexes Lexer.Follow (Codegen.visitExpr (.IntLiteral node value)).data
      (Parser.Spells (.IntLiteral node value)) := by
  rw [Codegen.visitExpr]
  refine (Lexer.Lexes.lex_number value h0 h1).lex_mono (fun _ h => h) ?_
  rintro ts ⟨t, rfl, ht, hv⟩
  refine ⟨.IntLiteral {} value, by simp only [Expr.erase], Parser.IsPrimary.number ht hv,
    t, [], rfl, by rw [ht]; decide⟩

theorem Lexer.Lexes.lex_variable (node : Node) (name : String) (h : isName name = true) :
    Lexer.Lexes Lexer.Follow (Codegen.visitExpr (.Variable node name)).data
      (Parser.Spells (.Variable node name)) := by
  rw [Codegen.visitExpr]
  refine (Lexer.Lexes.identifier name h).lex_mono
    (fun rest hr d hd => (hr.not_nameChar d hd).1) ?_
  rintro ts ⟨t, rfl, ht, htext⟩
  refine ⟨.Variable ⟨t.line, t.col⟩ t.text, by simp only [Expr.erase, htext],
    Parser.IsPrimary.variable ht, t, [], rfl, by rw [ht]; decide⟩

theorem Codegen.visitExpr_binary_data (node : Node) (op : String) (l r : Expr) :
    (Codegen.visitExpr (.BinaryExpr node op l r)).data =
      ['('] ++ ((Codegen.visitExpr l).data ++
        (' ' :: (op.data ++ (' ' :: ((Codegen.visitExpr r).data ++ [')']))))) := by
  rw [Codegen.visitExpr]
  simp only [String.data_append, List.append_assoc]
  rfl

theorem Lexer.Lexes.lex_binary (node : Node) (op : String) (l r : Expr)
    (hop : op ∈ binaryOperators)
    (hl : Lexer.Lexes Lexer.Follow (Codegen.visitExpr l).data (Parser.Spells l))
    (hr : Lexer.Lexes Lexer.Follow (Codegen.visitExpr r).data (Parser.Spells r)) :
    Lexer.Lexes Lexer.Follow (Codegen.visitExpr (.BinaryExpr node op l r)).data
      (Parser.Spells (.BinaryExpr node op l r)) := by
  obtain ⟨ty, k, hk, hk3, hlexop⟩ := Lexer.Lexes.binaryOp op hop
  rw [Codegen.visitExpr_binary_data]
  have A1 := (Lexer.Lexes.append hr (Lexer.Lexes.rparen (P := Lexer.Follow))
    (fun _ _ => Lexer.Follow.cons_of_mem (Or.inr (Or.inl rfl)))).space
  have A2 := (Lexer.Lexes.append hlexop A1 (fun rest _ => ⟨_, rfl⟩)).space
  have A3 := Lexer.Lexes.append hl A2 (fun _ _ => Lexer.Follow.cons_of_mem (Or.inl rfl))
  have A4 := Lexer.Lexes.append (Lexer.Lexes.lparen (P := fun _ => True)) A3
    (fun _ _ => True.intro)
  refine A4.lex_mono (fun _ h => h) ?_
  rintro ts ⟨_, _, rfl, ⟨lp, rfl, hlp, _⟩, tl, _, rfl, ⟨l1, hl1, hlprim, _⟩, _, _, rfl,
    ⟨o, rfl, ho, hot⟩, tr, _, rfl, ⟨r1, hr1, hrprim, _⟩, rp, rfl, hrp, _⟩
  have hko : binaryLevel o.type = some k := by rw [ho]; exact hk
  refine ⟨.BinaryExpr {} o.text l1 r1, by simp only [Expr.erase, hot, hl1, hr1], ?_,
    lp, _, rfl, by rw [hlp]; decide⟩
  have hprim : Parser.IsPrimary (lp :: ((tl ++ o :: tr) ++ [rp]))
      (.BinaryExpr {} o.text l1 r1) := by
    refine Parser.IsPrimary.paren hlp hrp (fun suf => ?_)
    refine Parser.Parses.to_expression k (by omega) (Parser.EndsExpr.of_rparen hrp) ?_
    refine Parser.Parses.binary hk3 hko ?_ ?_ ((Parser.EndsExpr.of_rparen hrp).not_level k)
    · refine hlprim.level (k + 1) (by omega) ?_ ?_ ?_
      · intro h
        rw [h] at hko
        cases hko
      · intro h
        rw [h] at hko
        cases hko
      · intro k1 hk1 h
        rw [hko] at h
        cases h
        omega
    · exact hrprim.level (k + 1) (by omega) (by rw [hrp]; decide) (by rw [hrp]; decide)
        (fun k1 _ => (Parser.EndsExpr.of_rparen hrp).not_level k1)
  have hts : [lp] ++ (tl ++ ([o] ++ (tr ++ [rp]))) = lp :: ((tl ++ o :: tr) ++ [rp]) := by
    simp
  rw [hts]
  exact hprim

theorem Codegen.visitExpr_unary_data (node : Node) (op : String) (x : Expr) :
    (Codegen.visitExpr (.UnaryExpr node op x)).data =
      ['('] ++ (op.data ++ ((Codegen.visitExpr x).data ++ [')'])) := by
  rw [Codegen.visitExpr]
  simp only [String.data_append, List.append_assoc]

theorem Lexer.Lexes.lex_unary (node : Node) (op : String) (x : Expr)
    (hop : op = "-" ∨ op = "!")
    (hhead : ∃ c tl, (Codegen.visitExpr x).data = c :: tl ∧ c ≠ '>' ∧ c ≠ '=')
    (hx : Lexer.Lexes Lexer.Follow (Codegen.visitExpr x).data (Parser.Spells x)) :
    Lexer.Lexes Lexer.Follow (Codegen.visitExpr (.UnaryExpr node op x)).data
      (Parser.Spells (.UnaryExpr node op x)) := by
  have hlexop : Lexer.Lexes (fun rest => ∃ c tl, rest = c :: tl ∧ c ≠ '>' ∧ c ≠ '=') op.data
      (fun ts => ∃ o, ts = [o] ∧ (o.type = .Minus ∨ o.type = .Not) ∧ o.text = op) := by
    rcases hop with rfl | rfl
    · exact Lexer.Lexes.minus.lex_mono (fun _ h => h)
        (fun ts ⟨o, h1, h2, h3⟩ => ⟨o, h1, Or.inl h2, h3⟩)
    · exact Lexer.Lexes.bang.lex_mono (fun _ h => h)
        (fun ts ⟨o, h1, h2, h3⟩ => ⟨o, h1, Or.inr h2, h3⟩)
  rw [Codegen.visitExpr_unary_data]
  have A1 := Lexer.Lexes.append hx (Lexer.Lexes.rparen (P := Lexer.Follow))
    (fun _ _ => Lexer.Follow.cons_of_mem (Or.inr (Or.inl rfl)))
  have A2 := Lexer.Lexes.append hlexop A1 (fun rest _ => by
    obtain ⟨c, tl, h1, h2, h3⟩ := hhead
    exact ⟨c, tl ++ ([')'] ++ rest), by rw [List.append_assoc, h1, List.cons_append], h2, h3⟩)
  have A3 := Lexer.Lexes.append (Lexer.Lexes.lparen (P := fun _ => True)) A2
    (fun _ _ => True.intro)
  refine A3.lex_mono (fun _ h => h) ?_
  rintro ts ⟨_, _, rfl, ⟨lp, rfl, hlp, _⟩, _, _, rfl, ⟨o, rfl, ho, hot⟩, tx, _, rfl,
    ⟨x1, hx1, hxprim, _⟩, rp, rfl, hrp, _⟩
  refine ⟨.UnaryExpr {} o.text x1, by simp only [Expr.erase, hot, hx1], ?_,
    lp, _, rfl, by rw [hlp]; decide⟩
  have hprim : Parser.IsPrimary (lp :: ((o :: tx) ++ [rp])) (.UnaryExpr {} o.text x1) := by
    refine Parser.IsPrimary.paren hlp hrp (fun suf => ?_)
    refine Parser.Parses.to_expression 4 (by omega) (Parser.EndsExpr.of_rparen hrp) ?_
    exact Parser.Parses.unary_op ho
      (Parser.Parses.unary_of_primary (hxprim rp suf (by rw [hrp]; decide) (by rw [hrp]; decide)))
  have hts : [lp] ++ ([o] ++ (tx ++ [rp])) = lp :: ((o :: tx) ++ [rp]) := by simp
  rw [hts]
  exact hprim

theorem Codegen.visitExpr_index_data (node : Node) (name : String) (index : Expr) :
    (Codegen.visitExpr (.ArrayAccess node name index)).data =
      name.data ++ (['['] ++ ((Codegen.visitExpr index).data ++ [']'])) := by
  rw [Codegen.visitExpr]
  simp only [String.data_append, List.append_assoc]

theorem Lexer.Lexes.lex_index (node : Node) (name : String) (index : Expr)
    (hname : isName name = true)
    (hi : Lexer.Lexes Lexer.Follow (Codegen.visitExpr index).data (Parser.Spells index)) :
    Lexer.Lexes Lexer.Follow (Codegen.visitExpr (.ArrayAccess node name index)).data
      (Parser.Spells (.ArrayAccess node name index)) := by
  rw [Codegen.visitExpr_index_data]
  have A1 := Lexer.Lexes.append hi (Lexer.Lexes.rbracket (P := Lexer.Follow))
    (fun _ _ => Lexer.Follow.cons_of_mem (Or.inr (Or.inr (Or.inl rfl))))
  have A2 := Lexer.Lexes.append (Lexer.Lexes.lbracket (P := fun _ => True)) A1
    (fun _ _ => True.intro)
  have A3 := Lexer.Lexes.append (Lexer.Lexes.identifier name hname) A2 (fun rest _ d hd => by
    simp only [List.cons_append, List.nil_append, List.head?_cons, Option.some.injEq] at hd
    subst hd
    decide)
  refine A3.lex_mono (fun _ h => h) ?_
  rintro ts ⟨_, _, rfl, ⟨id, rfl, hid, hidt⟩, _, _, rfl, ⟨lb, rfl, hlb, _⟩, ti, _, rfl,
    ⟨i1, hi1, hiprim, _⟩, rb, rfl, hrb, _⟩
  refine ⟨.ArrayAccess ⟨id.line, id.col⟩ id.text i1, by simp only [Expr.erase, hidt, hi1], ?_,
    id, _, rfl, by rw [hid]; decide⟩
  exact Parser.IsPrimary.index hid hlb hrb
    (fun suf => hiprim.to_expr (Parser.EndsExpr.of_rbracket hrb) suf)

theorem Codegen.visitExpr_call_data (node : Node) (callee : String) (args : List Expr)
    (h : callee ∉ builtinNames) :
    (Codegen.visitExpr (.CallExpr node callee args)).data =
      callee.data ++ (['('] ++ ((Codegen.visitArgs args).data ++ [')'])) := by
  simp only [builtinNames, List.mem_cons, List.mem_singleton, List.not_mem_nil, or_false,
    not_or] at h
  cases args with
  | nil =>
    rw [Codegen.visitExpr]
    simp only [h.1, h.2.1, h.2.2.1, h.2.2.2.1, h.2.2.2.2, if_false, String.data_append,
      List.append_assoc]
  | cons a args =>
    rw [Codegen.visitExpr]
    simp only [h.1, h.2.1, h.2.2.1, h.2.2.2.1, h.2.2.2.2, if_false, String.data_append,
      List.append_assoc]

theorem Lexer.Lexes.lex_call_nil (node : Node) (callee : String)
    (hname : isName callee = true) (hb : callee ∉ builtinNames) :
    Lexer.Lexes Lexer.Follow (Codegen.visitExpr (.CallExpr node callee [])).data
      (Parser.Spells (.CallExpr node callee [])) := by
  rw [Codegen.visitExpr_call_data node callee [] hb]
  have hnil : (Codegen.visitArgs []).data = [] := by
    rw [Codegen.visitArgs]
  rw [hnil, List.nil_append]
  have A2 := Lexer.Lexes.append (Lexer.Lexes.lparen (P := fun _ => True))
    (Lexer.Lexes.rparen (P := Lexer.Follow)) (fun _ _ => True.intro)
  have A3 := Lexer.Lexes.append (Lexer.Lexes.identifier callee hname) A2 (fun rest _ d hd => by
    simp only [List.cons_append, List.nil_append, List.head?_cons, Option.some.injEq] at hd
    subst hd
    decide)
  refine A3.lex_mono (fun _ h => h) ?_
  rintro ts ⟨_, _, rfl, ⟨id, rfl, hid, hidt⟩, _, _, rfl, ⟨lp, rfl, hlp, _⟩, rp, rfl, hrp, _⟩
  refine ⟨.CallExpr ⟨id.line, id.col⟩ id.text [], by simp only [Expr.erase, hidt], ?_,
    id, _, rfl, by rw [hid]; decide⟩
  exact Parser.IsPrimary.call_nil hid hlp hrp

theorem Lexer.Lexes.lex_call (node : Node) (callee : String) (args : List Expr)
    (hname : isName callee = true) (hb : callee ∉ builtinNames)
    (ha : Lexer.Lexes Lexer.Follow (Codegen.visitArgs args).data (Parser.SpellsArgs args)) :
    Lexer.Lexes Lexer.Follow (Codegen.visitExpr (.CallExpr node callee args)).data
      (Parser.Spells (.CallExpr node callee args)) := by
  rw [Codegen.visitExpr_call_data node callee args hb]
  have A1 := Lexer.Lexes.append ha (Lexer.Lexes.rparen (P := Lexer.Follow))
    (fun _ _ => Lexer.Follow.cons_of_mem (Or.inr (Or.inl rfl)))
  have A2 := Lexer.Lexes.append (Lexer.Lexes.lparen (P := fun _ => True)) A1
    (fun _ _ => True.intro)
  have A3 := Lexer.Lexes.append (Lexer.Lexes.identifier callee hname) A2 (fun rest _ d hd => by
    simp only [List.cons_append, List.nil_append, List.head?_cons, Option.some.injEq] at hd
    subst hd
    decide)
  refine A3.lex_mono (fun _ h => h) ?_
  rintro ts ⟨_, _, rfl, ⟨id, rfl, hid, hidt⟩, _, _, rfl, ⟨lp, rfl, hlp, _⟩, ta, _, rfl,
    ⟨args1, hargs1, hparse, hd, tl, rfl, hhd⟩, rp, rfl, hrp, _⟩
  refine ⟨.CallExpr ⟨id.line, id.col⟩ id.text args1, by simp only [Expr.erase, hidt, hargs1],
    ?_, id, _, rfl, by rw [hid]; decide⟩
  exact Parser.IsPrimary.call hid hlp hrp hhd (fun suf => hparse rp suf hrp)

theorem Lexer.Lexes.lex_args_single (a : Expr)
    (ha : Lexer.Lexes Lexer.Follow (Codegen.visitExpr a).data (Parser.Spells a)) :
    Lexer.Lexes Lexer.Follow (Codegen.visitArgs [a]).data (Parser.SpellsArgs [a]) := by
  rw [Codegen.visitArgs]
  refine ha.lex_mono (fun _ h => h) ?_
  rintro ts ⟨a1, ha1, hprim, hhead⟩
  refine ⟨[a1], by simp only [Expr.eraseArgs, ha1], fun rp suf hrp => ?_, hhead⟩
  exact Parser.ParsesArgs.single hrp (hprim.to_expr (Parser.EndsExpr.of_rparen hrp) suf)

theorem Codegen.visitArgs_cons_data (a b : Expr) (args : List Expr) :
    (Codegen.visitArgs (a :: b :: args)).data =
      (Codegen.visitExpr a).data ++ ([','] ++ (' ' :: (Codegen.visitArgs (b :: args)).data)) := by
  rw [Codegen.visitArgs]
  simp only [String.data_append, List.append_assoc]
  rfl

theorem Lexer.Lexes.lex_args_cons (a b : Expr) (args : List Expr)
    (ha : Lexer.Lexes Lexer.Follow (Codegen.visitExpr a).data (Parser.Spells a))
    (hargs : Lexer.Lexes Lexer.Follow (Codegen.visitArgs (b :: args)).data
      (Parser.SpellsArgs (b :: args))) :
    Lexer.Lexes Lexer.Follow (Codegen.visitArgs (a :: b :: args)).data
      (Parser.SpellsArgs (a :: b :: args)) := by
  rw [Codegen.visitArgs_cons_data]
  have A1 := Lexer.Lexes.append (Lexer.Lexes.comma (P := fun _ => True)) hargs.space
    (fun _ _ => True.intro)
  have A2 := Lexer.Lexes.append ha A1
    (fun _ _ => Lexer.Follow.cons_of_mem (Or.inr (Or.inr (Or.inr rfl))))
  refine A2.lex_mono (fun _ h => h) ?_
  rintro ts ⟨ta, _, rfl, ⟨a1, ha1, haprim, hd, tl, rfl, hhd⟩, _, more, rfl,
    ⟨comma, rfl, hcomma, _⟩, args1, hargs1, hparse, _⟩
  refine ⟨a1 :: args1, by simp only [Expr.eraseArgs, ha1, hargs1], fun rp suf hrp => ?_,
    hd, tl ++ ([comma] ++ more), by simp, hhd⟩
  have h1 := Parser.ParsesArgs.cons hcomma
    (haprim.to_expr (Parser.EndsExpr.of_comma hcomma) (more ++ rp :: suf)) (hparse rp suf hrp)
  simpa using h1

theorem nameStart_ne {c : Char} (hc : isalpha c = true ∨ c = '_') : c ≠ '>' ∧ c ≠ '=' := by
  have hn := nameChar_toNat (c := c) (hc.imp (fun h => by simp [isalnum, h]) id)
  constructor <;> (intro h; subst h; revert hn; decide)

theorem isName_data {name : String} (h : isName name = true) :
    ∃ c cs, name.data = c :: cs ∧ c ≠ '>' ∧ c ≠ '=' := by
  obtain ⟨c, cs, h1, h2, _, _⟩ := isName_spec h
  exact ⟨c, cs, h1, nameStart_ne h2⟩

/-- The text emitted for an expression of the class starts with a digit, a
letter, `_` or `(`: with no character that would merge with a `-` or `!`
in front of it. -/
theorem Codegen.visitExpr_head (e : Expr) (h : e.plain = true) :
    ∃ c tl, (Codegen.visitExpr e).data = c :: tl ∧ c ≠ '>' ∧ c ≠ '=' := by
  cases e with
  | IntLiteral node value =>
    simp only [Expr.plain, Bool.and_eq_true, decide_eq_true_eq] at h
    obtain ⟨c, ds, hdata, _, hc, _, _⟩ := to_string_int_digits value h.1
    rw [Codegen.visitExpr]
    refine ⟨c, ds, hdata, ?_, ?_⟩ <;> (intro h1; subst h1; revert hc; decide)
  | FloatLiteral node value => simp [Expr.plain] at h
  | StringLiteral node value => simp [Expr.plain] at h
  | Variable node name =>
    simp only [Expr.plain] at h
    rw [Codegen.visitExpr]
    exact isName_data h
  | BinaryExpr node op l r =>
    rw [Codegen.visitExpr_binary_data]
    exact ⟨'(', _, rfl, by decide, by decide⟩
  | UnaryExpr node op x =>
    rw [Codegen.visitExpr_unary_data]
    exact ⟨'(', _, rfl, by decide, by decide⟩
  | CallExpr node callee args =>
    simp only [Expr.plain, Bool.and_eq_true, Bool.not_eq_true', List.elem_eq_mem,
      decide_eq_false_iff_not] at h
    obtain ⟨c, cs, h1, h2⟩ := isName_data h.1.1
    rw [Codegen.visitExpr_call_data node callee args h.1.2, h1]
    exact ⟨c, _, rfl, h2⟩
  | ArrayAccess node name index =>
    simp only [Expr.plain, Bool.and_eq_true] at h
    obtain ⟨c, cs, h1, h2⟩ := isName_data h.1
    rw [Codegen.visitExpr_index_data, h1]
    exact ⟨c, _, rfl, h2⟩

mutual

/-- The lexer reads the text emitted for an expression of the class as
tokens that spell the expression. -/
theorem Lexer.Lexes.lex_expr : ∀ (e : Expr), e.plain = true →
    Lexer.Lexes Lexer.Follow (Codegen.visitExpr e).data (Parser.Spells e)
  | .IntLiteral node value, h => by
    simp only [Expr.plain, Bool.and_eq_true, decide_eq_true_eq] at h
    exact Lexer.Lexes.lex_int node value h.1 h.2
  | .FloatLiteral _ _, h => by simp [Expr.plain] at h
  | .StringLiteral _ _, h => by simp [Expr.plain] at h
  | .Variable node name, h => by
    simp only [Expr.plain] at h
    exact Lexer.Lexes.lex_variable node name h
  | .BinaryExpr node op l r, h => by
    simp only [Expr.plain, Bool.and_eq_true, List.elem_eq_mem, decide_eq_true_eq] at h
    exact Lexer.Lexes.lex_binary node op l r h.1.1 (Lexer.Lexes.lex_expr l h.1.2)
      (Lexer.Lexes.lex_expr r h.2)
  | .UnaryExpr node op x, h => by
    simp only [Expr.plain, Bool.and_eq_true, Bool.or_eq_true, beq_iff_eq] at h
    exact Lexer.Lexes.lex_unary node op x h.1 (Codegen.visitExpr_head x h.2)
      (Lexer.Lexes.lex_expr x h.2)
  | .CallExpr node callee [], h => by
    simp only [Expr.plain, Bool.and_eq_true, Bool.not_eq_true', List.elem_eq_mem,
      decide_eq_false_iff_not] at h
    exact Lexer.Lexes.lex_call_nil node callee h.1.1 h.1.2
  | .CallExpr node callee (a :: args), h => by
    simp only [Expr.plain, Bool.and_eq_true, Bool.not_eq_true', List.elem_eq_mem,
      decide_eq_false_iff_not] at h
    exact Lexer.Lexes.lex_call node callee (a :: args) h.1.1 h.1.2
      (Lexer.Lexes.lex_args (a :: args) h.2 (List.cons_ne_nil _ _))
  | .ArrayAccess node name index, h => by
    simp only [Expr.plain, Bool.and_eq_true] at h
    exact Lexer.Lexes.lex_index node name index h.1 (Lexer.Lexes.lex_expr index h.2)

/-- The same for the arguments of a call, of which there is at least one. -/
theorem Lexer.Lexes.lex_args : ∀ (args : List Expr), Expr.plainArgs args = true → args ≠ [] →
    Lexer.Lexes Lexer.Follow (Codegen.visitArgs args).data (Parser.SpellsArgs args)
  | [], _, h => absurd rfl h
  | [a], h, _ => by
    simp only [Expr.plainArgs, Bool.and_eq_true] at h
    exact Lexer.Lexes.lex_args_single a (Lexer.Lexes.lex_expr a h.1)
  | a :: b :: args, h, _ => by
    rw [Expr.plainArgs, Bool.and_eq_true] at h
    exact Lexer.Lexes.lex_args_cons a b args (Lexer.Lexes.lex_expr a h.1)
      (Lexer.Lexes.lex_args (b :: args) h.2 (List.cons_ne_nil _ _))

end

/-- C35: for every expression built from integer literals in `0..2^31-1`,
variables and array accesses whose name is an identifier and no keyword,
calls of such a name that is no built-in, the unary operators `-` and `!`
and the eleven binary operators, the lexer reads the text the emitter
writes for it as tokens, ended by the `EndOfFile` token, that
`Parser::expression` reads (given enough fuel) as a tree equal to the
expression up to positions, leaving the `EndOfFile` token. -/
theorem expression_round_trip (e : Expr) (h : e.plain = true) :
    ∃ ts eof e1, tokenize (Codegen.visitExpr e) = some (ts ++ [eof]) ∧
      eof.type = .EndOfFile ∧ Parser.Parses Parser.expression ts e1 [eof] ∧
      e1.erase = e.erase := by
  obtain ⟨n, ts, l1, c1, ⟨e1, he1, hprim, _⟩, hn, hf⟩ :=
    Lexer.Lexes.lex_expr e h [] [] 1 1 (fun _ hc => by cases hc) Lexer.Follow.nil_follow
  refine ⟨ts, ⟨.EndOfFile, "", l1, c1⟩, e1, ?_, rfl,
    hprim.to_expr (Parser.EndsExpr.of_eof rfl) [], he1⟩
  have h1 := hf ((Codegen.visitExpr e).data.length - n + 1) []
  simp only [List.nil_append, List.append_nil] at h1
  have h2 : (Codegen.visitExpr e).data.length - n + 1 + n =
      (Codegen.visitExpr e).data.length + 1 := by omega
  rw [h2] at h1
  have h3 : Lexer.tokenizeLoop ((Codegen.visitExpr e).data.length - n + 1) ⟨[], l1, c1⟩ ts =
      some (⟨[], l1, c1⟩, ts) := by
    rw [Lexer.tokenizeLoop]
    rfl
  rw [h3] at h1
  simp only [tokenize, Lexer.tokenize, Lexer.new, h1]

theorem expression_round_trip_witness :
    Expr.plain (.BinaryExpr {} "<=" (.Variable ⟨1, 1⟩ "x")
      (.CallExpr {} "f" [.IntLiteral {} 10, .UnaryExpr {} "-"
        (.ArrayAccess {} "a" (.IntLiteral {} 0))])) = true ∧
    ∃ ts eof e1, tokenize (Codegen.visitExpr (.BinaryExpr {} "<=" (.Variable ⟨1, 1⟩ "x")
      (.CallExpr {} "f" [.IntLiteral {} 10, .UnaryExpr {} "-"
        (.ArrayAccess {} "a" (.IntLiteral {} 0))]))) = some (ts ++ [eof]) ∧
      eof.type = .EndOfFile ∧ Parser.Parses Parser.expression ts e1 [eof] ∧
      e1.erase = Expr.erase (.BinaryExpr {} "<=" (.Variable ⟨1, 1⟩ "x")
        (.CallExpr {} "f" [.IntLiteral {} 10, .UnaryExpr {} "-"
          (.ArrayAccess {} "a" (.IntLiteral {} 0))])) :=
  ⟨by decide, expression_round_trip _ (by decide)⟩

/-! ## The conversion of a decimal numeral to a `double` and back -/

theorem StdMap.lookups_of_eq {T : StdMap FuncInfo} {A A1 : SemanticAnalyzer}
    (hT : ∀ name, T.find name = A.functions.find name) (h : A1.functions = A.functions) :
    ∀ name, T.find name = A1.functions.find name := by
  intro name
  rw [h]
  exact hT name

mutual

/-- An expression visit reads the function table through lookups only and
leaves it alone: against a table `T` with the same lookups it ends in the
same exception, or in the same analyser but for the table. -/
theorem SemanticAnalyzer.visitExpr_table : ∀ (e : Expr) (A : SemanticAnalyzer)
    (T : StdMap FuncInfo), (∀ name, T.find name = A.functions.find name) →
    SemanticAnalyzer.visitExpr e { A with functions := T } =
      (SemanticAnalyzer.visitExpr e A).map (fun B => { B with functions := T })
  | .IntLiteral _ _, A, T, hT => by
    simp only [SemanticAnalyzer.visitExpr]
    rfl
  | .FloatLiteral _ _, A, T, hT => by
    simp only [SemanticAnalyzer.visitExpr]
    rfl
  | .StringLiteral _ _, A, T, hT => by
    simp only [SemanticAnalyzer.visitExpr]
    rfl
  | .Variable node name, A, T, hT => by
    simp only [SemanticAnalyzer.visitExpr, SemanticAnalyzer.resolve]
    cases resolveIn A.scopes name <;> rfl
  | .BinaryExpr node op left right, A, T, hT => by
    have ihl := SemanticAnalyzer.visitExpr_table left A T hT
    simp only [SemanticAnalyzer.visitExpr]
    rw [ihl]
    cases hl : SemanticAnalyzer.visitExpr left A with
    | error e => rfl
    | ok A1 =>
      have hf1 := (SemanticAnalyzer.visitExpr_framed left A A1 hl).1
      have ihr := SemanticAnalyzer.visitExpr_table right A1 T (StdMap.lookups_of_eq hT hf1)
      simp only [Except.map]
      rw [ihr]
      cases hr : SemanticAnalyzer.visitExpr right A1 with
      | error e => rfl
      | ok A2 =>
        simp only [Except.map]
        split_ifs <;> rfl
  | .UnaryExpr _ op operand, A, T, hT => by
    have ih := SemanticAnalyzer.visitExpr_table operand A T hT
    simp only [SemanticAnalyzer.visitExpr]
    rw [ih]
    cases h : SemanticAnalyzer.visitExpr operand A with
    | error e => rfl
    | ok A1 =>
      simp only [Except.map]
      split_ifs <;> rfl
  | .CallExpr node callee [], A, T, hT => by
    have ih := SemanticAnalyzer.visitArgs_table [] A T hT
    simp only [SemanticAnalyzer.visitExpr]
    rw [ih]
    split_ifs
    all_goals first
      | rfl
      | (cases h : SemanticAnalyzer.visitArgs [] A with
          | error e => rfl
          | ok A1 =>
            have hf1 := (SemanticAnalyzer.visitArgs_stable [] A A rfl rfl A1 h).2.1
            try simp only [Except.map]
            first
              | done
              | rfl
              | (rw [hT callee, ← hf1]
                 cases A1.functions.find callee with
                 | none => rfl
                 | some info =>
                   simp only
                   split_ifs <;> rfl))
  | .CallExpr node callee [arg], A, T, hT => by
    have ih := SemanticAnalyzer.visitArgs_table [arg] A T hT
    have iha := SemanticAnalyzer.visitExpr_table arg A T hT
    simp only [SemanticAnalyzer.visitExpr]
    rw [ih, iha]
    split_ifs
    all_goals first
      | rfl
      | (cases h : SemanticAnalyzer.visitExpr arg A with
          | error e => rfl
          | ok A1 =>
            try simp only [Except.map]
            first
              | done
              | rfl
              | (split_ifs <;> rfl))
      | (cases h : SemanticAnalyzer.visitArgs [arg] A with
          | error e => rfl
          | ok A1 =>
            have hf1 := (SemanticAnalyzer.visitArgs_stable [arg] A A rfl rfl A1 h).2.1
            try simp only [Except.map]
            first
              | done
              | rfl
              | (rw [hT callee, ← hf1]
                 cases A1.functions.find callee with
                 | none => rfl
                 | some info =>
                   simp only
                   split_ifs <;> rfl))
  | .CallExpr node callee (a :: b :: rest), A, T, hT => by
    have ih := SemanticAnalyzer.visitArgs_table (a :: b :: rest) A T hT
    simp only [SemanticAnalyzer.visitExpr]
    rw [ih]
    split_ifs
    all_goals first
      | rfl
      | (cases h : SemanticAnalyzer.visitArgs (a :: b :: rest) A with
          | error e => rfl
          | ok A1 =>
            have hf1 := (SemanticAnalyzer.visitArgs_stable (a :: b :: rest) A A rfl rfl A1 h).2.1
            try simp only [Except.map]
            first
              | done
              | rfl
              | (rw [hT callee, ← hf1]
                 cases A1.functions.find callee with
                 | none => rfl
                 | some info =>
                   simp only
                   split_ifs <;> rfl))
  | .ArrayAccess node name index, A, T, hT => by
    simp only [SemanticAnalyzer.visitExpr, SemanticAnalyzer.resolve]
    cases resolveIn A.scopes name with
    | none => rfl
    | some info =>
      simp only
      generalize hA0 : (if (!info.isDefined) = true then
        ({ A with cerr := A.cerr ++
          ["Warning: Possible read of uninitialized variable '" ++ name ++ "'\n"] } :
            SemanticAnalyzer) else A) = A0
      have hB0 : (if (!info.isDefined) = true then
        ({ A with functions := T, cerr := A.cerr ++
          ["Warning: Possible read of uninitialized variable '" ++ name ++ "'\n"] } :
            SemanticAnalyzer) else { A with functions := T }) = { A0 with functions := T } := by
        subst hA0
        split_ifs <;> rfl
      have hf0 : A0.functions = A.functions := by
        subst hA0
        split_ifs <;> rfl
      rw [hB0, SemanticAnalyzer.visitExpr_table index A0 T (StdMap.lookups_of_eq hT hf0)]
      cases h : SemanticAnalyzer.visitExpr index A0 with
      | error e => rfl
      | ok A1 =>
        simp only [Except.map]
        split_ifs <;> rfl

theorem SemanticAnalyzer.visitArgs_table : ∀ (es : List Expr) (A : SemanticAnalyzer)
    (T : StdMap FuncInfo), (∀ name, T.find name = A.functions.find name) →
    SemanticAnalyzer.visitArgs es { A with functions := T } =
      (SemanticAnalyzer.visitArgs es A).map (fun B => { B with functions := T })
  | [], A, T, hT => by
    simp only [SemanticAnalyzer.visitArgs]
    rfl
  | e :: es, A, T, hT => by
    have ih := SemanticAnalyzer.visitExpr_table e A T hT
    simp only [SemanticAnalyzer.visitArgs]
    rw [ih]
    cases h : SemanticAnalyzer.visitExpr e A with
    | error e => rfl
    | ok A1 =>
      have hf1 := (SemanticAnalyzer.visitExpr_framed e A A1 h).1
      simp only [Except.map]
      exact SemanticAnalyzer.visitArgs_table es A1 T (StdMap.lookups_of_eq hT hf1)

end

theorem SemanticAnalyzer.declare_table (A : SemanticAnalyzer) (T : StdMap FuncInfo)
    (name : String) (type : Ty) :
    SemanticAnalyzer.declare { A with functions := T } name type =
      (A.declare name type).map (fun B => { B with functions := T }) := by
  unfold SemanticAnalyzer.declare
  cases hsc : A.scopes with
  | nil =>
    simp only [Except.map]
    rw [← hsc]
  | cons scope outer =>
    simp only
    split_ifs <;> rfl

theorem SemanticAnalyzer.define_table (A : SemanticAnalyzer) (T : StdMap FuncInfo)
    (name : String) :
    SemanticAnalyzer.define { A with functions := T } name =
      { A.define name with functions := T } := by
  unfold SemanticAnalyzer.define
  cases hsc : A.scopes with
  | nil =>
    simp only
    rw [← hsc]
  | cons scope outer => rfl

theorem SemanticAnalyzer.undefine_table (A : SemanticAnalyzer) (T : StdMap FuncInfo)
    (name : String) :
    SemanticAnalyzer.undefine { A with functions := T } name =
      { A.undefine name with functions := T } := by
  unfold SemanticAnalyzer.undefine
  cases hsc : A.scopes with
  | nil =>
    simp only
    rw [← hsc]
  | cons scope outer => rfl

theorem SemanticAnalyzer.visitOptExpr_table (e : Option Expr) (A : SemanticAnalyzer)
    (T : StdMap FuncInfo) (hT : ∀ name, T.find name = A.functions.find name) :
    SemanticAnalyzer.visitOptExpr e { A with functions := T } =
      (SemanticAnalyzer.visitOptExpr e A).map (fun B => { B with functions := T }) := by
  cases e with
  | none => rfl
  | some e => exact SemanticAnalyzer.visitExpr_table e A T hT

theorem SemanticAnalyzer.visitInit_table (e : Option Expr) (A : SemanticAnalyzer)
    (T : StdMap FuncInfo) (hT : ∀ name, T.find name = A.functions.find name) :
    SemanticAnalyzer.visitInit e { A with functions := T } =
      (SemanticAnalyzer.visitInit e A).map (fun B => { B with functions := T }) := by
  cases e with
  | none => rfl
  | some e => exact SemanticAnalyzer.visitExpr_table e A T hT

theorem SemanticAnalyzer.visitIndex_table (node : Node) (e : Option Expr)
    (A : SemanticAnalyzer) (T : StdMap FuncInfo)
    (hT : ∀ name, T.find name = A.functions.find name) :
    SemanticAnalyzer.visitIndex node e { A with functions := T } =
      (SemanticAnalyzer.visitIndex node e A).map (fun B => { B with functions := T }) := by
  cases e with
  | none => rfl
  | some e =>
    simp only [SemanticAnalyzer.visitIndex]
    rw [SemanticAnalyzer.visitExpr_table e A T hT]
    cases h : SemanticAnalyzer.visitExpr e A with
    | error e => rfl
    | ok A1 =>
      simp only [Except.map]
      split_ifs <;> rfl

mutual

/-- A statement visit reads the function table through lookups only and
leaves it alone. -/
theorem SemanticAnalyzer.visitStmt_table : ∀ (s : Stmt) (A : SemanticAnalyzer)
    (T : StdMap FuncInfo), (∀ name, T.find name = A.functions.find name) →
    SemanticAnalyzer.visitStmt s { A with functions := T } =
      (SemanticAnalyzer.visitStmt s A).map (fun B => { B with functions := T })
  | .VarDecl _ name initializer, A, T, hT => by
    simp only [SemanticAnalyzer.visitStmt]
    rw [SemanticAnalyzer.visitInit_table initializer A T hT]
    cases h1 : SemanticAnalyzer.visitInit initializer A with
    | error e => rfl
    | ok A1 =>
      simp only [Except.map]
      rw [SemanticAnalyzer.declare_table A1 T name A1.lastType]
      cases h2 : A1.declare name A1.lastType with
      | error e => rfl
      | ok A2 =>
        simp only [Except.map]
        rw [SemanticAnalyzer.define_table A2 T name]
  | .TypedVarDecl node name type isArray arraySize initializer, A, T, hT => by
    simp only [SemanticAnalyzer.visitStmt]
    rw [SemanticAnalyzer.visitOptExpr_table initializer A T hT]
    cases h1 : SemanticAnalyzer.visitOptExpr initializer A with
    | error e => rfl
    | ok A1 =>
      have hf1 := (SemanticAnalyzer.visitOptExpr_framed initializer A A1 h1).1
      simp only [Except.map]
      rw [SemanticAnalyzer.declare_table A1 T name (annotatedType type)]
      cases h2 : A1.declare name (annotatedType type) with
      | error e => rfl
      | ok A2 =>
        have hf2 := (SemanticAnalyzer.declare_framed A1 name _ A2 h2).1
        simp only [Except.map]
        rw [SemanticAnalyzer.define_table A2 T name]
        generalize hA4 : (if initializer.isNone = true ∧ (!isArray) = true ∧
          arraySize.isNone = true then (A2.define name).undefine name else A2.define name) = A4
        have hB4 : (if initializer.isNone = true ∧ (!isArray) = true ∧
            arraySize.isNone = true then
              SemanticAnalyzer.undefine { A2.define name with functions := T } name
            else { A2.define name with functions := T }) = { A4 with functions := T } := by
          subst hA4
          split_ifs
          · exact SemanticAnalyzer.undefine_table _ T name
          · rfl
        have hf4 : A4.functions = A.functions := by
          subst hA4
          have d1 := (SemanticAnalyzer.define_frame A2 name).1
          have d2 := (SemanticAnalyzer.undefine_frame (A2.define name) name).1
          split_ifs
          · rw [d2, d1, hf2, hf1]
          · rw [d1, hf2, hf1]
        rw [hB4]
        cases arraySize with
        | none => rfl
        | some size =>
          simp only
          rw [SemanticAnalyzer.visitExpr_table size A4 T (StdMap.lookups_of_eq hT hf4)]
          cases h5 : SemanticAnalyzer.visitExpr size A4 with
          | error e => rfl
          | ok A5 =>
            simp only [Except.map]
            split_ifs <;> rfl
  | .AssignStmt node name index value, A, T, hT => by
    simp only [SemanticAnalyzer.visitStmt, SemanticAnalyzer.resolve]
    cases resolveIn A.scopes name with
    | none => rfl
    | some info =>
      simp only
      rw [SemanticAnalyzer.visitExpr_table value A T hT]
      cases h1 : SemanticAnalyzer.visitExpr value A with
      | error e => rfl
      | ok A1 =>
        have hf1 := (SemanticAnalyzer.visitExpr_framed value A A1 h1).1
        simp only [Except.map]
        split_ifs
        · rfl
        · rw [SemanticAnalyzer.visitIndex_table node index A1 T (StdMap.lookups_of_eq hT hf1)]
          cases h2 : SemanticAnalyzer.visitIndex node index A1 with
          | error e => rfl
          | ok A2 =>
            have hf2 := (SemanticAnalyzer.visitIndex_framed node index A1 A2 h2).1
            simp only [Except.map]
            rw [SemanticAnalyzer.visitExpr_table value A2 T
              (StdMap.lookups_of_eq hT (hf2.trans hf1))]
            cases h3 : SemanticAnalyzer.visitExpr value A2 with
            | error e => rfl
            | ok A3 =>
              simp only [Except.map]
              rw [SemanticAnalyzer.define_table A3 T name]
  | .PrintStmt _ expr _, A, T, hT => by
    simp only [SemanticAnalyzer.visitStmt]
    exact SemanticAnalyzer.visitExpr_table expr A T hT
  | .ExprStmt _ expr, A, T, hT => by
    simp only [SemanticAnalyzer.visitStmt]
    exact SemanticAnalyzer.visitExpr_table expr A T hT
  | .Block _ statements, A, T, hT => by
    have ih := SemanticAnalyzer.visitStmts_table statements A.enterScope T hT
    simp only [SemanticAnalyzer.visitStmt]
    have he : SemanticAnalyzer.enterScope { A with functions := T } =
      { A.enterScope with functions := T } := rfl
    rw [he, ih]
    cases h1 : SemanticAnalyzer.visitStmts statements A.enterScope with
    | error e => rfl
    | ok A1 => rfl
  | .IfStmt _ condition thenBranch elseBranch, A, T, hT => by
    simp only [SemanticAnalyzer.visitStmt]
    rw [SemanticAnalyzer.visitExpr_table condition A T hT]
    cases h1 : SemanticAnalyzer.visitExpr condition A with
    | error e => rfl
    | ok A1 =>
      have hf1 := (SemanticAnalyzer.visitExpr_framed condition A A1 h1).1
      simp only [Except.map]
      rw [SemanticAnalyzer.visitStmt_table thenBranch A1 T (StdMap.lookups_of_eq hT hf1)]
      cases h2 : SemanticAnalyzer.visitStmt thenBranch A1 with
      | error e => rfl
      | ok A2 =>
        have hf2 := (SemanticAnalyzer.visitStmt_framed thenBranch A1 A2 h2).1
        simp only [Except.map]
        exact SemanticAnalyzer.visitOptStmt_table elseBranch A2 T
          (StdMap.lookups_of_eq hT (hf2.trans hf1))
  | .ForStmt _ init condition update _ body, A, T, hT => by
    simp only [SemanticAnalyzer.visitStmt]
    have he : SemanticAnalyzer.enterScope { A with functions := T } =
      { A.enterScope with functions := T } := rfl
    rw [he, SemanticAnalyzer.visitOptStmt_table init A.enterScope T hT]
    cases h1 : SemanticAnalyzer.visitOptStmt init A.enterScope with
    | error e => rfl
    | ok A1 =>
      have hf1 : A1.functions = A.functions :=
        (SemanticAnalyzer.visitOptStmt_framed init A.enterScope A1 h1).1
      simp only [Except.map]
      rw [SemanticAnalyzer.visitOptExpr_table condition A1 T (StdMap.lookups_of_eq hT hf1)]
      cases h2 : SemanticAnalyzer.visitOptExpr condition A1 with
      | error e => rfl
      | ok A2 =>
        have hf2 := (SemanticAnalyzer.visitOptExpr_framed condition A1 A2 h2).1
        simp only [Except.map]
        rw [SemanticAnalyzer.visitOptStmt_table update A2 T
          (StdMap.lookups_of_eq hT (hf2.trans hf1))]
        cases h3 : SemanticAnalyzer.visitOptStmt update A2 with
        | error e => rfl
        | ok A3 =>
          have hf3 := (SemanticAnalyzer.visitOptStmt_framed update A2 A3 h3).1
          simp only [Except.map]
          have he3 : SemanticAnalyzer.enterScope { A3 with functions := T } =
            { A3.enterScope with functions := T } := rfl
          rw [he3, SemanticAnalyzer.visitStmts_table body A3.enterScope T
            (StdMap.lookups_of_eq hT (hf3.trans (hf2.trans hf1)))]
          cases h4 : SemanticAnalyzer.visitStmts body A3.enterScope with
          | error e => rfl
          | ok A4 => rfl
  | .ReturnStmt _ value, A, T, hT => by
    simp only [SemanticAnalyzer.visitStmt]
    exact SemanticAnalyzer.visitOptExpr_table value A T hT

theorem SemanticAnalyzer.visitOptStmt_table : ∀ (s : Option Stmt) (A : SemanticAnalyzer)
    (T : StdMap FuncInfo), (∀ name, T.find name = A.functions.find name) →
    SemanticAnalyzer.visitOptStmt s { A with functions := T } =
      (SemanticAnalyzer.visitOptStmt s A).map (fun B => { B with functions := T })
  | none, A, T, hT => by
    simp only [SemanticAnalyzer.visitOptStmt]
    rfl
  | some s, A, T, hT => by
    simp only [SemanticAnalyzer.visitOptStmt]
    exact SemanticAnalyzer.visitStmt_table s A T hT

theorem SemanticAnalyzer.visitStmts_table : ∀ (ss : List Stmt) (A : SemanticAnalyzer)
    (T : StdMap FuncInfo), (∀ name, T.find name = A.functions.find name) →
    SemanticAnalyzer.visitStmts ss { A with functions := T } =
      (SemanticAnalyzer.visitStmts ss A).map (fun B => { B with functions := T })
  | [], A, T, hT => by
    simp only [SemanticAnalyzer.visitStmts]
    rfl
  | s :: ss, A, T, hT => by
    simp only [SemanticAnalyzer.visitStmts]
    rw [SemanticAnalyzer.visitStmt_table s A T hT]
    cases h1 : SemanticAnalyzer.visitStmt s A with
    | error e => rfl
    | ok A1 =>
      have hf1 := (SemanticAnalyzer.visitStmt_framed s A A1 h1).1
      simp only [Except.map]
      exact SemanticAnalyzer.visitStmts_table ss A1 T (StdMap.lookups_of_eq hT hf1)

end

theorem SemanticAnalyzer.visitParams_table : ∀ (params : List (String × String))
    (A : SemanticAnalyzer) (T : StdMap FuncInfo),
    SemanticAnalyzer.visitParams params { A with functions := T } =
      (SemanticAnalyzer.visitParams params A).map (fun B => { B with functions := T })
  | [], A, T => by
    simp only [SemanticAnalyzer.visitParams]
    rfl
  | p :: ps, A, T => by
    simp only [SemanticAnalyzer.visitParams]
    rw [SemanticAnalyzer.declare_table A T p.2 (annotatedType p.1)]
    cases h1 : A.declare p.2 (annotatedType p.1) with
    | error e => rfl
    | ok A1 =>
      simp only [Except.map]
      rw [SemanticAnalyzer.define_table A1 T p.2]
      exact SemanticAnalyzer.visitParams_table ps (A1.define p.2) T

theorem SemanticAnalyzer.visitFuncDecl_table (f : FuncDecl) (A : SemanticAnalyzer)
    (T : StdMap FuncInfo) (hT : ∀ name, T.find name = A.functions.find name) :
    SemanticAnalyzer.visitFuncDecl f { A with functions := T } =
      (SemanticAnalyzer.visitFuncDecl f A).map (fun B => { B with functions := T }) := by
  unfold SemanticAnalyzer.visitFuncDecl
  have he : SemanticAnalyzer.enterScope { A with functions := T } =
    { A.enterScope with functions := T } := rfl
  rw [he, SemanticAnalyzer.visitParams_table f.params A.enterScope T]
  cases h1 : SemanticAnalyzer.visitParams f.params A.enterScope with
  | error e => rfl
  | ok A1 =>
    have hf1 : A1.functions = A.functions :=
      (SemanticAnalyzer.visitParams_framed f.params A.enterScope A1 h1).1
    simp only [Except.map]
    rw [SemanticAnalyzer.visitStmt_table _ A1 T (StdMap.lookups_of_eq hT hf1)]
    cases h2 : SemanticAnalyzer.visitStmt (.Block f.bodyNode f.body) A1 with
    | error e => rfl
    | ok A2 => rfl

/-- Pass 2 reads the function table through lookups only and leaves it
alone: against a table `T` with the same lookups it ends in the same
exception, or in the same analyser but for the table. -/
theorem SemanticAnalyzer.visitDecls_table : ∀ (decls : List Decl) (A : SemanticAnalyzer)
    (T : StdMap FuncInfo), (∀ name, T.find name = A.functions.find name) →
    SemanticAnalyzer.visitDecls decls { A with functions := T } =
      (SemanticAnalyzer.visitDecls decls A).map (fun B => { B with functions := T })
  | [], A, T, hT => by
    simp only [SemanticAnalyzer.visitDecls]
    rfl
  | .Stmt s :: decls, A, T, hT => by
    simp only [SemanticAnalyzer.visitDecls]
    rw [SemanticAnalyzer.visitStmt_table s A T hT]
    cases h1 : SemanticAnalyzer.visitStmt s A with
    | error e => rfl
    | ok A1 =>
      have hf1 := (SemanticAnalyzer.visitStmt_framed s A A1 h1).1
      simp only [Except.map]
      exact SemanticAnalyzer.visitDecls_table decls A1 T (StdMap.lookups_of_eq hT hf1)
  | .Func f :: decls, A, T, hT => by
    simp only [SemanticAnalyzer.visitDecls]
    rw [SemanticAnalyzer.visitFuncDecl_table f A T hT]
    cases h1 : SemanticAnalyzer.visitFuncDecl f A with
    | error e => rfl
    | ok A1 =>
      have hf1 := (SemanticAnalyzer.visitFuncDecl_framed f A A1 h1).1
      simp only [Except.map]
      exact SemanticAnalyzer.visitDecls_table decls A1 T (StdMap.lookups_of_eq hT hf1)

/-- Pass 1 touches the function table only. -/
theorem SemanticAnalyzer.collect_frame : ∀ (decls : List Decl) (A A1 : SemanticAnalyzer),
    SemanticAnalyzer.collect decls A = .ok A1 → A1 = { A with functions := A1.functions }
  | [], A, A1, h => by
    simp only [SemanticAnalyzer.collect] at h
    cases h
    rfl
  | .Stmt _ :: decls, A, A1, h => by
    simp only [SemanticAnalyzer.collect] at h
    exact SemanticAnalyzer.collect_frame decls A A1 h
  | .Func f :: decls, A, A1, h => by
    simp only [SemanticAnalyzer.collect] at h
    split_ifs at h
    have ih := SemanticAnalyzer.collect_frame decls
      { A with functions := A.functions.set f.name ⟨f.params.length, .Int⟩ } A1 h
    exact ih

/-- Pass 2 over a list of declarations is pass 2 over its first part
followed by pass 2 over the rest. -/
theorem SemanticAnalyzer.visitDecls_append : ∀ (pre post : List Decl) (A : SemanticAnalyzer),
    SemanticAnalyzer.visitDecls (pre ++ post) A =
      match SemanticAnalyzer.visitDecls pre A with
      | .error e => .error e
      | .ok B => SemanticAnalyzer.visitDecls post B
  | [], post, A => by
    simp only [List.nil_append, SemanticAnalyzer.visitDecls]
  | .Stmt s :: pre, post, A => by
    simp only [List.cons_append, SemanticAnalyzer.visitDecls]
    cases h : SemanticAnalyzer.visitStmt s A with
    | error e => rfl
    | ok A1 => exact SemanticAnalyzer.visitDecls_append pre post A1
  | .Func f :: pre, post, A => by
    simp only [List.cons_append, SemanticAnalyzer.visitDecls]
    cases h : SemanticAnalyzer.visitFuncDecl f A with
    | error e => rfl
    | ok A1 => exact SemanticAnalyzer.visitDecls_append pre post A1

/-- A call to a name that is not built in, whose arguments are accepted, is
accepted exactly when the function table has the name. -/
theorem SemanticAnalyzer.call_accepted_iff (node : Node) (callee : String) (args : List Expr)
    (B B1 : SemanticAnalyzer) (hb : callee ∉ builtinNames)
    (hargs : SemanticAnalyzer.visitArgs args B = .ok B1) :
    (∃ B2, SemanticAnalyzer.visitExpr (.CallExpr node callee args) B = .ok B2) ↔
      (B.functions.find callee).isSome := by
  have hB1 : B1.functions = B.functions :=
    (SemanticAnalyzer.visitArgs_stable args B B rfl rfl B1 hargs).2.1
  rw [SemanticAnalyzer.visitExpr_call_user node callee args B hb, hargs]
  simp only [hB1]
  cases hc : B.functions.find callee with
  | none =>
    simp only [Option.isSome_none, Bool.false_eq_true, iff_false, not_exists]
    intro B2 hB2
    cases hB2
  | some info =>
    simp only [Option.isSome_some, iff_true]
    split_ifs
    · exact ⟨_, rfl⟩
    · exact ⟨_, rfl⟩

/-- C11. Forward references are allowed. `visit(Program&)` runs pass 2 from
the table pass 1 completed: at every point of pass 2 between two top-level
declarations the analyser holds that table, and no visit of an expression,
an argument list, a statement, a parameter list or a `FuncDecl` changes it,
so every call is checked against the table of the whole program. A name is
in that table exactly when some `FuncDecl` of the program, wherever it
stands, has that name, and a call to a name that is not built in, whose
arguments are accepted, is accepted exactly when some `FuncDecl` of the
program has that name; `analyze` is pass 2 from that table, followed by
`exitScope`. For a fresh function table, the program with its
declarations in any other order (`decls'` a permutation of `decls`) passes
pass 1 as well, with the same entry for every name at every point of its
pass 2, and there the same calls are accepted; and pass 2 over the program
against the table collected in the other order ends in the same exception,
or in the same analyser but for the table. -/
theorem forward_references (node : Node) (decls decls' : List Decl) (A A1 : SemanticAnalyzer)
    (hA : A.functions = []) (hperm : decls.Perm decls')
    (h : SemanticAnalyzer.collect decls A = .ok A1) :
    (∃ A2, SemanticAnalyzer.collect decls' A = .ok A2 ∧
      (∀ name, A2.functions.find name = A1.functions.find name) ∧
      SemanticAnalyzer.visitDecls decls A2 =
        (SemanticAnalyzer.visitProgram ⟨node, decls⟩ A).map
          (fun B => { B with functions := A2.functions }) ∧
      ∀ (pre post : List Decl) (B : SemanticAnalyzer), decls' = pre ++ post →
        SemanticAnalyzer.visitDecls pre A2 = .ok B →
        SemanticAnalyzer.visitProgram ⟨node, decls'⟩ A = SemanticAnalyzer.visitDecls post B ∧
        (∀ name, B.functions.find name = A1.functions.find name) ∧
        ∀ (cnode : Node) (callee : String) (args : List Expr) (B1 : SemanticAnalyzer),
          callee ∉ builtinNames → SemanticAnalyzer.visitArgs args B = .ok B1 →
          ((∃ B2, SemanticAnalyzer.visitExpr (.CallExpr cnode callee args) B = .ok B2) ↔
            ∃ f, Decl.Func f ∈ decls ∧ f.name = callee)) ∧
    (∀ name, (A1.functions.find name).isSome ↔ ∃ f, Decl.Func f ∈ decls ∧ f.name = name) ∧
    (∀ (ds : List Decl) (B B1 : SemanticAnalyzer), B.functions = A1.functions →
      SemanticAnalyzer.visitDecls ds B = .ok B1 → B1.functions = A1.functions) ∧
    (∀ (cnode : Node) (callee : String) (args : List Expr) (B B1 : SemanticAnalyzer),
      callee ∉ builtinNames → B.functions = A1.functions →
      SemanticAnalyzer.visitArgs args B = .ok B1 →
      ((∃ B2, SemanticAnalyzer.visitExpr (.CallExpr cnode callee args) B = .ok B2) ↔
        ∃ f, Decl.Func f ∈ decls ∧ f.name = callee)) ∧
    (∀ (pre post : List Decl) (B : SemanticAnalyzer), decls = pre ++ post →
      SemanticAnalyzer.visitDecls pre A1 = .ok B →
      SemanticAnalyzer.visitProgram ⟨node, decls⟩ A = SemanticAnalyzer.visitDecls post B ∧
      B.functions = A1.functions ∧
      ∀ (cnode : Node) (callee : String) (args : List Expr) (B1 : SemanticAnalyzer),
        callee ∉ builtinNames → SemanticAnalyzer.visitArgs args B = .ok B1 →
        ((∃ B2, SemanticAnalyzer.visitExpr (.CallExpr cnode callee args) B = .ok B2) ↔
          ∃ f, Decl.Func f ∈ decls ∧ f.name = callee)) ∧
    (∀ (B B1 : SemanticAnalyzer), B.functions = A1.functions →
      (∀ e, SemanticAnalyzer.visitExpr e B = .ok B1 → B1.functions = A1.functions) ∧
      (∀ es, SemanticAnalyzer.visitArgs es B = .ok B1 → B1.functions = A1.functions) ∧
      (∀ s, SemanticAnalyzer.visitStmt s B = .ok B1 → B1.functions = A1.functions) ∧
      (∀ ps, SemanticAnalyzer.visitParams ps B = .ok B1 → B1.functions = A1.functions) ∧
      (∀ f, SemanticAnalyzer.visitFuncDecl f B = .ok B1 → B1.functions = A1.functions) ∧
      B.enterScope.functions = A1.functions ∧ B.exitScope.functions = A1.functions) ∧
    (∀ (A0 : SemanticAnalyzer), A = A0.enterScope →
      SemanticAnalyzer.analyze A0 ⟨node, decls⟩ =
        (SemanticAnalyzer.visitDecls decls A1).map SemanticAnalyzer.exitScope) := by
  obtain ⟨c1, c2, c3, c4⟩ := SemanticAnalyzer.collect_ok decls A A1 h
  have hpf : (decls.filterMap Decl.asFunc).Perm (decls'.filterMap Decl.asFunc) :=
    hperm.filterMap _
  have hmem : ∀ f, f ∈ decls'.filterMap Decl.asFunc ↔ f ∈ decls.filterMap Decl.asFunc :=
    fun f => hpf.symm.mem_iff
  have hAnone : ∀ name, A.functions.find name = none := by
    intro name
    rw [hA]
    rfl
  -- the lookup of any name, by cases on whether a declaration has it
  have hfind : ∀ name, (A1.functions.find name).isSome ↔
      ∃ f, Decl.Func f ∈ decls ∧ f.name = name := by
    intro name
    by_cases hex : ∃ f, f ∈ decls.filterMap Decl.asFunc ∧ f.name = name
    · obtain ⟨f, hf, hfn⟩ := hex
      subst hfn
      rw [c3 f hf]
      simp only [Option.isSome_some, true_iff]
      exact ⟨f, (Decl.mem_filterMap_asFunc decls f).mp hf, rfl⟩
    · have hno : ∀ f ∈ decls.filterMap Decl.asFunc, f.name ≠ name :=
        fun f hf hfn => hex ⟨f, hf, hfn⟩
      rw [c4 name hno, hAnone name]
      simp only [Option.isSome_none, Bool.false_eq_true, false_iff, not_exists, not_and]
      exact fun f hf => hno f ((Decl.mem_filterMap_asFunc decls f).mpr hf)
  -- a call from an analyser whose table has the lookups of pass 1
  have hcall : ∀ (cnode : Node) (callee : String) (args : List Expr) (B B1 : SemanticAnalyzer),
      callee ∉ builtinNames → (∀ name, B.functions.find name = A1.functions.find name) →
      SemanticAnalyzer.visitArgs args B = .ok B1 →
      ((∃ B2, SemanticAnalyzer.visitExpr (.CallExpr cnode callee args) B = .ok B2) ↔
        ∃ f, Decl.Func f ∈ decls ∧ f.name = callee) := by
    intro cnode callee args B B1 hb hB hargs
    rw [SemanticAnalyzer.call_accepted_iff cnode callee args B B1 hb hargs, hB callee]
    exact hfind callee
  have hprog : ∀ (ds : List Decl) (B : SemanticAnalyzer),
      SemanticAnalyzer.collect ds A = .ok B →
      SemanticAnalyzer.visitProgram ⟨node, ds⟩ A = SemanticAnalyzer.visitDecls ds B := by
    intro ds B hB
    unfold SemanticAnalyzer.visitProgram
    simp only [hB]
  refine ⟨?_, hfind, ?_, ?_, ?_, ?_, ?_⟩
  · obtain ⟨A2, hA2⟩ := SemanticAnalyzer.collect_succeeds decls' A
      ((hpf.map _).nodup_iff.mp c1) (fun f hf => c2 f ((hmem f).mp hf))
    obtain ⟨_, _, d3, d4⟩ := SemanticAnalyzer.collect_ok decls' A A2 hA2
    have hlk : ∀ name, A2.functions.find name = A1.functions.find name := by
      intro name
      by_cases hex : ∃ f, f ∈ decls.filterMap Decl.asFunc ∧ f.name = name
      · obtain ⟨f, hf, hfn⟩ := hex
        subst hfn
        rw [c3 f hf, d3 f ((hmem f).mpr hf)]
      · have hno : ∀ f ∈ decls.filterMap Decl.asFunc, f.name ≠ name :=
          fun f hf hfn => hex ⟨f, hf, hfn⟩
        rw [c4 name hno, d4 name (fun f hf => hno f ((hmem f).mp hf))]
    refine ⟨A2, hA2, hlk, ?_, ?_⟩
    · have e1 := SemanticAnalyzer.collect_frame decls A A1 h
      have e2 := SemanticAnalyzer.collect_frame decls' A A2 hA2
      have e3 : A2 = { A1 with functions := A2.functions } := by
        rw [e2, e1]
      rw [hprog decls A1 h, ← SemanticAnalyzer.visitDecls_table decls A1 A2.functions hlk, ← e3]
    · intro pre post B hsplit hpre
      have hB : B.functions = A2.functions :=
        (SemanticAnalyzer.visitDecls_framed pre A2 B hpre).1
      have hBl : ∀ name, B.functions.find name = A1.functions.find name := by
        intro name
        rw [hB]
        exact hlk name
      refine ⟨?_, hBl, ?_⟩
      · rw [hprog decls' A2 hA2, hsplit, SemanticAnalyzer.visitDecls_append, hpre]
      · intro cnode callee args B1 hb hargs
        exact hcall cnode callee args B B1 hb hBl hargs
  · intro ds B B1 hB hv
    rw [(SemanticAnalyzer.visitDecls_framed ds B B1 hv).1, hB]
  · intro cnode callee args B B1 hb hB hargs
    exact hcall cnode callee args B B1 hb (fun name => by rw [hB]) hargs
  · intro pre post B hsplit hpre
    have hB : B.functions = A1.functions :=
      (SemanticAnalyzer.visitDecls_framed pre A1 B hpre).1
    refine ⟨?_, hB, ?_⟩
    · rw [hprog decls A1 h]
      nth_rewrite 1 [hsplit]
      rw [SemanticAnalyzer.visitDecls_append, hpre]
    · intro cnode callee args B1 hb hargs
      exact hcall cnode callee args B B1 hb (fun name => by rw [hB]) hargs
  · intro B B1 hB
    refine ⟨?_, ?_, ?_, ?_, ?_, hB, hB⟩
    · intro e hv
      rw [(SemanticAnalyzer.visitExpr_framed e B B1 hv).1, hB]
    · intro es hv
      rw [(SemanticAnalyzer.visitArgs_stable es B B rfl rfl B1 hv).2.1, hB]
    · intro s hv
      rw [(SemanticAnalyzer.visitStmt_framed s B B1 hv).1, hB]
    · intro ps hv
      rw [(SemanticAnalyzer.visitParams_framed ps B B1 hv).1, hB]
    · intro f hv
      rw [(SemanticAnalyzer.visitFuncDecl_framed f B B1 hv).1, hB]
  · intro A0 hA0
    unfold SemanticAnalyzer.analyze
    rw [← hA0, hprog decls A1 h]
    cases SemanticAnalyzer.visitDecls decls A1 <;> rfl

theorem forward_references_witness :
    (({} : SemanticAnalyzer).enterScope).functions = [] ∧
    List.Perm
      [Decl.Stmt (.PrintStmt {} (.CallExpr ⟨1, 9⟩ "f" []) true),
        Decl.Func ⟨⟨1, 20⟩, "f", [], "", {}, [.ReturnStmt {} (some (.IntLiteral {} 1))]⟩]
      [Decl.Func ⟨⟨1, 20⟩, "f", [], "", {}, [.ReturnStmt {} (some (.IntLiteral {} 1))]⟩,
        Decl.Stmt (.PrintStmt {} (.CallExpr ⟨1, 9⟩ "f" []) true)] ∧
    SemanticAnalyzer.collect
        [Decl.Stmt (.PrintStmt {} (.CallExpr ⟨1, 9⟩ "f" []) true),
          Decl.Func ⟨⟨1, 20⟩, "f", [], "", {}, [.ReturnStmt {} (some (.IntLiteral {} 1))]⟩]
        ({} : SemanticAnalyzer).enterScope =
      .ok { scopes := [[]], functions := [("f", ⟨0, .Int⟩)] } ∧
    (∃ A2, SemanticAnalyzer.collect
        [Decl.Func ⟨⟨1, 20⟩, "f", [], "", {}, [.ReturnStmt {} (some (.IntLiteral {} 1))]⟩,
          Decl.Stmt (.PrintStmt {} (.CallExpr ⟨1, 9⟩ "f" []) true)]
        ({} : SemanticAnalyzer).enterScope = .ok A2 ∧
      ∀ name, A2.functions.find name =
        StdMap.find [("f", (⟨0, .Int⟩ : FuncInfo))] name) ∧
    (SemanticAnalyzer.visitProgram
        ⟨{}, [Decl.Stmt (.PrintStmt {} (.CallExpr ⟨1, 9⟩ "f" []) true),
          Decl.Func ⟨⟨1, 20⟩, "f", [], "", {},
            [.ReturnStmt {} (some (.IntLiteral {} 1))]⟩]⟩
        ({} : SemanticAnalyzer).enterScope =
      SemanticAnalyzer.visitDecls
        [Decl.Stmt (.PrintStmt {} (.CallExpr ⟨1, 9⟩ "f" []) true),
          Decl.Func ⟨⟨1, 20⟩, "f", [], "", {}, [.ReturnStmt {} (some (.IntLiteral {} 1))]⟩]
        { scopes := [[]], functions := [("f", ⟨0, .Int⟩)] }) ∧
    (∃ B2, SemanticAnalyzer.visitExpr (.CallExpr ⟨1, 9⟩ "f" [])
      { scopes := [[]], functions := [("f", ⟨0, .Int⟩)] } = .ok B2) ∧
    (∃ A3, SemanticAnalyzer.analyze {}
        ⟨{}, [Decl.Stmt (.PrintStmt {} (.CallExpr ⟨1, 9⟩ "f" []) true),
          Decl.Func ⟨⟨1, 20⟩, "f", [], "", {},
            [.ReturnStmt {} (some (.IntLiteral {} 1))]⟩]⟩ = .ok A3) ∧
    (∃ A3, SemanticAnalyzer.analyze {}
        ⟨{}, [Decl.Func ⟨⟨1, 1⟩, "g", [], "", {},
            [.ReturnStmt {} (some (.CallExpr ⟨1, 19⟩ "f" []))]⟩,
          Decl.Func ⟨⟨2, 1⟩, "f", [], "", {},
            [.ReturnStmt {} (some (.IntLiteral {} 1))]⟩]⟩ = .ok A3) ∧
    (∃ A3, SemanticAnalyzer.analyze {}
        ⟨{}, [Decl.Func ⟨⟨1, 1⟩, "f", [], "", {},
            [.ReturnStmt {} (some (.CallExpr ⟨1, 19⟩ "g" []))]⟩,
          Decl.Func ⟨⟨2, 1⟩, "g", [], "", {},
            [.ReturnStmt {} (some (.CallExpr ⟨2, 19⟩ "f" []))]⟩]⟩ = .ok A3) := by
  have W := forward_references {}
    [Decl.Stmt (.PrintStmt {} (.CallExpr ⟨1, 9⟩ "f" []) true),
      Decl.Func ⟨⟨1, 20⟩, "f", [], "", {}, [.ReturnStmt {} (some (.IntLiteral {} 1))]⟩]
    [Decl.Func ⟨⟨1, 20⟩, "f", [], "", {}, [.ReturnStmt {} (some (.IntLiteral {} 1))]⟩,
      Decl.Stmt (.PrintStmt {} (.CallExpr ⟨1, 9⟩ "f" []) true)]
    ({} : SemanticAnalyzer).enterScope
    { scopes := [[]], functions := [("f", ⟨0, .Int⟩)] } rfl (List.Perm.swap _ _ _) rfl
  obtain ⟨⟨A2, w1, w2, _, _⟩, _, _, _, w5, _⟩ := W
  obtain ⟨w6, _, w7⟩ := w5 [] _ _ rfl rfl
  exact ⟨rfl, List.Perm.swap _ _ _, rfl, ⟨A2, w1, w2⟩, w6,
    (w7 ⟨1, 9⟩ "f" [] _ (by decide) rfl).mpr ⟨_, List.mem_cons_of_mem _ (List.mem_cons_self _ _), rfl⟩,
    ⟨_, rfl⟩, ⟨_, rfl⟩, ⟨_, rfl⟩⟩


end TinyLang
